import Mathlib

/-!
# Respawn VPK reader / packer: shallow embedding and verified properties

Source files embedded here:

* `src/shared/RespawnVPKPack.cpp` (namespace `respawn_vpk`): the folder packer
  (`buildDirEntryFromFile`, `writeArchiveFile`, `buildDirTree`, `buildHeader`,
  `validateDirTreeAgainstInput`, `packDirectoryToRespawnVPK`).
* `src/shared/RespawnVPK.cpp` (class `RespawnVPK`): the reader (`open`, `readEntry`,
  `readFileRange`, `readAndValidateHeader`) and the tree emitter of `bake`.

Conventions of the embedding:

* a byte buffer (`std::vector<std::byte>`, `std::string`) is a `List Nat`; every byte the
  code *computes* is reduced modulo 256 where the code casts to `uint8_t`;
* fixed-width machine integers are `Nat`s, truncated with the masks and shifts of the source
  at the places where the source truncates;
* loops over a byte stream carry explicit fuel; the top-level functions supply fuel
  computed from the length of the input.
-/

/-- A byte buffer: `std::vector<std::byte>` or `std::string`. -/
abbrev Bytes := List Nat

/-! ## Byte output (`WriteBuffer`, identical in both translation units) -/

/-- The growable writer `WriteBuffer`. Its `pos` member (packer only) always equals
`buf.size()` and is never read, so only `buf` is kept. -/
structure WriteBuffer where
  buf : Bytes := []
deriving DecidableEq

namespace WriteBuffer

/-- Member `writeBytes`: append a span (nothing happens for an empty span). -/
def writeBytes (w : WriteBuffer) (b : Bytes) : WriteBuffer :=
  if b.isEmpty then w else ⟨w.buf ++ b⟩

/-- Member `writeU8`: `buf.push_back(static_cast<std::byte>(v))` for a `uint8_t v`. -/
def writeU8 (w : WriteBuffer) (v : Nat) : WriteBuffer :=
  ⟨w.buf ++ [v % 256]⟩

/-- Member `writeU16`: low byte first. -/
def writeU16 (w : WriteBuffer) (v : Nat) : WriteBuffer :=
  (w.writeU8 (v &&& 0xFF)).writeU8 ((v >>> 8) &&& 0xFF)

/-- Member `writeU24`: three bytes, low byte first. -/
def writeU24 (w : WriteBuffer) (v : Nat) : WriteBuffer :=
  ((w.writeU8 (v &&& 0xFF)).writeU8 ((v >>> 8) &&& 0xFF)).writeU8 ((v >>> 16) &&& 0xFF)

/-- Member `writeU32`: four bytes, low byte first. -/
def writeU32 (w : WriteBuffer) (v : Nat) : WriteBuffer :=
  (((w.writeU8 (v &&& 0xFF)).writeU8 ((v >>> 8) &&& 0xFF)).writeU8
    ((v >>> 16) &&& 0xFF)).writeU8 ((v >>> 24) &&& 0xFF)

/-- Member `writeU64`: low 32-bit word first. -/
def writeU64 (w : WriteBuffer) (v : Nat) : WriteBuffer :=
  (w.writeU32 (v &&& 0xFFFFFFFF)).writeU32 ((v >>> 32) &&& 0xFFFFFFFF)

/-- Member `writeCString` (reader translation unit): the bytes, then a NUL. -/
def writeCString (w : WriteBuffer) (s : Bytes) : WriteBuffer :=
  (w.writeBytes s).writeU8 0

end WriteBuffer

/-! ## Constants shared by both translation units -/

def RESPAWN_VPK_SIGNATURE : Nat := 0x55AA1234
def RESPAWN_VPK_MAJOR_VERSION : Nat := 2
def RESPAWN_VPK_MINOR_VERSION : Nat := 3
def RESPAWN_VPK_HEADER_LEN : Nat := 16
def RESPAWN_CHUNK_END_MARKER : Nat := 0xFFFF
def RESPAWN_CHUNK_CONT_MARKER : Nat := 0x0000
def LOAD_VISIBLE : Nat := 1 <<< 0
def LOAD_CACHE : Nat := 1 <<< 8
def LOAD_ACACHE_UNK0 : Nat := 1 <<< 10
def TEXTURE_DEFAULT : Nat := 1 <<< 3

/-! ## Little-endian layouts used to state results (not part of the program) -/

/-- The `w` little-endian bytes of `n` (of `n mod 256^w`). -/
def leBytes : Nat → Nat → Bytes
  | 0, _ => []
  | w + 1, n => (n % 256) :: leBytes w (n / 256)

/-- The value of a little-endian byte string. -/
def leValue : Bytes → Nat
  | [] => 0
  | b :: bs => b + 256 * leValue bs

/-- The outcome of a loop that is run with fuel. -/
inductive Loop (α : Type) where
  /-- The loop left through a `return` or a `break` with this result. -/
  | ret (a : α) : Loop α
  /-- The fuel ran out before the loop was left. -/
  | more : Loop α
deriving DecidableEq

/-- Where the three nested loops of a directory-tree parser (`validateDirTreeAgainstInput`,
`RespawnVPK::open`) stand. -/
inductive TreeMode where
  /-- About to read an extension string. -/
  | ext : TreeMode
  /-- Inside the block of an extension, about to read a directory string. -/
  | dir (ext : Bytes) : TreeMode
  /-- Inside the block of a directory, about to read a file name. -/
  | file (ext dir : Bytes) : TreeMode
deriving DecidableEq

/-! ## Library functions the code calls -/

/-- Modelled from the spec: the CRC32 of the external library (`crypto::computeCRC32`), which
is not part of the repository; section 4.2 fixes it as the IEEE 802.3 CRC32 (reflected
polynomial 0xEDB88320, initial value 0xFFFFFFFF, final XOR 0xFFFFFFFF). One bit step. -/
def crc32Step (crc : Nat) : Nat :=
  if crc &&& 1 = 1 then (crc >>> 1) ^^^ 0xEDB88320 else crc >>> 1

/-- Modelled from the spec: CRC32 update for one byte (eight bit steps), see `crc32Step`. -/
def crc32Byte (crc b : Nat) : Nat :=
  crc32Step (crc32Step (crc32Step (crc32Step (crc32Step (crc32Step (crc32Step (crc32Step
    (crc ^^^ (b % 256)))))))))

/-- Modelled from the spec: `crypto::computeCRC32` over a byte span, see `crc32Step`. -/
def computeCRC32 (data : Bytes) : Nat :=
  (data.foldl crc32Byte 0xFFFFFFFF) ^^^ 0xFFFFFFFF

/-- The function `std::tolower` on one byte in the C locale. -/
def toLowerByte (c : Nat) : Nat := if 65 ≤ c ∧ c ≤ 90 then c + 32 else c

/-- The helper `toLower(std::string)`. -/
def toLower (s : Bytes) : Bytes := s.map toLowerByte

/-- The call `std::filesystem::path::filename()` on a slash-normalised relative path: the
part after the last slash (byte 47). -/
def pathFilename (p : Bytes) : Bytes :=
  (p.reverse.takeWhile (fun c => c != 47)).reverse

/-- The call `std::filesystem::path::parent_path()` on a slash-normalised relative path: the
part before the last slash, empty when there is none. -/
def pathParent (p : Bytes) : Bytes :=
  ((p.reverse.dropWhile (fun c => c != 47)).drop 1).reverse

/-- The call `std::filesystem::path::extension()` applied to a filename: empty for the
names dot and dot-dot, for a name without a period and for a name whose only period is its
first character; otherwise the suffix that starts at the last period (byte 46). -/
def pathExtension (name : Bytes) : Bytes :=
  if name = [46] ∨ name = [46, 46] then []
  else
    let tail := (name.reverse.takeWhile (fun c => c != 46)).reverse
    if name.length ≤ tail.length + 1 then [] else 46 :: tail

/-- The call `std::filesystem::path::stem()` (also `replace_extension()` with no argument)
applied to a filename: the filename without its extension. -/
def pathStem (name : Bytes) : Bytes :=
  name.take (name.length - (pathExtension name).length)

namespace respawn_vpk

/-! ## Packer data model (`RespawnVPKPack.cpp`) -/

/-- The packer's `struct FilePart`. -/
structure FilePart where
  loadFlags : Nat := 0
  textureFlags : Nat := 0
  entryOffset : Nat := 0
  entryLength : Nat := 0
  entryLengthUncompressed : Nat := 0
  dataCrc32 : Nat := 0
  data : Bytes := []
deriving DecidableEq

/-- The packer's `struct DirEntry`. The three name components carry their trailing NUL
character inside the string, as `buildDirEntryFromFile` stores them. -/
structure DirEntry where
  path : Bytes := []
  extension : Bytes := []
  directory : Bytes := []
  fileName : Bytes := []
  crc32 : Nat := 0
  preloadBytes : Nat := 0
  packFileIndex : Nat := 0
  parts : List FilePart := []
deriving DecidableEq

/-- The inner loop of `buildDirTree` over `e.parts`: one record per part, closed by the end
marker for the last part (`i + 1 == e.parts.size()`) and by the continuation marker
otherwise. -/
def writeParts (w : WriteBuffer) : List FilePart → WriteBuffer
  | [] => w
  | p :: rest =>
    writeParts
      ((((((w.writeU32 p.loadFlags).writeU16 p.textureFlags).writeU64 p.entryOffset).writeU64
        p.entryLength).writeU64 p.entryLengthUncompressed).writeU16
        (if rest.isEmpty then RESPAWN_CHUNK_END_MARKER else RESPAWN_CHUNK_CONT_MARKER))
      rest

/-- The loop state of `buildDirTree`: the writer, `lastExt`, `lastDir`. -/
structure TreeState where
  w : WriteBuffer := {}
  lastExt : Bytes := []
  lastDir : Bytes := []
deriving DecidableEq

/-- One iteration of the `for (const auto& e : entries)` loop of `buildDirTree`. -/
def buildDirTreeStep (archiveIndex : Nat) (st : TreeState) (e : DirEntry) : TreeState :=
  let st1 : TreeState :=
    if e.extension ≠ st.lastExt ∧ ¬ st.lastExt.isEmpty then
      { st with w := st.w.writeU16 0, lastDir := [] }
    else if e.directory ≠ st.lastDir ∧ ¬ st.lastDir.isEmpty then
      { st with w := st.w.writeU8 0 }
    else st
  let st2 : TreeState :=
    if e.extension ≠ st1.lastExt then
      { st1 with w := st1.w.writeBytes e.extension, lastExt := e.extension }
    else st1
  let st3 : TreeState :=
    if e.directory ≠ st2.lastDir then
      { st2 with w := st2.w.writeBytes e.directory, lastDir := e.directory }
    else st2
  let w4 := st3.w.writeBytes e.fileName
  let w5 := w4.writeU32 e.crc32
  let w6 := w5.writeU16 e.preloadBytes
  let w7 := w6.writeU16 (if e.packFileIndex ≠ 0 then e.packFileIndex else archiveIndex)
  { st3 with w := writeParts w7 e.parts }

/-- The packer's `buildDirTree(entries, archiveIndex)`. -/
def buildDirTree (entries : List DirEntry) (archiveIndex : Nat) : Bytes :=
  ((entries.foldl (buildDirTreeStep archiveIndex) {}).w.writeU24 0).buf

/-- The packer's `buildHeader(treeLength)`; the argument is a `uint32_t`. -/
def buildHeader (treeLength : Nat) : Bytes :=
  (((((({} : WriteBuffer).writeU32 RESPAWN_VPK_SIGNATURE).writeU16
    RESPAWN_VPK_MAJOR_VERSION).writeU16 RESPAWN_VPK_MINOR_VERSION).writeU32
    treeLength).writeU32 0).buf

/-- The header's `struct PackOptions` with its default member initialisers. -/
structure PackOptions where
  archiveIndex : Nat := 999
  maxPartSize : Nat := 1024 * 1024
  compressionThreshold : Nat := 4096
  threadCount : Nat := 0
deriving DecidableEq

/-- The manifest's `struct ManifestEntry` with its default member initialisers. -/
structure ManifestEntry where
  preloadSize : Nat := 0
  loadFlags : Nat := (1 <<< 0) ||| (1 <<< 8)
  textureFlags : Nat := 1 <<< 3
  useCompression : Bool := true
  deDuplicate : Bool := true
deriving DecidableEq

/-- A loaded manifest, represented by its lookup on entry paths: the value at `p` is the
result of `manifest->find(normalizeManifestPath(p))`. `Option Manifest` models the pointer
`const ManifestMap*` (null when no manifest file was found). -/
abbrev Manifest := Bytes → Option ManifestEntry

/-- The manifest's `struct ManifestWriteItem`. -/
structure ManifestWriteItem where
  path : Bytes := []
  values : ManifestEntry := {}
deriving DecidableEq

/-- The packer's `struct CamEntry`. -/
structure CamEntry where
  magic : Nat := 3302889984
  originalSize : Nat := 0
  compressedSize : Nat := 0
  sampleRate : Nat := 0
  channels : Nat := 0
  sampleCount : Nat := 0
  headerSize : Nat := 44
  vpkContentOffset : Nat := 0
  path : Bytes := []
deriving DecidableEq

/-- The external entry point `lzham_bridge_compress(src, srcLen, dst, &dstLen)` as an oracle:
given the source bytes and the capacity of `dst`, the return code and the bytes
`dst[0 .. dstLen)` after the call. -/
abbrev CompressBridge := Bytes → Nat → Nat × Bytes

/-- The retry loop of `lzhamCompress` (at most six tries, doubling the buffer on code 3). -/
def lzhamCompressLoop (bridge : CompressBridge) (input : Bytes) : Nat → Nat → Bytes
  | 0, _ => input
  | tries + 1, cap =>
    let r := bridge input cap
    if r.1 = 0 then r.2
    else if r.1 = 3 then
      let next := min (max (cap * 2) 1024) (128 * 1024 * 1024)
      if next ≤ cap then input else lzhamCompressLoop bridge input tries next
    else input

/-- The packer's `lzhamCompress(in)`. `none` is a build without `VPKEDIT_HAVE_LZHAM`, where
the function returns its input. -/
def lzhamCompress (bridge : Option CompressBridge) (input : Bytes) : Bytes :=
  match bridge with
  | none => input
  | some b =>
    let slack := min (max (input.length / 16) 1024) (64 * 1024)
    lzhamCompressLoop b input 6 (max (input.length + slack) 1)

/-- The lambda `readU16LE` of `tryMakeCamEntry`. -/
def readU16LE (b : Bytes) (off : Nat) : Nat :=
  (b.getD off 0 ||| (b.getD (off + 1) 0 <<< 8)) % 2 ^ 16

/-- The lambda `readU32LE` of `tryMakeCamEntry`. -/
def readU32LE (b : Bytes) (off : Nat) : Nat :=
  (b.getD off 0 ||| (b.getD (off + 1) 0 <<< 8) ||| (b.getD (off + 2) 0 <<< 16)
    ||| (b.getD (off + 3) 0 <<< 24)) % 2 ^ 32

/-- The packer's `tryMakeCamEntry(wavFile, path)`. -/
def tryMakeCamEntry (wavFile : Bytes) (path : Bytes) : Option CamEntry :=
  if wavFile.length < 44 then none
  else if ¬ (wavFile.getD 0 0 = 82 ∧ wavFile.getD 1 0 = 73 ∧ wavFile.getD 2 0 = 70
      ∧ wavFile.getD 3 0 = 70) then none
  else if ¬ (wavFile.getD 8 0 = 87 ∧ wavFile.getD 9 0 = 65 ∧ wavFile.getD 10 0 = 86
      ∧ wavFile.getD 11 0 = 69) then none
  else
    let sampleRate := readU32LE wavFile 24
    let channels := readU16LE wavFile 22
    let blockAlign := readU16LE wavFile 32
    let dataLength := readU32LE wavFile 40
    if channels = 0 ∨ blockAlign = 0 then none
    else
      some { originalSize := wavFile.length % 2 ^ 32
             compressedSize := wavFile.length % 2 ^ 32
             sampleRate := sampleRate
             channels := (channels &&& 0xFF) % 2 ^ 8
             sampleCount := dataLength / blockAlign
             headerSize := 44
             path := path }

/-- The packer's `stripWavHeaderInPlace(file)`, returning the new contents. -/
def stripWavHeaderInPlace (file : Bytes) : Bytes :=
  if file.length < 44 then file
  else if file.getD 0 0 = 0xCB ∧ file.getD 1 0 = 0xCB ∧ file.getD 2 0 = 0xCB
      ∧ file.getD 3 0 = 0xCB then file
  else List.replicate 44 0xCB ++ file.drop 44

/-- The helper `getExtensionLower(path)`: the lower-cased extension without its period. -/
def getExtensionLower (path : Bytes) : Bytes :=
  let ext := pathExtension (pathFilename path)
  toLower (if ¬ ext.isEmpty ∧ ext.head? = some 46 then ext.drop 1 else ext)

/-- Membership in the static set `compressionExcluded` (the strings wav and vtf). -/
def compressionExcluded (extLower : Bytes) : Bool :=
  extLower = [119, 97, 118] ∨ extLower = [118, 116, 102]

/-- The body of the `while (offset < file.size())` loop of `buildDirEntryFromFile`: the part
built from the span that starts at `offset` and has `partLen` bytes. -/
def buildPart (bridge : Option CompressBridge) (options : PackOptions)
    (values : Option ManifestEntry) (extLower : Bytes) (file : Bytes) (offset partLen : Nat) :
    FilePart :=
  let partSpan := (file.drop offset).take partLen
  let doCompress0 : Bool := options.compressionThreshold ≤ partLen ∧ ¬ compressionExcluded extLower
  let doCompress : Bool :=
    match values with
    | some v => v.useCompression ∧ ¬ compressionExcluded extLower
    | none => doCompress0
  let compressed := lzhamCompress bridge partSpan
  let partData : Bytes :=
    if doCompress ∧ compressed.length < partSpan.length then compressed else partSpan
  let loadFlags : Nat :=
    match values with
    | some v => v.loadFlags
    | none =>
      if extLower = [119, 97, 118] then LOAD_VISIBLE ||| LOAD_CACHE
      else if extLower = [97, 99, 97, 99, 104, 101] then
        LOAD_VISIBLE ||| LOAD_CACHE ||| LOAD_ACACHE_UNK0
      else LOAD_VISIBLE
  let textureFlags : Nat :=
    match values with
    | some v => v.textureFlags
    | none => if extLower = [118, 116, 102] then TEXTURE_DEFAULT else 0
  { loadFlags := loadFlags
    textureFlags := textureFlags
    entryOffset := 0
    entryLength := partData.length
    entryLengthUncompressed := partLen
    dataCrc32 := computeCRC32 partData
    data := partData }

/-- The `while (offset < file.size())` loop of `buildDirEntryFromFile`, with fuel: `none`
means that the fuel ran out before the loop condition became false. -/
def buildParts (bridge : Option CompressBridge) (options : PackOptions)
    (values : Option ManifestEntry) (extLower : Bytes) (file : Bytes) :
    Nat → Nat → Option (List FilePart)
  | 0, _ => none
  | fuel + 1, offset =>
    if offset < file.length then
      let partLen := min options.maxPartSize (file.length - offset)
      match buildParts bridge options values extLower file fuel (offset + partLen) with
      | none => none
      | some rest =>
        some (buildPart bridge options values extLower file offset partLen :: rest)
    else some []

/-- The packer's `buildDirEntryFromFile`. Inputs of the embedding: `rel`, the relative
slash-normalised path computed from `absPath` and `baseDir`, and `contents`, the bytes that
`fs::readFileBuffer(absPath)` returns. The result is the entry and the CAM record pushed to
`camEntries` (if any); `none` means that the part loop does not finish within
`contents.length + 1` iterations. -/
def buildDirEntryFromFile (bridge : Option CompressBridge) (rel contents : Bytes)
    (options : PackOptions) (manifest : Option Manifest) :
    Option (DirEntry × Option CamEntry) :=
  let extLower := getExtensionLower rel
  let filename := pathFilename rel
  let extension := if extLower.isEmpty then [32, 0] else extLower ++ [0]
  let fileName := if extLower.isEmpty then filename ++ [0] else pathStem filename ++ [0]
  let dir := pathParent rel
  let directory := if dir.isEmpty then [32, 0] else dir ++ [0]
  let isWav : Bool := extLower = [119, 97, 118]
  let cam := if isWav then tryMakeCamEntry contents rel else none
  let file := if isWav then stripWavHeaderInPlace contents else contents
  let values : Option ManifestEntry :=
    match manifest with
    | none => none
    | some m => m rel
  let preloadBytes := match values with
    | some v => v.preloadSize
    | none => 0
  match buildParts bridge options values extLower file (file.length + 1) 0 with
  | none => none
  | some parts =>
    some ({ path := rel
            extension := extension
            directory := directory
            fileName := fileName
            crc32 := computeCRC32 file
            preloadBytes := preloadBytes
            packFileIndex := options.archiveIndex
            parts := parts }, cam)

/-! ### Sorting and the side archive -/

/-- The sort key of `packDirectoryToRespawnVPK`: `extension + directory + fileName`. -/
def DirEntry.sortKey (e : DirEntry) : Bytes := e.extension ++ e.directory ++ e.fileName

/-- The comparator passed to `std::sort` in `packDirectoryToRespawnVPK`: `operator<` of
`std::string` (lexicographic on unsigned bytes) on the sort keys. -/
def entryLess (a b : DirEntry) : Prop := a.sortKey < b.sortKey

instance : DecidableRel entryLess := fun a b => inferInstanceAs (Decidable (a.sortKey < b.sortKey))

/-- The call `std::sort(entries.begin(), entries.end(), entryLess)`: the entries arranged so
that no element is `entryLess` than an earlier one (insertion sort; for pairwise distinct
keys every sorting algorithm gives this arrangement). -/
def sortEntries (entries : List DirEntry) : List DirEntry :=
  entries.insertionSort (fun a b => ¬ entryLess b a)

/-- The local `struct DedupRef` of `writeArchiveFile` together with the key `h` of the bucket
of the `dedup` map that holds it; `data` is the vector the pointer refers to. -/
structure DedupRef where
  h : Nat
  offset : Nat
  data : Bytes
deriving DecidableEq

/-- The state of `writeArchiveFile`: the bytes written to the stream `f` so far, `writePos`,
and the `dedup` map flattened to its records in insertion order (the bucket of a key is the
sublist of records with that key). `writePos` is a 64-bit counter of bytes that come from
buffers held in memory, so its additions cannot wrap and are left untruncated. -/
structure ArchiveState where
  out : Bytes := []
  writePos : Nat := 0
  dedup : List DedupRef := []
deriving DecidableEq

/-- The body of the loop `for (auto& p : e.parts)` of `writeArchiveFile`: the new state and
the part with its `entryOffset` assigned. -/
def writePart (allowDedup : Bool) (st : ArchiveState) (p : FilePart) : ArchiveState × FilePart :=
  let size := p.data.length
  if size = 0 then (st, { p with entryOffset := st.writePos })
  else if allowDedup then
    let h := ((p.dataCrc32 <<< 32) ||| size) % 2 ^ 64
    match (st.dedup.filter (fun c => c.h = h)).find?
        (fun cand => cand.data.length = p.data.length ∧ cand.data = p.data) with
    | some cand => (st, { p with entryOffset := cand.offset })
    | none =>
      ({ out := st.out ++ p.data
         writePos := st.writePos + size
         dedup := st.dedup ++ [{ h := h, offset := st.writePos, data := p.data }] },
       { p with entryOffset := st.writePos })
  else
    ({ st with out := st.out ++ p.data, writePos := st.writePos + size },
     { p with entryOffset := st.writePos })

/-- The loop `for (auto& p : e.parts)` of `writeArchiveFile`. -/
def writePartList (allowDedup : Bool) : ArchiveState → List FilePart → ArchiveState × List FilePart
  | st, [] => (st, [])
  | st, p :: ps =>
    let r := writePart allowDedup st p
    let rs := writePartList allowDedup r.1 ps
    (rs.1, r.2 :: rs.2)

/-- The value of `allowDedup` that `writeArchiveFile` computes for an entry. -/
def allowDedupFor (manifest : Option Manifest) (e : DirEntry) : Bool :=
  match manifest with
  | none => true
  | some m =>
    match m e.path with
    | some v => v.deDuplicate
    | none => true

/-- The loop `for (auto& e : entries)` of `writeArchiveFile`. -/
def writeEntryList (manifest : Option Manifest) :
    ArchiveState → List DirEntry → ArchiveState × List DirEntry
  | st, [] => (st, [])
  | st, e :: es =>
    let r := writePartList (allowDedupFor manifest e) st e.parts
    let rs := writeEntryList manifest r.1 es
    (rs.1, { e with parts := r.2 } :: rs.2)

/-- The packer's `writeArchiveFile(entries, manifest, archivePath, outError)` on a file
system where opening and writing succeed: the bytes of the side archive and the entries with
their offsets assigned. -/
def writeArchiveFile (entries : List DirEntry) (manifest : Option Manifest) :
    Bytes × List DirEntry :=
  let r := writeEntryList manifest {} entries
  (r.1.out, r.2)

/-! ### The CAM sidecar -/

/-- The packer's `endsWithInsensitive(s, suffix)`. -/
def endsWithInsensitive (s suffix : Bytes) : Bool :=
  if s.length < suffix.length then false
  else toLower (s.drop (s.length - suffix.length)) = toLower suffix

/-- The suffix that `buildCam` passes to `endsWithInsensitive`: the string literal written
`"wav\0"` converts to a `std::string_view` through its `const char*` constructor, whose
length stops at the first NUL, so the view holds the three bytes of the word wav. -/
def camSuffix : Bytes := [119, 97, 118]

/-- The first loop of `buildCam`: store the first part's offset in the first CAM record that
has the entry's path. -/
def setCamOffset (cams : List CamEntry) (e : DirEntry) : List CamEntry :=
  if ¬ endsWithInsensitive e.extension camSuffix then cams
  else
    match cams.findIdx? (fun c => c.path = e.path), e.parts.head? with
    | some i, some p => cams.modify (fun c => { c with vpkContentOffset := p.entryOffset }) i
    | _, _ => cams

/-- The second loop of `buildCam`: one record per wav entry that has a CAM record. -/
def writeCamRecord (cams : List CamEntry) (w : WriteBuffer) (e : DirEntry) : WriteBuffer :=
  if ¬ endsWithInsensitive e.extension camSuffix then w
  else
    match cams.find? (fun c => c.path = e.path) with
    | none => w
    | some c =>
      (((((((w.writeU32 c.magic).writeU32 c.originalSize).writeU32 c.compressedSize).writeU24
        (c.sampleRate &&& 0x00FFFFFF)).writeU8 c.channels).writeU32 c.sampleCount).writeU32
        c.headerSize).writeU64 c.vpkContentOffset

/-- The packer's `buildCam(entries, cams)`. -/
def buildCam (entries : List DirEntry) (cams : List CamEntry) : Bytes :=
  let cams1 := entries.foldl setCamOffset cams
  (entries.foldl (writeCamRecord cams1) {}).buf

/-! ### Input side of the packer (`ReadBuffer`) and the validation pass -/

/-- Member `ReadBuffer::readU8` on the bytes from `pos` on: the byte and the rest. -/
def readU8 : Bytes → Option (Nat × Bytes)
  | [] => none
  | b :: rest => some (b, rest)

/-- Member `ReadBuffer::readU16`. -/
def readU16 (r : Bytes) : Option (Nat × Bytes) :=
  match readU8 r with
  | none => none
  | some (b0, r1) =>
    match readU8 r1 with
    | none => none
    | some (b1, r2) => some ((b0 ||| (b1 <<< 8)) % 2 ^ 16, r2)

/-- Member `ReadBuffer::readU32`. -/
def readU32 (r : Bytes) : Option (Nat × Bytes) :=
  match readU8 r with
  | none => none
  | some (b0, r1) =>
    match readU8 r1 with
    | none => none
    | some (b1, r2) =>
      match readU8 r2 with
      | none => none
      | some (b2, r3) =>
        match readU8 r3 with
        | none => none
        | some (b3, r4) =>
          some ((b0 ||| (b1 <<< 8) ||| (b2 <<< 16) ||| (b3 <<< 24)) % 2 ^ 32, r4)

/-- Member `ReadBuffer::readU64`. -/
def readU64 (r : Bytes) : Option (Nat × Bytes) :=
  match readU32 r with
  | none => none
  | some (lo, r1) =>
    match readU32 r1 with
    | none => none
    | some (hi, r2) => some ((lo ||| (hi <<< 32)) % 2 ^ 64, r2)

/-- Member `ReadBuffer::readCString`: the bytes before the next NUL and the rest after it;
`none` when the buffer ends first. -/
def readCString : Bytes → Option (Bytes × Bytes)
  | [] => none
  | c :: rest =>
    if c = 0 then some ([], rest)
    else
      match readCString rest with
      | none => none
      | some (s, r) => some (c :: s, r)

/-- The part loop of `validateDirTreeAgainstInput` (the innermost `for (;;)`): `ret none` is
a `return false`, `ret (some r)` leaves the loop at the end marker with `r` unread. -/
def validateParts : Nat → Bytes → Loop (Option Bytes)
  | 0, _ => .more
  | fuel + 1, r =>
    match readU32 r with
    | none => .ret none
    | some (_, r1) =>
      match readU16 r1 with
      | none => .ret none
      | some (_, r2) =>
        match readU64 r2 with
        | none => .ret none
        | some (_, r3) =>
          match readU64 r3 with
          | none => .ret none
          | some (_, r4) =>
            match readU64 r4 with
            | none => .ret none
            | some (_, r5) =>
              match readU16 r5 with
              | none => .ret none
              | some (marker, r6) =>
                if marker = RESPAWN_CHUNK_END_MARKER then .ret (some r6)
                else if marker ≠ RESPAWN_CHUNK_CONT_MARKER then .ret none
                else validateParts fuel r6

/-- The path that `validateDirTreeAgainstInput` reconstructs from the three strings. -/
def validatorFullPath (ext dir file : Bytes) : Bytes :=
  let p0 := if file = [32] then [] else file
  let p1 := if ext ≠ [32] then p0 ++ [46] ++ ext else p0
  if dir ≠ [32] ∧ ¬ dir.isEmpty then dir ++ [47] ++ p1 else p1

/-- Insertion into a `std::unordered_set<std::string>`. -/
def setInsert (s : List Bytes) (x : Bytes) : List Bytes := if x ∈ s then s else s ++ [x]

/-- The three nested loops of `validateDirTreeAgainstInput`: `ret none` is a
`return false`, `ret (some seen)` is the `break` out of the outermost loop. -/
def validateLoop : Nat → TreeMode → Bytes → List Bytes → Loop (Option (List Bytes))
  | 0, _, _, _ => .more
  | fuel + 1, .ext, r, seen =>
    match readCString r with
    | none => .ret none
    | some (ext, r1) =>
      if ext.isEmpty then .ret (some seen) else validateLoop fuel (.dir ext) r1 seen
  | fuel + 1, .dir ext, r, seen =>
    match readCString r with
    | none => .ret none
    | some (dir, r1) =>
      if dir.isEmpty then validateLoop fuel .ext r1 seen
      else if dir.head? = some 32 ∧ dir ≠ [32] then .ret none
      else validateLoop fuel (.file ext dir) r1 seen
  | fuel + 1, .file ext dir, r, seen =>
    match readCString r with
    | none => .ret none
    | some (file, r1) =>
      if file.isEmpty then validateLoop fuel (.dir ext) r1 seen
      else
        match readU32 r1 with
        | none => .ret none
        | some (_, r2) =>
          match readU16 r2 with
          | none => .ret none
          | some (_, r3) =>
            match readU16 r3 with
            | none => .ret none
            | some (_, r4) =>
              match validateParts fuel r4 with
              | .more => .more
              | .ret none => .ret none
              | .ret (some r5) =>
                validateLoop fuel (.file ext dir) r5 (setInsert seen (validatorFullPath ext dir file))

/-- The packer's `validateDirTreeAgainstInput(dirTree, entries, outError)`. The loops get
`dirTree.length + 1` units of fuel; every iteration consumes at least one byte, so the loops
always return (`validateLoop_fuel`). -/
def validateDirTreeAgainstInput (dirTree : Bytes) (entries : List DirEntry) : Bool :=
  let expected := entries.foldl (fun s e => setInsert s e.path) []
  match validateLoop (dirTree.length + 1) .ext dirTree [] with
  | .more => false
  | .ret none => false
  | .ret (some seen) =>
    if seen.length ≠ expected.length then false
    else expected.all (fun p => decide (p ∈ seen))

/-! ### The packer's entry point -/

/-- What a successful `packDirectoryToRespawnVPK` leaves behind: the bytes of the dir archive,
of the side archive and of the `.cam` file (if one is written), the items handed to
`writeManifestForDirVpkPath`, and the final in-memory `entries`. -/
structure PackOutput where
  dirVpk : Bytes
  archive : Bytes
  cam : Option Bytes
  manifestItems : List ManifestWriteItem
  entries : List DirEntry
deriving DecidableEq

/-- Build the entries of all files (what the worker threads store into `entries[i]`) and
collect the CAM records; `none` if one of the builds does not finish. -/
def buildAll (bridge : Option CompressBridge) (options : PackOptions) (manifest : Option Manifest) :
    List (Bytes × Bytes) → Option (List DirEntry × List CamEntry)
  | [] => some ([], [])
  | f :: fs =>
    match buildDirEntryFromFile bridge f.1 f.2 options manifest, buildAll bridge options manifest fs with
    | some (e, cam), some (es, cams) => some (e :: es, cam.toList ++ cams)
    | _, _ => none

/-- The manifest item that `packDirectoryToRespawnVPK` writes for an entry. -/
def manifestItemOf (e : DirEntry) : ManifestWriteItem :=
  let v0 : ManifestEntry := { preloadSize := e.preloadBytes }
  let v1 : ManifestEntry :=
    match e.parts.head? with
    | some p =>
      { v0 with loadFlags := p.loadFlags, textureFlags := p.textureFlags,
                useCompression := decide (p.entryLength ≠ p.entryLengthUncompressed) }
    | none => v0
  { path := e.path, values := { v1 with deDuplicate := true } }

/-- The packer's `packDirectoryToRespawnVPK` from the point where the regular files have been
enumerated: `files` lists them in enumeration order as (relative path, contents);
`manifest` is what `readManifestForDirVpkPath` returned. All file-system writes succeed.
`none` is a `return false` (or a build that does not finish). -/
def packDirectoryToRespawnVPK (bridge : Option CompressBridge) (files : List (Bytes × Bytes))
    (options : PackOptions) (manifest : Option Manifest) : Option PackOutput :=
  match buildAll bridge options manifest files with
  | none => none
  | some (built, camEntries) =>
    let entries := sortEntries built
    let dirTree := buildDirTree entries options.archiveIndex
    let header := buildHeader (dirTree.length % 2 ^ 32)
    if ¬ validateDirTreeAgainstInput dirTree entries then none
    else
      let dirVpk := header ++ dirTree
      let written := writeArchiveFile entries manifest
      let cam := if camEntries.isEmpty then none else some (buildCam written.2 camEntries)
      some { dirVpk := dirVpk
             archive := written.1
             cam := cam
             manifestItems := written.2.map manifestItemOf
             entries := written.2 }

end respawn_vpk

namespace RespawnVPK

/-! ## Reader data model (`RespawnVPK.h`, `RespawnVPK.cpp`) -/

/-- The reader's `struct FilePart`. -/
structure FilePart where
  archiveIndex : Nat := 0
  loadFlags : Nat := 0
  textureFlags : Nat := 0
  entryOffset : Nat := 0
  entryLength : Nat := 0
  entryLengthUncompressed : Nat := 0
deriving DecidableEq

/-- Member `FilePart::isCompressed`. -/
def FilePart.isCompressed (p : FilePart) : Bool :=
  decide (p.entryLength ≠ p.entryLengthUncompressed)

/-- The reader's `struct MetaEntry`. -/
structure MetaEntry where
  crc32 : Nat := 0
  preloadBytes : Nat := 0
  archiveIndex : Nat := 0
  preloadOffset : Nat := 0
  parts : List FilePart := []
deriving DecidableEq

/-- The members of the library's `vpkpp::Entry` that the reader sets. -/
structure Entry where
  crc32 : Nat := 0
  length : Nat := 0
  archiveIndex : Nat := 0
deriving DecidableEq

/-! ### The input stream (`std::ifstream`) -/

/-- A `std::ifstream` opened on a file: the bytes from the get position to the end of the
file, the get position (`tellg`), and whether the stream is good. Once a read has failed the
stream stays failed and every later read does nothing. -/
structure IStream where
  rest : Bytes
  pos : Nat := 0
  good : Bool := true
deriving DecidableEq

/-- The call `f.read(buf, n)`: the `n` bytes read, or failure when the stream is not good or
fewer than `n` bytes remain (the stream is then at the end and failed). -/
def IStream.read (f : IStream) (n : Nat) : Option Bytes × IStream :=
  if ¬ f.good then (none, f)
  else if f.rest.length < n then
    (none, { rest := [], pos := f.pos + f.rest.length, good := false })
  else (some (f.rest.take n), { rest := f.rest.drop n, pos := f.pos + n, good := true })

/-- The call `f.seekg(n, std::ios::cur)` on a file stream: a good stream moves its position,
also beyond the end of the file (a later read then fails). -/
def IStream.skip (f : IStream) (n : Nat) : IStream :=
  if ¬ f.good then f else { rest := f.rest.drop n, pos := f.pos + n, good := true }

/-- The loop of `RespawnVPK::readCString` on the remaining bytes: the string, the remaining
bytes and whether every `f.get(c)` succeeded. -/
def readCStringBytes : Bytes → Bytes × Bytes × Bool
  | [] => ([], [], false)
  | c :: rest =>
    if c = 0 then ([], rest, true)
    else
      let r := readCStringBytes rest
      (c :: r.1, r.2.1, r.2.2)

/-- The reader's `RespawnVPK::readCString(f)`. -/
def readCString (f : IStream) : Bytes × IStream :=
  if ¬ f.good then ([], f)
  else
    let r := readCStringBytes f.rest
    (r.1, { rest := r.2.1, pos := f.pos + (f.rest.length - r.2.1.length), good := r.2.2 })

/-- The reader's `RespawnVPK::readU16(f)` (0 when the read fails). -/
def readU16 (f : IStream) : Nat × IStream :=
  match f.read 2 with
  | (some b, f1) => ((b.getD 0 0 ||| (b.getD 1 0 <<< 8)) % 2 ^ 16, f1)
  | (none, f1) => (0, f1)

/-- The reader's `RespawnVPK::readU32(f)` (0 when the read fails). -/
def readU32 (f : IStream) : Nat × IStream :=
  match f.read 4 with
  | (some b, f1) =>
    ((b.getD 0 0 ||| (b.getD 1 0 <<< 8) ||| (b.getD 2 0 <<< 16) ||| (b.getD 3 0 <<< 24))
      % 2 ^ 32, f1)
  | (none, f1) => (0, f1)

/-- The reader's `RespawnVPK::readU64(f)` (0 when the read fails). -/
def readU64 (f : IStream) : Nat × IStream :=
  match f.read 8 with
  | (some b, f1) =>
    ((b.getD 0 0 ||| (b.getD 1 0 <<< 8) ||| (b.getD 2 0 <<< 16) ||| (b.getD 3 0 <<< 24)
      ||| (b.getD 4 0 <<< 32) ||| (b.getD 5 0 <<< 40) ||| (b.getD 6 0 <<< 48)
      ||| (b.getD 7 0 <<< 56)) % 2 ^ 64, f1)
  | (none, f1) => (0, f1)

/-- The reader's `RespawnVPK::readAndValidateHeader(f, treeLength)` on a stream positioned at
the start of the file: the tree length and the stream after the header, or `none`. -/
def readAndValidateHeader (f : IStream) : Option (Nat × IStream) :=
  let sig := readU32 f
  let major := readU16 sig.2
  let minor := readU16 major.2
  let treeLength := readU32 minor.2
  let unused := readU32 treeLength.2
  if ¬ unused.2.good then none
  else if sig.1 ≠ RESPAWN_VPK_SIGNATURE then none
  else if major.1 ≠ RESPAWN_VPK_MAJOR_VERSION ∨ minor.1 > RESPAWN_VPK_MINOR_VERSION then none
  else if treeLength.1 = 0 then none
  else some (treeLength.1, unused.2)

/-! ### The tree parser of `RespawnVPK::open` -/

/-- One entry as the parser of `open` has it in hand when it calls `metaEntries.emplace`: the
three strings just read, the path built from them, the metadata and the library entry. -/
structure ParsedEntry where
  extension : Bytes
  directory : Bytes
  filename : Bytes
  fullPath : Bytes
  meta : MetaEntry
  entry : Entry
deriving DecidableEq

/-- The path that `open` builds from the three strings. -/
def fullPathOf (extension directory filename : Bytes) : Bytes :=
  let p0 := if filename = [32] then [] else filename
  let p1 := if extension ≠ [32] then p0 ++ [46] ++ extension else p0
  if directory ≠ [32] then (if ¬ directory.isEmpty then directory ++ [47] ++ p1 else p1) else p1

/-- The part loop of `open` (`while (true) { FilePart part; ... }`): `ret none` is a
`return nullptr`, `ret (some (parts, f))` the `break` at the end marker. -/
def readParts : Nat → IStream → List FilePart → Loop (Option (List FilePart × IStream))
  | 0, _, _ => .more
  | fuel + 1, f, acc =>
    let idx := readU16 f
    if ¬ idx.2.good then .ret none
    else if idx.1 = RESPAWN_CHUNK_END_MARKER then .ret (some (acc, idx.2))
    else
      let lf := readU16 idx.2
      let tf := readU32 lf.2
      let off := readU64 tf.2
      let len := readU64 off.2
      let ulen := readU64 len.2
      if ¬ ulen.2.good then .ret none
      else
        readParts fuel ulen.2
          (acc ++ [{ archiveIndex := idx.1, loadFlags := lf.1, textureFlags := tf.1,
                     entryOffset := off.1, entryLength := len.1,
                     entryLengthUncompressed := ulen.1 }])

/-- The value `dataLen` that `open` stores in `entry.length`: a 64-bit sum. -/
def dataLenOf (preloadBytes : Nat) (parts : List FilePart) : Nat :=
  parts.foldl (fun acc p => (acc + p.entryLengthUncompressed) % 2 ^ 64) (preloadBytes % 2 ^ 64)

/-- The three nested `while (true)` loops of `open`: `ret none` is a `return nullptr`,
`ret (some l)` is the `break` out of the outermost loop with the entries parsed, in order. -/
def parseLoop : Nat → TreeMode → IStream → List ParsedEntry → Loop (Option (List ParsedEntry))
  | 0, _, _, _ => .more
  | fuel + 1, .ext, f, acc =>
    let ext := readCString f
    if ¬ ext.2.good ∨ ext.1.isEmpty then .ret (some acc)
    else parseLoop fuel (.dir ext.1) ext.2 acc
  | fuel + 1, .dir ext, f, acc =>
    let dir := readCString f
    if ¬ dir.2.good ∨ dir.1.isEmpty then parseLoop fuel .ext dir.2 acc
    else parseLoop fuel (.file ext dir.1) dir.2 acc
  | fuel + 1, .file ext dir, f, acc =>
    let name := readCString f
    if ¬ name.2.good ∨ name.1.isEmpty then parseLoop fuel (.dir ext) name.2 acc
    else
      let crc := readU32 name.2
      let preload := readU16 crc.2
      if ¬ preload.2.good then .ret none
      else
        match readParts fuel preload.2 [] with
        | .more => .more
        | .ret none => .ret none
        | .ret (some (parts, f1)) =>
          let preloadOffset := if preload.1 ≠ 0 then f1.pos else 0
          let f2 := if preload.1 ≠ 0 then f1.skip preload.1 else f1
          if ¬ f2.good then .ret none
          else
            let meta : MetaEntry :=
              { crc32 := crc.1, preloadBytes := preload.1, preloadOffset := preloadOffset,
                parts := parts }
            let entry : Entry :=
              { crc32 := crc.1, length := dataLenOf preload.1 parts,
                archiveIndex := match parts.head? with
                  | some p => p.archiveIndex
                  | none => 0 }
            parseLoop fuel (.file ext dir) f2
              (acc ++ [{ extension := ext, directory := dir, filename := name.1,
                         fullPath := fullPathOf ext dir name.1, meta := meta, entry := entry }])

/-- The call `map.emplace(key, value)` on a map held as an association list in insertion
order: nothing happens when the key is present. -/
def emplace {α : Type} (m : List (Bytes × α)) (key : Bytes) (v : α) : List (Bytes × α) :=
  if m.any (fun kv => kv.1 = key) then m else m ++ [(key, v)]

/-- The call `map.find(key)`. -/
def lookup {α : Type} (m : List (Bytes × α)) (key : Bytes) : Option α :=
  (m.find? (fun kv => kv.1 = key)).map Prod.snd

/-- The state of a `RespawnVPK` object that the reader uses: the bytes of the file at
`fullFilePath`, `metaEntries`, and the library's `entries`. -/
structure Archive where
  fileData : Bytes
  metaEntries : List (Bytes × MetaEntry)
  entries : List (Bytes × Entry)
deriving DecidableEq

/-- The tree parser of `open` run on a stream that stands at the first byte of the tree: the
entries parsed, in file order; `none` is a `return nullptr`. The fuel is the number of bytes
left plus 4: an iteration consumes a byte, or the stream has failed and the loops unwind, so
the loop always returns (`parseEntries_fuel`). -/
def parseEntries (f : IStream) : Option (List ParsedEntry) :=
  match parseLoop (f.rest.length + 4) .ext f [] with
  | .more => none
  | .ret r => r

/-- The entries that `open` parses from the bytes of a dir archive, in file order; `none` is
a `return nullptr`. The parser reads from the file stream right after the header. -/
def parseTree (data : Bytes) : Option (List ParsedEntry) :=
  match readAndValidateHeader { rest := data } with
  | none => none
  | some (_, f) => parseEntries f

/-- The reader's `RespawnVPK::open(path)` on a regular file with contents `data`;
`cleanEntryPath` is the library's path cleaning (parameter `clean`). -/
def «open» (clean : Bytes → Bytes) (data : Bytes) : Option Archive :=
  match parseTree data with
  | none => none
  | some l =>
    some { fileData := data
           metaEntries := l.foldl (fun m e => emplace m (clean e.fullPath) e.meta) []
           entries := l.foldl (fun m e => emplace m (clean e.fullPath) e.entry) [] }

/-! ### Reading an entry -/

/-- The reader's `RespawnVPK::readFileRange(path, offset, length)`; `file` is the content of
the file at `path`, `none` when it cannot be opened. -/
def readFileRange (file : Option Bytes) (offset length : Nat) : Option Bytes :=
  if length > 512 * 1024 * 1024 then none
  else
    match file with
    | none => none
    | some d =>
      if offset > d.length then none
      else if length > d.length - offset then none
      else some ((d.drop offset).take length)

/-- The external entry point `lzham_bridge_decompress(src, srcLen, dst, &dstLen)` as an
oracle: given the source bytes and the capacity of `dst`, the return code and the bytes
`dst[0 .. dstLen)` after the call. -/
abbrev DecompressBridge := Bytes → Nat → Nat × Bytes

/-- The reader's `RespawnVPK::lzhamDecompress(src, srcLen, dstLen)`; `none` as bridge is a
build without `VPKEDIT_HAVE_LZHAM`. -/
def lzhamDecompress (bridge : Option DecompressBridge) (src : Bytes) (dstLen : Nat) :
    Option Bytes :=
  match bridge with
  | none => none
  | some b =>
    let r := b src dstLen
    if r.1 ≠ 0 ∨ r.2.length = 0 ∨ r.2.length > dstLen then none else some r.2

/-- The failures of `readEntry`, one per value it stores in `lastError`. -/
inductive ReadError where
  | notFound : ReadError
  | partTooLargeCompressed : ReadError
  | partTooLargeUncompressed : ReadError
  | entryTooLarge : ReadError
  | preloadReadFailed : ReadError
  | partReadFailed (archiveIndex : Nat) : ReadError
  | decompressFailed (archiveIndex : Nat) : ReadError
  | noLzhamSupport : ReadError
deriving DecidableEq

/-- The size guard of `readEntry` (the loop that accumulates `total`, a 64-bit sum): the
final `total`, or the error of the first limit that is exceeded. -/
def sizeGuard : Nat → List FilePart → Except ReadError Nat
  | total, [] => .ok total
  | total, p :: ps =>
    if p.entryLength > 512 * 1024 * 1024 then .error .partTooLargeCompressed
    else if p.entryLengthUncompressed > 512 * 1024 * 1024 then .error .partTooLargeUncompressed
    else
      let total1 := (total + p.entryLengthUncompressed) % 2 ^ 64
      if total1 > 1024 * 1024 * 1024 then .error .entryTooLarge
      else sizeGuard total1 ps

/-- The loop `for (const auto& part : meta.parts)` of `readEntry` that appends the chunks to
`out`. `archives idx` is the content of the file that `buildArchivePath(fullFilePath, idx)`
names (`none` when it cannot be opened); `bridge` is the decompressor. -/
def readPartsInto (bridge : Option DecompressBridge) (archives : Nat → Option Bytes) :
    Bytes → List FilePart → Except ReadError Bytes
  | out, [] => .ok out
  | out, p :: ps =>
    match readFileRange (archives p.archiveIndex) p.entryOffset p.entryLength with
    | none => .error (.partReadFailed p.archiveIndex)
    | some compressed =>
      if ¬ p.isCompressed then readPartsInto bridge archives (out ++ compressed) ps
      else
        match bridge with
        | none => .error .noLzhamSupport
        | some _ =>
          match lzhamDecompress bridge compressed p.entryLengthUncompressed with
          | none => .error (.decompressFailed p.archiveIndex)
          | some d => readPartsInto bridge archives (out ++ d) ps

/-- The reader's `RespawnVPK::readEntry(path)` on an archive without unbaked entries. -/
def readEntry (clean : Bytes → Bytes) (bridge : Option DecompressBridge)
    (archives : Nat → Option Bytes) (vpk : Archive) (path : Bytes) : Except ReadError Bytes :=
  match lookup vpk.metaEntries (clean path) with
  | none => .error .notFound
  | some meta =>
    match sizeGuard (meta.preloadBytes % 2 ^ 64) meta.parts with
    | .error e => .error e
    | .ok _ =>
      if meta.preloadBytes ≠ 0 then
        match readFileRange (some vpk.fileData) meta.preloadOffset meta.preloadBytes with
        | none => .error .preloadReadFailed
        | some preload => readPartsInto bridge archives preload meta.parts
      else readPartsInto bridge archives [] meta.parts

/-! ### The tree emitter of `RespawnVPK::bake` -/

/-- The local `struct TreeItem` of `bake`. -/
structure TreeItem where
  path : Bytes := []
  ext : Bytes := []
  dir : Bytes := []
  fileStem : Bytes := []
  meta : MetaEntry := {}
  inPatchArchive : Bool := false
deriving DecidableEq

/-- The sort key of `bake`: `ext + NUL + dir + NUL + fileStem + NUL`. -/
def TreeItem.sortKey (t : TreeItem) : Bytes := t.ext ++ [0] ++ t.dir ++ [0] ++ t.fileStem ++ [0]

/-- The comparator passed to `std::sort` in `bake`: `ka < kb` on `std::string`. -/
def itemLess (a b : TreeItem) : Prop := a.sortKey < b.sortKey

instance : DecidableRel itemLess := fun a b => inferInstanceAs (Decidable (a.sortKey < b.sortKey))

/-- The call `std::sort(treeItems.begin(), treeItems.end(), itemLess)` (insertion sort; for
pairwise distinct keys every sorting algorithm gives this arrangement). -/
def sortItems (items : List TreeItem) : List TreeItem :=
  items.insertionSort (fun a b => ¬ itemLess b a)

/-- The loop `for (const auto& p : e.meta.parts)` of the emitter of `bake`. -/
def emitParts (w : WriteBuffer) : List FilePart → WriteBuffer
  | [] => w
  | p :: ps =>
    emitParts
      ((((((w.writeU16 p.archiveIndex).writeU16 (p.loadFlags &&& 0xFFFF)).writeU32
        p.textureFlags).writeU64 p.entryOffset).writeU64 p.entryLength).writeU64
        p.entryLengthUncompressed)
      ps

/-- The loop state of the emitter of `bake`: `treeBuf`, `lastExt`, `lastDir`. -/
structure EmitState where
  w : WriteBuffer := {}
  lastExt : Bytes := []
  lastDir : Bytes := []
deriving DecidableEq

/-- One iteration of the loop `for (const auto& e : treeItems)` of `bake`. -/
def emitStep (st : EmitState) (e : TreeItem) : EmitState :=
  let st1 : EmitState :=
    if ¬ st.lastExt.isEmpty ∧ e.ext ≠ st.lastExt then
      { st with w := st.w.writeU16 0, lastDir := [] }
    else if ¬ st.lastDir.isEmpty ∧ e.dir ≠ st.lastDir then
      { st with w := st.w.writeU8 0 }
    else st
  let st2 : EmitState :=
    if e.ext ≠ st1.lastExt then
      { st1 with w := st1.w.writeCString e.ext, lastExt := e.ext }
    else st1
  let st3 : EmitState :=
    if e.dir ≠ st2.lastDir then
      { st2 with w := st2.w.writeCString e.dir, lastDir := e.dir }
    else st2
  let w4 := st3.w.writeCString e.fileStem
  let w5 := w4.writeU32 e.meta.crc32
  let w6 := w5.writeU16 e.meta.preloadBytes
  let w7 := emitParts w6 e.meta.parts
  { st3 with w := w7.writeU16 RESPAWN_CHUNK_END_MARKER }

/-- The tree buffer `treeBuf.buf` that `bake` builds from the tree items in the order given
(the emitter loop and the closing `writeU24(0)`). -/
def emitTreeItems (items : List TreeItem) : Bytes :=
  ((items.foldl emitStep {}).w.writeU24 0).buf

/-- The tree bytes of `bake`: sort the items, then emit them. -/
def bakeTree (items : List TreeItem) : Bytes := emitTreeItems (sortItems items)

/-- The file `bake` writes to the dir archive path: header, then tree. -/
def bakeDirVpk (items : List TreeItem) : Bytes :=
  let tree := bakeTree items
  (((((({} : WriteBuffer).writeU32 RESPAWN_VPK_SIGNATURE).writeU16
    RESPAWN_VPK_MAJOR_VERSION).writeU16 RESPAWN_VPK_MINOR_VERSION).writeU32
    (tree.length % 2 ^ 32)).writeU32 0).buf ++ tree

end RespawnVPK

/-! ## Layouts used to state the results on the packer's tree emitter -/

namespace respawn_vpk

/-- The 32 bytes `buildDirTree` writes for one part: `u32 loadFlags`, `u16 textureFlags`,
`u64 entryOffset`, `u64 entryLength`, `u64 entryLengthUncompressed`, `u16 marker`, where the
marker is 0xFFFF for the last part of the entry and 0x0000 otherwise. -/
def partRecord (p : FilePart) (last : Bool) : Bytes :=
  leBytes 4 p.loadFlags ++ leBytes 2 p.textureFlags ++ leBytes 8 p.entryOffset
    ++ leBytes 8 p.entryLength ++ leBytes 8 p.entryLengthUncompressed
    ++ leBytes 2 (if last then 0xFFFF else 0x0000)

/-- The part records of an entry, in order. -/
def partRecords : List FilePart → Bytes
  | [] => []
  | p :: ps => partRecord p ps.isEmpty ++ partRecords ps

/-- The bytes of one entry from its file name on: the name string, `u32 crc32`,
`u16 preloadBytes`, `u16` archive index, then the part records. -/
def entryRecord (archiveIndex : Nat) (e : DirEntry) : Bytes :=
  e.fileName ++ leBytes 4 e.crc32 ++ leBytes 2 e.preloadBytes
    ++ leBytes 2 (if e.packFileIndex ≠ 0 then e.packFileIndex else archiveIndex)
    ++ partRecords e.parts

/-- The bytes written in front of an entry's file name: the closing zero bytes of the blocks
that end, and the extension and directory strings that changed. -/
def groupPrefix (lastExt lastDir : Bytes) (e : DirEntry) : Bytes :=
  let extEnds : Prop := e.extension ≠ lastExt ∧ lastExt ≠ []
  let dir1 : Bytes := if extEnds then [] else lastDir
  (if extEnds then [0, 0] else if e.directory ≠ lastDir ∧ lastDir ≠ [] then [0] else [])
    ++ (if e.extension ≠ lastExt then e.extension else [])
    ++ (if e.directory ≠ dir1 then e.directory else [])

/-- The tree body for a list of entries when the previous entry had the given strings. -/
def treeLayout (archiveIndex : Nat) : Bytes → Bytes → List DirEntry → Bytes
  | _, _, [] => []
  | lastExt, lastDir, e :: es =>
    groupPrefix lastExt lastDir e ++ entryRecord archiveIndex e
      ++ treeLayout archiveIndex e.extension e.directory es

/-- The record of one entry as the specification words it: the name string, `u32 crc32`,
`u16 preload_bytes`, then for every chunk `u16 archive_index`, `u16 load_flags`,
`u32 texture_flags`, `u64 offset`, `u64 stored_length`, `u64 logical_length`, and after the
last chunk one `u16 0xFFFF`. -/
def claimedEntryRecord (archiveIndex : Nat) (e : DirEntry) : Bytes :=
  e.fileName ++ leBytes 4 e.crc32 ++ leBytes 2 e.preloadBytes
    ++ (e.parts.map (fun p =>
          leBytes 2 (if e.packFileIndex ≠ 0 then e.packFileIndex else archiveIndex)
            ++ leBytes 2 p.loadFlags ++ leBytes 4 p.textureFlags ++ leBytes 8 p.entryOffset
            ++ leBytes 8 p.entryLength ++ leBytes 8 p.entryLengthUncompressed)).flatten
    ++ leBytes 2 0xFFFF

/-- A two-part entry `a.txt` (parts of 2 and 1 bytes, flags 1, archive index 999). -/
def twoPartEntry : DirEntry :=
  { path := [97, 46, 116, 120, 116], extension := [116, 120, 116, 0], directory := [32, 0],
    fileName := [97, 0], crc32 := 1438416925, preloadBytes := 0, packFileIndex := 999,
    parts := [{ loadFlags := 1, entryLength := 2, entryLengthUncompressed := 2, data := [1, 2] },
              { loadFlags := 1, entryOffset := 2, entryLength := 1,
                entryLengthUncompressed := 1, data := [3] }] }

end respawn_vpk

/-! ## Concrete inputs used in the evaluations -/

namespace respawn_vpk

/-- A toy compressor bridge: success, output the one byte `src.length mod 256`. -/
def toyBridge : CompressBridge := fun src _ => (0, [src.length % 256])

/-- Options with parts of at most 4 bytes and compression from 2 bytes on. -/
def smallOptions : PackOptions := { maxPartSize := 4, compressionThreshold := 2 }

/-- The entry `buildDirEntryFromFile` builds for the file `d.bin` with five bytes 7 under
`smallOptions` and `toyBridge`. -/
def fiveByteEntry : DirEntry :=
  { path := [100, 46, 98, 105, 110], extension := [98, 105, 110, 0], directory := [32, 0],
    fileName := [100, 0], crc32 := computeCRC32 [7, 7, 7, 7, 7], preloadBytes := 0,
    packFileIndex := 999,
    parts := [{ loadFlags := 1, entryLength := 1, entryLengthUncompressed := 4,
                dataCrc32 := computeCRC32 [4], data := [4] },
              { loadFlags := 1, entryLength := 1, entryLengthUncompressed := 1,
                dataCrc32 := computeCRC32 [7], data := [7] }] }

end respawn_vpk

/-! ## Predicates used to state the results on `writeArchiveFile` -/

namespace respawn_vpk

/-- The bytes of the archive at `[entryOffset, entryOffset + data.size())` are the data of
the part. -/
def PartStored (out : Bytes) (p : FilePart) : Prop :=
  p.entryOffset + p.data.length ≤ out.length
    ∧ (out.drop p.entryOffset).take p.data.length = p.data

/-- Invariant of the loop of `writeArchiveFile`: `writePos` is the number of bytes written,
and every record of the `dedup` map points at a copy of its data in the bytes written. -/
def ArchiveInv (st : ArchiveState) : Prop :=
  st.writePos = st.out.length
    ∧ ∀ c ∈ st.dedup, c.offset + c.data.length ≤ st.out.length
        ∧ (st.out.drop c.offset).take c.data.length = c.data

/-- An entry with the `entryOffset` of every part reset to 0: what `writeArchiveFile` leaves
untouched. -/
def clearOffsets (e : DirEntry) : DirEntry :=
  { e with parts := e.parts.map (fun p => { p with entryOffset := 0 }) }

/-- The key `h` that `writeArchiveFile` computes for a part whose `dataCrc32` is the CRC32 of
its data. -/
def hashOf (d : Bytes) : Nat := ((computeCRC32 d <<< 32) ||| d.length) % 2 ^ 64

/-- The `dedup` records of a list of payloads written one after the other from `base` on. -/
def dedupRecords : Nat → List Bytes → List DedupRef
  | _, [] => []
  | base, d :: ds => { h := hashOf d, offset := base, data := d } :: dedupRecords (base + d.length) ds

/-- The position of the payload `d` in the concatenation of the payloads `D`: the total
length of the payloads in front of its first occurrence. -/
def offsetOf : List Bytes → Bytes → Nat
  | [], _ => 0
  | x :: xs, d => if x = d then 0 else x.length + offsetOf xs d

/-- The data of all parts of all entries, in processing order. -/
def allPayloads (entries : List DirEntry) : List Bytes :=
  (entries.map (fun e => e.parts.map (fun p => p.data))).flatten

/-- Add the non-empty payloads to a duplicate-free list, each at its first occurrence. -/
def insertAll (D payloads : List Bytes) : List Bytes :=
  (payloads.filter (fun d => decide (d ≠ []))).foldl setInsert D

/-- The distinct non-empty payloads, in the order of their first occurrence. -/
def distinctPayloads (payloads : List Bytes) : List Bytes := insertAll [] payloads

/-- Invariant of `writeArchiveFile` when every part may be deduplicated: the bytes written are
the distinct payloads `D` seen so far, one after the other, and the `dedup` map has one
record per payload. -/
def DedupInv (st : ArchiveState) (D : List Bytes) : Prop :=
  st.out = D.flatten ∧ st.writePos = st.out.length ∧ st.dedup = dedupRecords 0 D

/-- Two entries `a/x.bin` and `a/y.bin` with the same single two-byte payload. -/
def twinEntries : List DirEntry :=
  [{ path := [97, 47, 120, 46, 98, 105, 110], extension := [98, 105, 110, 0],
     directory := [97, 0], fileName := [120, 0], crc32 := computeCRC32 [170, 170],
     packFileIndex := 999,
     parts := [{ loadFlags := 1, entryLength := 2, entryLengthUncompressed := 2,
                 dataCrc32 := computeCRC32 [170, 170], data := [170, 170] }] },
   { path := [97, 47, 121, 46, 98, 105, 110], extension := [98, 105, 110, 0],
     directory := [97, 0], fileName := [121, 0], crc32 := computeCRC32 [170, 170],
     packFileIndex := 999,
     parts := [{ loadFlags := 1, entryLength := 2, entryLengthUncompressed := 2,
                 dataCrc32 := computeCRC32 [170, 170], data := [170, 170] }] }]

end respawn_vpk

/-! ## Layouts and predicates used to state the results on the reader's tree format -/

namespace RespawnVPK

/-- The 32 bytes of one part in the layout `open` parses and `bake` emits: `u16 archiveIndex`,
`u16 loadFlags`, `u32 textureFlags`, `u64 entryOffset`, `u64 entryLength`,
`u64 entryLengthUncompressed`. -/
def partBytes (p : FilePart) : Bytes :=
  leBytes 2 p.archiveIndex ++ leBytes 2 p.loadFlags ++ leBytes 4 p.textureFlags
    ++ leBytes 8 p.entryOffset ++ leBytes 8 p.entryLength
    ++ leBytes 8 p.entryLengthUncompressed

/-- The part records of an entry, in order. -/
def partsBytes : List FilePart → Bytes
  | [] => []
  | p :: ps => partBytes p ++ partsBytes ps

/-- The bytes of one entry from its file name on: the name and a NUL, `u32 crc32`,
`u16 preloadBytes`, the part records, and the end marker 0xFFFF. -/
def itemRecord (t : TreeItem) : Bytes :=
  t.fileStem ++ [0] ++ leBytes 4 t.meta.crc32 ++ leBytes 2 t.meta.preloadBytes
    ++ partsBytes t.meta.parts ++ [0xFF, 0xFF]

/-- The bytes `bake` writes in front of an entry's file name: the closing zero bytes of the
blocks that end, and the extension and directory strings that changed. -/
def itemPrefix (lastExt lastDir : Bytes) (t : TreeItem) : Bytes :=
  let extEnds : Prop := lastExt ≠ [] ∧ t.ext ≠ lastExt
  let dir1 : Bytes := if extEnds then [] else lastDir
  (if extEnds then [0, 0] else if lastDir ≠ [] ∧ t.dir ≠ lastDir then [0] else [])
    ++ (if t.ext ≠ lastExt then t.ext ++ [0] else [])
    ++ (if t.dir ≠ dir1 then t.dir ++ [0] else [])

/-- The tree body for a list of items when the previous item had the given strings. -/
def itemsLayout : Bytes → Bytes → List TreeItem → Bytes
  | _, _, [] => []
  | lastExt, lastDir, t :: ts =>
    itemPrefix lastExt lastDir t ++ itemRecord t ++ itemsLayout t.ext t.dir ts

/-- A part whose fields fit their on-disk widths, with an archive index other than the end
marker. -/
def FilePart.WF (p : FilePart) : Prop :=
  p.archiveIndex < 2 ^ 16 ∧ p.archiveIndex ≠ 0xFFFF ∧ p.loadFlags < 2 ^ 16
    ∧ p.textureFlags < 2 ^ 32 ∧ p.entryOffset < 2 ^ 64 ∧ p.entryLength < 2 ^ 64
    ∧ p.entryLengthUncompressed < 2 ^ 64

instance (p : FilePart) : Decidable p.WF := by
  unfold FilePart.WF
  infer_instance

/-- A name component that is non-empty and has no NUL byte. -/
def nameOk (s : Bytes) : Prop := s ≠ [] ∧ 0 ∉ s

instance (s : Bytes) : Decidable (nameOk s) := by
  unfold nameOk
  infer_instance

/-- A tree item with non-empty NUL-free components, a 32-bit checksum, no preload bytes and
well-formed parts. -/
def TreeItem.WF (t : TreeItem) : Prop :=
  nameOk t.ext ∧ nameOk t.dir ∧ nameOk t.fileStem ∧ t.meta.crc32 < 2 ^ 32
    ∧ t.meta.preloadBytes = 0 ∧ ∀ p ∈ t.meta.parts, p.WF

instance (t : TreeItem) : Decidable t.WF := by
  unfold TreeItem.WF
  infer_instance

/-- The entry the parser of `open` produces for the record of a tree item without preload
bytes that stands in the block of extension `x` and directory `d`. -/
def parsedAs (x d : Bytes) (t : TreeItem) : ParsedEntry :=
  { extension := x
    directory := d
    filename := t.fileStem
    fullPath := fullPathOf x d t.fileStem
    meta := { crc32 := t.meta.crc32, preloadBytes := 0, preloadOffset := 0,
              parts := t.meta.parts }
    entry := { crc32 := t.meta.crc32, length := dataLenOf 0 t.meta.parts,
               archiveIndex := match t.meta.parts.head? with
                 | some p => p.archiveIndex
                 | none => 0 } }

/-- The entry the parser of `open` produces for a tree item without preload bytes. -/
def parsedOf (t : TreeItem) : ParsedEntry := parsedAs t.ext t.dir t

/-- A parsed entry as an input of the emitter of `bake`: the three strings the parser read,
the path it built, and the metadata. -/
def itemOf (e : ParsedEntry) : TreeItem :=
  { path := e.fullPath, ext := e.extension, dir := e.directory, fileStem := e.filename,
    meta := e.meta, inPatchArchive := false }

end RespawnVPK

/-! ## Concrete inputs for the reader and the pack-then-read composition -/

namespace RespawnVPK

/-- Three tree items: `materials/debug/empty.vmt` (one part in archive 999) and the root
files `a.txt` (two parts) and `b.txt` (no part). -/
def sampleItems : List TreeItem :=
  [{ path := [98, 46, 116, 120, 116], ext := [116, 120, 116], dir := [32], fileStem := [98],
     meta := { crc32 := 7 } },
   { path := [109, 47, 101, 46, 118, 109, 116], ext := [118, 109, 116], dir := [109],
     fileStem := [101],
     meta := { crc32 := 907060870,
               parts := [{ archiveIndex := 999, loadFlags := 0x101, textureFlags := 8,
                           entryOffset := 4294967296, entryLength := 5,
                           entryLengthUncompressed := 5 }] } },
   { path := [97, 46, 116, 120, 116], ext := [116, 120, 116], dir := [32], fileStem := [97],
     meta := { crc32 := 4294967295,
               parts := [{ archiveIndex := 0, loadFlags := 1, entryOffset := 0,
                           entryLength := 3, entryLengthUncompressed := 9 },
                         { archiveIndex := 1, loadFlags := 1, entryOffset := 3,
                           entryLength := 2, entryLengthUncompressed := 2 }] } }]

/-- Two tree items `a.txt` and `b.txt`, one part each, the first with one preload byte
(as carried over from an archive with preload data, or set by a manifest). -/
def preloadItems : List TreeItem :=
  [{ path := [97, 46, 116, 120, 116], ext := [116, 120, 116], dir := [32], fileStem := [97],
     meta := { crc32 := 1, preloadBytes := 1,
               parts := [{ archiveIndex := 0, loadFlags := 1, entryOffset := 0,
                           entryLength := 1, entryLengthUncompressed := 1 }] } },
   { path := [98, 46, 116, 120, 116], ext := [116, 120, 116], dir := [32], fileStem := [98],
     meta := { crc32 := 2,
               parts := [{ archiveIndex := 0, loadFlags := 1, entryOffset := 1,
                           entryLength := 1, entryLengthUncompressed := 1 }] } }]

end RespawnVPK

/-- Pack a directory, open the dir archive that was written, and read one path; the side
archive written by the packer is the file the reader finds for `options.archiveIndex`, and
no other side archive exists. `cleanEntryPath` is the identity (the paths used are
lower-case and slash-normalised). `none` when the pack or the open fails. -/
def packThenRead (bridge : Option respawn_vpk.CompressBridge)
    (decompress : Option RespawnVPK.DecompressBridge) (files : List (Bytes × Bytes))
    (options : respawn_vpk.PackOptions) (manifest : Option respawn_vpk.Manifest)
    (path : Bytes) : Option (Except RespawnVPK.ReadError Bytes) :=
  match respawn_vpk.packDirectoryToRespawnVPK bridge files options manifest with
  | none => none
  | some o =>
    match RespawnVPK.open id o.dirVpk with
    | none => none
    | some vpk =>
      some (RespawnVPK.readEntry id decompress
        (fun i => if i = options.archiveIndex then some o.archive else none) vpk path)

/-- The input directory with `a.txt` holding the byte `x` and `b.txt` holding the byte `y`. -/
def twoFiles : List (Bytes × Bytes) :=
  [([97, 46, 116, 120, 116], [120]), ([98, 46, 116, 120, 116], [121])]

/-- The entry `buildDirEntryFromFile` builds for the empty file `e.txt`. -/
def emptyFileEntry : respawn_vpk.DirEntry :=
  { path := [101, 46, 116, 120, 116], extension := [116, 120, 116, 0], directory := [32, 0],
    fileName := [101, 0], crc32 := 0, preloadBytes := 0, packFileIndex := 999, parts := [] }

/-- The entry `buildDirEntryFromFile` builds for the file `f.txt` holding the byte `x`. -/
def oneByteEntry : respawn_vpk.DirEntry :=
  { path := [102, 46, 116, 120, 116], extension := [116, 120, 116, 0], directory := [32, 0],
    fileName := [102, 0], crc32 := 2363233923, preloadBytes := 0, packFileIndex := 999,
    parts := [{ loadFlags := 1, entryLength := 1, entryLengthUncompressed := 1,
                dataCrc32 := 2363233923, data := [120] }] }

/-- A manifest with one key, `a.txt`, that sets `preloadSize = 1`. -/
def preloadManifest : respawn_vpk.Manifest := fun p =>
  if p = [97, 46, 116, 120, 116] then
    some { preloadSize := 1, loadFlags := 1, textureFlags := 0, useCompression := false }
  else none

/-! ## Measures used to show that the fuel of the parser loops is enough -/

namespace RespawnVPK

/-- The number of bytes a stream can still deliver: the bytes left if it is good, 0 if not. -/
def IStream.left (f : IStream) : Nat := if f.good then f.rest.length else 0

/-- Depth of the loop nest at which a parser mode stands. -/
def modeRank : TreeMode → Nat
  | .ext => 1
  | .dir _ => 2
  | .file _ _ => 3

end RespawnVPK

/-! ## Concrete WAV inputs -/

/-- A 44-byte RIFF/WAVE header that declares PCM, one channel, sample rate 22050, block
alignment 2, 16 bits per sample and a data chunk of 4000 bytes. -/
def s3Header : Bytes :=
  [82, 73, 70, 70, 36, 16, 0, 0, 87, 65, 86, 69, 102, 109, 116, 32, 16, 0, 0, 0, 1, 0, 1, 0,
   34, 86, 0, 0, 68, 172, 0, 0, 2, 0, 16, 0, 100, 97, 116, 97, 160, 15, 0, 0]

/-- A directory with the single file `s.wav`: the header `s3Header` and two data bytes. -/
def wavDir : List (Bytes × Bytes) := [([115, 46, 119, 97, 118], s3Header ++ [1, 2])]

/-- A file of 44 zero bytes: long enough for a WAV header, but not a RIFF file. -/
def zeroWav : Bytes := List.replicate 44 0

/-- The CAM draft of `s.wav` in `wavDir`. -/
def s3Record : respawn_vpk.CamEntry :=
  { originalSize := 46, compressedSize := 46, sampleRate := 22050, channels := 1,
    sampleCount := 2000, headerSize := 44, path := [115, 46, 119, 97, 118] }

/-! ## Vocabulary and inputs for the size guard and the failures of `readEntry` -/

namespace RespawnVPK

/-- The string that `readEntry` stores in `lastError` at each failure; `archivePath idx` is
the path that `buildArchivePath(fullFilePath, idx)` returns. -/
def ReadError.message (archivePath : Nat → String) : ReadError → String
  | .notFound => "entry not found in Respawn VPK tree"
  | .partTooLargeCompressed => "archive part too large (compressed length)"
  | .partTooLargeUncompressed => "archive part too large (uncompressed length)"
  | .entryTooLarge => "entry too large (uncompressed)"
  | .preloadReadFailed => "failed to read preload bytes from directory VPK"
  | .partReadFailed idx => "failed to read archive part from: " ++ archivePath idx
  | .decompressFailed idx =>
    "failed to LZHAM decompress chunk (archiveIndex=" ++ toString idx ++ ")"
  | .noLzhamSupport =>
    "this entry is LZHAM compressed, but vpkedit was built without LZHAM support"

/-- The value of `lastError` when `readEntry` returns: cleared at the start of the call and
set at a failure. -/
def lastErrorAfter (archivePath : Nat → String) : Except ReadError Bytes → String
  | .ok _ => ""
  | .error e => e.message archivePath

/-- One tree item `big.bin` in the root directory: a single chunk in archive 0 of stored
length 100 and logical length 2 GiB. -/
def hugeItems : List TreeItem :=
  [{ path := [98, 105, 103, 46, 98, 105, 110], ext := [98, 105, 110], dir := [32],
     fileStem := [98, 105, 103],
     meta := { crc32 := 0, parts := [{ archiveIndex := 0, loadFlags := 257,
                                       entryLength := 100,
                                       entryLengthUncompressed := 2 ^ 31 }] } }]

/-- The metadata of `big.bin` as `open` parses it. -/
def hugeMeta : MetaEntry :=
  { crc32 := 0, preloadBytes := 0, preloadOffset := 0,
    parts := [{ archiveIndex := 0, loadFlags := 257, entryLength := 100,
                entryLengthUncompressed := 2 ^ 31 }] }

/-- The index that `open` builds from the dir archive that `bake` writes for `hugeItems`. -/
def hugeArchive : Archive :=
  { fileData := bakeDirVpk hugeItems
    metaEntries := [([98, 105, 103, 46, 98, 105, 110], hugeMeta)]
    entries := [([98, 105, 103, 46, 98, 105, 110],
      { crc32 := 0, length := 2 ^ 31, archiveIndex := 0 })] }

/-- The sum of the logical lengths of a chunk list, in exact arithmetic. -/
def logicalSum (parts : List FilePart) : Nat :=
  (parts.map (fun p => p.entryLengthUncompressed)).sum

/-- A chunk within the two per-chunk limits of `readEntry`. -/
def FilePart.withinLimits (p : FilePart) : Prop :=
  p.entryLength ≤ 512 * 1024 * 1024 ∧ p.entryLengthUncompressed ≤ 512 * 1024 * 1024

/-- A decompressor for the examples: it fills the destination with copies of the first source
byte and reports success. -/
def toyDecompress : DecompressBridge := fun src cap => (0, List.replicate cap (src.headD 0))

/-- The metadata of the example entry `a.txt`: two preload bytes at offset 1 of the dir
archive, a raw chunk of 3 bytes and a compressed chunk of 1 stored and 2 logical bytes, both
in archive 1. -/
def demoMeta : MetaEntry :=
  { crc32 := 0, preloadBytes := 2, preloadOffset := 1,
    parts := [{ archiveIndex := 1, entryOffset := 1, entryLength := 3,
                entryLengthUncompressed := 3 },
              { archiveIndex := 1, entryOffset := 0, entryLength := 1,
                entryLengthUncompressed := 2 }] }

/-- An index that holds `a.txt` with `demoMeta`; the dir archive file has the bytes 9 8 7 6. -/
def demoArchive : Archive :=
  { fileData := [9, 8, 7, 6]
    metaEntries := [([97, 46, 116, 120, 116], demoMeta)]
    entries := [([97, 46, 116, 120, 116], { crc32 := 0, length := 7, archiveIndex := 1 })] }

/-- The side archives of `demoArchive`: archive 1 has the bytes 50 51 52 53. -/
def demoSideArchives : Nat → Option Bytes := fun idx => if idx = 1 then some [50, 51, 52, 53] else none

end RespawnVPK

namespace RespawnVPK

/-- The condition under which `readAndValidateHeader` accepts the bytes of a file. -/
def headerAccepted (data : Bytes) : Prop :=
  16 ≤ data.length ∧ leValue (data.take 4) = 0x55AA1234 ∧ leValue ((data.drop 4).take 2) = 2
    ∧ leValue ((data.drop 6).take 2) ≤ 3 ∧ leValue ((data.drop 8).take 4) ≠ 0

end RespawnVPK

/-! ## Extraction to a file (`RespawnVPK::extractEntryToFile`) -/

namespace RespawnVPK

/-- The loop `while (remaining)` of the lambda `streamCopyRange` of `extractEntryToFile`: it
copies windows of at most 256 KiB from the stream to `out`. The result is whether every read
succeeded and the bytes written to `out` so far. -/
def copyWindows : Nat → IStream → Nat → Bytes → Loop (Bool × Bytes)
  | 0, _, _, _ => .more
  | fuel + 1, f, remaining, out =>
    if remaining = 0 then .ret (true, out)
    else
      let chunk := min remaining (256 * 1024)
      match f.read chunk with
      | (none, _) => .ret (false, out)
      | (some b, f1) => copyWindows fuel f1 (remaining - chunk) (out ++ b)

/-- The lambda `streamCopyRange(srcPath, offset, length)` of `extractEntryToFile`; `file` is
the content of the file at `srcPath` (`none` when it cannot be opened), `out` the bytes
written to the destination so far. The window loop runs at most `length` times
(`copyWindows_copies`). -/
def streamCopyRange (file : Option Bytes) (offset length : Nat) (out : Bytes) : Bool × Bytes :=
  match file with
  | none => (false, out)
  | some d =>
    if offset > d.length ∨ length > d.length - offset then (false, out)
    else
      match copyWindows (length + 1) { rest := d.drop offset, pos := offset, good := true }
          length out with
      | .more => (false, out)
      | .ret r => r

/-- The loop `for (const auto& part : meta.parts)` of `extractEntryToFile`. -/
def extractParts (bridge : Option DecompressBridge) (archives : Nat → Option Bytes) :
    Bytes → List FilePart → Bool × Bytes
  | out, [] => (true, out)
  | out, p :: ps =>
    if ¬ p.isCompressed then
      let r := streamCopyRange (archives p.archiveIndex) p.entryOffset p.entryLength out
      if ¬ r.1 then (false, r.2) else extractParts bridge archives r.2 ps
    else
      match bridge with
      | none => (false, out)
      | some _ =>
        match readFileRange (archives p.archiveIndex) p.entryOffset p.entryLength with
        | none => (false, out)
        | some compressed =>
          match lzhamDecompress bridge compressed p.entryLengthUncompressed with
          | none => (false, out)
          | some d => extractParts bridge archives (out ++ d) ps

/-- The reader's `RespawnVPK::extractEntryToFile(entryPath, filepath)` on an archive without
unbaked entries, with a destination that can be opened for writing: the return value and the
bytes written to the destination (nothing when the entry is not found). -/
def extractEntryToFile (clean : Bytes → Bytes) (bridge : Option DecompressBridge)
    (archives : Nat → Option Bytes) (vpk : Archive) (path : Bytes) : Bool × Bytes :=
  match lookup vpk.metaEntries (clean path) with
  | none => (false, [])
  | some meta =>
    let r0 : Bool × Bytes :=
      if meta.preloadBytes ≠ 0 then
        streamCopyRange (some vpk.fileData) meta.preloadOffset meta.preloadBytes []
      else (true, [])
    if ¬ r0.1 then (false, r0.2) else extractParts bridge archives r0.2 meta.parts

end RespawnVPK

/-! ## The index that `bake` rebuilds -/

namespace RespawnVPK

/-- The path that the rebuild loop of `bake` computes for a tree item, before
`cleanEntryPath`. -/
def rebuiltPath (ti : TreeItem) : Bytes :=
  let p0 := if ti.fileStem = [32] then [] else ti.fileStem
  let p1 := if ti.ext ≠ [32] then p0 ++ [46] ++ ti.ext else p0
  if ti.dir ≠ [32] ∧ ¬ ti.dir.isEmpty then ti.dir ++ [47] ++ p1 else p1

/-- The value `dataLen` of the rebuild loop of `bake`: a 64-bit sum over the parts, started
at 0. -/
def rebuiltLength (parts : List FilePart) : Nat :=
  parts.foldl (fun acc p => (acc + p.entryLengthUncompressed) % 2 ^ 64) 0

/-- The loop of `bake` under the comment "Rebuild in-memory state to match output", run on
the cleared maps: `metaEntries` and `entries` after the loop. `treeItems` is the sorted item
list the tree was written from. -/
def rebuildIndex (clean : Bytes → Bytes) (treeItems : List TreeItem) :
    List (Bytes × MetaEntry) × List (Bytes × Entry) :=
  treeItems.foldl (fun st ti =>
    let fullPath := clean (rebuiltPath ti)
    let entry : Entry :=
      { crc32 := ti.meta.crc32
        length := rebuiltLength ti.meta.parts
        archiveIndex := match ti.meta.parts.head? with
          | some p => p.archiveIndex
          | none => 0 }
    (emplace st.1 fullPath ti.meta, emplace st.2 fullPath entry)) ([], [])

/-- A dir archive with inline preload data: the header, the tree with the single entry
`a.txt` (crc32 1, `preloadBytes = 1`, one chunk of logical length 1 in archive 0), the
preload byte 88 after the chunk terminator, and the closing zero bytes. -/
def preloadDirVpk : Bytes :=
  respawn_vpk.buildHeader 52
    ++ [116, 120, 116, 0, 32, 0, 97, 0] ++ leBytes 4 1 ++ leBytes 2 1
    ++ partBytes { archiveIndex := 0, loadFlags := 1, entryOffset := 0, entryLength := 1,
                   entryLengthUncompressed := 1 }
    ++ [0xFF, 0xFF] ++ [88] ++ [0, 0, 0]

/-- The metadata that `open` records for `a.txt` of `preloadDirVpk`. -/
def preloadedMeta : MetaEntry :=
  { crc32 := 1, preloadBytes := 1, preloadOffset := 64,
    parts := [{ archiveIndex := 0, loadFlags := 1, entryOffset := 0, entryLength := 1,
                entryLengthUncompressed := 1 }] }

/-- The tree item that `bake` builds for the baked entry `a.txt` of `preloadDirVpk`: the
strings split from the path and the metadata copied from `metaEntries`. -/
def preloadedItem : TreeItem :=
  { path := [97, 46, 116, 120, 116], ext := [116, 120, 116], dir := [32], fileStem := [97],
    meta := preloadedMeta }

end RespawnVPK

/-! ## Side-archive path derivation (`buildArchivePath`, `makeArchivePath`) -/

/-- The bytes of an ASCII string literal of the source. -/
def bytesOf (s : String) : Bytes := s.toList.map (fun c => c.toNat)

/-- The decimal digits of `v`, most significant first, as ASCII bytes (at most `fuel`
digits). -/
def decDigits : Nat → Nat → Bytes
  | 0, _ => []
  | fuel + 1, v => if v < 10 then [48 + v] else decDigits fuel (v / 10) ++ [48 + v % 10]

/-- What `snprintf` writes for the conversion `%03u` of an `unsigned` value: its decimal
digits, padded with zeros on the left to three characters. -/
def format03 (v : Nat) : Bytes :=
  let ds := decDigits 10 v
  List.replicate (3 - ds.length) 48 ++ ds

/-- The language tokens of `stripPakLangFilenamePrefix`, in the order of the array. -/
def pakLangs : List Bytes :=
  ["english", "french", "german", "italian", "japanese", "korean", "polish", "portugese",
   "russian", "spanish", "tchinese", "schinese"].map bytesOf

/-- The function `std::isdigit` on one byte in the C locale. -/
def isDigitByte (c : Nat) : Bool := decide (48 ≤ c ∧ c ≤ 57)

/-- The call `std::filesystem::path::parent_path()` on a POSIX path: the path without its
last component and without the slashes in front of it; the root directory is kept when
nothing else is left. -/
def fsParentPath (p : Bytes) : Bytes :=
  let dirPart := (p.reverse.dropWhile (fun c => c != 47)).reverse
  let trimmed := (dirPart.reverse.dropWhile (fun c => c == 47)).reverse
  if trimmed.isEmpty ∧ ¬ dirPart.isEmpty then [47] else trimmed

/-- The call `(p / q).string()` of `std::filesystem::path` on POSIX paths: an absolute `q`
replaces `p`; otherwise a slash is put in between when `p` has a filename. -/
def fsAppend (p q : Bytes) : Bytes :=
  if q.head? = some 47 then q
  else if ¬ (pathFilename p).isEmpty then p ++ [47] ++ q
  else p ++ q

/-- The helper `stripPakLangFilenamePrefix(path)`, which `RespawnVPKPack.cpp` and
`RespawnVPK.cpp` both define with the same text. -/
def stripPakLangFilenamePrefix (path : Bytes) : Bytes :=
  let name := pathFilename path
  let nameLower := toLower name
  match pakLangs.find? (fun lang => lang.isPrefixOf nameLower) with
  | some lang => fsAppend (fsParentPath path) (name.drop lang.length)
  | none => path

namespace RespawnVPK

/-- The lambda `endsWithCi` of `buildArchivePath`. -/
def endsWithCi (str suffix : Bytes) : Bool :=
  if str.length < suffix.length then false
  else toLower (str.drop (str.length - suffix.length)) = toLower suffix

/-- The lambda `tryBuild` of `RespawnVPK::buildArchivePath` (the pure derivation step) for
the captured `archiveIndex`. -/
def tryBuild (archiveIndex : Nat) (base : Bytes) : Bytes :=
  let s := base
  if endsWithCi s (bytesOf "_dir.vpk") then
    s.take (s.length - 8) ++ (bytesOf "_" ++ format03 archiveIndex ++ bytesOf ".vpk")
  else if 8 ≤ s.length ∧ endsWithCi s (bytesOf ".vpk") ∧ s.getD (s.length - 8) 0 = 95
      ∧ isDigitByte (s.getD (s.length - 7) 0) ∧ isDigitByte (s.getD (s.length - 6) 0)
      ∧ isDigitByte (s.getD (s.length - 5) 0) then
    s.take (s.length - 7) ++ format03 archiveIndex ++ s.drop (s.length - 4)
  else s

/-- The reader's `RespawnVPK::makeArchivePathForWrite(dirVpkPath, archiveIndex)`. -/
def makeArchivePathForWrite (dirVpkPath : Bytes) (archiveIndex : Nat) : Bytes :=
  let base := stripPakLangFilenamePrefix dirVpkPath
  if 8 ≤ base.length ∧ toLower (base.drop (base.length - 8)) = toLower (bytesOf "_dir.vpk") then
    base.take (base.length - 8) ++ (bytesOf "_" ++ format03 archiveIndex ++ bytesOf ".vpk")
  else base

end RespawnVPK

namespace respawn_vpk

/-- The packer's `makeArchivePath(dirVpkPath, archiveIndex)`. -/
def makeArchivePath (dirVpkPath : Bytes) (archiveIndex : Nat) : Bytes :=
  let base :=
    if endsWithInsensitive dirVpkPath (bytesOf "_dir.vpk") then
      dirVpkPath.take (dirVpkPath.length - 8)
        ++ (bytesOf "_" ++ format03 archiveIndex ++ bytesOf ".vpk")
    else dirVpkPath
  stripPakLangFilenamePrefix base

end respawn_vpk

/-- The value of a string of decimal digits. -/
def decValue (bs : Bytes) : Nat := bs.foldl (fun acc b => acc * 10 + (b - 48)) 0

/-- What `stripPakLangFilenamePrefix` puts in front of a tail that starts with an underscore
and has no slash: the result is this prefix followed by the tail. -/
def strippedStem (s : Bytes) : Bytes :=
  match pakLangs.find? (fun lang => lang.isPrefixOf (toLower (pathFilename s))) with
  | some lang => fsAppend (fsParentPath s) ((pathFilename s).drop lang.length)
  | none => s

/-- The dir-archive path of the locale example: an English client archive. -/
def localeDirPath : Bytes := bytesOf "englishclient_mp_rr_box.bsp.pak000_dir.vpk"

namespace RespawnVPK

/-- The second pattern of `tryBuild`: the path ends with an underscore, three digits and
`.vpk`. -/
def numberedPattern (s : Bytes) : Prop :=
  8 ≤ s.length ∧ endsWithCi s (bytesOf ".vpk") = true ∧ s.getD (s.length - 8) 0 = 95
    ∧ isDigitByte (s.getD (s.length - 7) 0) = true
    ∧ isDigitByte (s.getD (s.length - 6) 0) = true
    ∧ isDigitByte (s.getD (s.length - 5) 0) = true

instance (s : Bytes) : Decidable (numberedPattern s) := by
  unfold numberedPattern
  infer_instance

end RespawnVPK

namespace RespawnVPK

/-- The fixed-width fields of an entry in the tree: `u32 crc32`, `u16 preloadBytes`, the part
records and the end marker 0xFFFF. -/
def itemFixed (t : TreeItem) : Bytes :=
  leBytes 4 t.meta.crc32 ++ leBytes 2 t.meta.preloadBytes ++ partsBytes t.meta.parts
    ++ [0xFF, 0xFF]

end RespawnVPK

/-! ## The archive index inferred from a dir archive path -/

/-- The call `s.rfind(pat)` of `std::string` tried at the positions below `k`, highest
first. -/
def rfindBelow (s pat : Bytes) : Nat → Option Nat
  | 0 => none
  | k + 1 => if (s.drop k).take pat.length = pat then some k else rfindBelow s pat k

/-- The call `s.rfind(pat)` of `std::string`: the highest position at which `pat` occurs in
`s`, `none` for `npos`. -/
def rfind (s pat : Bytes) : Option Nat :=
  if s.length < pat.length then none else rfindBelow s pat (s.length - pat.length + 1)

namespace respawn_vpk

/-- The packer's `inferArchiveIndexFromDirVpkPath(outputDirVpkPath, fallback)`. -/
def inferArchiveIndexFromDirVpkPath (outputDirVpkPath : Bytes) (fallback : Nat) : Nat :=
  let nameLower := toLower (pathFilename outputDirVpkPath)
  match rfind nameLower (bytesOf "pak") with
  | none => fallback
  | some pos =>
    if pos + 6 > nameLower.length then fallback
    else
      let d0 := nameLower.getD (pos + 3) 0
      let d1 := nameLower.getD (pos + 4) 0
      let d2 := nameLower.getD (pos + 5) 0
      if ¬ isDigitByte d0 ∨ ¬ isDigitByte d1 ∨ ¬ isDigitByte d2 then fallback
      else
        let idx := (d0 - 48) * 100 + (d1 - 48) * 10 + (d2 - 48)
        if idx > 999 then fallback else idx % 2 ^ 16

end respawn_vpk

/-! ## Vocabulary for the sort order -/

/-- Modelled from the spec: the order of "sort entries by `(ext, dir, file_stem)`
ascending", the lexicographic comparison of the triples, each component compared as a string
of unsigned bytes. -/
def tripleLess (a b : Bytes × Bytes × Bytes) : Prop :=
  a.1 < b.1 ∨ (a.1 = b.1 ∧ (a.2.1 < b.2.1 ∨ (a.2.1 = b.2.1 ∧ a.2.2 < b.2.2)))

/-- A string of the packer's `DirEntry` that ends with its NUL character and has no other
NUL byte. -/
def cstrOk (s : Bytes) : Prop := s.getLast? = some 0 ∧ 0 ∉ s.dropLast

instance (s : Bytes) : Decidable (cstrOk s) := by
  unfold cstrOk
  infer_instance

namespace respawn_vpk

/-- The three name components of an entry without their closing NUL characters. -/
def DirEntry.names (e : DirEntry) : Bytes × Bytes × Bytes :=
  (e.extension.dropLast, e.directory.dropLast, e.fileName.dropLast)

end respawn_vpk

namespace respawn_vpk

/-- An entry whose three name strings end with their NUL and have no other NUL byte. -/
def DirEntry.Terminated (e : DirEntry) : Prop :=
  cstrOk e.extension ∧ cstrOk e.directory ∧ cstrOk e.fileName

instance (e : DirEntry) : Decidable e.Terminated := by
  unfold DirEntry.Terminated
  infer_instance

end respawn_vpk

/-! ## The patch-archive encoding loop of `bake` -/

namespace RespawnVPK

/-- The constant `DEFAULT_MAX_PART_SIZE` of `RespawnVPK.cpp`. -/
def DEFAULT_MAX_PART_SIZE : Nat := 1024 * 1024

/-- The constant `DEFAULT_COMPRESSION_THRESHOLD` of `RespawnVPK.cpp`. -/
def DEFAULT_COMPRESSION_THRESHOLD : Nat := 4096

/-- The constant `PATCH_ARCHIVE_INDEX` of `bake`. -/
def PATCH_ARCHIVE_INDEX : Nat := 999

/-- The state of the encoding loop of `bake`: the buffer `patchArchive`, the 64-bit counter
`patchOffset`, and the map `patchDedup` as an association list from key to offsets. -/
structure PatchState where
  patchArchive : Bytes := []
  patchOffset : Nat := 0
  patchDedup : List (Nat × List Nat) := []
deriving DecidableEq

/-- The values that the block "Choose per-entry values" of `bake` has settled when the part
loop of an unbaked entry starts. -/
structure PatchValues where
  loadFlags : Nat := (1 <<< 0) ||| (1 <<< 8)
  textureFlags : Nat := 0
  useCompression : Bool := true
  deDuplicate : Bool := true
  manifestMatched : Bool := false
deriving DecidableEq

/-- The loop `for (const auto off : it->second)` of `bake`: the first offset of the bucket
that lies in the buffer and holds the bytes of `partData`. The sum `rel + partData.size()`
is a `size_t`. -/
def findReusable (patchArchive : Bytes) (baseOffset : Nat) (partData : Bytes) :
    List Nat → Option Nat
  | [] => none
  | off :: rest =>
    if off < baseOffset then findReusable patchArchive baseOffset partData rest
    else
      let rel := (off - baseOffset) % 2 ^ 64
      if (rel + partData.length) % 2 ^ 64 > patchArchive.length then
        findReusable patchArchive baseOffset partData rest
      else if (patchArchive.drop rel).take partData.length = partData then some off
      else findReusable patchArchive baseOffset partData rest

/-- The call `patchDedup[h].push_back(off)`. -/
def dedupPush (m : List (Nat × List Nat)) (h off : Nat) : List (Nat × List Nat) :=
  if m.any (fun kv => kv.1 = h) then
    m.map (fun kv => if kv.1 = h then (kv.1, kv.2 ++ [off]) else kv)
  else m ++ [(h, [off])]

/-- The part of the loop body of `bake` from "Deduplicate stored bytes if enabled" on: the
new state and the `entryOffset` given to the chunk. `patchOffset` is a `uint64_t`. -/
def storePart (deDuplicate : Bool) (st : PatchState) (partData : Bytes) : PatchState × Nat :=
  let appended : PatchState × Nat :=
    ({ st with patchArchive := st.patchArchive ++ partData
               patchOffset := (st.patchOffset + partData.length) % 2 ^ 64 }, st.patchOffset)
  if deDuplicate ∧ ¬ partData.isEmpty then
    let crc := computeCRC32 partData
    let h := ((crc <<< 32) ||| partData.length) % 2 ^ 64
    let baseOffset := (st.patchOffset + 2 ^ 64 - st.patchArchive.length % 2 ^ 64) % 2 ^ 64
    let found : Option Nat :=
      match st.patchDedup.find? (fun kv => kv.1 = h) with
      | some kv => findReusable st.patchArchive baseOffset partData kv.2
      | none => none
    match found with
    | some off => (st, off)
    | none =>
      ({ patchArchive := st.patchArchive ++ partData
         patchOffset := (st.patchOffset + partData.length) % 2 ^ 64
         patchDedup := dedupPush st.patchDedup h st.patchOffset }, st.patchOffset)
  else appended

/-- The bytes `partData` that one iteration of the part loop of `bake` stores for the span
of `partLen` bytes at `fileOff`; `compress` is `RespawnVPK::lzhamCompress`. -/
def patchPartData (compress : Bytes → Bytes) (ext : Bytes) (v : PatchValues) (file : Bytes)
    (fileOff partLen : Nat) : Bytes :=
  let partSpan := (file.drop fileOff).take partLen
  let notExcluded : Bool := ext ≠ bytesOf "wav" ∧ ext ≠ bytesOf "vtf"
  let doCompress0 : Bool := DEFAULT_COMPRESSION_THRESHOLD ≤ partLen ∧ notExcluded
  let doCompress : Bool := if v.manifestMatched then v.useCompression ∧ notExcluded else doCompress0
  let compressed := compress partSpan
  if doCompress ∧ compressed.length < partSpan.length then compressed else partSpan

/-- The loop `while (fileOff < file.size())` of `bake`, with fuel: the new state and, for
every chunk pushed to `out.meta.parts`, the chunk together with the bytes `partData` stored
for it. `none` means that the fuel ran out. -/
def encodeParts (compress : Bytes → Bytes) (ext : Bytes) (v : PatchValues) (file : Bytes) :
    Nat → PatchState → Nat → Option (PatchState × List (FilePart × Bytes))
  | 0, _, _ => none
  | fuel + 1, st, fileOff =>
    if fileOff < file.length then
      let partLen := min DEFAULT_MAX_PART_SIZE (file.length - fileOff)
      let partData := patchPartData compress ext v file fileOff partLen
      let r := storePart v.deDuplicate st partData
      let p : FilePart :=
        { archiveIndex := PATCH_ARCHIVE_INDEX, loadFlags := v.loadFlags,
          textureFlags := v.textureFlags, entryOffset := r.2,
          entryLength := partData.length, entryLengthUncompressed := partLen }
      match encodeParts compress ext v file fuel r.1 (fileOff + partLen) with
      | none => none
      | some (st', rest) => some (st', (p, partData) :: rest)
    else some (st, [])

/-- An unbaked entry as the part loop of `bake` sees it: `out.ext`, the local `file` after
the WAV handling, and the values chosen for the entry. -/
structure UnbakedItem where
  ext : Bytes
  file : Bytes
  values : PatchValues := {}
deriving DecidableEq

/-- The loop `for (auto& [path, item] : items)` of `bake` restricted to what it does to the
patch buffer: the unbaked entries in the order of the iteration (baked entries leave the
state as it is). The result is the final state and the chunks of every entry. -/
def encodeUnbaked (compress : Bytes → Bytes) :
    PatchState → List UnbakedItem → Option (PatchState × List (List (FilePart × Bytes)))
  | st, [] => some (st, [])
  | st, it :: rest =>
    match encodeParts compress it.ext it.values it.file (it.file.length + 1) st 0 with
    | none => none
    | some (st1, parts) =>
      match encodeUnbaked compress st1 rest with
      | none => none
      | some (st2, more) => some (st2, parts :: more)

/-- Invariant of the encoding loop for a pre-existing patch archive of `B` bytes. -/
def PatchInv (B : Nat) (st : PatchState) : Prop :=
  st.patchOffset = B + st.patchArchive.length
  ∧ ∀ kv ∈ st.patchDedup, ∀ off ∈ kv.2, B ≤ off ∧ off ≤ B + st.patchArchive.length

/-- A chunk whose offset is at least `B` and whose stored bytes stand in the buffer at
`entryOffset - B`. -/
def ChunkStored (B : Nat) (buf : Bytes) (c : FilePart × Bytes) : Prop :=
  B ≤ c.1.entryOffset ∧ c.1.entryLength = c.2.length
  ∧ (buf.drop (c.1.entryOffset - B)).take c.1.entryLength = c.2

end RespawnVPK

/-! ## The name strings and the sort key of a packed path -/

namespace respawn_vpk

/-- The three name strings that `buildDirEntryFromFile` stores for the relative path `rel`:
`out.extension`, `out.directory` and `out.fileName`, each with its closing NUL. -/
def splitPath (rel : Bytes) : Bytes × Bytes × Bytes :=
  let extLower := getExtensionLower rel
  let filename := pathFilename rel
  (if extLower.isEmpty then [32, 0] else extLower ++ [0],
   if (pathParent rel).isEmpty then [32, 0] else pathParent rel ++ [0],
   if extLower.isEmpty then filename ++ [0] else pathStem filename ++ [0])

/-- The sort key of the entry that the packer builds for the relative path `rel`. -/
def pathSortKey (rel : Bytes) : Bytes :=
  (splitPath rel).1 ++ (splitPath rel).2.1 ++ (splitPath rel).2.2

/-- Two files in one directory whose names differ in the case of the extension only. -/
def caseFiles : List (Bytes × Bytes) := [(bytesOf "A.TXT", [120]), (bytesOf "A.txt", [121])]

end respawn_vpk

/-! ## The manifest written by one pack as the input of the next -/

namespace respawn_vpk

/-- The manifest that `readManifestForDirVpkPath` builds from the file that
`writeManifestForDirVpkPath` wrote for `items`, as a lookup on entry paths: the items are
written sorted by path, an item whose key is empty is skipped, and `emplace` keeps the first
value of a key. `norm` is `normalizeManifestPath`; the text writer and parser of the external
library are taken to hand back the items they were given. -/
def manifestOfItems (norm : Bytes → Bytes) (items : List ManifestWriteItem) : Manifest :=
  fun p =>
    let sorted := items.insertionSort (fun a b => ¬ b.path < a.path)
    let kept := sorted.filter (fun it => ¬ (norm it.path).isEmpty)
    (kept.find? (fun it => norm it.path = norm p)).map (fun it => it.values)

/-- A directory with the one file `a.txt` of six bytes. -/
def sixByteDir : List (Bytes × Bytes) := [(bytesOf "a.txt", [1, 2, 3, 4, 5, 6])]

/-- Options under which a file of six bytes has two chunks, the second one below the
compression threshold. -/
def tinyOptions : PackOptions := { maxPartSize := 4, compressionThreshold := 3 }

end respawn_vpk

/-! ## Entries and paths that the validator reads back -/

namespace respawn_vpk

/-- The 30 bytes of a part record in front of its marker. -/
def partFields (p : FilePart) : Bytes :=
  leBytes 4 p.loadFlags ++ leBytes 2 p.textureFlags ++ leBytes 8 p.entryOffset
    ++ leBytes 8 p.entryLength ++ leBytes 8 p.entryLengthUncompressed

/-- An entry that `validateDirTreeAgainstInput` can read back: the three name strings end
with their NUL, have no other NUL byte and are not empty, the directory does not begin with a
space unless it is the one-space string, and there is at least one part. -/
def DirEntry.Valid (e : DirEntry) : Prop :=
  e.Terminated ∧ e.extension.dropLast ≠ [] ∧ e.directory.dropLast ≠ []
    ∧ e.fileName.dropLast ≠ []
    ∧ ¬ (e.directory.head? = some 32 ∧ e.directory.dropLast ≠ [32]) ∧ e.parts ≠ []

instance (e : DirEntry) : Decidable e.Valid := by
  unfold DirEntry.Valid
  infer_instance

/-- The path that `validateDirTreeAgainstInput` reconstructs for an entry. -/
def DirEntry.reconstructed (e : DirEntry) : Bytes :=
  validatorFullPath e.extension.dropLast e.directory.dropLast e.fileName.dropLast

/-- The strings of the last entry of a list (the values of `lastExt` and `lastDir` after
the loop of `buildDirTree`), or the given ones for the empty list. -/
def lastStrings (x d : Bytes) : List DirEntry → Bytes × Bytes
  | [] => (x, d)
  | e :: es => lastStrings e.extension e.directory es

/-- A relative path that the validator's reconstruction gives back from the strings
`buildDirEntryFromFile` stores: it has no leading slash, its extension has no upper-case
letter and is not a period followed by one space, and neither its file stem nor its
directory is the one-space string. -/
def Reconstructible (rel : Bytes) : Prop :=
  rel.head? ≠ some 47
    ∧ toLower (pathExtension (pathFilename rel)) = pathExtension (pathFilename rel)
    ∧ pathExtension (pathFilename rel) ≠ [46, 32]
    ∧ (splitPath rel).2.2 ≠ [32, 0]
    ∧ pathParent rel ≠ [32]

instance (rel : Bytes) : Decidable (Reconstructible rel) := by
  unfold Reconstructible
  infer_instance

/-- A relative path whose strings the tree can hold: no NUL byte, a file name, and a
directory that does not begin with a space. -/
def StorablePath (rel : Bytes) : Prop :=
  0 ∉ rel ∧ pathFilename rel ≠ [] ∧ (pathParent rel).head? ≠ some 32

instance (rel : Bytes) : Decidable (StorablePath rel) := by
  unfold StorablePath
  infer_instance

/-- A relative path of a file that the packer can store and the validator gives back: a
reconstructible and storable path. -/
def PackablePath (rel : Bytes) : Prop :=
  Reconstructible rel ∧ StorablePath rel

instance (rel : Bytes) : Decidable (PackablePath rel) := by
  unfold PackablePath
  infer_instance

end respawn_vpk

/-! ## The grammar of the directory tree that the validator accepts

The definitions of this section are not translated from a function of the source. They state
the grammar of a directory tree as data (extension blocks of directory blocks of file entries
with their chunk records and markers), so that the validator of the source can be compared
with it. -/

namespace respawn_vpk

/-- Tree grammar: a file entry of a directory tree under the grammar of
`validateDirTreeAgainstInput`: the file name, the 8 bytes of `crc32`, `preload_bytes` and the
archive index, and the 30 field bytes of every chunk record. -/
structure TreeFile where
  name : Bytes
  header : Bytes
  records : List Bytes
deriving DecidableEq

/-- Tree grammar: a directory block, the directory string and its file entries. -/
structure TreeDir where
  dir : Bytes
  files : List TreeFile
deriving DecidableEq

/-- Tree grammar: an extension block, the extension string and its directory
blocks. -/
structure TreeExt where
  ext : Bytes
  dirs : List TreeDir
deriving DecidableEq

/-- Tree grammar: the chunk records of an entry, each followed by its marker:
0x0000 behind every record but the last, 0xFFFF behind the last. -/
def encodeRecords : List Bytes → Bytes
  | [] => []
  | r :: rs => r ++ (if rs.isEmpty then [0xFF, 0xFF] else [0, 0]) ++ encodeRecords rs

/-- Tree grammar: chunk records that are all followed by the continuation marker
0x0000: the records of an entry in front of the one that is being read. -/
def continuedRecords : List Bytes → Bytes
  | [] => []
  | r :: rs => r ++ 0 :: 0 :: continuedRecords rs

/-- Tree grammar: the bytes of a file entry. -/
def TreeFile.encode (f : TreeFile) : Bytes :=
  f.name ++ 0 :: (f.header ++ encodeRecords f.records)

/-- Tree grammar: the bytes of a list of file entries. -/
def encodeFiles : List TreeFile → Bytes
  | [] => []
  | f :: fs => f.encode ++ encodeFiles fs

/-- Tree grammar: the bytes of a directory block: the string, the entries and the
closing zero byte. -/
def TreeDir.encode (d : TreeDir) : Bytes :=
  d.dir ++ 0 :: (encodeFiles d.files ++ [0])

/-- Tree grammar: the bytes of a list of directory blocks. -/
def encodeDirs : List TreeDir → Bytes
  | [] => []
  | d :: ds => d.encode ++ encodeDirs ds

/-- Tree grammar: the bytes of an extension block. -/
def TreeExt.encode (x : TreeExt) : Bytes :=
  x.ext ++ 0 :: (encodeDirs x.dirs ++ [0])

/-- Tree grammar: the bytes of a list of extension blocks. -/
def encodeExts : List TreeExt → Bytes
  | [] => []
  | x :: xs => x.encode ++ encodeExts xs

/-- Tree grammar: a whole tree, the extension blocks and the closing zero byte. -/
def encodeTree (exts : List TreeExt) : Bytes := encodeExts exts ++ [0]

/-- Tree grammar: the bytes of a tree from its start up to the point where the
validator reads the marker of a chunk record: complete extension blocks `es`, the open
extension `x` with complete directory blocks `ds`, the open directory `d` with complete
entries `fs`, and the open entry with its name, header, the records `recs` that were
continued, and the 30 field bytes of the record whose marker comes next. -/
def treeUpToMarker (es : List TreeExt) (x : Bytes) (ds : List TreeDir) (d : Bytes)
    (fs : List TreeFile) (name header : Bytes) (recs : List Bytes) (fields : Bytes) : Bytes :=
  encodeExts es ++ (x ++ 0 :: (encodeDirs ds ++ (d ++ 0 :: (encodeFiles fs
    ++ (name ++ 0 :: (header ++ (continuedRecords recs ++ fields)))))))

/-- Tree grammar: a well-formed file entry: a non-empty name without NUL, 8 header
bytes, at least one chunk record, every record of 30 bytes. -/
def TreeFile.WF (f : TreeFile) : Prop :=
  f.name ≠ [] ∧ 0 ∉ f.name ∧ f.header.length = 8 ∧ f.records ≠ []
    ∧ ∀ r ∈ f.records, r.length = 30

/-- Tree grammar: a well-formed directory block: a non-empty string without NUL
that does not begin with a space unless it is the one-space string, and well-formed
entries. -/
def TreeDir.WF (d : TreeDir) : Prop :=
  d.dir ≠ [] ∧ 0 ∉ d.dir ∧ ¬ (d.dir.head? = some 32 ∧ d.dir ≠ [32]) ∧ ∀ f ∈ d.files, f.WF

/-- Tree grammar: a well-formed extension block. -/
def TreeExt.WF (x : TreeExt) : Prop :=
  x.ext ≠ [] ∧ 0 ∉ x.ext ∧ ∀ d ∈ x.dirs, d.WF

/-- Tree grammar: the paths of the entries of a directory block. -/
def filePaths (ext dir : Bytes) (fs : List TreeFile) : List Bytes :=
  fs.map (fun f => validatorFullPath ext dir f.name)

/-- Tree grammar: the paths of the entries of a list of directory blocks. -/
def dirPaths (ext : Bytes) : List TreeDir → List Bytes
  | [] => []
  | d :: ds => filePaths ext d.dir d.files ++ dirPaths ext ds

/-- Tree grammar: the paths of the entries of a tree, in file order. -/
def treePaths : List TreeExt → List Bytes
  | [] => []
  | x :: xs => dirPaths x.ext x.dirs ++ treePaths xs

instance (f : TreeFile) : Decidable f.WF := by
  unfold TreeFile.WF
  infer_instance

instance (d : TreeDir) : Decidable d.WF := by
  unfold TreeDir.WF
  infer_instance

instance (x : TreeExt) : Decidable x.WF := by
  unfold TreeExt.WF
  infer_instance

end respawn_vpk

/-! ## Inputs of the manifest round trip -/

namespace respawn_vpk

/-- The span of chunk `i` of a file in the part loop of `buildDirEntryFromFile`: the bytes
from `i * maxPartSize` on, at most `maxPartSize` of them. -/
def chunkSpan (options : PackOptions) (file : Bytes) (i : Nat) : Bytes :=
  (file.drop (i * options.maxPartSize)).take
    (min options.maxPartSize (file.length - i * options.maxPartSize))

/-- The test `compressed.size() < partData.size()` of the part loop for chunk `i`. -/
def chunkShrinks (bridge : Option CompressBridge) (options : PackOptions) (file : Bytes)
    (i : Nat) : Prop :=
  (lzhamCompress bridge (chunkSpan options file i)).length < (chunkSpan options file i).length

instance (bridge : Option CompressBridge) (options : PackOptions) (file : Bytes) (i : Nat) :
    Decidable (chunkShrinks bridge options file i) := by
  unfold chunkShrinks
  infer_instance

/-- A file for which the threshold test of the part loop and the `useCompression` flag that
the packer writes to the manifest (the stored state of the first chunk) decide alike: every
chunk that the compressor shrinks reaches the threshold exactly when the first chunk reaches
it and is shrunk. Files with the extension wav or vtf are never compressed. -/
def SameCompressionChoice (bridge : Option CompressBridge) (options : PackOptions)
    (rel contents : Bytes) : Prop :=
  compressionExcluded (getExtensionLower rel) = false →
    ∀ i < contents.length, i * options.maxPartSize < contents.length →
      chunkShrinks bridge options contents i →
      (options.compressionThreshold ≤ (chunkSpan options contents i).length ↔
        options.compressionThreshold ≤ (chunkSpan options contents 0).length
          ∧ chunkShrinks bridge options contents 0)

instance (bridge : Option CompressBridge) (options : PackOptions) (rel contents : Bytes) :
    Decidable (SameCompressionChoice bridge options rel contents) := by
  unfold SameCompressionChoice
  infer_instance

/-- A directory with `B.bin` of three bytes and `b.bin` of two bytes: the manifest keys of
the two paths coincide. -/
def caseKeyDir : List (Bytes × Bytes) :=
  [(bytesOf "B.bin", [1, 2, 3]), (bytesOf "b.bin", [5, 6])]

/-- A directory with `A.txt` of seven bytes (chunks of 4 and 3 bytes under `tinyOptions`,
both at or above its compression threshold) and `b.bin` of two bytes. -/
def caseDir : List (Bytes × Bytes) :=
  [(bytesOf "A.txt", [1, 2, 3, 4, 5, 6, 7]), (bytesOf "b.bin", [5, 6])]

/-- A one-part entry `b.vtf` with texture flags 8. -/
def textureEntry : DirEntry :=
  { path := bytesOf "b.vtf", extension := bytesOf "vtf" ++ [0], directory := [32, 0],
    fileName := bytesOf "b" ++ [0], crc32 := 1438416925, preloadBytes := 0,
    packFileIndex := 999,
    parts := [{ loadFlags := 1, textureFlags := 8, entryLength := 3,
                entryLengthUncompressed := 3, data := [1, 2, 3] }] }

end respawn_vpk

/-! ## The patch archive in `bake` -/

namespace RespawnVPK

/-- The loop of `bake` that computes `preserveExistingPatchArchive`. An element of `items`
stands for one item of the map `items`: its flag `unbaked` and what
`metaEntries.find(path)` returns for its path. -/
def preserveExistingPatchArchive (items : List (Bool × Option MetaEntry)) : Bool :=
  items.any (fun it =>
    match it.1, it.2 with
    | false, some m => decide (m.archiveIndex = PATCH_ARCHIVE_INDEX)
    | _, _ => false)

/-- The map `items` of `bake` as the preserve loop sees it: the entries of the reader that
are not overridden by an unbaked entry, then the unbaked entries (`unbakedKeys` are the keys
of `unbakedEntries`). -/
def bakeItems (vpk : Archive) (unbakedKeys : List Bytes) : List (Bool × Option MetaEntry) :=
  (vpk.entries.filter (fun kv => kv.1 ∉ unbakedKeys)).map
      (fun kv => (false, lookup vpk.metaEntries kv.1))
    ++ unbakedKeys.map (fun k => (true, lookup vpk.metaEntries k))

/-- The value of `patchOffset` when the item loop of `bake` starts; `dstSize` is the size of
the file at `dstPatchArchivePath` when it is a regular file. -/
def initialPatchOffset (preserve : Bool) (dstSize : Option Nat) : Nat :=
  if preserve then
    match dstSize with
    | some n => n % 2 ^ 64
    | none => 0
  else 0

/-- The file at `dstPatchArchivePath` after the block "Write patch archive" of `bake`: the
buffer is appended to the file (`std::ios::app`) when the existing archive is preserved and
replaces it (`std::ios::trunc`) otherwise; nothing is written for an empty buffer. `dst` is
the content of the file in front of the block, `none` when there is no such file. -/
def writePatchArchive (preserve : Bool) (dst : Option Bytes) (patchArchive : Bytes) :
    Option Bytes :=
  if patchArchive.isEmpty then dst
  else if preserve then some (dst.getD [] ++ patchArchive)
  else some patchArchive

/-- What `bake` does to the patch archive: the value of `preserveExistingPatchArchive`, the
chunks it records for the unbaked entries, and the file at `dstPatchArchivePath` afterwards.
`unbaked` lists the unbaked entries with their keys, `dst` is the patch archive that exists
at the destination path (the archive of the reader, or its copy). -/
def bakePatch (compress : Bytes → Bytes) (vpk : Archive) (unbaked : List (Bytes × UnbakedItem))
    (dst : Option Bytes) : Option (Bool × List (List (FilePart × Bytes)) × Option Bytes) :=
  let preserve := preserveExistingPatchArchive (bakeItems vpk (unbaked.map Prod.fst))
  let patchOffset := initialPatchOffset preserve (dst.map List.length)
  match encodeUnbaked compress { patchOffset := patchOffset } (unbaked.map Prod.snd) with
  | none => none
  | some (st, parts) => some (preserve, parts, writePatchArchive preserve dst st.patchArchive)

/-- A tree item `a.txt` whose one chunk lies in the patch archive (index 999) at offset 0
with 3 bytes. -/
def patchedItem : TreeItem :=
  { path := bytesOf "a.txt", ext := bytesOf "txt", dir := [32], fileStem := bytesOf "a",
    meta := { crc32 := 1438416925,
              parts := [{ archiveIndex := 999, loadFlags := 0x101, entryOffset := 0,
                          entryLength := 3, entryLengthUncompressed := 3 }] } }

end RespawnVPK

/-! # Theorems -/

/-! ## Masks, shifts and little-endian layouts -/

theorem and_ff (n : Nat) : n &&& 0xFF = n % 256 := by
  have h := Nat.and_pow_two_sub_one_eq_mod n 8
  simpa using h

theorem and_ffff (n : Nat) : n &&& 0xFFFF = n % 65536 := by
  have h := Nat.and_pow_two_sub_one_eq_mod n 16
  simpa using h

theorem and_ffffffff (n : Nat) : n &&& 0xFFFFFFFF = n % 4294967296 := by
  have h := Nat.and_pow_two_sub_one_eq_mod n 32
  simpa using h

theorem or_shl (x y k : Nat) (h : x < 2 ^ k) : x ||| (y <<< k) = x + y * 2 ^ k := by
  rw [Nat.shiftLeft_eq, Nat.or_comm, Nat.mul_comm, ← Nat.mul_add_lt_is_or h, Nat.add_comm]

theorem leBytes_length (w n : Nat) : (leBytes w n).length = w := by
  induction w generalizing n with
  | zero => rfl
  | succ w ih => simp [leBytes, ih]

theorem leBytes_add (a b n : Nat) :
    leBytes (a + b) n = leBytes a n ++ leBytes b (n / 256 ^ a) := by
  induction a generalizing n with
  | zero => simp [leBytes]
  | succ a ih =>
    have e : a + 1 + b = (a + b) + 1 := by omega
    rw [e]
    simp only [leBytes, List.cons_append, ih]
    rw [Nat.div_div_eq_div_mul, pow_succ, Nat.mul_comm]

theorem leBytes_mod (w n : Nat) : leBytes w (n % 256 ^ w) = leBytes w n := by
  induction w generalizing n with
  | zero => rfl
  | succ w ih =>
    simp only [leBytes]
    congr 1
    · rw [pow_succ, Nat.mod_mul_left_mod]
    · rw [← ih (n / 256), ← ih (n % 256 ^ (w + 1) / 256)]
      congr 1
      rw [pow_succ, Nat.mul_comm, Nat.mod_mul_right_div_self]
      rw [Nat.mod_mod]

theorem leBytes_lt (w n b : Nat) (h : b ∈ leBytes w n) : b < 256 := by
  induction w generalizing n with
  | zero => simp [leBytes] at h
  | succ w ih =>
    simp only [leBytes, List.mem_cons] at h
    rcases h with h | h
    · omega
    · exact ih _ h

namespace WriteBuffer

@[simp] theorem writeU8_buf (w : WriteBuffer) (v : Nat) :
    (w.writeU8 v).buf = w.buf ++ [v % 256] := rfl

@[simp] theorem writeBytes_buf (w : WriteBuffer) (b : Bytes) :
    (w.writeBytes b).buf = w.buf ++ b := by
  unfold writeBytes
  cases b <;> simp

@[simp] theorem writeCString_buf (w : WriteBuffer) (s : Bytes) :
    (w.writeCString s).buf = w.buf ++ s ++ [0] := by
  simp [writeCString]

theorem writeU16_buf (w : WriteBuffer) (v : Nat) :
    (w.writeU16 v).buf = w.buf ++ leBytes 2 v := by
  simp only [writeU16, writeU8_buf, and_ff, Nat.shiftRight_eq_div_pow, leBytes, Nat.mod_mod,
    List.append_assoc, List.singleton_append]

theorem writeU24_buf (w : WriteBuffer) (v : Nat) :
    (w.writeU24 v).buf = w.buf ++ leBytes 3 v := by
  simp only [writeU24, writeU8_buf, and_ff, Nat.shiftRight_eq_div_pow, leBytes, Nat.mod_mod,
    List.append_assoc, List.singleton_append, Nat.div_div_eq_div_mul]
  norm_num

theorem writeU32_buf (w : WriteBuffer) (v : Nat) :
    (w.writeU32 v).buf = w.buf ++ leBytes 4 v := by
  simp only [writeU32, writeU8_buf, and_ff, Nat.shiftRight_eq_div_pow, leBytes, Nat.mod_mod,
    List.append_assoc, List.singleton_append, Nat.div_div_eq_div_mul]
  norm_num

theorem writeU64_buf (w : WriteBuffer) (v : Nat) :
    (w.writeU64 v).buf = w.buf ++ leBytes 8 v := by
  have h1 : leBytes 4 (v % 4294967296) = leBytes 4 v := leBytes_mod 4 v
  have h2 : leBytes 4 (v / 4294967296 % 4294967296) = leBytes 4 (v / 4294967296) :=
    leBytes_mod 4 (v / 4294967296)
  have h3 : leBytes 8 v = leBytes 4 v ++ leBytes 4 (v / 4294967296) := leBytes_add 4 4 v
  simp only [writeU64, writeU32_buf, and_ffffffff, Nat.shiftRight_eq_div_pow, List.append_assoc]
  norm_num
  rw [h1, h2, h3]

end WriteBuffer

/-! ## The packer's tree emitter (`buildDirTree`) -/

namespace respawn_vpk

theorem writeParts_buf (w : WriteBuffer) (ps : List FilePart) :
    (writeParts w ps).buf = w.buf ++ partRecords ps := by
  induction ps generalizing w with
  | nil => simp [writeParts, partRecords]
  | cons p ps ih =>
    simp only [writeParts, ih, partRecords, partRecord, WriteBuffer.writeU16_buf,
      WriteBuffer.writeU32_buf, WriteBuffer.writeU64_buf, List.append_assoc,
      RESPAWN_CHUNK_END_MARKER, RESPAWN_CHUNK_CONT_MARKER]

theorem buildDirTreeStep_lastExt (idx : Nat) (st : TreeState) (e : DirEntry) :
    (buildDirTreeStep idx st e).lastExt = e.extension := by
  simp only [buildDirTreeStep]
  split_ifs <;> simp_all

theorem buildDirTreeStep_lastDir (idx : Nat) (st : TreeState) (e : DirEntry) :
    (buildDirTreeStep idx st e).lastDir = e.directory := by
  simp only [buildDirTreeStep]
  split_ifs <;> simp_all

theorem buildDirTreeStep_buf (idx : Nat) (st : TreeState) (e : DirEntry) :
    (buildDirTreeStep idx st e).w.buf
      = st.w.buf ++ groupPrefix st.lastExt st.lastDir e ++ entryRecord idx e := by
  simp only [buildDirTreeStep, groupPrefix, entryRecord, writeParts_buf,
    WriteBuffer.writeU16_buf, WriteBuffer.writeU32_buf, WriteBuffer.writeBytes_buf,
    List.isEmpty_iff]
  split_ifs <;> simp_all [leBytes, WriteBuffer.writeU16_buf]

theorem buildDirTree_foldl (idx : Nat) (es : List DirEntry) (st : TreeState) :
    (es.foldl (buildDirTreeStep idx) st).w.buf
      = st.w.buf ++ treeLayout idx st.lastExt st.lastDir es := by
  induction es generalizing st with
  | nil => simp [treeLayout]
  | cons e es ih =>
    rw [List.foldl_cons, ih, buildDirTreeStep_buf, buildDirTreeStep_lastExt,
      buildDirTreeStep_lastDir]
    simp [treeLayout]

end respawn_vpk

namespace respawn_vpk

/-- The bytes that `buildDirTree` emits: for every entry list, each entry is the name
string, `u32 crc32`, `u16 preload_bytes`, `u16 archive_index` (the entry's `packFileIndex`, or
the `archiveIndex` argument when that is 0), then for every chunk one 32-byte record laid out
as `u32 load_flags`, `u16 texture_flags`, `u64 offset`, `u64 stored_length`,
`u64 logical_length`, `u16 marker`, all little-endian, where the marker is 0xFFFF after the
last chunk and 0x0000 after every other chunk; the tree ends with three zero bytes. -/
theorem buildDirTree_layout (entries : List DirEntry) (archiveIndex : Nat) :
    buildDirTree entries archiveIndex = treeLayout archiveIndex [] [] entries ++ [0, 0, 0]
    ∧ (∀ (p : FilePart) (last : Bool), (partRecord p last).length = 32)
    ∧ (∀ p : FilePart, (partRecord p true).drop 30 = [0xFF, 0xFF])
    ∧ (∀ p : FilePart, (partRecord p false).drop 30 = [0, 0]) := by
  refine ⟨?_, ?_, ?_, ?_⟩
  · simp only [buildDirTree, WriteBuffer.writeU24_buf, buildDirTree_foldl]
    simp [leBytes]
  · intro p last
    simp [partRecord, leBytes_length]
  · intro p
    have h : (leBytes 4 p.loadFlags ++ leBytes 2 p.textureFlags ++ leBytes 8 p.entryOffset
        ++ leBytes 8 p.entryLength ++ leBytes 8 p.entryLengthUncompressed).length = 30 := by
      simp [leBytes_length]
    simp only [partRecord, if_true]
    rw [List.drop_append_of_le_length (by omega), List.drop_of_length_le (by omega)]
    simp [leBytes]
  · intro p
    have h : (leBytes 4 p.loadFlags ++ leBytes 2 p.textureFlags ++ leBytes 8 p.entryOffset
        ++ leBytes 8 p.entryLength ++ leBytes 8 p.entryLengthUncompressed).length = 30 := by
      simp [leBytes_length]
    simp only [partRecord]
    rw [List.drop_append_of_le_length (by omega), List.drop_of_length_le (by omega)]
    simp [leBytes]

set_option maxRecDepth 20000 in
/-- C3: for the two-part entry `a.txt` the bytes `buildDirTree` emits are not the layout
claimed, which is the layout that `RespawnVPK::open` parses (per chunk `u16 archive_index`,
`u16 load_flags`, `u32 texture_flags`, ..., and one 0xFFFF behind the last chunk): the two
bytes that follow the first part's fields are 00 00. `open` takes these two bytes for the
archive index of the second part, so it looks for the second chunk of the file in archive 0
and not in archive 999; and for the one-part entry `b.vtf` it reads the texture flags 8, which
the packer writes as a `u16` behind a `u32`, as 8 * 2^16. -/
theorem buildDirTree_not_claimed_layout :
    buildDirTree [twoPartEntry] 999
      ≠ twoPartEntry.extension ++ twoPartEntry.directory
          ++ claimedEntryRecord 999 twoPartEntry ++ [0, 0, 0]
    ∧ ((buildDirTree [twoPartEntry] 999).drop 46).take 2 = [0, 0]
    ∧ (RespawnVPK.parseTree (buildHeader ((buildDirTree [twoPartEntry] 999).length % 2 ^ 32)
          ++ buildDirTree [twoPartEntry] 999)).map
        (fun l => l.map (fun e => (e.fullPath, e.meta.parts.map
          (fun p => (p.archiveIndex, p.entryOffset, p.entryLength)))))
      = some [(bytesOf "a.txt", [(999, 0, 2), (0, 2, 1)])]
    ∧ (RespawnVPK.parseTree (buildHeader ((buildDirTree [textureEntry] 999).length % 2 ^ 32)
          ++ buildDirTree [textureEntry] 999)).map
        (fun l => l.map (fun e => (e.fullPath, e.meta.parts.map
          (fun p => (p.loadFlags, p.textureFlags)))))
      = some [(bytesOf "b.vtf", [(1, 8 * 2 ^ 16)])] := by
  decide

end respawn_vpk

/-! ## Splitting a file into parts (`buildDirEntryFromFile`) -/

namespace respawn_vpk

theorem buildParts_eq (bridge : Option CompressBridge) (options : PackOptions)
    (values : Option ManifestEntry) (ext file : Bytes) (hm : 1 ≤ options.maxPartSize) :
    ∀ fuel offset, file.length - offset < fuel →
      buildParts bridge options values ext file fuel offset
        = some ((List.range ((file.length - offset + options.maxPartSize - 1)
                  / options.maxPartSize)).map
            (fun i => buildPart bridge options values ext file
              (offset + i * options.maxPartSize)
              (min options.maxPartSize (file.length - (offset + i * options.maxPartSize))))) := by
  intro fuel
  induction fuel with
  | zero => intro offset h; omega
  | succ fuel ih =>
    intro offset h
    generalize hmdef : options.maxPartSize = m at *
    unfold buildParts
    by_cases hlt : offset < file.length
    · simp only [hlt, if_true, hmdef]
      have hpos : 0 < m := hm
      by_cases hfull : m ≤ file.length - offset
      · have hmin : min m (file.length - offset) = m := Nat.min_eq_left hfull
        rw [hmin, ih (offset + m) (by omega)]
        have hk : (file.length - offset + m - 1) / m
            = (file.length - (offset + m) + m - 1) / m + 1 := by
          have e : file.length - offset + m - 1 = (file.length - (offset + m) + m - 1) + m := by
            omega
          rw [e, Nat.add_div_right _ hpos]
        rw [hk, List.range_succ_eq_map, List.map_cons, List.map_map]
        simp only [Nat.zero_mul, Nat.add_zero, hmin, Option.some.injEq, List.cons.injEq, true_and]
        apply List.map_congr_left
        intro i _
        simp only [Function.comp, Nat.succ_eq_add_one]
        have e : offset + (i + 1) * m = offset + m + i * m := by ring
        rw [e]
      · have hmin : min m (file.length - offset) = file.length - offset :=
          Nat.min_eq_right (by omega)
        rw [hmin, ih (offset + (file.length - offset)) (by omega)]
        have e0 : file.length - (offset + (file.length - offset)) = 0 := by omega
        have hk' : (file.length - (offset + (file.length - offset)) + m - 1) / m = 0 := by
          rw [e0]; exact Nat.div_eq_of_lt (by omega)
        have hk : (file.length - offset + m - 1) / m = 1 := by
          have e : file.length - offset + m - 1 = (file.length - offset - 1) + m := by omega
          rw [e, Nat.add_div_right _ hpos, Nat.div_eq_of_lt (by omega)]
        rw [hk', hk, show List.range 1 = [0] from rfl]
        simp [hmin]
    · simp only [hlt, if_false, hmdef]
      have e0 : file.length - offset = 0 := by omega
      have hk : (file.length - offset + m - 1) / m = 0 := by
        rw [e0]; exact Nat.div_eq_of_lt (by omega)
      rw [hk]; rfl

theorem stripWavHeaderInPlace_length (file : Bytes) :
    (stripWavHeaderInPlace file).length = file.length := by
  unfold stripWavHeaderInPlace
  split_ifs with h1 h2
  · rfl
  · rfl
  · simp only [List.length_append, List.length_replicate, List.length_drop]
    omega

theorem buildPart_ulen (bridge : Option CompressBridge) (options : PackOptions)
    (values : Option ManifestEntry) (ext file : Bytes) (offset partLen : Nat) :
    (buildPart bridge options values ext file offset partLen).entryLengthUncompressed
      = partLen := rfl

theorem buildParts_sum (bridge : Option CompressBridge) (options : PackOptions)
    (values : Option ManifestEntry) (ext file : Bytes) :
    ∀ fuel offset parts, buildParts bridge options values ext file fuel offset = some parts →
      (parts.map (fun p => p.entryLengthUncompressed)).sum = file.length - offset := by
  intro fuel
  induction fuel with
  | zero => intro offset parts h; simp [buildParts] at h
  | succ fuel ih =>
    intro offset parts h
    unfold buildParts at h
    by_cases hlt : offset < file.length
    · simp only [hlt, if_true] at h
      cases hrec : buildParts bridge options values ext file fuel
          (offset + min options.maxPartSize (file.length - offset)) with
      | none => simp [hrec] at h
      | some rest =>
        simp only [hrec, Option.some.injEq] at h
        subst h
        have := ih _ _ hrec
        simp only [List.map_cons, List.sum_cons, this, buildPart_ulen]
        omega
    · simp only [hlt, if_false, Option.some.injEq] at h
      subst h
      simp
      omega

theorem buildParts_mem (bridge : Option CompressBridge) (options : PackOptions)
    (values : Option ManifestEntry) (ext file : Bytes) :
    ∀ fuel offset parts, buildParts bridge options values ext file fuel offset = some parts →
      ∀ p ∈ parts, ∃ off, off < file.length
        ∧ p = buildPart bridge options values ext file off
            (min options.maxPartSize (file.length - off)) := by
  intro fuel
  induction fuel with
  | zero => intro offset parts h; simp [buildParts] at h
  | succ fuel ih =>
    intro offset parts h p hp
    unfold buildParts at h
    by_cases hlt : offset < file.length
    · simp only [hlt, if_true] at h
      cases hrec : buildParts bridge options values ext file fuel
          (offset + min options.maxPartSize (file.length - offset)) with
      | none => simp [hrec] at h
      | some rest =>
        simp only [hrec, Option.some.injEq] at h
        subst h
        rcases List.mem_cons.1 hp with hp | hp
        · exact ⟨offset, hlt, hp⟩
        · exact ih _ _ hrec p hp
    · simp only [hlt, if_false, Option.some.injEq] at h
      subst h
      simp at hp

/-- C7: for every file of `n` bytes and every `maxPartSize = m ≥ 1`, `buildDirEntryFromFile`
returns an entry with exactly `ceil(n / m)` parts; the part with index `i` is built from the
`min m (n - i * m)` bytes of the file that start at `i * m` (input byte order); every part
but the last has `entryLengthUncompressed = m`, the last has `n - m * (ceil(n / m) - 1)`, and
these lengths sum to `n`. For `n = m` there is one part, for `n = m + 1` there are two and
the second has logical length 1. -/
theorem buildDirEntryFromFile_chunks (bridge : Option CompressBridge) (rel contents : Bytes)
    (options : PackOptions) (manifest : Option Manifest) (hm : 1 ≤ options.maxPartSize) :
    ∃ e cam, buildDirEntryFromFile bridge rel contents options manifest = some (e, cam)
      ∧ e.parts.length = (contents.length + options.maxPartSize - 1) / options.maxPartSize
      ∧ (∀ i, i + 1 < e.parts.length →
          (e.parts[i]?).map (fun p => p.entryLengthUncompressed) = some options.maxPartSize)
      ∧ (∀ i, i + 1 = e.parts.length →
          (e.parts[i]?).map (fun p => p.entryLengthUncompressed)
            = some (contents.length - options.maxPartSize * i))
      ∧ (e.parts.map (fun p => p.entryLengthUncompressed)).sum = contents.length
      ∧ (∀ i, i < e.parts.length →
          e.parts[i]? = some (buildPart bridge options
            (match manifest with
              | none => none
              | some m => m rel)
            (getExtensionLower rel)
            (if getExtensionLower rel = [119, 97, 118] then stripWavHeaderInPlace contents
              else contents)
            (i * options.maxPartSize)
            (min options.maxPartSize (contents.length - i * options.maxPartSize))))
      ∧ (contents.length = options.maxPartSize → e.parts.length = 1)
      ∧ (contents.length = options.maxPartSize + 1 →
          e.parts.length = 2
          ∧ (e.parts[1]?).map (fun p => p.entryLengthUncompressed) = some 1) := by
  generalize hm' : options.maxPartSize = m at *
  have hpos : 0 < m := hm
  generalize hfile : (if getExtensionLower rel = [119, 97, 118] then
      stripWavHeaderInPlace contents else contents) = file
  have hlen : file.length = contents.length := by
    rw [← hfile]; split_ifs
    · exact stripWavHeaderInPlace_length contents
    · rfl
  generalize hvals : (match manifest with
      | none => none
      | some m => m rel) = values
  have hbp := buildParts_eq bridge options values (getExtensionLower rel) file (by omega)
    (file.length + 1) 0 (by omega)
  simp only [hm', Nat.sub_zero, Nat.zero_add, hlen] at hbp
  generalize hk : (contents.length + m - 1) / m = k at *
  have hk1 : k * m < contents.length + m := by
    have : k ≤ (contents.length + m - 1) / m := by omega
    have := (Nat.le_div_iff_mul_le hpos).1 this
    omega
  have hk2 : contents.length ≤ k * m := by
    have : (contents.length + m - 1) / m < k + 1 := by omega
    have := (Nat.div_lt_iff_lt_mul hpos).1 this
    have e : (k + 1) * m = k * m + m := by ring
    omega
  have hres : ∃ e cam, buildDirEntryFromFile bridge rel contents options manifest = some (e, cam)
      ∧ e.parts = List.map (fun i => buildPart bridge options values (getExtensionLower rel) file
          (i * m) (min m (contents.length - i * m))) (List.range k) := by
    simp only [buildDirEntryFromFile, decide_eq_true_eq, hfile, hvals, hlen, hbp]
    exact ⟨_, _, rfl, rfl⟩
  obtain ⟨e, cam, he, hparts⟩ := hres
  refine ⟨e, cam, he, ?_⟩
  rw [hparts]
  simp only [List.length_map, List.length_range, List.getElem?_map, List.getElem?_range]
  refine ⟨trivial, ?_, ?_, ?_, ?_, ?_, ?_⟩
  · intro i hi
    have h1 : (i + 2) * m ≤ k * m := Nat.mul_le_mul_right m (by omega)
    have e1 : (i + 2) * m = i * m + m + m := by ring
    rw [List.getElem?_range (by omega)]
    simp only [Option.map_some', buildPart_ulen, Option.some.injEq]
    omega
  · intro i hi
    subst hi
    have e1 : (i + 1) * m = i * m + m := by ring
    have e2 : m * i = i * m := Nat.mul_comm _ _
    rw [List.getElem?_range (by omega)]
    simp only [Option.map_some', buildPart_ulen, Option.some.injEq]
    omega
  · have := buildParts_sum bridge options values (getExtensionLower rel) file _ _ _ hbp
    simpa [hlen] using this
  · intro i hi
    rw [List.getElem?_range hi]
    rfl
  · intro hn
    rw [← hk, hn]
    have e : m + m - 1 = (m - 1) + m := by omega
    rw [e, Nat.add_div_right _ hpos, Nat.div_eq_of_lt (by omega)]
  · intro hn
    have hk2' : k = 2 := by
      rw [← hk, hn]
      have e : m + 1 + m - 1 = 0 + m + m := by omega
      rw [e, Nat.add_div_right _ hpos, Nat.add_div_right _ hpos, Nat.zero_div]
    subst hk2'
    refine ⟨rfl, ?_⟩
    rw [List.getElem?_range (by omega)]
    simp only [Option.map_some', buildPart_ulen, Option.some.injEq]
    omega

/-- C7 (witness): the theorem at a five-byte file with `maxPartSize = 4`. -/
theorem buildDirEntryFromFile_chunks_witness :
    1 ≤ smallOptions.maxPartSize
    ∧ ∃ e cam, buildDirEntryFromFile (some toyBridge) [100, 46, 98, 105, 110] [7, 7, 7, 7, 7]
          smallOptions none = some (e, cam)
      ∧ e.parts.length = ([7, 7, 7, 7, 7].length + smallOptions.maxPartSize - 1)
          / smallOptions.maxPartSize
      ∧ (∀ i, i + 1 < e.parts.length →
          (e.parts[i]?).map (fun p => p.entryLengthUncompressed)
            = some smallOptions.maxPartSize)
      ∧ (∀ i, i + 1 = e.parts.length →
          (e.parts[i]?).map (fun p => p.entryLengthUncompressed)
            = some ([7, 7, 7, 7, 7].length - smallOptions.maxPartSize * i))
      ∧ (e.parts.map (fun p => p.entryLengthUncompressed)).sum = [7, 7, 7, 7, 7].length
      ∧ (∀ i, i < e.parts.length →
          e.parts[i]? = some (buildPart (some toyBridge) smallOptions
            (match (none : Option Manifest) with
              | none => none
              | some m => m [100, 46, 98, 105, 110])
            (getExtensionLower [100, 46, 98, 105, 110])
            (if getExtensionLower [100, 46, 98, 105, 110] = [119, 97, 118] then
              stripWavHeaderInPlace [7, 7, 7, 7, 7]
              else [7, 7, 7, 7, 7])
            (i * smallOptions.maxPartSize)
            (min smallOptions.maxPartSize
              ([7, 7, 7, 7, 7].length - i * smallOptions.maxPartSize))))
      ∧ ([7, 7, 7, 7, 7].length = smallOptions.maxPartSize → e.parts.length = 1)
      ∧ ([7, 7, 7, 7, 7].length = smallOptions.maxPartSize + 1 →
          e.parts.length = 2
          ∧ (e.parts[1]?).map (fun p => p.entryLengthUncompressed) = some 1) :=
  ⟨by decide,
    buildDirEntryFromFile_chunks (some toyBridge) [100, 46, 98, 105, 110] [7, 7, 7, 7, 7]
      smallOptions none (by decide)⟩

/-- With `maxPartSize ≥ 1` the part loop ends and `buildDirEntryFromFile` returns an entry,
whatever the compressor bridge does. -/
theorem buildDirEntryFromFile_returns (bridge : Option CompressBridge) (rel contents : Bytes)
    (options : PackOptions) (manifest : Option Manifest) (hm : 1 ≤ options.maxPartSize) :
    ∃ e cam, buildDirEntryFromFile bridge rel contents options manifest = some (e, cam) := by
  have hbp := buildParts_eq bridge options
    (match manifest with
      | none => none
      | some m => m rel)
    (getExtensionLower rel)
    (if getExtensionLower rel = [119, 97, 118] then stripWavHeaderInPlace contents
      else contents) hm
    ((if getExtensionLower rel = [119, 97, 118] then stripWavHeaderInPlace contents
      else contents).length + 1) 0 (by omega)
  simp only [buildDirEntryFromFile, decide_eq_true_eq, hbp]
  exact ⟨_, _, rfl⟩

end respawn_vpk

/-! ## The side archive (`writeArchiveFile`) -/

namespace respawn_vpk

theorem slice_append (out x d : Bytes) (off : Nat) (h1 : off + d.length ≤ out.length)
    (h2 : (out.drop off).take d.length = d) :
    off + d.length ≤ (out ++ x).length ∧ ((out ++ x).drop off).take d.length = d := by
  constructor
  · simp only [List.length_append]; omega
  · rw [List.drop_append_of_le_length (by omega), List.take_append_of_le_length
      (by simp only [List.length_drop]; omega)]
    exact h2

theorem slice_self (out d : Bytes) :
    out.length + d.length ≤ (out ++ d).length ∧ ((out ++ d).drop out.length).take d.length = d := by
  constructor
  · simp
  · simp

theorem PartStored.append {out : Bytes} {p : FilePart} (h : PartStored out p) (x : Bytes) :
    PartStored (out ++ x) p :=
  slice_append out x p.data p.entryOffset h.1 h.2

theorem ArchiveInv.mono {st : ArchiveState} (h : ArchiveInv st) (x : Bytes)
    (extra : List DedupRef)
    (hx : ∀ c ∈ extra, c.offset + c.data.length ≤ (st.out ++ x).length
        ∧ ((st.out ++ x).drop c.offset).take c.data.length = c.data) :
    ArchiveInv { out := st.out ++ x, writePos := st.writePos + x.length,
                 dedup := st.dedup ++ extra } := by
  refine ⟨by simp [h.1], ?_⟩
  intro c hc
  rcases List.mem_append.1 hc with hc | hc
  · exact slice_append _ _ _ _ (h.2 c hc).1 (h.2 c hc).2
  · exact hx c hc

theorem writePart_spec (allowDedup : Bool) (st : ArchiveState) (p : FilePart)
    (h : ArchiveInv st) :
    ArchiveInv (writePart allowDedup st p).1
    ∧ (∃ x, (writePart allowDedup st p).1.out = st.out ++ x)
    ∧ PartStored (writePart allowDedup st p).1.out (writePart allowDedup st p).2
    ∧ (writePart allowDedup st p).2.data = p.data
    ∧ (writePart allowDedup st p).2.entryLength = p.entryLength := by
  unfold writePart
  by_cases h0 : p.data.length = 0
  · simp only [h0, if_true]
    refine ⟨h, ⟨[], by simp⟩, ?_, trivial, trivial⟩
    have hd : p.data = [] := List.length_eq_zero.1 h0
    simp [PartStored, hd, h.1]
  · simp only [h0, if_false]
    cases allowDedup with
    | false =>
      simp only [Bool.false_eq_true, if_false]
      refine ⟨?_, ⟨p.data, rfl⟩, ?_, trivial, trivial⟩
      · have := h.mono p.data [] (by simp)
        simpa using this
      · simp only [PartStored, h.1]
        exact slice_self _ _
    | true =>
      simp only [if_true]
      split
      · rename_i cand hfind
        refine ⟨h, ⟨[], by simp⟩, ?_, rfl, rfl⟩
        have hmem := List.mem_of_find?_eq_some hfind
        have hcand := (List.mem_filter.1 hmem).1
        have hp := List.find?_some hfind
        simp only [decide_eq_true_eq] at hp
        have := h.2 cand hcand
        simp only [PartStored]
        rw [← hp.2]
        exact this
      · refine ⟨?_, ⟨p.data, rfl⟩, ?_, rfl, rfl⟩
        · apply h.mono p.data
          intro c hc
          simp only [List.mem_singleton] at hc
          subst hc
          simp only [h.1]
          exact slice_self _ _
        · simp only [PartStored, h.1]
          exact slice_self _ _

theorem writePartList_spec (allowDedup : Bool) (ps : List FilePart) :
    ∀ st, ArchiveInv st →
      ArchiveInv (writePartList allowDedup st ps).1
      ∧ (∃ x, (writePartList allowDedup st ps).1.out = st.out ++ x)
      ∧ (∀ q ∈ (writePartList allowDedup st ps).2,
          PartStored (writePartList allowDedup st ps).1.out q)
      ∧ (writePartList allowDedup st ps).2.map (fun q => (q.data, q.entryLength))
          = ps.map (fun q => (q.data, q.entryLength)) := by
  induction ps with
  | nil => intro st h; exact ⟨h, ⟨[], by simp [writePartList]⟩, by simp [writePartList], rfl⟩
  | cons p ps ih =>
    intro st h
    obtain ⟨h1, ⟨x, hx⟩, h3, h4, h5⟩ := writePart_spec allowDedup st p h
    obtain ⟨i1, ⟨y, hy⟩, i3, i4⟩ := ih _ h1
    simp only [writePartList]
    refine ⟨i1, ⟨x ++ y, by rw [hy, hx, List.append_assoc]⟩, ?_, ?_⟩
    · intro q hq
      rcases List.mem_cons.1 hq with hq | hq
      · subst hq; rw [hy]; exact h3.append y
      · exact i3 q hq
    · simp only [List.map_cons, i4, h4, h5]

theorem writeEntryList_spec (manifest : Option Manifest) (es : List DirEntry) :
    ∀ st, ArchiveInv st →
      ArchiveInv (writeEntryList manifest st es).1
      ∧ (∃ x, (writeEntryList manifest st es).1.out = st.out ++ x)
      ∧ (∀ e ∈ (writeEntryList manifest st es).2, ∀ q ∈ e.parts,
          PartStored (writeEntryList manifest st es).1.out q
          ∧ ∃ e0 ∈ es, ∃ q0 ∈ e0.parts, q.data = q0.data ∧ q.entryLength = q0.entryLength) := by
  induction es with
  | nil => intro st h; exact ⟨h, ⟨[], by simp [writeEntryList]⟩, by simp [writeEntryList]⟩
  | cons e es ih =>
    intro st h
    obtain ⟨h1, ⟨x, hx⟩, h3, h4⟩ := writePartList_spec (allowDedupFor manifest e) e.parts st h
    obtain ⟨i1, ⟨y, hy⟩, i3⟩ := ih _ h1
    simp only [writeEntryList]
    refine ⟨i1, ⟨x ++ y, by rw [hy, hx, List.append_assoc]⟩, ?_⟩
    intro e' he' q hq
    rcases List.mem_cons.1 he' with he' | he'
    · subst he'
      simp only at hq
      refine ⟨by rw [hy]; exact (h3 q hq).append y, e, List.mem_cons_self _ _, ?_⟩
      have hm : (q.data, q.entryLength) ∈ (writePartList (allowDedupFor manifest e) st e.parts).2.map
          (fun q => (q.data, q.entryLength)) := List.mem_map_of_mem _ hq
      rw [h4] at hm
      obtain ⟨q0, hq0, heq⟩ := List.mem_map.1 hm
      simp only [Prod.mk.injEq] at heq
      exact ⟨q0, hq0, heq.1.symm, heq.2.symm⟩
    · obtain ⟨a, e0, he0, b⟩ := i3 e' he' q hq
      exact ⟨a, e0, List.mem_cons_of_mem _ he0, b⟩

theorem writePart_fields (allowDedup : Bool) (st : ArchiveState) (p : FilePart) :
    { (writePart allowDedup st p).2 with entryOffset := 0 } = { p with entryOffset := 0 } := by
  unfold writePart
  by_cases h0 : p.data.length = 0
  · simp only [h0, if_true]
  · cases allowDedup with
    | false => simp only [h0, if_false, Bool.false_eq_true]
    | true =>
      simp only [h0, if_false, if_true]
      split <;> rfl

theorem writePartList_fields (allowDedup : Bool) (ps : List FilePart) :
    ∀ st, (writePartList allowDedup st ps).2.map (fun p => { p with entryOffset := 0 })
      = ps.map (fun p => { p with entryOffset := 0 }) := by
  induction ps with
  | nil => intro st; rfl
  | cons p ps ih =>
    intro st
    simp only [writePartList, List.map_cons, ih, writePart_fields]

theorem writeEntryList_fields (manifest : Option Manifest) (es : List DirEntry) :
    ∀ st, (writeEntryList manifest st es).2.map clearOffsets = es.map clearOffsets := by
  induction es with
  | nil => intro st; rfl
  | cons e es ih =>
    intro st
    simp only [writeEntryList, List.map_cons, ih, clearOffsets, writePartList_fields]

/-- C9: after `writeArchiveFile` has processed any list of entries whose parts record the
size of their data as `entryLength` (as `buildDirEntryFromFile` sets it), with any manifest
(any per-entry dedup setting), the entries are the input entries with only the parts'
`entryOffset` assigned, and every part's range `[entryOffset, entryOffset + entryLength)`
lies within the bytes written to the side archive and those bytes are the part's data. -/
theorem writeArchiveFile_ranges (entries : List DirEntry) (manifest : Option Manifest)
    (hlen : ∀ e ∈ entries, ∀ p ∈ e.parts, p.entryLength = p.data.length) :
    (writeArchiveFile entries manifest).2.map clearOffsets = entries.map clearOffsets
    ∧ ∀ e ∈ (writeArchiveFile entries manifest).2, ∀ p ∈ e.parts,
      p.entryOffset + p.entryLength ≤ (writeArchiveFile entries manifest).1.length
      ∧ ((writeArchiveFile entries manifest).1.drop p.entryOffset).take p.entryLength
          = p.data := by
  refine ⟨writeEntryList_fields manifest entries {}, ?_⟩
  intro e he p hp
  have hinv : ArchiveInv {} := ⟨rfl, by simp⟩
  obtain ⟨-, -, h3⟩ := writeEntryList_spec manifest entries {} hinv
  obtain ⟨hs, e0, he0, q0, hq0, hd, hl⟩ := h3 e he p hp
  have : p.entryLength = p.data.length := by rw [hl, hd]; exact hlen e0 he0 q0 hq0
  rw [this]
  exact hs

/-- C9 (witness): the theorem at two entries with the same payload. -/
theorem writeArchiveFile_ranges_witness :
    (∀ e ∈ twinEntries, ∀ p ∈ e.parts, p.entryLength = p.data.length)
    ∧ (writeArchiveFile twinEntries none).2.map clearOffsets = twinEntries.map clearOffsets
    ∧ ∀ e ∈ (writeArchiveFile twinEntries none).2, ∀ p ∈ e.parts,
      p.entryOffset + p.entryLength ≤ (writeArchiveFile twinEntries none).1.length
      ∧ ((writeArchiveFile twinEntries none).1.drop p.entryOffset).take p.entryLength
          = p.data :=
  ⟨by decide, writeArchiveFile_ranges twinEntries none (by decide)⟩

theorem dedupRecords_append (D : List Bytes) (d : Bytes) :
    ∀ base, dedupRecords base (D ++ [d])
      = dedupRecords base D ++ [{ h := hashOf d, offset := base + D.flatten.length, data := d }] := by
  induction D with
  | nil => intro base; simp [dedupRecords]
  | cons x xs ih =>
    intro base
    rw [List.cons_append, dedupRecords, ih (base + x.length), dedupRecords]
    simp [Nat.add_assoc]

theorem dedupRecords_find (d : Bytes) (D : List Bytes) :
    ∀ base, ((dedupRecords base D).filter (fun c => decide (c.h = hashOf d))).find?
        (fun cand => decide (cand.data.length = d.length ∧ cand.data = d))
      = if d ∈ D then some { h := hashOf d, offset := base + offsetOf D d, data := d }
        else none := by
  induction D with
  | nil => intro base; simp [dedupRecords]
  | cons x xs ih =>
    intro base
    by_cases hx : x = d
    · subst hx
      simp [dedupRecords, offsetOf]
    · have hne : ¬ d = x := fun h => hx h.symm
      have hoff : offsetOf (x :: xs) d = x.length + offsetOf xs d := by
        simp [offsetOf, hx]
      simp only [dedupRecords, List.mem_cons, hne, false_or, hoff]
      by_cases hh : hashOf x = hashOf d
      · rw [List.filter_cons_of_pos (by simpa using hh), List.find?_cons_of_neg _ (by simp [hx])]
        rw [ih, Nat.add_assoc]
      · rw [List.filter_cons_of_neg (by simpa using hh)]
        rw [ih, Nat.add_assoc]

theorem setInsert_mem (D : List Bytes) (x y : Bytes) :
    y ∈ setInsert D x ↔ y ∈ D ∨ y = x := by
  unfold setInsert
  split_ifs with h
  · constructor
    · exact Or.inl
    · rintro (h1 | h1)
      · exact h1
      · rw [h1]; exact h
  · simp

theorem offsetOf_append (D E : List Bytes) (d : Bytes) (h : d ∈ D) :
    offsetOf (D ++ E) d = offsetOf D d := by
  induction D with
  | nil => simp at h
  | cons x xs ih =>
    by_cases hx : x = d
    · simp [offsetOf, hx]
    · have : d ∈ xs := by
        rcases List.mem_cons.1 h with h | h
        · exact absurd h.symm hx
        · exact h
      simp [offsetOf, hx, ih this]

theorem offsetOf_last (D : List Bytes) (d : Bytes) (h : d ∉ D) :
    offsetOf (D ++ [d]) d = D.flatten.length := by
  induction D with
  | nil => simp [offsetOf]
  | cons x xs ih =>
    have hx : x ≠ d := fun e => h (by simp [e])
    have hxs : d ∉ xs := fun e => h (List.mem_cons_of_mem _ e)
    simp [offsetOf, hx, ih hxs]

theorem writePart_dedup (st : ArchiveState) (p : FilePart) (D : List Bytes)
    (hcrc : p.dataCrc32 = computeCRC32 p.data) (h : DedupInv st D) :
    DedupInv (writePart true st p).1 (if p.data = [] then D else setInsert D p.data)
    ∧ (p.data ≠ [] →
        (writePart true st p).2.entryOffset
          = offsetOf (setInsert D p.data) p.data)
    ∧ (writePart true st p).2.data = p.data := by
  obtain ⟨h1, h2, h3⟩ := h
  unfold writePart
  by_cases h0 : p.data = []
  · simp [h0, DedupInv, h1, h2, h3]
  · have hl : p.data.length ≠ 0 := fun e => h0 (List.length_eq_zero.1 e)
    simp only [hl, if_false, if_true, h0, hcrc]
    have hfind := dedupRecords_find p.data D 0
    simp only [hashOf] at hfind
    rw [h3, hfind]
    by_cases hmem : p.data ∈ D
    · simp only [hmem, if_true, setInsert]
      refine ⟨⟨h1, h2, h3⟩, ?_, ?_⟩
      · intro _; simp
      · trivial
    · simp only [hmem, if_false, setInsert]
      refine ⟨⟨?_, ?_, ?_⟩, ?_, ?_⟩
      · simp [h1]
      · simp [h2]
      · simp only [h3, dedupRecords_append, hashOf, h2, h1, Nat.zero_add]
      · intro _
        simp only [h2, h1]
        exact (offsetOf_last D p.data hmem).symm
      · trivial

theorem insertAll_nil (D : List Bytes) : insertAll D [] = D := rfl

theorem insertAll_cons (D : List Bytes) (x : Bytes) (xs : List Bytes) :
    insertAll D (x :: xs) = insertAll (if x = [] then D else setInsert D x) xs := by
  unfold insertAll
  by_cases hx : x = []
  · simp [hx]
  · simp [hx]

theorem insertAll_append (D xs ys : List Bytes) :
    insertAll D (xs ++ ys) = insertAll (insertAll D xs) ys := by
  simp [insertAll, List.filter_append, List.foldl_append]

theorem setInsert_prefix (D : List Bytes) (x : Bytes) : ∃ E, setInsert D x = D ++ E := by
  unfold setInsert
  split_ifs
  · exact ⟨[], by simp⟩
  · exact ⟨[x], rfl⟩

theorem insertAll_prefix (xs : List Bytes) : ∀ D, ∃ E, insertAll D xs = D ++ E := by
  induction xs with
  | nil => intro D; exact ⟨[], by simp [insertAll_nil]⟩
  | cons x xs ih =>
    intro D
    rw [insertAll_cons]
    split_ifs with hx
    · exact ih D
    · obtain ⟨E1, h1⟩ := setInsert_prefix D x
      obtain ⟨E2, h2⟩ := ih (setInsert D x)
      exact ⟨E1 ++ E2, by rw [h2, h1, List.append_assoc]⟩

theorem insertAll_mem (xs : List Bytes) :
    ∀ D y, y ∈ insertAll D xs ↔ y ∈ D ∨ (y ≠ [] ∧ y ∈ xs) := by
  induction xs with
  | nil => intro D y; simp [insertAll_nil]
  | cons x xs ih =>
    intro D y
    rw [insertAll_cons, ih]
    split_ifs with hx
    · subst hx
      constructor
      · rintro (h | ⟨h1, h2⟩)
        · exact Or.inl h
        · exact Or.inr ⟨h1, List.mem_cons_of_mem _ h2⟩
      · rintro (h | ⟨h1, h2⟩)
        · exact Or.inl h
        · rcases List.mem_cons.1 h2 with h2 | h2
          · exact absurd h2 h1
          · exact Or.inr ⟨h1, h2⟩
    · rw [setInsert_mem]
      constructor
      · rintro ((h | h) | ⟨h1, h2⟩)
        · exact Or.inl h
        · subst h; exact Or.inr ⟨hx, List.mem_cons_self _ _⟩
        · exact Or.inr ⟨h1, List.mem_cons_of_mem _ h2⟩
      · rintro (h | ⟨h1, h2⟩)
        · exact Or.inl (Or.inl h)
        · rcases List.mem_cons.1 h2 with h2 | h2
          · exact Or.inl (Or.inr h2)
          · exact Or.inr ⟨h1, h2⟩

theorem setInsert_nodup (D : List Bytes) (x : Bytes) (h : D.Nodup) : (setInsert D x).Nodup := by
  unfold setInsert
  split_ifs with hx
  · exact h
  · exact List.Nodup.append h (List.nodup_singleton x) (by simpa using hx)

theorem insertAll_nodup (xs : List Bytes) : ∀ D, D.Nodup → (insertAll D xs).Nodup := by
  induction xs with
  | nil => intro D h; exact h
  | cons x xs ih =>
    intro D h
    rw [insertAll_cons]
    split_ifs
    · exact ih D h
    · exact ih _ (setInsert_nodup D x h)

theorem writePartList_dedup (ps : List FilePart) :
    ∀ st D, (∀ p ∈ ps, p.dataCrc32 = computeCRC32 p.data) → DedupInv st D →
      DedupInv (writePartList true st ps).1 (insertAll D (ps.map (fun p => p.data)))
      ∧ (∀ q ∈ (writePartList true st ps).2, q.data ≠ [] →
          q.entryOffset = offsetOf (insertAll D (ps.map (fun p => p.data))) q.data)
      ∧ (writePartList true st ps).2.map (fun q => q.data) = ps.map (fun q => q.data) := by
  induction ps with
  | nil => intro st D _ h; exact ⟨h, by simp [writePartList], rfl⟩
  | cons p ps ih =>
    intro st D hcrc h
    obtain ⟨h1, h2, h3⟩ := writePart_dedup st p D (hcrc p (List.mem_cons_self _ _)) h
    obtain ⟨i1, i2, i3⟩ := ih _ _ (fun q hq => hcrc q (List.mem_cons_of_mem _ hq)) h1
    simp only [writePartList, List.map_cons, insertAll_cons]
    refine ⟨i1, ?_, by rw [i3, h3]⟩
    intro q hq hne
    rcases List.mem_cons.1 hq with hq | hq
    · subst hq
      rw [h3] at hne ⊢
      simp only [hne, if_false]
      obtain ⟨E, hE⟩ := insertAll_prefix (ps.map (fun p => p.data)) (setInsert D p.data)
      rw [hE, offsetOf_append _ _ _ ((setInsert_mem D p.data p.data).2 (Or.inr rfl))]
      exact h2 hne
    · exact i2 q hq hne

theorem allPayloads_cons (e : DirEntry) (es : List DirEntry) :
    allPayloads (e :: es) = e.parts.map (fun p => p.data) ++ allPayloads es := by
  simp [allPayloads]

theorem writeEntryList_dedup (manifest : Option Manifest) (es : List DirEntry) :
    ∀ st D, (∀ e ∈ es, allowDedupFor manifest e = true) →
      (∀ e ∈ es, ∀ p ∈ e.parts, p.dataCrc32 = computeCRC32 p.data) → DedupInv st D →
      DedupInv (writeEntryList manifest st es).1 (insertAll D (allPayloads es))
      ∧ (∀ e ∈ (writeEntryList manifest st es).2, ∀ q ∈ e.parts, q.data ≠ [] →
          q.entryOffset = offsetOf (insertAll D (allPayloads es)) q.data) := by
  induction es with
  | nil => intro st D _ _ h; exact ⟨h, by simp [writeEntryList]⟩
  | cons e es ih =>
    intro st D hall hcrc h
    have ha : allowDedupFor manifest e = true := hall e (List.mem_cons_self _ _)
    obtain ⟨h1, h2, h3⟩ := writePartList_dedup e.parts st D (hcrc e (List.mem_cons_self _ _)) h
    obtain ⟨i1, i2⟩ := ih _ _ (fun e' he' => hall e' (List.mem_cons_of_mem _ he'))
      (fun e' he' => hcrc e' (List.mem_cons_of_mem _ he')) h1
    simp only [writeEntryList, ha, allPayloads_cons, insertAll_append]
    refine ⟨by simpa [ha] using i1, ?_⟩
    intro e' he' q hq hne
    rcases List.mem_cons.1 he' with he' | he'
    · subst he'
      simp only at hq
      obtain ⟨E, hE⟩ := insertAll_prefix (allPayloads es) (insertAll D (e.parts.map (fun p => p.data)))
      have hmem : q.data ∈ insertAll D (e.parts.map (fun p => p.data)) := by
        rw [insertAll_mem]
        right
        refine ⟨hne, ?_⟩
        rw [← h3]
        exact List.mem_map_of_mem _ hq
      rw [hE, offsetOf_append _ _ _ hmem]
      exact h2 q hq hne
    · have := i2 e' (by simpa [ha] using he') q hq hne
      simpa [ha] using this

/-- C10: when deduplication is allowed for all entries (and every part carries the CRC32 of
its data, as `buildDirEntryFromFile` sets it), the entries come back with only the parts'
`entryOffset` assigned, any two parts with the same non-empty data get the same offset, namely the position of the single copy of that data, which is written where
the data first occurs; the side archive is the concatenation of the distinct non-empty
payloads, so its length is the sum of their lengths; for two single-part entries with equal
data it is the stored length of one part. -/
theorem writeArchiveFile_dedup (entries : List DirEntry) (manifest : Option Manifest)
    (hall : ∀ e ∈ entries, allowDedupFor manifest e = true)
    (hcrc : ∀ e ∈ entries, ∀ p ∈ e.parts, p.dataCrc32 = computeCRC32 p.data) :
    (writeArchiveFile entries manifest).2.map clearOffsets = entries.map clearOffsets
    ∧ (∀ e1 ∈ (writeArchiveFile entries manifest).2, ∀ p ∈ e1.parts,
      ∀ e2 ∈ (writeArchiveFile entries manifest).2, ∀ q ∈ e2.parts,
        p.data = q.data → p.data ≠ [] → p.entryOffset = q.entryOffset)
    ∧ (∀ e ∈ (writeArchiveFile entries manifest).2, ∀ p ∈ e.parts, p.data ≠ [] →
        p.entryOffset = offsetOf (distinctPayloads (allPayloads entries)) p.data)
    ∧ (distinctPayloads (allPayloads entries)).Nodup
    ∧ (∀ d, d ∈ distinctPayloads (allPayloads entries)
        ↔ d ≠ [] ∧ ∃ e ∈ entries, ∃ p ∈ e.parts, p.data = d)
    ∧ (writeArchiveFile entries manifest).1 = (distinctPayloads (allPayloads entries)).flatten
    ∧ (writeArchiveFile entries manifest).1.length
        = ((distinctPayloads (allPayloads entries)).map List.length).sum
    ∧ (∀ e1 e2 p q, entries = [e1, e2] → e1.parts = [p] → e2.parts = [q] → p.data = q.data →
        p.entryLength = p.data.length →
        (writeArchiveFile entries manifest).1.length = p.entryLength) := by
  have hinv : DedupInv {} [] := ⟨rfl, rfl, rfl⟩
  obtain ⟨⟨h1, -, -⟩, h2⟩ := writeEntryList_dedup manifest entries {} [] hall hcrc hinv
  have hout : (writeArchiveFile entries manifest).1
      = (distinctPayloads (allPayloads entries)).flatten := h1
  have hoff : ∀ e ∈ (writeArchiveFile entries manifest).2, ∀ p ∈ e.parts, p.data ≠ [] →
      p.entryOffset = offsetOf (distinctPayloads (allPayloads entries)) p.data := h2
  refine ⟨writeEntryList_fields manifest entries {}, ?_, hoff,
    insertAll_nodup _ _ List.nodup_nil, ?_, hout, ?_, ?_⟩
  · intro e1 he1 p hp e2 he2 q hq hpq hne
    rw [hoff e1 he1 p hp hne, hoff e2 he2 q hq (hpq ▸ hne), hpq]
  · intro d
    rw [distinctPayloads, insertAll_mem]
    simp only [List.not_mem_nil, false_or, allPayloads, List.mem_flatten, List.mem_map]
    constructor
    · rintro ⟨hne, l, ⟨e, he, rfl⟩, hd⟩
      obtain ⟨p, hp, rfl⟩ := List.mem_map.1 hd
      exact ⟨hne, e, he, p, hp, rfl⟩
    · rintro ⟨hne, e, he, p, hp, rfl⟩
      exact ⟨hne, _, ⟨e, he, rfl⟩, List.mem_map_of_mem _ hp⟩
  · rw [hout, List.length_flatten]
  · intro e1 e2 p q hent hp1 hq1 hpq hlen
    rw [hout, hent, hlen]
    by_cases h0 : p.data = []
    · simp [distinctPayloads, allPayloads, hp1, hq1, ← hpq, h0, insertAll]
    · simp [distinctPayloads, allPayloads, hp1, hq1, ← hpq, h0, insertAll, setInsert]

/-- C10 (witness): the theorem at two entries with the same payload. -/
theorem writeArchiveFile_dedup_witness :
    (∀ e ∈ twinEntries, allowDedupFor none e = true)
    ∧ (∀ e ∈ twinEntries, ∀ p ∈ e.parts, p.dataCrc32 = computeCRC32 p.data)
    ∧ (writeArchiveFile twinEntries none).2.map clearOffsets = twinEntries.map clearOffsets
    ∧ (∀ e1 ∈ (writeArchiveFile twinEntries none).2, ∀ p ∈ e1.parts,
      ∀ e2 ∈ (writeArchiveFile twinEntries none).2, ∀ q ∈ e2.parts,
        p.data = q.data → p.data ≠ [] → p.entryOffset = q.entryOffset)
    ∧ (∀ e ∈ (writeArchiveFile twinEntries none).2, ∀ p ∈ e.parts, p.data ≠ [] →
        p.entryOffset = offsetOf (distinctPayloads (allPayloads twinEntries)) p.data)
    ∧ (distinctPayloads (allPayloads twinEntries)).Nodup
    ∧ (∀ d, d ∈ distinctPayloads (allPayloads twinEntries)
        ↔ d ≠ [] ∧ ∃ e ∈ twinEntries, ∃ p ∈ e.parts, p.data = d)
    ∧ (writeArchiveFile twinEntries none).1
        = (distinctPayloads (allPayloads twinEntries)).flatten
    ∧ (writeArchiveFile twinEntries none).1.length
        = ((distinctPayloads (allPayloads twinEntries)).map List.length).sum
    ∧ (∀ e1 e2 p q, twinEntries = [e1, e2] → e1.parts = [p] → e2.parts = [q] →
        p.data = q.data → p.entryLength = p.data.length →
        (writeArchiveFile twinEntries none).1.length = p.entryLength) :=
  ⟨by decide, by decide, writeArchiveFile_dedup twinEntries none (by decide) (by decide)⟩

end respawn_vpk

/-! ## The tree format of the reader: `bake` emits, `open` parses -/

theorem leValue_leBytes (w n : Nat) : leValue (leBytes w n) = n % 256 ^ w := by
  induction w generalizing n with
  | zero => simp [leBytes, leValue, Nat.mod_one]
  | succ w ih =>
    simp only [leBytes, leValue, ih]
    rw [pow_succ, Nat.mul_comm (256 ^ w) 256, Nat.mod_mul]

theorem or2 (b0 b1 : Nat) (h0 : b0 < 256) :
    b0 ||| (b1 <<< 8) = b0 + 256 * b1 := by
  rw [or_shl b0 b1 8 (by simpa using h0)]; ring

theorem or4 (b0 b1 b2 b3 : Nat) (h0 : b0 < 256) (h1 : b1 < 256) (h2 : b2 < 256) :
    b0 ||| (b1 <<< 8) ||| (b2 <<< 16) ||| (b3 <<< 24)
      = b0 + 256 * (b1 + 256 * (b2 + 256 * b3)) := by
  rw [or_shl b0 b1 8 (by simpa using h0), or_shl _ b2 16 (by norm_num; omega),
    or_shl _ b3 24 (by norm_num; omega)]
  ring

theorem or8 (b0 b1 b2 b3 b4 b5 b6 b7 : Nat) (h0 : b0 < 256) (h1 : b1 < 256) (h2 : b2 < 256)
    (h3 : b3 < 256) (h4 : b4 < 256) (h5 : b5 < 256) (h6 : b6 < 256) :
    b0 ||| (b1 <<< 8) ||| (b2 <<< 16) ||| (b3 <<< 24) ||| (b4 <<< 32) ||| (b5 <<< 40)
        ||| (b6 <<< 48) ||| (b7 <<< 56)
      = b0 + 256 * (b1 + 256 * (b2 + 256 * (b3 + 256 * (b4 + 256 * (b5 + 256 * (b6 + 256 * b7)))))) := by
  rw [or_shl b0 b1 8 (by simpa using h0), or_shl _ b2 16 (by norm_num; omega),
    or_shl _ b3 24 (by norm_num; omega), or_shl _ b4 32 (by norm_num; omega),
    or_shl _ b5 40 (by norm_num; omega), or_shl _ b6 48 (by norm_num; omega),
    or_shl _ b7 56 (by norm_num; omega)]
  ring

namespace RespawnVPK

theorem read_append (bs r : Bytes) (pos : Nat) :
    IStream.read { rest := bs ++ r, pos := pos, good := true } bs.length
      = (some bs, { rest := r, pos := pos + bs.length, good := true }) := by
  simp [IStream.read]

theorem readU16_le (v : Nat) (r : Bytes) (pos : Nat) :
    readU16 { rest := leBytes 2 v ++ r, pos := pos, good := true }
      = (v % 2 ^ 16, { rest := r, pos := pos + 2, good := true }) := by
  have h := read_append (leBytes 2 v) r pos
  rw [leBytes_length] at h
  have hv := leValue_leBytes 2 v
  simp only [leBytes, leValue, Nat.mul_zero, Nat.add_zero] at hv
  simp only [readU16, h]
  simp only [leBytes, List.getD_cons_zero, List.getD_cons_succ]
  rw [or2 _ _ (Nat.mod_lt _ (by norm_num)), hv]
  norm_num

theorem readU32_le (v : Nat) (r : Bytes) (pos : Nat) :
    readU32 { rest := leBytes 4 v ++ r, pos := pos, good := true }
      = (v % 2 ^ 32, { rest := r, pos := pos + 4, good := true }) := by
  have h := read_append (leBytes 4 v) r pos
  rw [leBytes_length] at h
  have hv := leValue_leBytes 4 v
  simp only [leBytes, leValue, Nat.mul_zero, Nat.add_zero] at hv
  simp only [readU32, h]
  simp only [leBytes, List.getD_cons_zero, List.getD_cons_succ]
  rw [or4 _ _ _ _ (Nat.mod_lt _ (by norm_num)) (Nat.mod_lt _ (by norm_num))
    (Nat.mod_lt _ (by norm_num)), hv]
  norm_num

theorem readU64_le (v : Nat) (r : Bytes) (pos : Nat) :
    readU64 { rest := leBytes 8 v ++ r, pos := pos, good := true }
      = (v % 2 ^ 64, { rest := r, pos := pos + 8, good := true }) := by
  have h := read_append (leBytes 8 v) r pos
  rw [leBytes_length] at h
  have hv := leValue_leBytes 8 v
  simp only [leBytes, leValue, Nat.mul_zero, Nat.add_zero] at hv
  simp only [readU64, h]
  simp only [leBytes, List.getD_cons_zero, List.getD_cons_succ]
  rw [or8 _ _ _ _ _ _ _ _ (Nat.mod_lt _ (by norm_num)) (Nat.mod_lt _ (by norm_num))
    (Nat.mod_lt _ (by norm_num)) (Nat.mod_lt _ (by norm_num)) (Nat.mod_lt _ (by norm_num))
    (Nat.mod_lt _ (by norm_num)) (Nat.mod_lt _ (by norm_num)), hv]
  norm_num

theorem readCStringBytes_append (s r : Bytes) (h : 0 ∉ s) :
    readCStringBytes (s ++ 0 :: r) = (s, r, true) := by
  induction s with
  | nil => simp [readCStringBytes]
  | cons c cs ih =>
    have hc : c ≠ 0 := fun e => h (by simp [e])
    have hcs : 0 ∉ cs := fun e => h (List.mem_cons_of_mem _ e)
    simp [readCStringBytes, hc, ih hcs]

theorem readCString_append (s r : Bytes) (pos : Nat) (h : 0 ∉ s) :
    readCString { rest := s ++ 0 :: r, pos := pos, good := true }
      = (s, { rest := r, pos := pos + (s.length + 1), good := true }) := by
  simp only [readCString, readCStringBytes_append s r h]
  simp
  omega

end RespawnVPK

namespace RespawnVPK

theorem partBytes_length (p : FilePart) : (partBytes p).length = 32 := by
  simp [partBytes, leBytes_length]

theorem partsBytes_length (ps : List FilePart) : (partsBytes ps).length = 32 * ps.length := by
  induction ps with
  | nil => rfl
  | cons p ps ih => simp only [partsBytes, List.length_append, partBytes_length, ih,
      List.length_cons]; omega

theorem emitParts_buf (w : WriteBuffer) (ps : List FilePart) :
    (emitParts w ps).buf = w.buf ++ partsBytes ps := by
  induction ps generalizing w with
  | nil => simp [emitParts, partsBytes]
  | cons p ps ih =>
    have h : leBytes 2 (p.loadFlags % 65536) = leBytes 2 p.loadFlags := leBytes_mod 2 _
    simp only [emitParts, ih, partsBytes, partBytes, WriteBuffer.writeU16_buf,
      WriteBuffer.writeU32_buf, WriteBuffer.writeU64_buf, List.append_assoc, and_ffff, h]

theorem emitStep_lastExt (st : EmitState) (t : TreeItem) : (emitStep st t).lastExt = t.ext := by
  simp only [emitStep]
  split_ifs <;> simp_all

theorem emitStep_lastDir (st : EmitState) (t : TreeItem) : (emitStep st t).lastDir = t.dir := by
  simp only [emitStep]
  split_ifs <;> simp_all

theorem emitStep_buf (st : EmitState) (t : TreeItem) :
    (emitStep st t).w.buf = st.w.buf ++ itemPrefix st.lastExt st.lastDir t ++ itemRecord t := by
  simp only [emitStep, itemPrefix, itemRecord, emitParts_buf, WriteBuffer.writeU16_buf,
    WriteBuffer.writeU32_buf, WriteBuffer.writeCString_buf, List.isEmpty_iff,
    RESPAWN_CHUNK_END_MARKER]
  split_ifs <;> simp_all [leBytes, WriteBuffer.writeU16_buf]

theorem emit_foldl (ts : List TreeItem) (st : EmitState) :
    (ts.foldl emitStep st).w.buf = st.w.buf ++ itemsLayout st.lastExt st.lastDir ts := by
  induction ts generalizing st with
  | nil => simp [itemsLayout]
  | cons t ts ih =>
    rw [List.foldl_cons, ih, emitStep_buf, emitStep_lastExt, emitStep_lastDir]
    simp [itemsLayout]

theorem emitTreeItems_eq (ts : List TreeItem) :
    emitTreeItems ts = itemsLayout [] [] ts ++ [0, 0, 0] := by
  simp only [emitTreeItems, WriteBuffer.writeU24_buf, emit_foldl]
  simp [leBytes]

end RespawnVPK

namespace RespawnVPK

theorem readParts_step (p : FilePart) (hp : p.WF) (acc : List FilePart) (f pos : Nat)
    (r : Bytes) :
    readParts (f + 1) { rest := partBytes p ++ r, pos := pos, good := true } acc
      = readParts f { rest := r, pos := pos + 2 + 2 + 4 + 8 + 8 + 8, good := true }
          (acc ++ [p]) := by
  obtain ⟨h1, h2, h3, h4, h5, h6, h7⟩ := hp
  have e : partBytes p ++ r = leBytes 2 p.archiveIndex ++ (leBytes 2 p.loadFlags
      ++ (leBytes 4 p.textureFlags ++ (leBytes 8 p.entryOffset ++ (leBytes 8 p.entryLength
      ++ (leBytes 8 p.entryLengthUncompressed ++ r))))) := by
    simp only [partBytes, List.append_assoc]
  rw [e, readParts]
  simp only [readU16_le, readU32_le, readU64_le]
  rw [Nat.mod_eq_of_lt h1, Nat.mod_eq_of_lt h3, Nat.mod_eq_of_lt h4,
      Nat.mod_eq_of_lt h5, Nat.mod_eq_of_lt h6, Nat.mod_eq_of_lt h7]
  simp only [RESPAWN_CHUNK_END_MARKER, h2, if_false, not_true_eq_false, Bool.not_eq_true]

theorem readParts_end (acc : List FilePart) (f pos : Nat) (r : Bytes) :
    readParts (f + 1) { rest := 0xFF :: 0xFF :: r, pos := pos, good := true } acc
      = .ret (some (acc, { rest := r, pos := pos + 2, good := true })) := by
  have h := readU16_le 0xFFFF r pos
  simp only [leBytes] at h
  norm_num at h
  rw [readParts]
  simp only [h, RESPAWN_CHUNK_END_MARKER]
  rfl

theorem readParts_parts (ps : List FilePart) (hps : ∀ p ∈ ps, p.WF) :
    ∀ (acc : List FilePart) (fuel pos : Nat) (r : Bytes), ps.length < fuel →
      ∃ pos', readParts fuel { rest := partsBytes ps ++ 0xFF :: 0xFF :: r, pos := pos, good := true }
          acc = .ret (some (acc ++ ps, { rest := r, pos := pos', good := true })) := by
  induction ps with
  | nil =>
    intro acc fuel pos r hf
    obtain ⟨f, rfl⟩ : ∃ f, fuel = f + 1 := ⟨fuel - 1, by omega⟩
    exact ⟨pos + 2, by simpa [partsBytes] using readParts_end acc f pos r⟩
  | cons p ps ih =>
    intro acc fuel pos r hf
    obtain ⟨f, rfl⟩ : ∃ f, fuel = f + 1 := ⟨fuel - 1, by omega⟩
    obtain ⟨pos', hrec⟩ := ih (fun q hq => hps q (List.mem_cons_of_mem _ hq))
      (acc ++ [p]) f (pos + 2 + 2 + 4 + 8 + 8 + 8) r (by simp at hf; omega)
    refine ⟨pos', ?_⟩
    have e : acc ++ p :: ps = acc ++ [p] ++ ps := by simp
    have e2 : partsBytes (p :: ps) ++ 0xFF :: 0xFF :: r
        = partBytes p ++ (partsBytes ps ++ 0xFF :: 0xFF :: r) := by
      simp only [partsBytes, List.append_assoc]
    rw [e, ← hrec, e2]
    exact readParts_step p (hps p (List.mem_cons_self _ _)) acc f pos _

theorem step_file_end (x d : Bytes) (fuel pos : Nat) (r : Bytes) (acc : List ParsedEntry)
    (hf : 0 < fuel) :
    parseLoop fuel (.file x d) { rest := 0 :: r, pos := pos, good := true } acc
      = parseLoop (fuel - 1) (.dir x) { rest := r, pos := pos + 1, good := true } acc := by
  obtain ⟨f, rfl⟩ : ∃ f, fuel = f + 1 := ⟨fuel - 1, by omega⟩
  have h := readCString_append [] r pos (by simp)
  simp only [List.nil_append, List.length_nil, Nat.zero_add] at h
  simp [parseLoop, h]

theorem step_dir_end (x : Bytes) (fuel pos : Nat) (r : Bytes) (acc : List ParsedEntry)
    (hf : 0 < fuel) :
    parseLoop fuel (.dir x) { rest := 0 :: r, pos := pos, good := true } acc
      = parseLoop (fuel - 1) .ext { rest := r, pos := pos + 1, good := true } acc := by
  obtain ⟨f, rfl⟩ : ∃ f, fuel = f + 1 := ⟨fuel - 1, by omega⟩
  have h := readCString_append [] r pos (by simp)
  simp only [List.nil_append, List.length_nil, Nat.zero_add] at h
  simp [parseLoop, h]

theorem step_ext_end (fuel pos : Nat) (r : Bytes) (acc : List ParsedEntry) (hf : 0 < fuel) :
    parseLoop fuel .ext { rest := 0 :: r, pos := pos, good := true } acc
      = .ret (some acc) := by
  obtain ⟨f, rfl⟩ : ∃ f, fuel = f + 1 := ⟨fuel - 1, by omega⟩
  have h := readCString_append [] r pos (by simp)
  simp only [List.nil_append, List.length_nil, Nat.zero_add] at h
  simp [parseLoop, h]

theorem step_ext (s : Bytes) (hs : nameOk s) (fuel pos : Nat) (r : Bytes)
    (acc : List ParsedEntry) (hf : 0 < fuel) :
    parseLoop fuel .ext { rest := s ++ 0 :: r, pos := pos, good := true } acc
      = parseLoop (fuel - 1) (.dir s)
          { rest := r, pos := pos + (s.length + 1), good := true } acc := by
  obtain ⟨f, rfl⟩ : ∃ f, fuel = f + 1 := ⟨fuel - 1, by omega⟩
  simp [parseLoop, readCString_append s r pos hs.2, hs.1]

theorem step_dir (x s : Bytes) (hs : nameOk s) (fuel pos : Nat) (r : Bytes)
    (acc : List ParsedEntry) (hf : 0 < fuel) :
    parseLoop fuel (.dir x) { rest := s ++ 0 :: r, pos := pos, good := true } acc
      = parseLoop (fuel - 1) (.file x s)
          { rest := r, pos := pos + (s.length + 1), good := true } acc := by
  obtain ⟨f, rfl⟩ : ∃ f, fuel = f + 1 := ⟨fuel - 1, by omega⟩
  simp [parseLoop, readCString_append s r pos hs.2, hs.1]

theorem step_entry (t : TreeItem) (ht : t.WF) (x d : Bytes) (fuel pos : Nat) (r : Bytes)
    (acc : List ParsedEntry) (hf : t.meta.parts.length + 1 < fuel) :
    ∃ pos', parseLoop fuel (.file x d) { rest := itemRecord t ++ r, pos := pos, good := true } acc
      = parseLoop (fuel - 1) (.file x d) { rest := r, pos := pos', good := true }
          (acc ++ [parsedAs x d t]) := by
  obtain ⟨f, rfl⟩ : ∃ f, fuel = f + 1 := ⟨fuel - 1, by omega⟩
  obtain ⟨-, -, hstem, hcrc, hpre, hparts⟩ := ht
  obtain ⟨pos', hrp⟩ := readParts_parts t.meta.parts hparts [] f
    (pos + (t.fileStem.length + 1) + 4 + 2) r (by omega)
  refine ⟨pos', ?_⟩
  have e : itemRecord t ++ r = t.fileStem ++ 0 :: (leBytes 4 t.meta.crc32
      ++ (leBytes 2 0 ++ (partsBytes t.meta.parts ++ 0xFF :: 0xFF :: r))) := by
    simp [itemRecord, hpre]
  rw [e]
  simp only [parseLoop, readCString_append _ _ _ hstem.2, readU32_le, readU16_le, hrp,
    Nat.mod_eq_of_lt hcrc]
  simp [hstem.1, parsedAs]

theorem itemRecord_length (t : TreeItem) :
    (itemRecord t).length = t.fileStem.length + 32 * t.meta.parts.length + 9 := by
  simp only [itemRecord, List.length_append, leBytes_length, partsBytes_length,
    List.length_cons, List.length_nil]
  omega

theorem itemPrefix_newExt (x d : Bytes) (t : TreeItem) (hx : x ≠ []) (ht : t.dir ≠ [])
    (h : t.ext ≠ x) : itemPrefix x d t = 0 :: 0 :: (t.ext ++ 0 :: (t.dir ++ [0])) := by
  simp [itemPrefix, hx, h, ht]

theorem itemPrefix_newDir (x d : Bytes) (t : TreeItem) (hd : d ≠ []) (h : t.ext = x)
    (h2 : t.dir ≠ d) : itemPrefix x d t = 0 :: (t.dir ++ [0]) := by
  simp [itemPrefix, h, h2, hd]

theorem itemPrefix_same (x d : Bytes) (t : TreeItem) (h : t.ext = x) (h2 : t.dir = d) :
    itemPrefix x d t = [] := by
  simp [itemPrefix, h, h2]

theorem itemPrefix_first (t : TreeItem) (he : t.ext ≠ []) (hd : t.dir ≠ []) :
    itemPrefix [] [] t = t.ext ++ 0 :: (t.dir ++ [0]) := by
  simp [itemPrefix, he, hd]

theorem parseLoop_items (L : List TreeItem) :
    ∀ (x d : Bytes) (acc : List ParsedEntry) (fuel pos : Nat) (tl : Bytes),
      (∀ t ∈ L, t.WF) → x ≠ [] → d ≠ [] → (itemsLayout x d L).length + 3 ≤ fuel →
      parseLoop fuel (.file x d)
          { rest := itemsLayout x d L ++ 0 :: 0 :: 0 :: tl, pos := pos, good := true } acc
        = .ret (some (acc ++ L.map parsedOf)) := by
  induction L with
  | nil =>
    intro x d acc fuel pos tl _ _ _ hf
    simp only [itemsLayout, List.nil_append, List.length_nil, Nat.zero_add] at hf ⊢
    rw [step_file_end _ _ _ _ _ _ (by omega), step_dir_end _ _ _ _ _ (by omega),
      step_ext_end _ _ _ _ (by omega)]
    simp
  | cons t ts ih =>
    intro x d acc fuel pos tl hwf hx hd hf
    have ht : t.WF := hwf t (List.mem_cons_self _ _)
    have hts : ∀ u ∈ ts, u.WF := fun u hu => hwf u (List.mem_cons_of_mem _ hu)
    obtain ⟨hext, hdir, hstem, -⟩ := id ht
    have hrl := itemRecord_length t
    simp only [itemsLayout, List.length_append] at hf
    have hres : acc ++ (t :: ts).map parsedOf = (acc ++ [parsedOf t]) ++ ts.map parsedOf := by
      simp
    rw [hres]
    by_cases h1 : t.ext = x
    · by_cases h2 : t.dir = d
      · have hp := itemPrefix_same x d t h1 h2
        rw [hp] at hf
        simp only [List.length_nil, Nat.zero_add] at hf
        obtain ⟨pos', hstep⟩ := step_entry t ht x d fuel pos
          (itemsLayout t.ext t.dir ts ++ 0 :: 0 :: 0 :: tl) acc (by omega)
        have e : itemsLayout x d (t :: ts) ++ 0 :: 0 :: 0 :: tl
            = itemRecord t ++ (itemsLayout t.ext t.dir ts ++ 0 :: 0 :: 0 :: tl) := by
          simp [itemsLayout, hp]
        rw [e, hstep]
        have hpa : parsedAs x d t = parsedOf t := by rw [parsedOf, h1, h2]
        rw [hpa, ← h1, ← h2]
        exact ih t.ext t.dir _ _ _ _ hts hext.1 hdir.1 (by omega)
      · have hp := itemPrefix_newDir x d t hd h1 h2
        rw [hp] at hf
        simp only [List.length_cons, List.length_append, List.length_nil] at hf
        have e : itemsLayout x d (t :: ts) ++ 0 :: 0 :: 0 :: tl
            = 0 :: (t.dir ++ 0 :: (itemRecord t
                ++ (itemsLayout t.ext t.dir ts ++ 0 :: 0 :: 0 :: tl))) := by
          simp [itemsLayout, hp]
        rw [e, step_file_end _ _ _ _ _ _ (by omega), step_dir _ _ hdir _ _ _ _ (by omega)]
        obtain ⟨pos', hstep⟩ := step_entry t ht x t.dir (fuel - 1 - 1) (pos + 1 + (t.dir.length + 1))
          (itemsLayout t.ext t.dir ts ++ 0 :: 0 :: 0 :: tl) acc (by omega)
        rw [hstep]
        have hpa : parsedAs x t.dir t = parsedOf t := by rw [parsedOf, h1]
        rw [hpa, ← h1]
        exact ih t.ext t.dir _ _ _ _ hts hext.1 hdir.1 (by omega)
    · have hp := itemPrefix_newExt x d t hx hdir.1 h1
      rw [hp] at hf
      simp only [List.length_cons, List.length_append, List.length_nil] at hf
      have e : itemsLayout x d (t :: ts) ++ 0 :: 0 :: 0 :: tl
          = 0 :: 0 :: (t.ext ++ 0 :: (t.dir ++ 0 :: (itemRecord t
              ++ (itemsLayout t.ext t.dir ts ++ 0 :: 0 :: 0 :: tl)))) := by
        simp [itemsLayout, hp]
      rw [e, step_file_end _ _ _ _ _ _ (by omega), step_dir_end _ _ _ _ _ (by omega),
        step_ext _ hext _ _ _ _ (by omega), step_dir _ _ hdir _ _ _ _ (by omega)]
      obtain ⟨pos', hstep⟩ := step_entry t ht t.ext t.dir (fuel - 1 - 1 - 1 - 1)
        (pos + 1 + 1 + (t.ext.length + 1) + (t.dir.length + 1))
        (itemsLayout t.ext t.dir ts ++ 0 :: 0 :: 0 :: tl) acc (by omega)
      rw [hstep]
      exact ih t.ext t.dir _ _ _ _ hts hext.1 hdir.1 (by omega)

theorem parseLoop_tree (L : List TreeItem) (hwf : ∀ t ∈ L, t.WF) (fuel pos : Nat) (tl : Bytes)
    (hf : (itemsLayout [] [] L).length + 3 ≤ fuel) :
    parseLoop fuel .ext
        { rest := itemsLayout [] [] L ++ 0 :: 0 :: 0 :: tl, pos := pos, good := true } []
      = .ret (some (L.map parsedOf)) := by
  cases L with
  | nil =>
    simp only [itemsLayout, List.nil_append]
    rw [step_ext_end _ _ _ _ (by omega)]
    simp
  | cons t ts =>
    have ht : t.WF := hwf t (List.mem_cons_self _ _)
    have hts : ∀ u ∈ ts, u.WF := fun u hu => hwf u (List.mem_cons_of_mem _ hu)
    obtain ⟨hext, hdir, hstem, -⟩ := id ht
    have hrl := itemRecord_length t
    have hp := itemPrefix_first t hext.1 hdir.1
    simp only [itemsLayout, List.length_append, hp, List.length_cons, List.length_nil] at hf
    have e : itemsLayout [] [] (t :: ts) ++ 0 :: 0 :: 0 :: tl
        = t.ext ++ 0 :: (t.dir ++ 0 :: (itemRecord t
            ++ (itemsLayout t.ext t.dir ts ++ 0 :: 0 :: 0 :: tl))) := by
      simp [itemsLayout, hp]
    rw [e, step_ext _ hext _ _ _ _ (by omega), step_dir _ _ hdir _ _ _ _ (by omega)]
    obtain ⟨pos', hstep⟩ := step_entry t ht t.ext t.dir (fuel - 1 - 1)
      (pos + (t.ext.length + 1) + (t.dir.length + 1))
      (itemsLayout t.ext t.dir ts ++ 0 :: 0 :: 0 :: tl) [] (by omega)
    rw [hstep]
    have := parseLoop_items ts t.ext t.dir ([] ++ [parsedAs t.ext t.dir t]) (fuel - 1 - 1 - 1)
      pos' tl hts hext.1 hdir.1 (by omega)
    rw [this]
    simp [parsedOf]

end RespawnVPK

namespace RespawnVPK

theorem cstr_split (a : Bytes) : ∀ (a' r r' : Bytes), 0 ∉ a → 0 ∉ a' →
    a ++ 0 :: r = a' ++ 0 :: r' → a = a' ∧ r = r' := by
  induction a with
  | nil =>
    intro a' r r' _ h' h
    cases a' with
    | nil => simpa using h
    | cons c cs =>
      simp only [List.nil_append, List.cons_append, List.cons.injEq] at h
      exact absurd (by simp [← h.1]) h'
  | cons c cs ih =>
    intro a' r r' ha h' h
    cases a' with
    | nil =>
      simp only [List.nil_append, List.cons_append, List.cons.injEq] at h
      exact absurd (by simp [h.1]) ha
    | cons c' cs' =>
      simp only [List.cons_append, List.cons.injEq] at h
      obtain ⟨h1, h2⟩ := ih cs' r r' (fun e => ha (List.mem_cons_of_mem _ e))
        (fun e => h' (List.mem_cons_of_mem _ e)) h.2
      exact ⟨by rw [h.1, h1], h2⟩

theorem sortKey_inj (t u : TreeItem) (ht : t.WF) (hu : u.WF) (h : t.sortKey = u.sortKey) :
    (t.ext, t.dir, t.fileStem) = (u.ext, u.dir, u.fileStem) := by
  obtain ⟨⟨-, t1⟩, ⟨-, t2⟩, ⟨-, t3⟩, -⟩ := ht
  obtain ⟨⟨-, u1⟩, ⟨-, u2⟩, ⟨-, u3⟩, -⟩ := hu
  simp only [TreeItem.sortKey, List.append_assoc, List.singleton_append] at h
  obtain ⟨e1, h⟩ := cstr_split _ _ _ _ t1 u1 h
  obtain ⟨e2, h⟩ := cstr_split _ _ _ _ t2 u2 h
  obtain ⟨e3, -⟩ := cstr_split _ _ _ _ t3 u3 h
  rw [e1, e2, e3]

theorem itemLe_total : IsTotal TreeItem (fun a b => ¬ itemLess b a) :=
  ⟨fun a b => by
    simp only [itemLess, not_lt]
    exact le_total _ _⟩

theorem itemLe_trans : IsTrans TreeItem (fun a b => ¬ itemLess b a) :=
  ⟨fun a b c hab hbc => by
    simp only [itemLess, not_lt] at *
    exact le_trans hab hbc⟩

theorem sortItems_perm (items : List TreeItem) : (sortItems items).Perm items :=
  List.perm_insertionSort _ _

theorem sortItems_sorted (items : List TreeItem) :
    (sortItems items).Sorted (fun a b => ¬ itemLess b a) :=
  @List.sorted_insertionSort _ _ _ itemLe_total itemLe_trans items

theorem itemsLayout_reparsed (L : List TreeItem) (hwf : ∀ t ∈ L, t.WF) :
    ∀ x d, itemsLayout x d ((L.map parsedOf).map itemOf) = itemsLayout x d L := by
  induction L with
  | nil => intro x d; rfl
  | cons t ts ih =>
    intro x d
    have hpre : t.meta.preloadBytes = 0 := (hwf t (List.mem_cons_self _ _)).2.2.2.2.1
    have h1 : itemPrefix x d (itemOf (parsedOf t)) = itemPrefix x d t := rfl
    have h2 : itemRecord (itemOf (parsedOf t)) = itemRecord t := by
      simp [itemRecord, itemOf, parsedOf, parsedAs, hpre]
    simp only [List.map_cons, itemsLayout, h1, h2]
    rw [show (itemOf (parsedOf t)).ext = t.ext from rfl,
      show (itemOf (parsedOf t)).dir = t.dir from rfl,
      ih (fun u hu => hwf u (List.mem_cons_of_mem _ hu))]

theorem sorted_reparsed (L : List TreeItem) (h : L.Sorted (fun a b => ¬ itemLess b a)) :
    ((L.map parsedOf).map itemOf).Sorted (fun a b => ¬ itemLess b a) := by
  rw [List.map_map]
  exact List.Pairwise.map _ (fun a b hab => hab) h

/-- C4: for every list of tree items with pairwise distinct `(ext, dir, fileStem)` keys,
non-empty NUL-free components, `preloadBytes = 0`, and parts whose archive index is not
0xFFFF and whose fields fit their on-disk widths (`loadFlags < 2^16`), the tree bytes that
the emitter of `bake` produces (sort by key, then write) are parsed by the parser of `open`
into entries whose `(path, crc32, parts)` are, up to order, exactly those of the input;
emitting the parsed entries again gives the same bytes; and the bytes do not depend on
how `std::sort` arranges the items (any sorted arrangement is the same list). -/
theorem bake_open_roundtrip (items : List TreeItem) (pos : Nat)
    (hkeys : (items.map (fun t => (t.ext, t.dir, t.fileStem))).Nodup)
    (hwf : ∀ t ∈ items, t.WF) :
    (∃ parsed, parseEntries { rest := bakeTree items, pos := pos, good := true } = some parsed
      ∧ (parsed.map (fun e => (e.fullPath, e.meta.crc32, e.meta.parts))).Perm
          (items.map (fun t => (fullPathOf t.ext t.dir t.fileStem, t.meta.crc32, t.meta.parts)))
      ∧ bakeTree (parsed.map itemOf) = bakeTree items)
    ∧ (∀ sorted : List TreeItem, sorted.Perm items →
        sorted.Sorted (fun a b => ¬ itemLess b a) → emitTreeItems sorted = bakeTree items) := by
  have hperm := sortItems_perm items
  have hwf' : ∀ t ∈ sortItems items, t.WF := fun t ht => hwf t (hperm.subset ht)
  constructor
  · refine ⟨(sortItems items).map parsedOf, ?_, ?_, ?_⟩
    · simp only [parseEntries, bakeTree, emitTreeItems_eq]
      have := parseLoop_tree (sortItems items) hwf'
        ((itemsLayout [] [] (sortItems items) ++ [0, 0, 0]).length + 4) pos []
        (by simp only [List.length_append, List.length_cons, List.length_nil]; omega)
      rw [this]
    · rw [List.map_map]
      exact hperm.map _
    · have hs := sorted_reparsed _ (sortItems_sorted items)
      rw [bakeTree, sortItems, List.Sorted.insertionSort_eq hs, emitTreeItems_eq,
        itemsLayout_reparsed _ hwf', bakeTree, emitTreeItems_eq]
  · intro sorted hp hs
    have : sorted = sortItems items := by
      apply List.Perm.eq_of_sorted _ hs (sortItems_sorted items) (hp.trans hperm.symm)
      intro a b ha hb hab hba
      have ha' : a ∈ items := hp.subset ha
      have hb' : b ∈ items := hperm.subset hb
      have hk : a.sortKey = b.sortKey := by
        simp only [itemLess, not_lt] at hab hba
        exact le_antisymm hab hba
      exact List.inj_on_of_nodup_map hkeys ha' hb' (sortKey_inj a b (hwf a ha') (hwf b hb') hk)
    rw [this, bakeTree]

/-- C4 (witness): the theorem at three items in two extension blocks, stream position 16. -/
theorem bake_open_roundtrip_witness :
    (sampleItems.map (fun t => (t.ext, t.dir, t.fileStem))).Nodup
    ∧ (∀ t ∈ sampleItems, t.WF)
    ∧ (∃ parsed, parseEntries { rest := bakeTree sampleItems, pos := 16, good := true }
          = some parsed
      ∧ (parsed.map (fun e => (e.fullPath, e.meta.crc32, e.meta.parts))).Perm
          (sampleItems.map
            (fun t => (fullPathOf t.ext t.dir t.fileStem, t.meta.crc32, t.meta.parts)))
      ∧ bakeTree (parsed.map itemOf) = bakeTree sampleItems)
    ∧ (∀ sorted : List TreeItem, sorted.Perm sampleItems →
        sorted.Sorted (fun a b => ¬ itemLess b a) →
        emitTreeItems sorted = bakeTree sampleItems) :=
  ⟨by decide, by decide, bake_open_roundtrip sampleItems 16 (by decide) (by decide)⟩

end RespawnVPK

/-! ## The packer run on concrete directories -/

/-- C1 (the code at the failing input): for the directory with `a.txt` = `x` and
`b.txt` = `y`, default options and no manifest, the pack succeeds and writes the side
archive `xy`, the open succeeds, `readEntry` of `a.txt` returns `x`, and `readEntry` of
`b.txt` returns `x` as well, not the input byte `y`. -/
theorem pack_read_returns_other_file :
    packThenRead none none twoFiles {} none [98, 46, 116, 120, 116] = some (.ok [120])
    ∧ packThenRead none none twoFiles {} none [97, 46, 116, 120, 116] = some (.ok [120])
    ∧ (respawn_vpk.packDirectoryToRespawnVPK none twoFiles {} none).map (fun o => o.archive)
        = some [120, 121]
    ∧ twoFiles.lookup [98, 46, 116, 120, 116] = some [121] := by
  refine ⟨by rfl, by rfl, by decide, by decide⟩

/-- C2 (the code at the failing input): for the same directory the offsets stored in the
emitted dir tree are 0 for both chunks, while `writeArchiveFile` wrote the payload of `b.txt`
at position 1 of the side archive (and stored 1 in the in-memory entry afterwards). -/
theorem pack_tree_offsets_all_zero :
    (respawn_vpk.packDirectoryToRespawnVPK none twoFiles {} none).map
        (fun o => (RespawnVPK.parseTree o.dirVpk).map
          (fun l => l.map (fun e => (e.fullPath, e.meta.parts.map (fun p => p.entryOffset)))))
      = some (some [([97, 46, 116, 120, 116], [0]), ([98, 46, 116, 120, 116], [0])])
    ∧ (respawn_vpk.packDirectoryToRespawnVPK none twoFiles {} none).map
        (fun o => o.entries.map (fun e => (e.path, e.parts.map (fun p => (p.entryOffset, p.data)))))
      = some [([97, 46, 116, 120, 116], [(0, [120])]), ([98, 46, 116, 120, 116], [(1, [121])])]
    ∧ (respawn_vpk.packDirectoryToRespawnVPK none twoFiles {} none).map (fun o => o.archive)
        = some [120, 121] := by
  decide

/-- C5 (the code at the failing input): for the empty file `e.txt` the packer builds an entry
with `preloadBytes = 0` and no parts, but `buildDirTree` writes no 0xFFFF marker for it (the
entry's bytes end with the archive index e7 03), the parser of `open` fails on the tree
(alone or followed by the entry of `f.txt`; the loop returns, it does not run out of fuel),
and the pack itself fails because its validation pass rejects the tree. -/
theorem empty_file_tree_not_parsed :
    respawn_vpk.buildDirEntryFromFile none [101, 46, 116, 120, 116] [] {} none
      = some (emptyFileEntry, none)
    ∧ emptyFileEntry.preloadBytes = 0 ∧ emptyFileEntry.parts = []
    ∧ respawn_vpk.buildDirTree [emptyFileEntry] 999
        = [116, 120, 116, 0, 32, 0, 101, 0, 0, 0, 0, 0, 0, 0, 231, 3, 0, 0, 0]
    ∧ RespawnVPK.parseEntries
        { rest := respawn_vpk.buildDirTree [emptyFileEntry] 999, pos := 16, good := true }
        = none
    ∧ RespawnVPK.parseLoop 23 .ext
        { rest := respawn_vpk.buildDirTree [emptyFileEntry] 999, pos := 16, good := true } []
        = .ret none
    ∧ respawn_vpk.validateLoop 20 .ext (respawn_vpk.buildDirTree [emptyFileEntry] 999) []
        = .ret none
    ∧ respawn_vpk.buildDirEntryFromFile none [102, 46, 116, 120, 116] [120] {} none
      = some (oneByteEntry, none)
    ∧ RespawnVPK.parseEntries
        { rest := respawn_vpk.buildDirTree [emptyFileEntry, oneByteEntry] 999, pos := 16,
          good := true }
        = none
    ∧ respawn_vpk.packDirectoryToRespawnVPK none [([101, 46, 116, 120, 116], [])] {} none
        = none := by
  decide

/-- C6 (the code at the failing input): for the items `a.txt` (`preloadBytes = 1`) and
`b.txt` the tree that `bake` emits has, right after the 0xFFFF marker of `a.txt`, the file
name of `b.txt` and no preload byte; the parser of `open`, which skips one byte there, loses
`b.txt`. The packer does the same when a manifest sets `preloadSize = 1` for `a.txt`. -/
theorem preload_bytes_not_emitted :
    ((RespawnVPK.bakeTree RespawnVPK.preloadItems).drop 46).take 4 = [0xFF, 0xFF, 98, 0]
    ∧ (RespawnVPK.parseEntries
        { rest := RespawnVPK.bakeTree RespawnVPK.preloadItems, pos := 16, good := true }).map
          (fun l => l.map (fun e => (e.fullPath, e.meta.preloadBytes, e.meta.preloadOffset)))
        = some [([97, 46, 116, 120, 116], 1, 64)]
    ∧ (respawn_vpk.packDirectoryToRespawnVPK none twoFiles {} (some preloadManifest)).map
        (fun o => ((o.dirVpk.drop 62).take 4,
          (RespawnVPK.parseTree o.dirVpk).map (fun l => l.map (fun e => e.fullPath))))
        = some ([0xFF, 0xFF, 98, 0], some [[97, 46, 116, 120, 116]]) := by
  decide

/-! ## The fuelled loops return: the fuel supplied by the top-level functions is enough -/

namespace RespawnVPK

theorem read_left (f : IStream) (n : Nat) :
    (f.read n).2.left ≤ f.left ∧ ((f.read n).2.good = true → (f.read n).2.left + n = f.left) := by
  unfold IStream.read IStream.left
  by_cases hg : f.good = true
  · by_cases hn : f.rest.length < n
    · simp [hg, hn]
    · simp [hg, hn]; omega
  · simp [hg]

theorem readU16_left (f : IStream) :
    (readU16 f).2.left ≤ f.left
      ∧ ((readU16 f).2.good = true → (readU16 f).2.left + 2 = f.left) := by
  have h := read_left f 2
  have e : (readU16 f).2 = (f.read 2).2 := by
    unfold readU16
    split <;> simp_all
  rw [e]; exact h

theorem readU32_left (f : IStream) :
    (readU32 f).2.left ≤ f.left
      ∧ ((readU32 f).2.good = true → (readU32 f).2.left + 4 = f.left) := by
  have h := read_left f 4
  have e : (readU32 f).2 = (f.read 4).2 := by
    unfold readU32
    split <;> simp_all
  rw [e]; exact h

theorem readU64_left (f : IStream) :
    (readU64 f).2.left ≤ f.left
      ∧ ((readU64 f).2.good = true → (readU64 f).2.left + 8 = f.left) := by
  have h := read_left f 8
  have e : (readU64 f).2 = (f.read 8).2 := by
    unfold readU64
    split <;> simp_all
  rw [e]; exact h

theorem readCStringBytes_length (l : Bytes) :
    (readCStringBytes l).2.2 = true →
      (readCStringBytes l).2.1.length + (readCStringBytes l).1.length + 1 = l.length := by
  induction l with
  | nil => simp [readCStringBytes]
  | cons c cs ih =>
    unfold readCStringBytes
    by_cases hc : c = 0
    · simp [hc]
    · simp only [hc, if_false, List.length_cons]
      intro h
      have := ih h
      omega

theorem readCString_left (f : IStream) :
    (readCString f).2.left ≤ f.left
      ∧ ((readCString f).2.good = true →
          (readCString f).2.left + (readCString f).1.length + 1 = f.left) := by
  unfold readCString IStream.left
  by_cases hg : f.good = true
  · simp only [hg, not_true_eq_false, if_false, if_true]
    by_cases hr : (readCStringBytes f.rest).2.2 = true
    · have := readCStringBytes_length f.rest hr
      simp only [hr, if_true]
      constructor
      · omega
      · intro _; exact this
    · simp [hr]
  · simp [hg]

theorem skip_left (f : IStream) (n : Nat) :
    (f.skip n).left ≤ f.left ∧ (f.skip n).good = f.good := by
  unfold IStream.skip IStream.left
  by_cases hg : f.good = true
  · simp [hg]
  · simp [hg]

theorem readParts_returns :
    ∀ (fuel : Nat) (f : IStream) (acc : List FilePart), f.left < fuel →
      ∃ r, readParts fuel f acc = .ret r
        ∧ ∀ parts f1, r = some (parts, f1) → f1.good = true ∧ f1.left + 2 ≤ f.left := by
  intro fuel
  induction fuel with
  | zero => intro f acc h; omega
  | succ fuel ih =>
    intro f acc h
    unfold readParts
    have h16 := readU16_left f
    by_cases hg : (readU16 f).2.good = true
    · simp only [hg, not_true_eq_false, if_false]
      by_cases he : (readU16 f).1 = RESPAWN_CHUNK_END_MARKER
      · simp only [he, if_true]
        refine ⟨_, rfl, ?_⟩
        intro parts f1 e
        simp only [Option.some.injEq, Prod.mk.injEq] at e
        rw [← e.2]
        exact ⟨hg, by have := h16.2 hg; omega⟩
      · simp only [he, if_false]
        have a1 := readU16_left (readU16 f).2
        have a2 := readU32_left (readU16 (readU16 f).2).2
        have a3 := readU64_left (readU32 (readU16 (readU16 f).2).2).2
        have a4 := readU64_left (readU64 (readU32 (readU16 (readU16 f).2).2).2).2
        have a5 := readU64_left (readU64 (readU64 (readU32 (readU16 (readU16 f).2).2).2).2).2
        by_cases hu : (readU64 (readU64 (readU64 (readU32
            (readU16 (readU16 f).2).2).2).2).2).2.good = true
        · simp only [hu, not_true_eq_false, if_false]
          have hlt : (readU64 (readU64 (readU64 (readU32
              (readU16 (readU16 f).2).2).2).2).2).2.left < fuel := by
            have := h16.1; have := a1.1; have := a2.1; have := a3.1; have := a4.1
            have := a5.2 hu
            omega
          obtain ⟨r, hr, hr2⟩ := ih _ (acc ++ [_]) hlt
          refine ⟨r, hr, ?_⟩
          intro parts f1 e
          obtain ⟨g1, g2⟩ := hr2 parts f1 e
          refine ⟨g1, ?_⟩
          have := h16.1; have := a1.1; have := a2.1; have := a3.1; have := a4.1
          have := a5.1
          omega
        · simp only [hu, Bool.false_eq_true, not_false_eq_true, if_true]
          exact ⟨_, rfl, by simp⟩
    · simp only [hg, Bool.false_eq_true, not_false_eq_true, if_true]
      exact ⟨_, rfl, by simp⟩

theorem parseLoop_returns :
    ∀ (fuel : Nat) (mode : TreeMode) (f : IStream) (acc : List ParsedEntry),
      f.left + modeRank mode ≤ fuel → ∃ r, parseLoop fuel mode f acc = .ret r := by
  intro fuel
  induction fuel with
  | zero =>
    intro mode f acc h
    cases mode <;> simp [modeRank] at h
  | succ fuel ih =>
    intro mode f acc h
    have hc := readCString_left f
    cases mode with
    | ext =>
      simp only [parseLoop]
      split_ifs with h1
      · exact ⟨_, rfl⟩
      · simp only [not_or, Bool.not_eq_true, Bool.not_eq_false, List.isEmpty_iff] at h1
        apply ih
        have hn : (readCString f).1.length ≠ 0 := fun e => h1.2 (List.length_eq_zero.1 e)
        have := hc.2 (by simpa using h1.1)
        simp only [modeRank] at h ⊢
        omega
    | dir x =>
      simp only [parseLoop]
      split_ifs with h1
      · apply ih
        simp only [modeRank] at h ⊢
        have := hc.1
        omega
      · simp only [not_or, Bool.not_eq_true, Bool.not_eq_false, List.isEmpty_iff] at h1
        apply ih
        have hn : (readCString f).1.length ≠ 0 := fun e => h1.2 (List.length_eq_zero.1 e)
        have := hc.2 (by simpa using h1.1)
        simp only [modeRank] at h ⊢
        omega
    | file x d =>
      simp only [parseLoop]
      by_cases h1 : (¬ (readCString f).2.good = true ∨ (readCString f).1.isEmpty = true)
      · rw [if_pos h1]
        apply ih
        simp only [modeRank] at h ⊢
        have := hc.1
        omega
      · rw [if_neg h1]
        by_cases h2 : ¬ (readU16 (readU32 (readCString f).2).2).2.good = true
        · rw [if_pos h2]
          exact ⟨_, rfl⟩
        · rw [if_neg h2]
          simp only [not_or, Bool.not_eq_true, Bool.not_eq_false, List.isEmpty_iff] at h1
          have hn : (readCString f).1.length ≠ 0 := fun e => h1.2 (List.length_eq_zero.1 e)
          have hname := hc.2 (by simpa using h1.1)
          have b1 := readU32_left (readCString f).2
          have b2 := readU16_left (readU32 (readCString f).2).2
          simp only [modeRank] at h
          have hfl : (readU16 (readU32 (readCString f).2).2).2.left < fuel := by
            have := b1.1; have := b2.1; omega
          obtain ⟨r, hr, hr2⟩ := readParts_returns fuel _ [] hfl
          rw [hr]
          cases r with
          | none => exact ⟨_, rfl⟩
          | some pf =>
            obtain ⟨parts, f1⟩ := pf
            obtain ⟨g1, g2⟩ := hr2 parts f1 rfl
            have s1 := skip_left f1 (readU16 (readU32 (readCString f).2).2).1
            have := b1.1
            have := b2.1
            simp only
            split_ifs <;> first
              | exact ⟨_, rfl⟩
              | (apply ih; simp only [modeRank]; omega)

/-- The fuel that `parseEntries` supplies is enough: the parser loop of `open` returns. -/
theorem parseEntries_fuel (f : IStream) :
    ∃ r, parseLoop (f.rest.length + 4) .ext f [] = .ret r := by
  apply parseLoop_returns
  simp only [modeRank, IStream.left]
  split_ifs <;> omega

end RespawnVPK

namespace respawn_vpk

theorem readU8_length {r r' : Bytes} {v : Nat} (h : readU8 r = some (v, r')) :
    r'.length + 1 = r.length := by
  cases r with
  | nil => simp [readU8] at h
  | cons b bs =>
    simp only [readU8, Option.some.injEq, Prod.mk.injEq] at h
    rw [← h.2]; rfl

theorem readU16_length {r r' : Bytes} {v : Nat} (h : readU16 r = some (v, r')) :
    r'.length + 2 = r.length := by
  unfold readU16 at h
  cases h1 : readU8 r with
  | none => simp [h1] at h
  | some p1 =>
    obtain ⟨b0, r1⟩ := p1
    cases h2 : readU8 r1 with
    | none => simp [h1, h2] at h
    | some p2 =>
      obtain ⟨b1, r2⟩ := p2
      simp only [h1, h2, Option.some.injEq, Prod.mk.injEq] at h
      have := readU8_length h1
      have := readU8_length h2
      rw [← h.2]; omega

theorem readU32_length {r r' : Bytes} {v : Nat} (h : readU32 r = some (v, r')) :
    r'.length + 4 = r.length := by
  unfold readU32 at h
  cases h1 : readU8 r with
  | none => simp [h1] at h
  | some p1 =>
    obtain ⟨b0, r1⟩ := p1
    cases h2 : readU8 r1 with
    | none => simp [h1, h2] at h
    | some p2 =>
      obtain ⟨b1, r2⟩ := p2
      cases h3 : readU8 r2 with
      | none => simp [h1, h2, h3] at h
      | some p3 =>
        obtain ⟨b2, r3⟩ := p3
        cases h4 : readU8 r3 with
        | none => simp [h1, h2, h3, h4] at h
        | some p4 =>
          obtain ⟨b3, r4⟩ := p4
          simp only [h1, h2, h3, h4, Option.some.injEq, Prod.mk.injEq] at h
          have := readU8_length h1
          have := readU8_length h2
          have := readU8_length h3
          have := readU8_length h4
          rw [← h.2]; omega

theorem readU64_length {r r' : Bytes} {v : Nat} (h : readU64 r = some (v, r')) :
    r'.length + 8 = r.length := by
  unfold readU64 at h
  cases h1 : readU32 r with
  | none => simp [h1] at h
  | some p1 =>
    obtain ⟨lo, r1⟩ := p1
    cases h2 : readU32 r1 with
    | none => simp [h1, h2] at h
    | some p2 =>
      obtain ⟨hi, r2⟩ := p2
      simp only [h1, h2, Option.some.injEq, Prod.mk.injEq] at h
      have := readU32_length h1
      have := readU32_length h2
      rw [← h.2]; omega

theorem readCString_length : ∀ {r r' s : Bytes}, readCString r = some (s, r') →
    r'.length + s.length + 1 = r.length := by
  intro r
  induction r with
  | nil => intro r' s h; simp [readCString] at h
  | cons c cs ih =>
    intro r' s h
    unfold readCString at h
    by_cases hc : c = 0
    · simp only [hc, if_true, Option.some.injEq, Prod.mk.injEq] at h
      rw [← h.1, ← h.2]; simp
    · simp only [hc, if_false] at h
      cases h1 : readCString cs with
      | none => simp [h1] at h
      | some p =>
        obtain ⟨s1, r1⟩ := p
        simp only [h1, Option.some.injEq, Prod.mk.injEq] at h
        have := ih h1
        rw [← h.1, ← h.2]
        simp only [List.length_cons]
        omega

theorem validateParts_returns :
    ∀ (fuel : Nat) (r : Bytes), r.length < fuel →
      ∃ res, validateParts fuel r = .ret res
        ∧ ∀ r', res = some r' → r'.length + 32 ≤ r.length := by
  intro fuel
  induction fuel with
  | zero => intro r h; omega
  | succ fuel ih =>
    intro r h
    unfold validateParts
    cases h1 : readU32 r with
    | none => exact ⟨_, rfl, by simp⟩
    | some p1 =>
      obtain ⟨v1, r1⟩ := p1
      simp only
      cases h2 : readU16 r1 with
      | none => exact ⟨_, rfl, by simp⟩
      | some p2 =>
        obtain ⟨v2, r2⟩ := p2
        simp only
        cases h3 : readU64 r2 with
        | none => exact ⟨_, rfl, by simp⟩
        | some p3 =>
          obtain ⟨v3, r3⟩ := p3
          simp only
          cases h4 : readU64 r3 with
          | none => exact ⟨_, rfl, by simp⟩
          | some p4 =>
            obtain ⟨v4, r4⟩ := p4
            simp only
            cases h5 : readU64 r4 with
            | none => exact ⟨_, rfl, by simp⟩
            | some p5 =>
              obtain ⟨v5, r5⟩ := p5
              simp only
              cases h6 : readU16 r5 with
              | none => exact ⟨_, rfl, by simp⟩
              | some p6 =>
                obtain ⟨marker, r6⟩ := p6
                have l1 := readU32_length h1
                have l2 := readU16_length h2
                have l3 := readU64_length h3
                have l4 := readU64_length h4
                have l5 := readU64_length h5
                have l6 := readU16_length h6
                simp only
                split_ifs with e1 e2
                · refine ⟨_, rfl, ?_⟩
                  intro r' hr'
                  simp only [Option.some.injEq] at hr'
                  rw [← hr']; omega
                · exact ⟨_, rfl, by simp⟩
                · obtain ⟨res, hres, hres2⟩ := ih r6 (by omega)
                  refine ⟨res, hres, ?_⟩
                  intro r' hr'
                  have := hres2 r' hr'
                  omega

theorem validateLoop_returns :
    ∀ (fuel : Nat) (mode : TreeMode) (r : Bytes) (seen : List Bytes), r.length < fuel →
      ∃ res, validateLoop fuel mode r seen = .ret res := by
  intro fuel
  induction fuel with
  | zero => intro mode r seen h; omega
  | succ fuel ih =>
    intro mode r seen h
    cases mode with
    | ext =>
      simp only [validateLoop]
      cases h1 : readCString r with
      | none => exact ⟨_, rfl⟩
      | some p =>
        obtain ⟨s, r1⟩ := p
        have := readCString_length h1
        simp only
        split_ifs
        · exact ⟨_, rfl⟩
        · exact ih _ _ _ (by omega)
    | dir x =>
      simp only [validateLoop]
      cases h1 : readCString r with
      | none => exact ⟨_, rfl⟩
      | some p =>
        obtain ⟨s, r1⟩ := p
        have := readCString_length h1
        simp only
        split_ifs
        · exact ih _ _ _ (by omega)
        · exact ⟨_, rfl⟩
        · exact ih _ _ _ (by omega)
    | file x d =>
      simp only [validateLoop]
      cases h1 : readCString r with
      | none => exact ⟨_, rfl⟩
      | some p =>
        obtain ⟨s, r1⟩ := p
        have l1 := readCString_length h1
        simp only
        split_ifs
        · exact ih _ _ _ (by omega)
        · cases h2 : readU32 r1 with
          | none => exact ⟨_, rfl⟩
          | some p2 =>
            obtain ⟨v2, r2⟩ := p2
            simp only
            cases h3 : readU16 r2 with
            | none => exact ⟨_, rfl⟩
            | some p3 =>
              obtain ⟨v3, r3⟩ := p3
              simp only
              cases h4 : readU16 r3 with
              | none => exact ⟨_, rfl⟩
              | some p4 =>
                obtain ⟨v4, r4⟩ := p4
                simp only
                have l2 := readU32_length h2
                have l3 := readU16_length h3
                have l4 := readU16_length h4
                obtain ⟨res, hres, hres2⟩ := validateParts_returns fuel r4 (by omega)
                simp only [hres]
                cases res with
                | none => exact ⟨_, rfl⟩
                | some r5 =>
                  have := hres2 r5 rfl
                  exact ih _ _ _ (by omega)

/-- The fuel that `validateDirTreeAgainstInput` supplies is enough: its loops return. -/
theorem validateLoop_fuel (dirTree : Bytes) :
    ∃ res, validateLoop (dirTree.length + 1) .ext dirTree [] = .ret res :=
  validateLoop_returns _ _ _ _ (by omega)

end respawn_vpk

/-! ## The CAM sidecar (`buildCam`, `tryMakeCamEntry`) -/

namespace respawn_vpk

theorem endsWithInsensitive_nul (s : Bytes) (h : s.getLast? = some 0) :
    endsWithInsensitive s camSuffix = false := by
  unfold endsWithInsensitive
  split_ifs with hlen
  · rfl
  · simp only [decide_eq_false_iff_not]
    intro heq
    have h1 : (toLower (s.drop (s.length - camSuffix.length))).getLast? = some 0 := by
      simp only [toLower, List.getLast?_map, List.getLast?_drop]
      have : ¬ s.length ≤ s.length - camSuffix.length := by
        simp only [camSuffix, List.length_cons, List.length_nil] at hlen ⊢
        omega
      simp [this, h, toLowerByte]
    rw [heq] at h1
    simp [toLower, camSuffix, toLowerByte] at h1

theorem foldl_setCamOffset_nul (entries : List DirEntry) (cams : List CamEntry)
    (h : ∀ e ∈ entries, e.extension.getLast? = some 0) :
    entries.foldl setCamOffset cams = cams := by
  induction entries generalizing cams with
  | nil => rfl
  | cons e es ih =>
    have he := endsWithInsensitive_nul e.extension (h e (List.mem_cons_self _ _))
    simp only [List.foldl_cons, setCamOffset, he]
    simpa using ih cams (fun x hx => h x (List.mem_cons_of_mem _ hx))

theorem foldl_writeCamRecord_nul (entries : List DirEntry) (cams : List CamEntry)
    (w : WriteBuffer) (h : ∀ e ∈ entries, e.extension.getLast? = some 0) :
    entries.foldl (writeCamRecord cams) w = w := by
  induction entries generalizing w with
  | nil => rfl
  | cons e es ih =>
    have he := endsWithInsensitive_nul e.extension (h e (List.mem_cons_self _ _))
    simp only [List.foldl_cons, writeCamRecord, he]
    simpa using ih w (fun x hx => h x (List.mem_cons_of_mem _ hx))

/-- Whenever every entry's extension ends with its NUL character, as `buildDirEntryFromFile`
stores it, no entry passes the suffix test of `buildCam` and the output is empty. -/
theorem buildCam_nul_extension (entries : List DirEntry) (cams : List CamEntry)
    (h : ∀ e ∈ entries, e.extension.getLast? = some 0) : buildCam entries cams = [] := by
  simp only [buildCam, foldl_writeCamRecord_nul _ _ _ h]

end respawn_vpk

/-- C11 (the code at the failing input): for the directory with the single valid WAV file
`s.wav`, `tryMakeCamEntry` returns a CAM draft and the pack succeeds with one entry of
extension `wav` plus NUL, but the suffix test of `buildCam` rejects that extension and the
`.cam` file is written with 0 bytes instead of one 32-byte record. -/
theorem buildCam_writes_no_record :
    respawn_vpk.tryMakeCamEntry (s3Header ++ [1, 2]) [115, 46, 119, 97, 118]
      = some { originalSize := 46, compressedSize := 46, sampleRate := 22050, channels := 1,
               sampleCount := 2000, headerSize := 44, path := [115, 46, 119, 97, 118] }
    ∧ (respawn_vpk.packDirectoryToRespawnVPK none wavDir {} none).map
        (fun o => o.entries.map (fun e => (e.path, e.extension)))
      = some [([115, 46, 119, 97, 118], [119, 97, 118, 0])]
    ∧ respawn_vpk.endsWithInsensitive [119, 97, 118, 0] respawn_vpk.camSuffix = false
    ∧ (respawn_vpk.packDirectoryToRespawnVPK none wavDir {} none).map (fun o => o.cam)
      = some (some []) := by
  decide

/-! ## WAV files without a CAM record -/

namespace respawn_vpk

theorem buildPart_wav_data (bridge : Option CompressBridge) (options : PackOptions)
    (values : Option ManifestEntry) (file : Bytes) (offset partLen : Nat) :
    (buildPart bridge options values [119, 97, 118] file offset partLen).data
      = (file.drop offset).take partLen := by
  cases values <;> simp [buildPart, compressionExcluded]

theorem buildParts_flatten (bridge : Option CompressBridge) (options : PackOptions)
    (values : Option ManifestEntry) (ext file : Bytes)
    (hraw : ∀ off len, (buildPart bridge options values ext file off len).data
      = (file.drop off).take len) :
    ∀ fuel offset parts, buildParts bridge options values ext file fuel offset = some parts →
      (parts.map (fun p => p.data)).flatten = file.drop offset := by
  intro fuel
  induction fuel with
  | zero => intro offset parts h; simp [buildParts] at h
  | succ fuel ih =>
    intro offset parts h
    unfold buildParts at h
    by_cases hlt : offset < file.length
    · simp only [hlt, if_true] at h
      cases hrec : buildParts bridge options values ext file fuel
          (offset + min options.maxPartSize (file.length - offset)) with
      | none => simp [hrec] at h
      | some rest =>
        simp only [hrec, Option.some.injEq] at h
        subst h
        simp only [List.map_cons, List.flatten_cons, hraw, ih _ _ hrec]
        rw [← List.drop_drop, List.take_append_drop]
    · simp only [hlt, if_false, Option.some.injEq] at h
      subst h
      simp only [List.map_nil, List.flatten_nil]
      exact (List.drop_eq_nil_of_le (by omega)).symm

theorem stripWavHeaderInPlace_eq_iff (file : Bytes) :
    stripWavHeaderInPlace file = file
      ↔ file.length < 44 ∨ (file.getD 0 0 = 0xCB ∧ file.getD 1 0 = 0xCB ∧ file.getD 2 0 = 0xCB
          ∧ file.getD 3 0 = 0xCB) := by
  unfold stripWavHeaderInPlace
  constructor
  · intro h
    by_cases h1 : file.length < 44
    · exact Or.inl h1
    · right
      by_cases h2 : file.getD 0 0 = 0xCB ∧ file.getD 1 0 = 0xCB ∧ file.getD 2 0 = 0xCB
          ∧ file.getD 3 0 = 0xCB
      · exact h2
      · simp only [h1, h2, if_false] at h
        rw [← h]
        simp [List.replicate]
  · rintro (h | h)
    · rw [if_pos h]
    · rw [if_pos h]
      split_ifs <;> rfl

end respawn_vpk

namespace respawn_vpk

/-- C12 (amended claim): for every file with extension wav for which `tryMakeCamEntry`
returns no record (and `maxPartSize ≥ 1`), the bytes that `buildDirEntryFromFile` checksums,
splits and stores are those that `stripWavHeaderInPlace` leaves: the input file's bytes when
the file is shorter than 44 bytes or starts with four 0xCB bytes, and otherwise the input
with its first 44 bytes replaced by 0xCB. -/
theorem buildDirEntryFromFile_wav_no_record (bridge : Option CompressBridge)
    (rel contents : Bytes) (options : PackOptions) (manifest : Option Manifest)
    (hext : getExtensionLower rel = [119, 97, 118])
    (hcam : tryMakeCamEntry contents rel = none) (hm : 1 ≤ options.maxPartSize) :
    (∃ e, buildDirEntryFromFile bridge rel contents options manifest = some (e, none)
      ∧ e.crc32 = computeCRC32 (stripWavHeaderInPlace contents)
      ∧ (e.parts.map (fun p => p.data)).flatten = stripWavHeaderInPlace contents)
    ∧ (stripWavHeaderInPlace contents = contents
        ↔ contents.length < 44 ∨ (contents.getD 0 0 = 0xCB ∧ contents.getD 1 0 = 0xCB
            ∧ contents.getD 2 0 = 0xCB ∧ contents.getD 3 0 = 0xCB))
    ∧ (stripWavHeaderInPlace contents ≠ contents →
        stripWavHeaderInPlace contents = List.replicate 44 0xCB ++ contents.drop 44) := by
  refine ⟨?_, stripWavHeaderInPlace_eq_iff contents, ?_⟩
  · obtain ⟨e, cam, he⟩ := buildDirEntryFromFile_returns bridge rel contents options manifest hm
    have he' := he
    simp only [buildDirEntryFromFile, hext, hcam, decide_True, if_true] at he'
    split at he'
    · simp at he'
    · rename_i parts hbp
      simp only [Option.some.injEq, Prod.mk.injEq] at he'
      obtain ⟨h1, h2⟩ := he'
      subst h2
      refine ⟨e, he, ?_, ?_⟩
      · rw [← h1]
      · rw [← h1]
        have := buildParts_flatten bridge options _ _ _
          (buildPart_wav_data bridge options _ (stripWavHeaderInPlace contents)) _ _ _ hbp
        simpa using this
  · intro hne
    unfold stripWavHeaderInPlace at hne ⊢
    split_ifs at hne ⊢ with h1 h2
    · exact absurd rfl hne
    · exact absurd rfl hne
    · rfl

end respawn_vpk

set_option maxRecDepth 8000 in
/-- C12 (counterexample): `x.wav` holds 44 zero bytes, `tryMakeCamEntry` returns no record for
it, and yet the entry is checksummed and stored as 44 bytes 0xCB, not as the input. -/
theorem buildDirEntryFromFile_strips_without_record :
    respawn_vpk.getExtensionLower [120, 46, 119, 97, 118] = [119, 97, 118]
    ∧ respawn_vpk.tryMakeCamEntry zeroWav [120, 46, 119, 97, 118] = none
    ∧ (respawn_vpk.buildDirEntryFromFile none [120, 46, 119, 97, 118] zeroWav {} none).map
        (fun r => (r.1.crc32, r.1.parts.map (fun p => p.data), r.2))
      = some (computeCRC32 (List.replicate 44 0xCB), [List.replicate 44 0xCB], none)
    ∧ List.replicate 44 0xCB ≠ zeroWav
    ∧ computeCRC32 (List.replicate 44 0xCB) ≠ computeCRC32 zeroWav := by
  decide

set_option maxRecDepth 8000 in
/-- C12 (witness): the amended claim at the file `x.wav` of 44 zero bytes. -/
theorem buildDirEntryFromFile_wav_no_record_witness :
    respawn_vpk.getExtensionLower [120, 46, 119, 97, 118] = [119, 97, 118]
    ∧ respawn_vpk.tryMakeCamEntry zeroWav [120, 46, 119, 97, 118] = none
    ∧ 1 ≤ ({} : respawn_vpk.PackOptions).maxPartSize
    ∧ ((∃ e, respawn_vpk.buildDirEntryFromFile none [120, 46, 119, 97, 118] zeroWav {} none
          = some (e, none)
      ∧ e.crc32 = computeCRC32 (respawn_vpk.stripWavHeaderInPlace zeroWav)
      ∧ (e.parts.map (fun p => p.data)).flatten = respawn_vpk.stripWavHeaderInPlace zeroWav)
    ∧ (respawn_vpk.stripWavHeaderInPlace zeroWav = zeroWav
        ↔ zeroWav.length < 44 ∨ (zeroWav.getD 0 0 = 0xCB ∧ zeroWav.getD 1 0 = 0xCB
            ∧ zeroWav.getD 2 0 = 0xCB ∧ zeroWav.getD 3 0 = 0xCB))
    ∧ (respawn_vpk.stripWavHeaderInPlace zeroWav ≠ zeroWav →
        respawn_vpk.stripWavHeaderInPlace zeroWav
          = List.replicate 44 0xCB ++ zeroWav.drop 44)) :=
  ⟨by decide, by decide, by decide,
    respawn_vpk.buildDirEntryFromFile_wav_no_record none [120, 46, 119, 97, 118] zeroWav {}
      none (by decide) (by decide) (by decide)⟩

/-! ## The CAM draft of a WAV file (`tryMakeCamEntry`) -/

namespace respawn_vpk

theorem getD_header (h r : Bytes) (i : Nat) (hi : i < h.length) :
    (h ++ r).getD i 0 = h.getD i 0 := by
  simp [List.getD_eq_getElem?_getD, List.getElem?_append_left hi]

theorem readU16LE_append (h r : Bytes) (off : Nat) (hi : off + 1 < h.length) :
    readU16LE (h ++ r) off = readU16LE h off := by
  simp only [readU16LE, getD_header h r off (by omega), getD_header h r (off + 1) hi]

theorem readU32LE_append (h r : Bytes) (off : Nat) (hi : off + 3 < h.length) :
    readU32LE (h ++ r) off = readU32LE h off := by
  simp only [readU32LE, getD_header h r off (by omega), getD_header h r (off + 1) (by omega),
    getD_header h r (off + 2) (by omega), getD_header h r (off + 3) hi]

/-- The record fields depend on the first 44 bytes and on the length only. -/
theorem tryMakeCamEntry_append (h r path : Bytes) (hh : h.length = 44) :
    tryMakeCamEntry (h ++ r) path
      = (tryMakeCamEntry h path).map (fun e =>
          { e with originalSize := (44 + r.length) % 2 ^ 32
                   compressedSize := (44 + r.length) % 2 ^ 32 }) := by
  unfold tryMakeCamEntry
  have hl : (h ++ r).length = 44 + r.length := by simp [hh]
  simp only [hl, hh, getD_header h r _ (show 0 < h.length by omega),
    getD_header h r _ (show 1 < h.length by omega),
    getD_header h r _ (show 2 < h.length by omega),
    getD_header h r _ (show 3 < h.length by omega),
    getD_header h r _ (show 8 < h.length by omega),
    getD_header h r _ (show 9 < h.length by omega),
    getD_header h r _ (show 10 < h.length by omega),
    getD_header h r _ (show 11 < h.length by omega),
    readU16LE_append h r 22 (by omega), readU16LE_append h r 32 (by omega),
    readU32LE_append h r 24 (by omega), readU32LE_append h r 40 (by omega)]
  have : ¬ (44 + r.length < 44) := by omega
  simp only [this, if_false, lt_irrefl]
  split_ifs <;> simp

end respawn_vpk

/-- C13 (counterexample): for a file of 2^32 bytes that starts with the header `s3Header`
the record has `originalSize = compressedSize = 0`, not the file length. -/
theorem tryMakeCamEntry_size_wraps :
    (respawn_vpk.tryMakeCamEntry (s3Header ++ List.replicate (2 ^ 32 - 44) 0) []).map
        (fun e => (e.originalSize, e.compressedSize)) = some (0, 0)
    ∧ (s3Header ++ List.replicate (2 ^ 32 - 44) 0).length = 2 ^ 32 := by
  have h : (respawn_vpk.tryMakeCamEntry s3Header []).isSome = true := by decide
  constructor
  · rw [respawn_vpk.tryMakeCamEntry_append _ _ _ (by rfl)]
    cases hc : respawn_vpk.tryMakeCamEntry s3Header [] with
    | none => rw [hc] at h; simp at h
    | some e =>
      simp only [Option.map_some', List.length_replicate]
      norm_num
  · simp only [List.length_append, List.length_replicate]
    rw [show s3Header.length = 44 from rfl]
    norm_num

namespace respawn_vpk

/-- C13 (amended claim): `tryMakeCamEntry` returns a record iff the file has at least 44
bytes, bytes 0..4 are RIFF, bytes 8..12 are WAVE, and the 16-bit values at offsets 22
(channels) and 32 (block alignment) are both non-zero; the record then has
`originalSize = compressedSize =` the file length modulo 2^32 (the file length itself for a
file below 4 GiB), the sample rate read at offset 24, the low 8 bits of the channels, the
data length at offset 40 divided by the block alignment, and header size 44. Every file
that starts with `s3Header` gets 22050, 1 and 4000 / 2 = 2000. -/
theorem tryMakeCamEntry_record (wavFile path : Bytes) :
    ((tryMakeCamEntry wavFile path).isSome = true
      ↔ 44 ≤ wavFile.length
        ∧ (wavFile.getD 0 0 = 82 ∧ wavFile.getD 1 0 = 73 ∧ wavFile.getD 2 0 = 70
            ∧ wavFile.getD 3 0 = 70)
        ∧ (wavFile.getD 8 0 = 87 ∧ wavFile.getD 9 0 = 65 ∧ wavFile.getD 10 0 = 86
            ∧ wavFile.getD 11 0 = 69)
        ∧ readU16LE wavFile 22 ≠ 0 ∧ readU16LE wavFile 32 ≠ 0)
    ∧ (∀ e, tryMakeCamEntry wavFile path = some e →
        e.originalSize = wavFile.length % 2 ^ 32
        ∧ e.compressedSize = wavFile.length % 2 ^ 32
        ∧ (wavFile.length < 2 ^ 32 →
            e.originalSize = wavFile.length ∧ e.compressedSize = wavFile.length)
        ∧ e.sampleRate = readU32LE wavFile 24
        ∧ e.channels = readU16LE wavFile 22 % 256
        ∧ e.sampleCount = readU32LE wavFile 40 / readU16LE wavFile 32
        ∧ e.headerSize = 44
        ∧ e.magic = 0xC4DE1A00
        ∧ e.path = path)
    ∧ (∀ r : Bytes, tryMakeCamEntry (s3Header ++ r) path
        = some { originalSize := (44 + r.length) % 2 ^ 32
                 compressedSize := (44 + r.length) % 2 ^ 32
                 sampleRate := 22050, channels := 1, sampleCount := 4000 / 2, headerSize := 44
                 path := path }) := by
  refine ⟨?_, ?_, ?_⟩
  · simp only [tryMakeCamEntry]
    constructor
    · intro h
      split_ifs at h with h1 h2 h3 h4
      all_goals first | (simp at h; done) | skip
      push_neg at h4
      exact ⟨by omega, h2, h3, h4.1, h4.2⟩
    · rintro ⟨h1, h2, h3, h4, h5⟩
      rw [if_neg (by omega), if_neg (by simpa using h2), if_neg (by simpa using h3),
        if_neg (by simp [h4, h5])]
      rfl
  · intro e he
    simp only [tryMakeCamEntry] at he
    split_ifs at he with h1 h2 h3 h4
    simp only [Option.some.injEq] at he
    subst he
    refine ⟨rfl, rfl, ?_, rfl, ?_, rfl, rfl, rfl, rfl⟩
    · intro hl
      simp only [Nat.mod_eq_of_lt hl, and_self]
    · show (readU16LE wavFile 22 &&& 0xFF) % 2 ^ 8 = readU16LE wavFile 22 % 256
      rw [show (0xFF : Nat) = 2 ^ 8 - 1 from rfl, Nat.and_pow_two_sub_one_eq_mod]
      norm_num
  · intro r
    rw [tryMakeCamEntry_append _ _ _ (by rfl)]
    have h : tryMakeCamEntry s3Header path
        = some { originalSize := 44, compressedSize := 44, sampleRate := 22050, channels := 1,
                 sampleCount := 2000, headerSize := 44, path := path } := by
      simp only [tryMakeCamEntry]
      rfl
    rw [h]
    rfl

end respawn_vpk

/-- C13 (witness): the amended claim at the file `s.wav` of `wavDir`. -/
theorem tryMakeCamEntry_record_witness :
    respawn_vpk.tryMakeCamEntry (s3Header ++ [1, 2]) [115, 46, 119, 97, 118] = some s3Record
    ∧ (s3Header ++ [1, 2]).length < 2 ^ 32
    ∧ (s3Record.originalSize = (s3Header ++ [1, 2]).length % 2 ^ 32
        ∧ s3Record.compressedSize = (s3Header ++ [1, 2]).length % 2 ^ 32
        ∧ ((s3Header ++ [1, 2]).length < 2 ^ 32 →
            s3Record.originalSize = (s3Header ++ [1, 2]).length
            ∧ s3Record.compressedSize = (s3Header ++ [1, 2]).length)
        ∧ s3Record.sampleRate = respawn_vpk.readU32LE (s3Header ++ [1, 2]) 24
        ∧ s3Record.channels = respawn_vpk.readU16LE (s3Header ++ [1, 2]) 22 % 256
        ∧ s3Record.sampleCount = respawn_vpk.readU32LE (s3Header ++ [1, 2]) 40
            / respawn_vpk.readU16LE (s3Header ++ [1, 2]) 32
        ∧ s3Record.headerSize = 44
        ∧ s3Record.magic = 0xC4DE1A00
        ∧ s3Record.path = [115, 46, 119, 97, 118]) :=
  ⟨by decide, by decide,
    (respawn_vpk.tryMakeCamEntry_record (s3Header ++ [1, 2]) [115, 46, 119, 97, 118]).2.1
      s3Record (by decide)⟩

/-! ## The size guard of `readEntry` -/

namespace RespawnVPK

theorem sizeGuard_ok_iff (parts : List FilePart) :
    ∀ total t, total ≤ 1024 * 1024 * 1024 →
      (sizeGuard total parts = .ok t
        ↔ (∀ p ∈ parts, p.withinLimits) ∧ total + logicalSum parts ≤ 1024 * 1024 * 1024
          ∧ t = total + logicalSum parts) := by
  induction parts with
  | nil =>
    intro total t ht
    simp only [sizeGuard, logicalSum, List.map_nil, List.sum_nil, Nat.add_zero,
      List.not_mem_nil, false_implies, implies_true, true_and, Except.ok.injEq]
    constructor
    · intro h; exact ⟨ht, h.symm⟩
    · intro h; exact h.2.symm
  | cons p ps ih =>
    intro total t ht
    have hs : logicalSum (p :: ps) = p.entryLengthUncompressed + logicalSum ps := by
      simp [logicalSum]
    simp only [sizeGuard, hs, List.mem_cons, forall_eq_or_imp, FilePart.withinLimits]
    by_cases h1 : p.entryLength > 512 * 1024 * 1024
    · simp only [h1, if_true]
      constructor
      · intro h; cases h
      · rintro ⟨⟨⟨h, -⟩, -⟩, -⟩; omega
    · by_cases h2 : p.entryLengthUncompressed > 512 * 1024 * 1024
      · simp only [h1, h2, if_true, if_false]
        constructor
        · intro h; cases h
        · rintro ⟨⟨⟨-, h⟩, -⟩, -⟩; omega
      · have hmod : (total + p.entryLengthUncompressed) % 2 ^ 64
            = total + p.entryLengthUncompressed := Nat.mod_eq_of_lt (by omega)
        simp only [h1, h2, if_false, hmod]
        by_cases h3 : total + p.entryLengthUncompressed > 1024 * 1024 * 1024
        · simp only [h3, if_true]
          constructor
          · intro h; cases h
          · rintro ⟨-, h, -⟩; omega
        · simp only [h3, if_false]
          rw [ih _ t (by omega)]
          simp only [FilePart.withinLimits]
          constructor
          · rintro ⟨ha, hb, hc⟩
            exact ⟨⟨⟨by omega, by omega⟩, ha⟩, by omega, by omega⟩
          · rintro ⟨⟨-, ha⟩, hb, hc⟩
            exact ⟨ha, by omega, by omega⟩

theorem sizeGuard_error (parts : List FilePart) :
    ∀ total e, sizeGuard total parts = .error e →
      e = .partTooLargeCompressed ∨ e = .partTooLargeUncompressed ∨ e = .entryTooLarge := by
  induction parts with
  | nil => intro total e h; simp [sizeGuard] at h
  | cons p ps ih =>
    intro total e h
    simp only [sizeGuard] at h
    split_ifs at h
    · left; cases h; rfl
    · right; left; cases h; rfl
    · right; right; cases h; rfl
    · exact ih _ e h

theorem sizeGuard_first_oversized (pre : List FilePart) (p : FilePart) (post : List FilePart)
    (hpre : ∀ q ∈ pre, q.withinLimits) (hp1 : p.entryLength ≤ 512 * 1024 * 1024)
    (hp2 : p.entryLengthUncompressed > 512 * 1024 * 1024) :
    ∀ total, total ≤ 1024 * 1024 * 1024 →
      sizeGuard total (pre ++ p :: post)
        = .error (if total + logicalSum pre ≤ 1024 * 1024 * 1024
            then .partTooLargeUncompressed else .entryTooLarge) := by
  induction pre with
  | nil =>
    intro total ht
    have : ¬ p.entryLength > 512 * 1024 * 1024 := by omega
    simp [sizeGuard, this, hp2, logicalSum, ht]
  | cons q qs ih =>
    intro total ht
    obtain ⟨hq1, hq2⟩ := hpre q (List.mem_cons_self _ _)
    have hs : logicalSum (q :: qs) = q.entryLengthUncompressed + logicalSum qs := by
      simp [logicalSum]
    have h1 : ¬ q.entryLength > 512 * 1024 * 1024 := by omega
    have h2 : ¬ q.entryLengthUncompressed > 512 * 1024 * 1024 := by omega
    have hmod : (total + q.entryLengthUncompressed) % 2 ^ 64
        = total + q.entryLengthUncompressed := Nat.mod_eq_of_lt (by omega)
    rw [List.cons_append, sizeGuard]
    simp only [h1, h2, if_false, hmod, hs]
    by_cases h3 : total + q.entryLengthUncompressed > 1024 * 1024 * 1024
    · have : ¬ total + (q.entryLengthUncompressed + logicalSum qs) ≤ 1024 * 1024 * 1024 := by
        omega
      simp only [h3, if_true, this, if_false]
    · simp only [h3, if_false]
      rw [ih (fun x hx => hpre x (List.mem_cons_of_mem _ hx))
        (total + q.entryLengthUncompressed) (by omega)]
      simp only [Nat.add_assoc]

theorem readEntry_guard (clean : Bytes → Bytes) (bridge : Option DecompressBridge)
    (archives : Nat → Option Bytes) (vpk : Archive) (path : Bytes) (meta : MetaEntry)
    (hfind : lookup vpk.metaEntries (clean path) = some meta) (e : ReadError)
    (he : sizeGuard (meta.preloadBytes % 2 ^ 64) meta.parts = .error e) :
    readEntry clean bridge archives vpk path = .error e := by
  simp only [readEntry, hfind, he]

/-- C14 (amended claim): for every entry of the index that contains a chunk whose logical
length is 2 GiB, with every stored length within the limit, `readEntry` returns no bytes and
leaves in `lastError` the string "archive part too large (uncompressed length)"; only when
the chunks in front of the first chunk above 512 MiB already bring the running total above
1 GiB is the string "entry too large (uncompressed)". -/
theorem readEntry_oversized_chunk (clean : Bytes → Bytes) (bridge : Option DecompressBridge)
    (archives : Nat → Option Bytes) (archivePath : Nat → String) (vpk : Archive)
    (path : Bytes) (meta : MetaEntry)
    (hfind : lookup vpk.metaEntries (clean path) = some meta)
    (hpl : meta.preloadBytes < 2 ^ 16)
    (hbig : ∃ p ∈ meta.parts, p.entryLengthUncompressed = 2 * 1024 * 1024 * 1024)
    (hstored : ∀ p ∈ meta.parts, p.entryLength ≤ 512 * 1024 * 1024) :
    readEntry clean bridge archives vpk path
      = .error (if meta.preloadBytes + logicalSum (meta.parts.takeWhile
            (fun q => decide (q.entryLengthUncompressed ≤ 512 * 1024 * 1024)))
          ≤ 1024 * 1024 * 1024 then .partTooLargeUncompressed else .entryTooLarge)
    ∧ lastErrorAfter archivePath (readEntry clean bridge archives vpk path)
      = (if meta.preloadBytes + logicalSum (meta.parts.takeWhile
            (fun q => decide (q.entryLengthUncompressed ≤ 512 * 1024 * 1024)))
          ≤ 1024 * 1024 * 1024 then "archive part too large (uncompressed length)"
          else "entry too large (uncompressed)") := by
  generalize hP : (fun q : FilePart => decide (q.entryLengthUncompressed ≤ 512 * 1024 * 1024))
    = P
  have hsplit := List.takeWhile_append_dropWhile P meta.parts
  have hpre : ∀ q ∈ meta.parts.takeWhile P, q.withinLimits := by
    intro q hq
    have h1 := List.mem_takeWhile_imp hq
    rw [← hP] at h1
    exact ⟨hstored q ((List.takeWhile_prefix P).subset hq), by simpa using h1⟩
  cases hd : meta.parts.dropWhile P with
  | nil =>
    exfalso
    obtain ⟨p, hp, hpl⟩ := hbig
    have := (List.dropWhile_eq_nil_iff.1 hd) p hp
    rw [← hP] at this
    simp only [decide_eq_true_eq] at this
    omega
  | cons p post =>
    have hnot := List.head?_dropWhile_not P meta.parts
    rw [hd] at hnot hsplit
    simp only [List.head?_cons] at hnot
    rw [← hP] at hnot
    simp only [decide_eq_false_iff_not, not_le] at hnot
    have hpm : p ∈ meta.parts := by rw [← hsplit]; simp
    have hg := sizeGuard_first_oversized (meta.parts.takeWhile P) p post hpre
      (hstored p hpm) hnot (meta.preloadBytes % 2 ^ 64) (by
        rw [Nat.mod_eq_of_lt (by omega)]; omega)
    have hmod : meta.preloadBytes % 2 ^ 64 = meta.preloadBytes := Nat.mod_eq_of_lt (by omega)
    rw [hsplit] at hg
    have hr := readEntry_guard clean bridge archives vpk path meta hfind _ hg
    rw [hmod] at hr
    refine ⟨hr, ?_⟩
    rw [hr]
    simp only [lastErrorAfter]
    split_ifs <;> rfl

/-- C14 (counterexample): the dir archive written for `big.bin`, whose single chunk has a
logical length of 2 GiB, opens; `readEntry` fails on it and `lastError` is the per-chunk
message, not "entry too large (uncompressed)". -/
theorem readEntry_huge_chunk_message :
    «open» id (bakeDirVpk hugeItems) = some hugeArchive
    ∧ lastErrorAfter (fun _ => "pak000_000.vpk")
        (readEntry id none (fun _ => some (List.replicate 100 0)) hugeArchive
          [98, 105, 103, 46, 98, 105, 110])
      = "archive part too large (uncompressed length)"
    ∧ lastErrorAfter (fun _ => "pak000_000.vpk")
        (readEntry id none (fun _ => some (List.replicate 100 0)) hugeArchive
          [98, 105, 103, 46, 98, 105, 110])
      ≠ "entry too large (uncompressed)" := by
  decide

/-- C14 (witness): the amended claim at the entry `big.bin` of `hugeArchive`. -/
theorem readEntry_oversized_chunk_witness :
    lookup hugeArchive.metaEntries (id [98, 105, 103, 46, 98, 105, 110]) = some hugeMeta
    ∧ hugeMeta.preloadBytes < 2 ^ 16
    ∧ (∃ p ∈ hugeMeta.parts, p.entryLengthUncompressed = 2 * 1024 * 1024 * 1024)
    ∧ (∀ p ∈ hugeMeta.parts, p.entryLength ≤ 512 * 1024 * 1024)
    ∧ readEntry id none (fun _ => none) hugeArchive [98, 105, 103, 46, 98, 105, 110]
      = .error (if hugeMeta.preloadBytes + logicalSum (hugeMeta.parts.takeWhile
            (fun q => decide (q.entryLengthUncompressed ≤ 512 * 1024 * 1024)))
          ≤ 1024 * 1024 * 1024 then .partTooLargeUncompressed else .entryTooLarge)
    ∧ lastErrorAfter (fun _ => "") (readEntry id none (fun _ => none) hugeArchive
        [98, 105, 103, 46, 98, 105, 110])
      = (if hugeMeta.preloadBytes + logicalSum (hugeMeta.parts.takeWhile
            (fun q => decide (q.entryLengthUncompressed ≤ 512 * 1024 * 1024)))
          ≤ 1024 * 1024 * 1024 then "archive part too large (uncompressed length)"
          else "entry too large (uncompressed)") :=
  ⟨by decide, by decide, by decide, by decide,
    readEntry_oversized_chunk id none (fun _ => none) (fun _ => "") hugeArchive
      [98, 105, 103, 46, 98, 105, 110] hugeMeta (by decide) (by decide) (by decide)
      (by decide)⟩

theorem readPartsInto_error (bridge : Option DecompressBridge) (archives : Nat → Option Bytes)
    (parts : List FilePart) :
    ∀ out e, readPartsInto bridge archives out parts = .error e →
      e ≠ .partTooLargeCompressed ∧ e ≠ .partTooLargeUncompressed ∧ e ≠ .entryTooLarge := by
  induction parts with
  | nil => intro out e h; simp [readPartsInto] at h
  | cons p ps ih =>
    intro out e h
    simp only [readPartsInto] at h
    split at h
    · cases h; simp
    · split_ifs at h
      · split at h
        · cases h; simp
        · split at h
          · cases h; simp
          · exact ih _ _ h
      · exact ih _ _ h

/-- C15: for every entry of the index (its `preloadBytes` is a 16-bit field), `readEntry`
fails with none of the three size diagnostics if and only if every chunk has stored length
and logical length at most 512 MiB and `preloadBytes` plus the sum of the logical lengths,
in exact arithmetic, is at most 1 GiB; and whenever the guard has passed a prefix of the
chunk list, its 64-bit running total is the exact sum (it has not wrapped). -/
theorem readEntry_size_guard (clean : Bytes → Bytes) (bridge : Option DecompressBridge)
    (archives : Nat → Option Bytes) (vpk : Archive) (path : Bytes) (meta : MetaEntry)
    (hfind : lookup vpk.metaEntries (clean path) = some meta)
    (hpl : meta.preloadBytes < 2 ^ 16) :
    ((readEntry clean bridge archives vpk path ≠ .error .partTooLargeCompressed
        ∧ readEntry clean bridge archives vpk path ≠ .error .partTooLargeUncompressed
        ∧ readEntry clean bridge archives vpk path ≠ .error .entryTooLarge)
      ↔ ((∀ p ∈ meta.parts, p.entryLength ≤ 512 * 1024 * 1024
            ∧ p.entryLengthUncompressed ≤ 512 * 1024 * 1024)
          ∧ meta.preloadBytes + logicalSum meta.parts ≤ 1024 * 1024 * 1024))
    ∧ (∀ pre post t, meta.parts = pre ++ post →
        sizeGuard (meta.preloadBytes % 2 ^ 64) pre = .ok t →
        t = meta.preloadBytes + logicalSum pre) := by
  have hmod : meta.preloadBytes % 2 ^ 64 = meta.preloadBytes := Nat.mod_eq_of_lt (by omega)
  have h0 : meta.preloadBytes ≤ 1024 * 1024 * 1024 := by omega
  constructor
  · constructor
    · intro hne
      cases hg : sizeGuard (meta.preloadBytes % 2 ^ 64) meta.parts with
      | error e =>
        exfalso
        have hr := readEntry_guard clean bridge archives vpk path meta hfind e hg
        rcases sizeGuard_error _ _ _ hg with h | h | h
        · exact hne.1 (by rw [hr, h])
        · exact hne.2.1 (by rw [hr, h])
        · exact hne.2.2 (by rw [hr, h])
      | ok t =>
        rw [hmod] at hg
        have := (sizeGuard_ok_iff meta.parts _ t h0).1 hg
        exact ⟨this.1, this.2.1⟩
    · rintro ⟨h1, h2⟩
      have hg : sizeGuard (meta.preloadBytes % 2 ^ 64) meta.parts
          = .ok (meta.preloadBytes + logicalSum meta.parts) := by
        rw [hmod]
        exact (sizeGuard_ok_iff meta.parts _ _ h0).2 ⟨h1, h2, rfl⟩
      have key : ∀ e, readEntry clean bridge archives vpk path = .error e →
          e ≠ .partTooLargeCompressed ∧ e ≠ .partTooLargeUncompressed ∧ e ≠ .entryTooLarge := by
        intro e he
        simp only [readEntry, hfind, hg] at he
        split_ifs at he
        · split at he
          · cases he; simp
          · exact readPartsInto_error _ _ _ _ _ he
        · exact readPartsInto_error _ _ _ _ _ he
      refine ⟨fun h => (key _ h).1 rfl, fun h => (key _ h).2.1 rfl, fun h => (key _ h).2.2 rfl⟩
  · intro pre post t _ hg
    rw [hmod] at hg
    exact ((sizeGuard_ok_iff pre _ t h0).1 hg).2.2

/-- C15 (witness): the theorem at the entry `a.txt` of `demoArchive`, which passes the
guard. -/
theorem readEntry_size_guard_witness :
    lookup demoArchive.metaEntries (id [97, 46, 116, 120, 116]) = some demoMeta
    ∧ demoMeta.preloadBytes < 2 ^ 16
    ∧ readEntry id (some toyDecompress) demoSideArchives demoArchive [97, 46, 116, 120, 116]
        = .ok [8, 7, 51, 52, 53, 50, 50]
    ∧ ((readEntry id (some toyDecompress) demoSideArchives demoArchive [97, 46, 116, 120, 116]
          ≠ .error .partTooLargeCompressed
        ∧ readEntry id (some toyDecompress) demoSideArchives demoArchive [97, 46, 116, 120, 116]
          ≠ .error .partTooLargeUncompressed
        ∧ readEntry id (some toyDecompress) demoSideArchives demoArchive [97, 46, 116, 120, 116]
          ≠ .error .entryTooLarge)
      ↔ ((∀ p ∈ demoMeta.parts, p.entryLength ≤ 512 * 1024 * 1024
            ∧ p.entryLengthUncompressed ≤ 512 * 1024 * 1024)
          ∧ demoMeta.preloadBytes + logicalSum demoMeta.parts ≤ 1024 * 1024 * 1024))
    ∧ (∀ pre post t, demoMeta.parts = pre ++ post →
        sizeGuard (demoMeta.preloadBytes % 2 ^ 64) pre = .ok t →
        t = demoMeta.preloadBytes + logicalSum pre) :=
  ⟨by decide, by decide, by rfl,
    readEntry_size_guard id (some toyDecompress) demoSideArchives demoArchive
      [97, 46, 116, 120, 116] demoMeta (by decide) (by decide)⟩

end RespawnVPK

/-! ## The header check (`readAndValidateHeader`) -/

theorem leBytes_leValue (bs : Bytes) (h : ∀ b ∈ bs, b < 256) :
    leBytes bs.length (leValue bs) = bs := by
  induction bs with
  | nil => rfl
  | cons b bs ih =>
    have hb : b < 256 := h b (List.mem_cons_self _ _)
    have e1 : (b + 256 * leValue bs) % 256 = b := by omega
    have e2 : (b + 256 * leValue bs) / 256 = leValue bs := by omega
    simp only [List.length_cons, leBytes, leValue, e1, e2,
      ih (fun x hx => h x (List.mem_cons_of_mem _ hx))]

theorem leValue_lt (bs : Bytes) (h : ∀ b ∈ bs, b < 256) : leValue bs < 256 ^ bs.length := by
  induction bs with
  | nil => simp [leValue]
  | cons b bs ih =>
    have hb : b < 256 := h b (List.mem_cons_self _ _)
    have := ih (fun x hx => h x (List.mem_cons_of_mem _ hx))
    simp only [leValue, List.length_cons, pow_succ]
    omega

namespace RespawnVPK

theorem header_short (data : Bytes) (pos : Nat) (h : data.length < 16) :
    readAndValidateHeader { rest := data, pos := pos, good := true } = none := by
  have h1 := readU32_left { rest := data, pos := pos, good := true }
  rw [show ({ rest := data, pos := pos, good := true } : IStream).left = data.length from rfl]
    at h1
  generalize hs1 : (readU32 { rest := data, pos := pos, good := true }) = s1 at h1
  have h2 := readU16_left s1.2
  generalize hs2 : readU16 s1.2 = s2 at h2
  have h3 := readU16_left s2.2
  generalize hs3 : readU16 s2.2 = s3 at h3
  have h4 := readU32_left s3.2
  generalize hs4 : readU32 s3.2 = s4 at h4
  have h5 := readU32_left s4.2
  generalize hs5 : readU32 s4.2 = s5 at h5
  have hbad : ¬ s5.2.good = true := by
    intro hg
    have g5 := h5.2 hg
    have e4 : s4.2.good = true := by
      by_contra hc
      have : s4.2.left = 0 := by simp [IStream.left, hc]
      omega
    have g4 := h4.2 e4
    have e3 : s3.2.good = true := by
      by_contra hc
      have : s3.2.left = 0 := by simp [IStream.left, hc]
      omega
    have g3 := h3.2 e3
    have e2 : s2.2.good = true := by
      by_contra hc
      have : s2.2.left = 0 := by simp [IStream.left, hc]
      omega
    have g2 := h2.2 e2
    have e1 : s1.2.good = true := by
      by_contra hc
      have : s1.2.left = 0 := by simp [IStream.left, hc]
      omega
    have g1 := h1.2 e1
    omega
  simp only [readAndValidateHeader, hs1, hs2, hs3, hs4, hs5]
  rw [if_pos hbad]

theorem header_fields (sig major minor len unused : Nat) (r : Bytes) :
    readAndValidateHeader
        { rest := leBytes 4 sig ++ (leBytes 2 major ++ (leBytes 2 minor ++ (leBytes 4 len
            ++ (leBytes 4 unused ++ r)))), pos := 0, good := true }
      = if sig % 2 ^ 32 ≠ RESPAWN_VPK_SIGNATURE then none
        else if major % 2 ^ 16 ≠ RESPAWN_VPK_MAJOR_VERSION
            ∨ minor % 2 ^ 16 > RESPAWN_VPK_MINOR_VERSION then none
        else if len % 2 ^ 32 = 0 then none
        else some (len % 2 ^ 32, { rest := r, pos := 16, good := true }) := by
  simp only [readAndValidateHeader, readU32_le, readU16_le]
  simp

theorem header_split (data : Bytes) (h16 : 16 ≤ data.length) (hb : ∀ b ∈ data, b < 256) :
    data = leBytes 4 (leValue (data.take 4)) ++ (leBytes 2 (leValue ((data.drop 4).take 2))
      ++ (leBytes 2 (leValue ((data.drop 6).take 2))
      ++ (leBytes 4 (leValue ((data.drop 8).take 4))
      ++ (leBytes 4 (leValue ((data.drop 12).take 4)) ++ data.drop 16)))) := by
  have hsub : ∀ (k w : Nat), ∀ b ∈ (data.drop k).take w, b < 256 := fun k w b hb' =>
    hb b ((List.drop_subset k data) ((List.take_subset w _) hb'))
  have e1 := leBytes_leValue (data.take 4) (by simpa using hsub 0 4)
  have e2 := leBytes_leValue ((data.drop 4).take 2) (hsub 4 2)
  have e3 := leBytes_leValue ((data.drop 6).take 2) (hsub 6 2)
  have e4 := leBytes_leValue ((data.drop 8).take 4) (hsub 8 4)
  have e5 := leBytes_leValue ((data.drop 12).take 4) (hsub 12 4)
  simp only [List.length_take, List.length_drop] at e1 e2 e3 e4 e5
  rw [show min 4 data.length = 4 by omega] at e1
  rw [show min 2 (data.length - 4) = 2 by omega] at e2
  rw [show min 2 (data.length - 6) = 2 by omega] at e3
  rw [show min 4 (data.length - 8) = 4 by omega] at e4
  rw [show min 4 (data.length - 12) = 4 by omega] at e5
  rw [e1, e2, e3, e4, e5]
  have d1 : data.drop 16 = (data.drop 12).drop 4 := by rw [List.drop_drop]
  have d2 : data.drop 12 = (data.drop 8).drop 4 := by rw [List.drop_drop]
  have d3 : data.drop 8 = (data.drop 6).drop 2 := by rw [List.drop_drop]
  have d4 : data.drop 6 = (data.drop 4).drop 2 := by rw [List.drop_drop]
  rw [d1, List.take_append_drop, d2, List.take_append_drop, d3, List.take_append_drop, d4,
    List.take_append_drop, List.take_append_drop]

/-- C16: `readAndValidateHeader` accepts the bytes of a file if and only if there are at
least 16 of them and their little-endian fields satisfy signature = 0x55AA1234, major = 2,
minor ≤ 3 and tree length ≠ 0; on acceptance it returns that tree length (and the stream
stands at byte 16). The 16 bytes of `buildHeader n` (signature, major 2, minor 3, `n`, 0)
are accepted with tree length `n` exactly when `n ≠ 0`. -/
theorem readAndValidateHeader_accepts :
    (∀ data : Bytes, (∀ b ∈ data, b < 256) →
      ((readAndValidateHeader { rest := data }).isSome = true ↔ headerAccepted data)
      ∧ (∀ n f, readAndValidateHeader { rest := data } = some (n, f) →
          n = leValue ((data.drop 8).take 4)
          ∧ f = { rest := data.drop 16, pos := 16, good := true }))
    ∧ (∀ n : Nat, n < 2 ^ 32 → ∀ tree : Bytes,
        respawn_vpk.buildHeader n
          = leBytes 4 0x55AA1234 ++ leBytes 2 2 ++ leBytes 2 3 ++ leBytes 4 n ++ leBytes 4 0
        ∧ readAndValidateHeader { rest := respawn_vpk.buildHeader n ++ tree }
          = if n = 0 then none else some (n, { rest := tree, pos := 16, good := true })) := by
  constructor
  · intro data hb
    by_cases h16 : 16 ≤ data.length
    · have hsub : ∀ (k w : Nat), ∀ b ∈ (data.drop k).take w, b < 256 := fun k w b hb' =>
        hb b ((List.drop_subset k data) ((List.take_subset w _) hb'))
      have l1 := leValue_lt (data.take 4) (by simpa using hsub 0 4)
      have l2 := leValue_lt ((data.drop 4).take 2) (hsub 4 2)
      have l3 := leValue_lt ((data.drop 6).take 2) (hsub 6 2)
      have l4 := leValue_lt ((data.drop 8).take 4) (hsub 8 4)
      simp only [List.length_take, List.length_drop] at l1 l2 l3 l4
      rw [show min 4 data.length = 4 by omega] at l1
      rw [show min 2 (data.length - 4) = 2 by omega] at l2
      rw [show min 2 (data.length - 6) = 2 by omega] at l3
      rw [show min 4 (data.length - 8) = 4 by omega] at l4
      have hf := header_fields (leValue (data.take 4)) (leValue ((data.drop 4).take 2))
        (leValue ((data.drop 6).take 2)) (leValue ((data.drop 8).take 4))
        (leValue ((data.drop 12).take 4)) (data.drop 16)
      rw [← header_split data h16 hb] at hf
      rw [Nat.mod_eq_of_lt (by norm_num at l1 ⊢; omega),
        Nat.mod_eq_of_lt (by norm_num at l2 ⊢; omega),
        Nat.mod_eq_of_lt (by norm_num at l3 ⊢; omega),
        Nat.mod_eq_of_lt (by norm_num at l4 ⊢; omega)] at hf
      have hf' : readAndValidateHeader { rest := data } = _ := hf
      rw [hf']
      simp only [headerAccepted, RESPAWN_VPK_SIGNATURE, RESPAWN_VPK_MAJOR_VERSION,
        RESPAWN_VPK_MINOR_VERSION]
      constructor
      · constructor
        · intro h
          split_ifs at h with c1 c2 c3
          all_goals first | (simp at h; done) | skip
          push_neg at c1 c2
          exact ⟨h16, c1, c2.1, by omega, c3⟩
        · rintro ⟨-, c1, c2, c3, c4⟩
          rw [if_neg (by simpa using c1), if_neg (by push_neg; exact ⟨c2, by omega⟩),
            if_neg c4]
          rfl
      · intro n f h
        split_ifs at h with c1 c2 c3
        simp only [Option.some.injEq, Prod.mk.injEq] at h
        exact ⟨h.1.symm, h.2.symm⟩
    · have hs := header_short data 0 (by omega)
      have hs' : readAndValidateHeader { rest := data } = none := hs
      rw [hs']
      constructor
      · constructor
        · intro h; simp at h
        · intro h; exact absurd h.1 h16
      · intro n f h; simp at h
  · intro n hn tree
    have hbuf : respawn_vpk.buildHeader n
        = leBytes 4 0x55AA1234 ++ leBytes 2 2 ++ leBytes 2 3 ++ leBytes 4 n ++ leBytes 4 0 := by
      simp only [respawn_vpk.buildHeader, WriteBuffer.writeU32_buf, WriteBuffer.writeU16_buf,
        RESPAWN_VPK_SIGNATURE, RESPAWN_VPK_MAJOR_VERSION, RESPAWN_VPK_MINOR_VERSION]
      simp
    refine ⟨hbuf, ?_⟩
    have hf := header_fields 0x55AA1234 2 3 n 0 tree
    rw [hbuf]
    simp only [List.append_assoc]
    have hf' : readAndValidateHeader
        { rest := leBytes 4 0x55AA1234 ++ (leBytes 2 2 ++ (leBytes 2 3 ++ (leBytes 4 n
            ++ (leBytes 4 0 ++ tree)))) } = _ := hf
    rw [hf', Nat.mod_eq_of_lt hn]
    simp [RESPAWN_VPK_SIGNATURE, RESPAWN_VPK_MAJOR_VERSION, RESPAWN_VPK_MINOR_VERSION]

/-- C16 (witness): the theorem at the dir archive written for `hugeItems` and at
`buildHeader 5`. -/
theorem readAndValidateHeader_accepts_witness :
    (∀ b ∈ bakeDirVpk hugeItems, b < 256)
    ∧ ((readAndValidateHeader { rest := bakeDirVpk hugeItems }).isSome = true
        ↔ headerAccepted (bakeDirVpk hugeItems))
    ∧ (readAndValidateHeader { rest := bakeDirVpk hugeItems }).isSome = true
    ∧ (5 < 2 ^ 32)
    ∧ (respawn_vpk.buildHeader 5
          = leBytes 4 0x55AA1234 ++ leBytes 2 2 ++ leBytes 2 3 ++ leBytes 4 5 ++ leBytes 4 0
        ∧ readAndValidateHeader { rest := respawn_vpk.buildHeader 5 ++ [0, 0, 0] }
          = if 5 = 0 then none else some (5, { rest := [0, 0, 0], pos := 16, good := true })) :=
  ⟨by decide, (readAndValidateHeader_accepts.1 (bakeDirVpk hugeItems) (by decide)).1,
    by decide, by decide, readAndValidateHeader_accepts.2 5 (by decide) [0, 0, 0]⟩

end RespawnVPK

/-! ## Extraction writes what `readEntry` returns -/

namespace RespawnVPK

theorem copyWindows_copies :
    ∀ (fuel : Nat) (rest : Bytes) (pos remaining : Nat) (out : Bytes),
      remaining < fuel → remaining ≤ rest.length →
      copyWindows fuel { rest := rest, pos := pos, good := true } remaining out
        = .ret (true, out ++ rest.take remaining) := by
  intro fuel
  induction fuel with
  | zero => intro rest pos remaining out h; omega
  | succ fuel ih =>
    intro rest pos remaining out hf hr
    unfold copyWindows
    by_cases h0 : remaining = 0
    · simp [h0]
    · have hc : ¬ rest.length < min remaining (256 * 1024) := by omega
      have hpos : 0 < min remaining (256 * 1024) := by omega
      simp only [h0, if_false, IStream.read, hc, not_true_eq_false]
      rw [ih _ _ _ _ (by omega) (by simp only [List.length_drop]; omega)]
      have e : remaining = min remaining (256 * 1024) + (remaining - min remaining (256 * 1024)) := by
        omega
      conv_rhs => rw [e, List.take_add]
      simp [List.append_assoc]

theorem streamCopyRange_eq (file : Option Bytes) (offset length : Nat) (out slice : Bytes)
    (h : readFileRange file offset length = some slice) :
    streamCopyRange file offset length out = (true, out ++ slice) := by
  unfold readFileRange at h
  split_ifs at h with h1
  cases file with
  | none => simp at h
  | some d =>
    simp only at h
    split_ifs at h with h2 h3
    simp only [Option.some.injEq] at h
    subst h
    have hc : ¬ (offset > d.length ∨ length > d.length - offset) := by omega
    simp only [streamCopyRange, hc, if_false]
    rw [copyWindows_copies _ _ _ _ _ (by omega) (by simp only [List.length_drop]; omega)]

theorem extractParts_eq (bridge : Option DecompressBridge) (archives : Nat → Option Bytes)
    (parts : List FilePart) :
    ∀ out bytes, readPartsInto bridge archives out parts = .ok bytes →
      extractParts bridge archives out parts = (true, bytes) := by
  induction parts with
  | nil =>
    intro out bytes h
    simp only [readPartsInto, Except.ok.injEq] at h
    simp [extractParts, h]
  | cons p ps ih =>
    intro out bytes h
    simp only [readPartsInto] at h
    cases hr : readFileRange (archives p.archiveIndex) p.entryOffset p.entryLength with
    | none => simp [hr] at h
    | some compressed =>
      simp only [hr] at h
      by_cases hcomp : p.isCompressed = true
      · simp only [hcomp, not_true_eq_false, if_false] at h
        cases bridge with
        | none => simp at h
        | some b =>
          simp only at h
          cases hd : lzhamDecompress (some b) compressed p.entryLengthUncompressed with
          | none => simp [hd] at h
          | some d =>
            simp only [hd] at h
            simp only [extractParts, hcomp, not_true_eq_false, if_false, hr, hd]
            exact ih _ _ h
      · simp only [hcomp, not_false_eq_true, if_true] at h
        simp only [extractParts, hcomp, not_false_eq_true, if_true,
          streamCopyRange_eq _ _ _ out compressed hr, not_true_eq_false, if_false]
        exact ih _ _ h

/-- C18: with files as byte sequences and the decompressor as a fixed function, whenever
`readEntry` succeeds on an entry of the index, `extractEntryToFile` succeeds as well and the
bytes it writes to the destination (the preload range, then each chunk in order, copied in
windows of at most 256 KiB or decompressed) are exactly the bytes `readEntry` returns. -/
theorem extractEntryToFile_readEntry (clean : Bytes → Bytes) (bridge : Option DecompressBridge)
    (archives : Nat → Option Bytes) (vpk : Archive) (path bytes : Bytes)
    (h : readEntry clean bridge archives vpk path = .ok bytes) :
    extractEntryToFile clean bridge archives vpk path = (true, bytes) := by
  unfold readEntry at h
  unfold extractEntryToFile
  cases hm : lookup vpk.metaEntries (clean path) with
  | none => simp [hm] at h
  | some meta =>
    simp only [hm] at h ⊢
    split at h
    · simp at h
    · by_cases hp : meta.preloadBytes = 0
      · simp only [hp, ne_eq, not_true_eq_false, if_false] at h ⊢
        simpa using extractParts_eq bridge archives meta.parts [] bytes h
      · simp only [hp, ne_eq, not_false_eq_true, if_true] at h ⊢
        cases hr : readFileRange (some vpk.fileData) meta.preloadOffset meta.preloadBytes with
        | none => simp [hr] at h
        | some preload =>
          simp only [hr] at h
          rw [streamCopyRange_eq _ _ _ [] preload hr]
          simpa using extractParts_eq bridge archives meta.parts preload bytes h

/-- C18 (witness): the theorem at the entry `a.txt` of `demoArchive` (preload bytes, a raw
chunk and a compressed chunk). -/
theorem extractEntryToFile_readEntry_witness :
    readEntry id (some toyDecompress) demoSideArchives demoArchive [97, 46, 116, 120, 116]
      = .ok [8, 7, 51, 52, 53, 50, 50]
    ∧ extractEntryToFile id (some toyDecompress) demoSideArchives demoArchive
        [97, 46, 116, 120, 116] = (true, [8, 7, 51, 52, 53, 50, 50]) :=
  ⟨by rfl,
    extractEntryToFile_readEntry id (some toyDecompress) demoSideArchives demoArchive
      [97, 46, 116, 120, 116] [8, 7, 51, 52, 53, 50, 50] (by rfl)⟩

end RespawnVPK

/-! ## The entry length recorded in the index (`open`, `bake`) -/

namespace RespawnVPK

theorem dataLenOf_foldl (parts : List FilePart) :
    ∀ t, t + logicalSum parts < 2 ^ 64 →
      parts.foldl (fun acc p => (acc + p.entryLengthUncompressed) % 2 ^ 64) t
        = t + logicalSum parts := by
  induction parts with
  | nil => intro t _; simp [logicalSum]
  | cons p ps ih =>
    intro t h
    have hs : logicalSum (p :: ps) = p.entryLengthUncompressed + logicalSum ps := by
      simp [logicalSum]
    rw [hs] at h ⊢
    rw [List.foldl_cons, Nat.mod_eq_of_lt (by omega), ih _ (by omega)]
    omega

theorem dataLenOf_exact (preload : Nat) (parts : List FilePart)
    (h : preload + logicalSum parts < 2 ^ 64) :
    dataLenOf preload parts = preload + logicalSum parts := by
  unfold dataLenOf
  rw [Nat.mod_eq_of_lt (by omega)]
  exact dataLenOf_foldl parts preload h

theorem parseLoop_lengths :
    ∀ (fuel : Nat) (mode : TreeMode) (f : IStream) (acc l : List ParsedEntry),
      (∀ e ∈ acc, e.entry.length = dataLenOf e.meta.preloadBytes e.meta.parts) →
      parseLoop fuel mode f acc = .ret (some l) →
      ∀ e ∈ l, e.entry.length = dataLenOf e.meta.preloadBytes e.meta.parts := by
  intro fuel
  induction fuel with
  | zero => intro mode f acc l _ h; cases mode <;> simp [parseLoop] at h
  | succ fuel ih =>
    intro mode f acc l hacc h
    cases mode with
    | ext =>
      simp only [parseLoop] at h
      split_ifs at h
      · simp only [Loop.ret.injEq, Option.some.injEq] at h
        subst h; exact hacc
      · exact ih _ _ _ _ hacc h
    | dir x =>
      simp only [parseLoop] at h
      split_ifs at h
      · exact ih _ _ _ _ hacc h
      · exact ih _ _ _ _ hacc h
    | file x d =>
      simp only [parseLoop] at h
      have step : ∀ (f' : IStream) (ent : ParsedEntry),
          ent.entry.length = dataLenOf ent.meta.preloadBytes ent.meta.parts →
          parseLoop fuel (.file x d) f' (acc ++ [ent]) = .ret (some l) →
          ∀ e ∈ l, e.entry.length = dataLenOf e.meta.preloadBytes e.meta.parts := by
        intro f' ent hent h'
        refine ih _ _ _ _ ?_ h'
        intro e he
        rcases List.mem_append.1 he with he | he
        · exact hacc e he
        · simp only [List.mem_singleton] at he
          subst he
          exact hent
      split_ifs at h
      all_goals first | exact ih _ _ _ _ hacc h | (simp at h; done) | skip
      all_goals (split at h)
      all_goals first | (simp at h; done) | skip
      all_goals (split_ifs at h)
      all_goals first | exact step _ _ rfl h | simp at h

theorem lookup_foldl_emplace {α β : Type} (k : α → Bytes) (v : α → β) (key : Bytes)
    (l : List α) :
    ∀ m : List (Bytes × β),
      lookup (l.foldl (fun m e => emplace m (k e) (v e)) m) key
        = match lookup m key with
          | some x => some x
          | none => (l.find? (fun e => decide (k e = key))).map v := by
  induction l with
  | nil =>
    intro m
    simp only [List.foldl_nil, List.find?_nil, Option.map_none']
    cases lookup m key <;> rfl
  | cons a as ih =>
    intro m
    rw [List.foldl_cons, ih]
    unfold emplace
    by_cases hany : m.any (fun kv => decide (kv.1 = k a)) = true
    · simp only [hany, if_true]
      cases hl : lookup m key with
      | some x => rfl
      | none =>
        simp only
        have hne : k a ≠ key := by
          intro e
          simp only [List.any_eq_true, decide_eq_true_eq] at hany
          obtain ⟨kv, hkv, hk⟩ := hany
          simp only [lookup, Option.map_eq_none', List.find?_eq_none, decide_eq_true_eq] at hl
          exact hl kv hkv (hk.trans e)
        simp [List.find?_cons, hne]
    · simp only [hany, Bool.false_eq_true, if_false]
      have hl : lookup (m ++ [(k a, v a)]) key
          = match lookup m key with
            | some x => some x
            | none => if k a = key then some (v a) else none := by
        simp only [lookup, List.find?_append]
        cases hf : m.find? (fun kv => decide (kv.1 = key)) with
        | some x => simp
        | none =>
          by_cases hk : k a = key
          · simp [hk]
          · simp [hk]
      rw [hl]
      cases lookup m key with
      | some x => rfl
      | none =>
        by_cases hk : k a = key
        · simp [hk]
        · simp [List.find?_cons, hk]

/-- The half of C19 that holds: after `open`, the length recorded for an entry of the index
is the 64-bit sum `dataLenOf` of `preloadBytes` and the logical lengths of the chunks held
for the same key, which is the exact sum whenever that is below 2^64. -/
theorem open_length_invariant (clean : Bytes → Bytes) (data : Bytes) (vpk : Archive)
    (h : «open» clean data = some vpk) (key : Bytes) (m : MetaEntry) (en : Entry)
    (hm : lookup vpk.metaEntries key = some m) (he : lookup vpk.entries key = some en) :
    en.length = dataLenOf m.preloadBytes m.parts
    ∧ (m.preloadBytes + logicalSum m.parts < 2 ^ 64 →
        en.length = m.preloadBytes + logicalSum m.parts) := by
  have key1 : en.length = dataLenOf m.preloadBytes m.parts := by
    unfold «open» at h
    cases hp : parseTree data with
    | none => simp [hp] at h
    | some l =>
      simp only [hp, Option.some.injEq] at h
      subst h
      simp only at hm he
      have e1 := lookup_foldl_emplace (fun e : ParsedEntry => clean e.fullPath)
        (fun e => e.meta) key l []
      have e2 := lookup_foldl_emplace (fun e : ParsedEntry => clean e.fullPath)
        (fun e => e.entry) key l []
      simp only [lookup, List.find?_nil, Option.map_none'] at e1 e2
      simp only [lookup] at hm he
      rw [e1] at hm
      rw [e2] at he
      cases hf : l.find? (fun e => decide (clean e.fullPath = key)) with
      | none => simp [hf] at hm
      | some e =>
        simp only [hf, Option.map_some', Option.some.injEq] at hm he
        subst hm he
        have hmem : e ∈ l := List.mem_of_find?_eq_some hf
        unfold parseTree at hp
        cases hh : readAndValidateHeader { rest := data } with
        | none => simp [hh] at hp
        | some r =>
          simp only [hh] at hp
          unfold parseEntries at hp
          split at hp
          · simp at hp
          · rename_i r' hr
            subst hp
            exact parseLoop_lengths _ _ _ _ _ (by simp) hr e hmem
  exact ⟨key1, fun hlt => by rw [key1, dataLenOf_exact _ _ hlt]⟩

theorem rebuildIndex_maps (clean : Bytes → Bytes) (items : List TreeItem) :
    ∀ st : List (Bytes × MetaEntry) × List (Bytes × Entry),
      items.foldl (fun st ti =>
        (emplace st.1 (clean (rebuiltPath ti)) ti.meta,
         emplace st.2 (clean (rebuiltPath ti))
          ({ crc32 := ti.meta.crc32
             length := rebuiltLength ti.meta.parts
             archiveIndex := match ti.meta.parts.head? with
               | some p => p.archiveIndex
               | none => 0 } : Entry))) st
      = (items.foldl (fun m ti => emplace m (clean (rebuiltPath ti)) ti.meta) st.1,
         items.foldl (fun m ti => emplace m (clean (rebuiltPath ti))
          ({ crc32 := ti.meta.crc32
             length := rebuiltLength ti.meta.parts
             archiveIndex := match ti.meta.parts.head? with
               | some p => p.archiveIndex
               | none => 0 } : Entry)) st.2) := by
  induction items with
  | nil => intro st; rfl
  | cons t ts ih => intro st; simp only [List.foldl_cons, ih]

/-- After the rebuild loop of `bake`, the length recorded for a key of the index is the
64-bit sum of the logical lengths of the chunks held for the same key: `preloadBytes` is not
part of it. -/
theorem rebuildIndex_length (clean : Bytes → Bytes) (items : List TreeItem) (key : Bytes)
    (m : MetaEntry) (en : Entry)
    (hm : lookup (rebuildIndex clean items).1 key = some m)
    (he : lookup (rebuildIndex clean items).2 key = some en) :
    en.length = rebuiltLength m.parts
    ∧ (logicalSum m.parts < 2 ^ 64 → en.length = logicalSum m.parts) := by
  have key1 : en.length = rebuiltLength m.parts := by
    have hr := rebuildIndex_maps clean items ([], [])
    have hr' : rebuildIndex clean items = _ := hr
    rw [hr'] at hm he
    have e1 := lookup_foldl_emplace (fun ti : TreeItem => clean (rebuiltPath ti))
      (fun ti => ti.meta) key items []
    have e2 := lookup_foldl_emplace (fun ti : TreeItem => clean (rebuiltPath ti))
      (fun ti => ({ crc32 := ti.meta.crc32
                    length := rebuiltLength ti.meta.parts
                    archiveIndex := match ti.meta.parts.head? with
                      | some p => p.archiveIndex
                      | none => 0 } : Entry)) key items []
    simp only [lookup, List.find?_nil, Option.map_none'] at e1 e2
    simp only [lookup] at hm he
    rw [e1] at hm
    rw [e2] at he
    cases hf : items.find? (fun ti => decide (clean (rebuiltPath ti) = key)) with
    | none => simp [hf] at hm
    | some ti =>
      simp only [hf, Option.map_some', Option.some.injEq] at hm he
      subst hm he
      rfl
  refine ⟨key1, fun hlt => ?_⟩
  rw [key1]
  unfold rebuiltLength
  have := dataLenOf_foldl m.parts 0 (by omega)
  simpa using this

/-- C19 (the code at the failing input): `open` parses `a.txt` of `preloadDirVpk` with
`preloadBytes = 1` and one chunk of logical length 1 and records the length 2 for it; the
rebuild loop of `bake`, run on the tree item that carries the same metadata, records the
length 1: the preload byte is missing from the total. -/
theorem bake_rebuild_drops_preload :
    (RespawnVPK.«open» id preloadDirVpk).map
        (fun v => (v.metaEntries, v.entries))
      = some ([([97, 46, 116, 120, 116], preloadedMeta)],
              [([97, 46, 116, 120, 116], { crc32 := 1, length := 2, archiveIndex := 0 })])
    ∧ rebuildIndex id (sortItems [preloadedItem])
      = ([([97, 46, 116, 120, 116], preloadedMeta)],
         [([97, 46, 116, 120, 116], { crc32 := 1, length := 1, archiveIndex := 0 })])
    ∧ preloadedMeta.preloadBytes + logicalSum preloadedMeta.parts = 2 := by
  decide

end RespawnVPK

/-! ## The side-archive path is injective in the index -/

theorem decValue_append (a b : Bytes) :
    decValue (a ++ b) = b.foldl (fun acc c => acc * 10 + (c - 48)) (decValue a) := by
  simp [decValue, List.foldl_append]

theorem decValue_decDigits : ∀ (fuel v : Nat), v < 10 ^ fuel → decValue (decDigits fuel v) = v := by
  intro fuel
  induction fuel with
  | zero => intro v h; simp at h; subst h; rfl
  | succ fuel ih =>
    intro v h
    unfold decDigits
    by_cases h10 : v < 10
    · simp [h10, decValue]
    · have hlt : v / 10 < 10 ^ fuel := by
        rw [Nat.div_lt_iff_lt_mul (by norm_num)]
        rw [pow_succ] at h
        exact h
      simp only [h10, if_false, decValue_append, ih _ hlt, List.foldl_cons, List.foldl_nil]
      omega

theorem decValue_replicate (k : Nat) (bs : Bytes) :
    decValue (List.replicate k 48 ++ bs) = decValue bs := by
  induction k with
  | zero => simp
  | succ k ih =>
    rw [List.replicate_succ, List.cons_append]
    have : decValue (48 :: (List.replicate k 48 ++ bs))
        = decValue (List.replicate k 48 ++ bs) := by
      simp [decValue]
    rw [this, ih]

theorem decValue_format03 (v : Nat) (h : v < 10 ^ 10) : decValue (format03 v) = v := by
  simp only [format03, decValue_replicate, decValue_decDigits 10 v h]

theorem format03_injective (i j : Nat) (hi : i < 2 ^ 16) (hj : j < 2 ^ 16)
    (h : format03 i = format03 j) : i = j := by
  have h1 := decValue_format03 i (by norm_num at hi ⊢; omega)
  have h2 := decValue_format03 j (by norm_num at hj ⊢; omega)
  rw [h] at h1
  omega

namespace RespawnVPK

theorem tryBuild_injective (path : Bytes) (i j : Nat) (hi : i < 2 ^ 16) (hj : j < 2 ^ 16)
    (hne : i ≠ j)
    (hpat : endsWithCi path (bytesOf "_dir.vpk") = true
      ∨ (8 ≤ path.length ∧ endsWithCi path (bytesOf ".vpk") = true
          ∧ path.getD (path.length - 8) 0 = 95
          ∧ isDigitByte (path.getD (path.length - 7) 0) = true
          ∧ isDigitByte (path.getD (path.length - 6) 0) = true
          ∧ isDigitByte (path.getD (path.length - 5) 0) = true)) :
    tryBuild i path ≠ tryBuild j path := by
  intro h
  apply hne
  unfold tryBuild at h
  by_cases h1 : endsWithCi path (bytesOf "_dir.vpk") = true
  · simp only [h1, if_true] at h
    have h2 := List.append_cancel_left h
    have h3 := List.append_cancel_left (List.append_cancel_right h2)
    exact format03_injective i j hi hj h3
  · rcases hpat with hp | hp
    · exact absurd hp h1
    · simp only [h1, Bool.false_eq_true, if_false, hp, and_self, if_true] at h
      rw [List.append_assoc, List.append_assoc] at h
      have h2 := List.append_cancel_right (List.append_cancel_left h)
      exact format03_injective i j hi hj h2

theorem makeArchivePathForWrite_injective (path : Bytes) (i j : Nat) (hi : i < 2 ^ 16)
    (hj : j < 2 ^ 16) (hne : i ≠ j)
    (hpat : endsWithCi (stripPakLangFilenamePrefix path) (bytesOf "_dir.vpk") = true) :
    makeArchivePathForWrite path i ≠ makeArchivePathForWrite path j := by
  intro h
  apply hne
  unfold makeArchivePathForWrite at h
  unfold endsWithCi at hpat
  have hlen : (bytesOf "_dir.vpk").length = 8 := by decide
  rw [hlen] at hpat
  split_ifs at hpat with hl
  simp only [decide_eq_true_eq] at hpat
  have hc : 8 ≤ (stripPakLangFilenamePrefix path).length
      ∧ toLower ((stripPakLangFilenamePrefix path).drop
          ((stripPakLangFilenamePrefix path).length - 8)) = toLower (bytesOf "_dir.vpk") :=
    ⟨by omega, hpat⟩
  simp only [hc, and_self, if_true] at h
  have h2 := List.append_cancel_left h
  have h3 := List.append_cancel_left (List.append_cancel_right h2)
  exact format03_injective i j hi hj h3

end RespawnVPK

theorem pathFilename_append (a b : Bytes) (hb : 47 ∉ b) :
    pathFilename (a ++ b) = pathFilename a ++ b := by
  unfold pathFilename
  rw [List.reverse_append, List.takeWhile_append_of_pos (by
    intro c hc
    have : c ≠ 47 := fun e => hb (by rw [← e]; exact List.mem_reverse.1 hc)
    simpa using this)]
  simp

theorem fsParentPath_append (a b : Bytes) (hb : 47 ∉ b) :
    fsParentPath (a ++ b) = fsParentPath a := by
  unfold fsParentPath
  rw [List.reverse_append, List.dropWhile_append_of_pos (by
    intro c hc
    have : c ≠ 47 := fun e => hb (by rw [← e]; exact List.mem_reverse.1 hc)
    simpa using this)]

theorem pathFilename_no_slash (p : Bytes) : 47 ∉ pathFilename p := by
  unfold pathFilename
  intro h
  have := List.mem_takeWhile_imp (List.mem_reverse.1 h)
  simp at this

theorem isPrefixOf_append_other (lang : Bytes) (c : Nat) (hc : c ∉ lang) :
    ∀ (A rest : Bytes), lang.isPrefixOf (A ++ c :: rest) = lang.isPrefixOf A := by
  induction lang with
  | nil => intro A rest; simp [List.isPrefixOf]
  | cons l ls ih =>
    intro A rest
    have hl : l ≠ c := fun e => hc (by simp [e])
    have hls : c ∉ ls := fun e => hc (List.mem_cons_of_mem _ e)
    cases A with
    | nil => simp [List.isPrefixOf, hl]
    | cons a as =>
      rw [List.cons_append]
      simp only [List.isPrefixOf]
      rw [ih hls]

theorem format03_digits (v : Nat) : ∀ b ∈ format03 v, 48 ≤ b ∧ b ≤ 57 := by
  have hd : ∀ (fuel v : Nat), ∀ b ∈ decDigits fuel v, 48 ≤ b ∧ b ≤ 57 := by
    intro fuel
    induction fuel with
    | zero => intro v b hb; simp [decDigits] at hb
    | succ fuel ih =>
      intro v b hb
      unfold decDigits at hb
      split_ifs at hb with h10
      · simp only [List.mem_singleton] at hb; omega
      · rcases List.mem_append.1 hb with hb | hb
        · exact ih _ b hb
        · simp only [List.mem_singleton] at hb; omega
  intro b hb
  unfold format03 at hb
  rcases List.mem_append.1 hb with hb | hb
  · have := List.eq_of_mem_replicate hb
    omega
  · exact hd _ _ b hb

theorem stripPakLangFilenamePrefix_append (s x : Bytes) (hx : 47 ∉ x) :
    stripPakLangFilenamePrefix (s ++ 95 :: x) = strippedStem s ++ 95 :: x := by
  have hT : 47 ∉ (95 :: x) := by
    intro h
    rcases List.mem_cons.1 h with h | h
    · omega
    · exact hx h
  have hfind : pakLangs.find? (fun lang => lang.isPrefixOf
        (toLower (pathFilename s ++ 95 :: x)))
      = pakLangs.find? (fun lang => lang.isPrefixOf (toLower (pathFilename s))) := by
    have hno : ∀ l ∈ pakLangs, 95 ∉ l := by decide
    have hfun : ∀ lang ∈ pakLangs,
        lang.isPrefixOf (toLower (pathFilename s ++ 95 :: x))
          = lang.isPrefixOf (toLower (pathFilename s)) := by
      intro lang hl
      have e : toLower (pathFilename s ++ 95 :: x)
          = toLower (pathFilename s) ++ 95 :: toLower x := by
        simp [toLower, toLowerByte]
      rw [e]
      exact isPrefixOf_append_other lang 95 (hno lang hl) _ _
    generalize pakLangs = L at hfun
    induction L with
    | nil => rfl
    | cons a as ih =>
      simp only [List.find?_cons, hfun a (List.mem_cons_self _ _)]
      rw [ih (fun l hl => hfun l (List.mem_cons_of_mem _ hl))]
  unfold stripPakLangFilenamePrefix strippedStem
  simp only [pathFilename_append s _ hT, hfind, fsParentPath_append s _ hT]
  cases hf : pakLangs.find? (fun lang => lang.isPrefixOf (toLower (pathFilename s))) with
  | none => rfl
  | some lang =>
    simp only
    have hpre : lang.isPrefixOf (toLower (pathFilename s)) = true := by
      have := List.find?_some hf
      simpa using this
    have hlen : lang.length ≤ (pathFilename s).length := by
      have := (List.isPrefixOf_iff_prefix.1 hpre).length_le
      simpa [toLower] using this
    rw [List.drop_append_of_le_length hlen]
    have hnos : 47 ∉ (pathFilename s).drop lang.length := fun h =>
      pathFilename_no_slash s (List.mem_of_mem_drop h)
    have hhead : ∀ (D : Bytes), 47 ∉ D → (D ++ 95 :: x).head? ≠ some 47 := by
      intro D hD
      cases D with
      | nil => simp
      | cons d ds =>
        simp only [List.cons_append, List.head?_cons, ne_eq, Option.some.injEq]
        intro e
        exact hD (by simp [e])
    have hD1 := hhead _ hnos
    have hD2 : ((pathFilename s).drop lang.length).head? ≠ some 47 := by
      intro e
      exact hnos (List.mem_of_mem_head? e)
    unfold fsAppend
    rw [if_neg hD1, if_neg hD2]
    split_ifs <;> simp [List.append_assoc]

namespace respawn_vpk

theorem makeArchivePath_injective (path : Bytes) (i j : Nat) (hi : i < 2 ^ 16)
    (hj : j < 2 ^ 16) (hne : i ≠ j)
    (hpat : endsWithInsensitive path (bytesOf "_dir.vpk") = true) :
    makeArchivePath path i ≠ makeArchivePath path j := by
  intro h
  apply hne
  unfold makeArchivePath at h
  simp only [hpat, if_true] at h
  have hv : ∀ v, 47 ∉ format03 v ++ bytesOf ".vpk" := by
    intro v hm
    rcases List.mem_append.1 hm with hm | hm
    · have := format03_digits v 47 hm; omega
    · revert hm; decide
  have e : ∀ v, path.take (path.length - 8) ++ (bytesOf "_" ++ format03 v ++ bytesOf ".vpk")
      = path.take (path.length - 8) ++ 95 :: (format03 v ++ bytesOf ".vpk") := by
    intro v
    rw [show bytesOf "_" = [95] by decide]
    simp
  rw [e i, e j, stripPakLangFilenamePrefix_append _ _ (hv i),
    stripPakLangFilenamePrefix_append _ _ (hv j)] at h
  have h2 := List.append_cancel_left h
  simp only [List.cons.injEq, true_and] at h2
  exact format03_injective i j hi hj (List.append_cancel_right h2)

end respawn_vpk

namespace RespawnVPK

theorem endsWithCi_strip (path : Bytes) (h : endsWithCi path (bytesOf "_dir.vpk") = true) :
    endsWithCi (stripPakLangFilenamePrefix path) (bytesOf "_dir.vpk") = true := by
  unfold endsWithCi at h
  have hlen : (bytesOf "_dir.vpk").length = 8 := by decide
  rw [hlen] at h
  split_ifs at h with hl
  simp only [decide_eq_true_eq] at h
  generalize ht : path.drop (path.length - 8) = t at h
  have htl : t.length = 8 := by rw [← ht, List.length_drop]; omega
  have hsplit : path = path.take (path.length - 8) ++ t := by
    rw [← ht, List.take_append_drop]
  cases t with
  | nil => simp at htl
  | cons c x =>
    have hlow : toLower (bytesOf "_dir.vpk") = 95 :: bytesOf "dir.vpk" := by decide
    rw [hlow] at h
    simp only [toLower, List.map_cons, List.cons.injEq] at h
    obtain ⟨hc, hx⟩ := h
    have hc95 : c = 95 := by
      unfold toLowerByte at hc
      split_ifs at hc <;> omega
    have hx47 : 47 ∉ x := by
      intro hm
      have : toLowerByte 47 ∈ x.map toLowerByte := List.mem_map_of_mem _ hm
      rw [hx] at this
      revert this
      decide
    subst hc95
    rw [hsplit, stripPakLangFilenamePrefix_append _ _ hx47]
    unfold endsWithCi
    rw [hlen]
    have hl2 : ¬ (strippedStem (path.take (path.length - 8)) ++ 95 :: x).length < 8 := by
      simp only [List.length_append, List.length_cons] at htl ⊢
      omega
    rw [if_neg hl2]
    have hd : (strippedStem (path.take (path.length - 8)) ++ 95 :: x).drop
        ((strippedStem (path.take (path.length - 8)) ++ 95 :: x).length - 8) = 95 :: x := by
      rw [List.length_append, htl, Nat.add_sub_cancel, List.drop_left]
    rw [hd, hlow]
    simp only [toLower, List.map_cons, hx, decide_eq_true_eq]
    rfl

theorem makeArchivePathForWrite_injective_of_suffix (path : Bytes) (i j : Nat)
    (hi : i < 2 ^ 16) (hj : j < 2 ^ 16) (hne : i ≠ j)
    (hpat : endsWithCi path (bytesOf "_dir.vpk") = true) :
    makeArchivePathForWrite path i ≠ makeArchivePathForWrite path j :=
  makeArchivePathForWrite_injective path i j hi hj hne (endsWithCi_strip path hpat)

end RespawnVPK

namespace RespawnVPK

/-- C20 (amended claim): for every path string and all 16-bit indices `i ≠ j`, if the path
ends with `_dir.vpk` (case-insensitive) then the side-archive paths derived for `i` and `j`
differ, for `tryBuild` of `buildArchivePath` and for `makeArchivePath` and
`makeArchivePathForWrite` on the write side; for `tryBuild` they also differ when the path
ends with an underscore, three digits and `.vpk`; a path that matches neither pattern is
returned by `tryBuild` as it is, for every index. -/
theorem side_archive_path_injective (path : Bytes) (i j : Nat) (hi : i < 2 ^ 16)
    (hj : j < 2 ^ 16) (hne : i ≠ j) :
    (endsWithCi path (bytesOf "_dir.vpk") = true →
        tryBuild i path ≠ tryBuild j path
        ∧ respawn_vpk.makeArchivePath path i ≠ respawn_vpk.makeArchivePath path j
        ∧ makeArchivePathForWrite path i ≠ makeArchivePathForWrite path j)
    ∧ (numberedPattern path → tryBuild i path ≠ tryBuild j path)
    ∧ (endsWithCi path (bytesOf "_dir.vpk") = false → ¬ numberedPattern path →
        tryBuild i path = path ∧ tryBuild j path = path) := by
  refine ⟨fun h => ⟨?_, ?_, ?_⟩, fun h => ?_, fun h1 h2 => ?_⟩
  · exact tryBuild_injective path i j hi hj hne (Or.inl h)
  · exact respawn_vpk.makeArchivePath_injective path i j hi hj hne h
  · exact makeArchivePathForWrite_injective_of_suffix path i j hi hj hne h
  · exact tryBuild_injective path i j hi hj hne (Or.inr h)
  · unfold numberedPattern at h2
    simp only [tryBuild, h1, Bool.false_eq_true, if_false, h2, and_self]

/-- C20 (counterexample): for the path `pak000.vpk` the three derivations return the same
path for the indices 0 and 1 (and `makeArchivePathForWrite` returns the same path for 0 and
999 on a path that ends with `_000.vpk`). -/
theorem side_archive_path_not_injective :
    tryBuild 0 (bytesOf "pak000.vpk") = tryBuild 1 (bytesOf "pak000.vpk")
    ∧ respawn_vpk.makeArchivePath (bytesOf "pak000.vpk") 0
      = respawn_vpk.makeArchivePath (bytesOf "pak000.vpk") 1
    ∧ makeArchivePathForWrite (bytesOf "pak000.vpk") 0
      = makeArchivePathForWrite (bytesOf "pak000.vpk") 1
    ∧ makeArchivePathForWrite (bytesOf "client_mp_common.bsp.pak000_000.vpk") 0
      = makeArchivePathForWrite (bytesOf "client_mp_common.bsp.pak000_000.vpk") 999
    ∧ (0 : Nat) ≠ 1 := by
  decide

/-- C20 (witness): the amended claim at the locale example path and the indices 0 and
999. -/
theorem side_archive_path_injective_witness :
    (0 : Nat) < 2 ^ 16 ∧ (999 : Nat) < 2 ^ 16 ∧ (0 : Nat) ≠ 999
    ∧ endsWithCi localeDirPath (bytesOf "_dir.vpk") = true
    ∧ (tryBuild 0 localeDirPath ≠ tryBuild 999 localeDirPath
        ∧ respawn_vpk.makeArchivePath localeDirPath 0
          ≠ respawn_vpk.makeArchivePath localeDirPath 999
        ∧ makeArchivePathForWrite localeDirPath 0 ≠ makeArchivePathForWrite localeDirPath 999)
    ∧ tryBuild 0 localeDirPath = bytesOf "englishclient_mp_rr_box.bsp.pak000_000.vpk"
    ∧ respawn_vpk.makeArchivePath localeDirPath 999
      = bytesOf "client_mp_rr_box.bsp.pak000_999.vpk" :=
  ⟨by decide, by decide, by decide, by decide,
    (side_archive_path_injective localeDirPath 0 999 (by decide) (by decide) (by decide)).1
      (by decide),
    by decide, by decide⟩

end RespawnVPK

/-! ## The tree parser of `open` on a truncated dir archive -/

namespace RespawnVPK

theorem readCString_failed (f : IStream) (h : f.good = false) :
    readCString f = ([], f) := by
  simp [readCString, h]

/-- On a stream that has failed the loops unwind and return what has been parsed. -/
theorem failed_ret (mode : TreeMode) (f : IStream) (acc : List ParsedEntry) (fuel : Nat)
    (hg : f.good = false) (hf : modeRank mode ≤ fuel) :
    parseLoop fuel mode f acc = .ret (some acc) := by
  have hext : ∀ fuel, 1 ≤ fuel → parseLoop fuel .ext f acc = .ret (some acc) := by
    intro fuel h
    obtain ⟨k, rfl⟩ : ∃ k, fuel = k + 1 := ⟨fuel - 1, by omega⟩
    simp [parseLoop, readCString_failed f hg, hg]
  have hdir : ∀ x fuel, 2 ≤ fuel → parseLoop fuel (.dir x) f acc = .ret (some acc) := by
    intro x fuel h
    obtain ⟨k, rfl⟩ : ∃ k, fuel = k + 1 := ⟨fuel - 1, by omega⟩
    simp only [parseLoop, readCString_failed f hg, hg, Bool.false_eq_true, not_false_eq_true,
      true_or, if_true]
    exact hext k (by omega)
  cases mode with
  | ext => exact hext fuel (by simpa [modeRank] using hf)
  | dir x => exact hdir x fuel (by simpa [modeRank] using hf)
  | file x d =>
    simp only [modeRank] at hf
    obtain ⟨k, rfl⟩ : ∃ k, fuel = k + 1 := ⟨fuel - 1, by omega⟩
    simp only [parseLoop, readCString_failed f hg, hg, Bool.false_eq_true, not_false_eq_true,
      true_or, if_true]
    exact hdir x k (by omega)

theorem readCStringBytes_partial (u : Bytes) (h : 0 ∉ u) :
    readCStringBytes u = (u, [], false) := by
  induction u with
  | nil => rfl
  | cons c cs ih =>
    have hc : c ≠ 0 := fun e => h (by simp [e])
    have hcs : 0 ∉ cs := fun e => h (List.mem_cons_of_mem _ e)
    simp [readCStringBytes, hc, ih hcs]

/-- A string that is cut before its NUL makes the read fail, and the loops return what has
been parsed. -/
theorem partial_ret (mode : TreeMode) (u : Bytes) (pos : Nat) (acc : List ParsedEntry)
    (fuel : Nat) (hu : 0 ∉ u) (hf : modeRank mode ≤ fuel) :
    parseLoop fuel mode { rest := u, pos := pos, good := true } acc = .ret (some acc) := by
  obtain ⟨k, rfl⟩ : ∃ k, fuel = k + 1 :=
    ⟨fuel - 1, by cases mode <;> simp only [modeRank] at hf <;> omega⟩
  have hr : readCString { rest := u, pos := pos, good := true }
      = (u, { rest := [], pos := pos + (u.length - 0), good := false }) := by
    simp [readCString, readCStringBytes_partial u hu]
  cases mode with
  | ext => simp [parseLoop, hr]
  | dir x =>
    simp only [parseLoop, hr, Bool.false_eq_true, not_false_eq_true, true_or, if_true]
    exact failed_ret _ _ _ _ rfl (by simp only [modeRank] at hf ⊢; omega)
  | file x d =>
    simp only [parseLoop, hr, Bool.false_eq_true, not_false_eq_true, true_or, if_true]
    exact failed_ret _ _ _ _ rfl (by simp only [modeRank] at hf ⊢; omega)

theorem left_of_not_good (f : IStream) (h : ¬ f.good = true) : f.left = 0 := by
  simp [IStream.left, h]

/-- The five reads after a chunk's archive index need 30 bytes. -/
theorem part_fields_short (f : IStream) (h : f.left < 30) :
    ¬ (readU64 (readU64 (readU64 (readU32 (readU16 f).2).2).2).2).2.good = true := by
  have h1 := readU16_left f
  generalize readU16 f = s1 at h1
  have h2 := readU32_left s1.2
  generalize readU32 s1.2 = s2 at h2
  have h3 := readU64_left s2.2
  generalize readU64 s2.2 = s3 at h3
  have h4 := readU64_left s3.2
  generalize readU64 s3.2 = s4 at h4
  have h5 := readU64_left s4.2
  generalize readU64 s4.2 = s5 at h5
  intro hg
  have g5 := h5.2 hg
  have e4 : s4.2.good = true := by
    by_contra hc
    have := left_of_not_good _ hc
    omega
  have g4 := h4.2 e4
  have e3 : s3.2.good = true := by
    by_contra hc
    have := left_of_not_good _ hc
    omega
  have g3 := h3.2 e3
  have e2 : s2.2.good = true := by
    by_contra hc
    have := left_of_not_good _ hc
    omega
  have g2 := h2.2 e2
  have e1 : s1.2.good = true := by
    by_contra hc
    have := left_of_not_good _ hc
    omega
  have g1 := h1.2 e1
  omega

theorem readParts_no_index (fuel : Nat) (r : Bytes) (pos : Nat) (acc : List FilePart)
    (hr : r.length < 2) :
    readParts (fuel + 1) { rest := r, pos := pos, good := true } acc = .ret none := by
  have h1 := readU16_left { rest := r, pos := pos, good := true }
  have hbad : ¬ (readU16 { rest := r, pos := pos, good := true }).2.good = true := by
    intro hg
    have := h1.2 hg
    simp only [IStream.left, if_true] at this
    omega
  simp only [readParts]
  rw [if_pos hbad]

theorem readParts_cut_part (fuel : Nat) (p : FilePart) (hp : p.WF) (pos j : Nat)
    (acc : List FilePart) (hj : j < 32) :
    readParts (fuel + 1) { rest := (partBytes p).take j, pos := pos, good := true } acc
      = .ret none := by
  by_cases h2 : j < 2
  · exact readParts_no_index fuel _ pos acc (by simp only [List.length_take]; omega)
  · obtain ⟨h1, hne, -⟩ := hp
    have e : (partBytes p).take j = leBytes 2 p.archiveIndex
        ++ (leBytes 2 p.loadFlags ++ leBytes 4 p.textureFlags ++ leBytes 8 p.entryOffset
            ++ leBytes 8 p.entryLength ++ leBytes 8 p.entryLengthUncompressed).take (j - 2) := by
      simp only [partBytes, List.append_assoc]
      rw [List.take_append_eq_append_take, leBytes_length,
        List.take_of_length_le (by rw [leBytes_length]; omega)]
    rw [e]
    simp only [readParts, readU16_le, Nat.mod_eq_of_lt h1, RESPAWN_CHUNK_END_MARKER, hne,
      if_false, not_true_eq_false]
    have := part_fields_short
      { rest := (leBytes 2 p.loadFlags ++ leBytes 4 p.textureFlags ++ leBytes 8 p.entryOffset
            ++ leBytes 8 p.entryLength ++ leBytes 8 p.entryLengthUncompressed).take (j - 2),
        pos := pos + 2, good := true }
      (by simp only [IStream.left, if_true, List.length_take]; omega)
    rw [if_pos this]

theorem readParts_cut (ps : List FilePart) (hps : ∀ p ∈ ps, p.WF) :
    ∀ (acc : List FilePart) (fuel pos j : Nat), j < 32 * fuel →
      j < 32 * ps.length + 2 →
      readParts fuel
          { rest := (partsBytes ps ++ [0xFF, 0xFF]).take j, pos := pos, good := true } acc
        = .ret none := by
  induction ps with
  | nil =>
    intro acc fuel pos j hf hj
    obtain ⟨f, rfl⟩ : ∃ f, fuel = f + 1 := ⟨fuel - 1, by omega⟩
    exact readParts_no_index f _ pos acc (by
      simp only [List.length_take, partsBytes, List.nil_append, List.length_cons,
        List.length_nil]
      simp only [List.length_nil] at hj
      omega)
  | cons p ps ih =>
    intro acc fuel pos j hf hj
    obtain ⟨f, rfl⟩ : ∃ f, fuel = f + 1 := ⟨fuel - 1, by omega⟩
    have hp := hps p (List.mem_cons_self _ _)
    simp only [List.length_cons] at hf hj
    have e : (partsBytes (p :: ps) ++ [0xFF, 0xFF]).take j
        = (partBytes p).take j ++ (partsBytes ps ++ [0xFF, 0xFF]).take (j - 32) := by
      simp only [partsBytes, List.append_assoc]
      rw [List.take_append_eq_append_take, partBytes_length]
    by_cases h32 : j < 32
    · rw [e, show j - 32 = 0 by omega, List.take_zero, List.append_nil]
      exact readParts_cut_part f p hp pos j acc h32
    · rw [e, List.take_of_length_le (by rw [partBytes_length]; omega),
        readParts_step p hp acc f pos]
      exact ih (fun q hq => hps q (List.mem_cons_of_mem _ hq)) _ f _ (j - 32) (by omega)
        (by omega)

theorem itemRecord_eq (t : TreeItem) : itemRecord t = t.fileStem ++ 0 :: itemFixed t := by
  simp [itemRecord, itemFixed]

theorem itemFixed_length (t : TreeItem) :
    (itemFixed t).length = 32 * t.meta.parts.length + 8 := by
  simp only [itemFixed, List.length_append, leBytes_length, partsBytes_length,
    List.length_cons, List.length_nil]
  omega

theorem entry_header_short (f : IStream) (h : f.left < 6) :
    ¬ (readU16 (readU32 f).2).2.good = true := by
  have h1 := readU32_left f
  generalize readU32 f = s1 at h1
  have h2 := readU16_left s1.2
  generalize readU16 s1.2 = s2 at h2
  intro hg
  have g2 := h2.2 hg
  have e1 : s1.2.good = true := by
    by_contra hc
    have := left_of_not_good _ hc
    omega
  have g1 := h1.2 e1
  omega

/-- An entry whose file name is complete and whose fixed-width fields are cut makes the
parser fail. -/
theorem entry_cut (t : TreeItem) (ht : t.WF) (x d : Bytes) (fuel pos k : Nat)
    (acc : List ParsedEntry) (hf : k + 2 ≤ fuel)
    (hk : k < (itemFixed t).length) :
    parseLoop fuel (.file x d)
        { rest := t.fileStem ++ 0 :: (itemFixed t).take k, pos := pos, good := true } acc
      = .ret none := by
  obtain ⟨f, rfl⟩ : ∃ f, fuel = f + 1 := ⟨fuel - 1, by omega⟩
  obtain ⟨-, -, hstem, hcrc, hpre, hparts⟩ := ht
  rw [itemFixed_length] at hk
  by_cases h6 : k < 6
  · have hbad := entry_header_short
      { rest := (itemFixed t).take k, pos := pos + (t.fileStem.length + 1), good := true }
      (by simp only [IStream.left, if_true, List.length_take]; omega)
    simp only [parseLoop, readCString_append _ _ _ hstem.2]
    rw [if_neg (by simp [hstem.1]), if_pos hbad]
  · have e : (itemFixed t).take k = leBytes 4 t.meta.crc32 ++ (leBytes 2 0
        ++ (partsBytes t.meta.parts ++ [0xFF, 0xFF]).take (k - 6)) := by
      simp only [itemFixed, hpre, List.append_assoc]
      rw [List.take_append_eq_append_take, leBytes_length,
        List.take_of_length_le (by rw [leBytes_length]; omega),
        List.take_append_eq_append_take, leBytes_length,
        List.take_of_length_le (by rw [leBytes_length]; omega),
        show k - 4 - 2 = k - 6 by omega]
    have hrp := readParts_cut t.meta.parts hparts [] f
      (pos + (t.fileStem.length + 1) + 4 + 2) (k - 6) (by omega) (by omega)
    rw [e]
    simp only [parseLoop, readCString_append _ _ _ hstem.2, readU32_le, readU16_le, hrp]
    simp [hstem.1]

theorem take_cstr (s r : Bytes) (n : Nat) :
    (s ++ 0 :: r).take n
      = if n ≤ s.length then s.take n else s ++ 0 :: r.take (n - s.length - 1) := by
  rw [List.take_append_eq_append_take]
  split_ifs with h
  · rw [show n - s.length = 0 by omega]; simp
  · rw [List.take_of_length_le (by omega)]
    obtain ⟨m, hm⟩ : ∃ m, n - s.length = m + 1 := ⟨n - s.length - 1, by omega⟩
    rw [hm, List.take_succ_cons]
    simp [hm]

theorem not_mem_take {s : Bytes} (h : 0 ∉ s) (n : Nat) : 0 ∉ s.take n :=
  fun hm => h (List.mem_of_mem_take hm)

/-- The parser in a file list, in front of the record of `t` cut after `n` bytes: a cut in
the name ends the parse with the entries so far, a cut in the fixed-width fields makes it
fail, and a complete record is parsed. -/
theorem record_cut (t : TreeItem) (ht : t.WF) (x d r : Bytes) (fuel pos n : Nat)
    (acc : List ParsedEntry) :
    ∃ pos', n + 3 ≤ fuel → parseLoop fuel (.file x d)
        { rest := (itemRecord t ++ r).take n, pos := pos, good := true } acc
      = if n ≤ t.fileStem.length then .ret (some acc)
        else if n < (itemRecord t).length then .ret none
        else parseLoop (fuel - 1) (.file x d)
          { rest := r.take (n - (itemRecord t).length), pos := pos', good := true }
          (acc ++ [parsedAs x d t]) := by
  have hstem : nameOk t.fileStem := ht.2.2.1
  have hrl := itemRecord_length t
  have hfl := itemFixed_length t
  by_cases hf : n + 3 ≤ fuel
  swap
  · exact ⟨0, fun h => absurd h hf⟩
  by_cases h1 : n ≤ t.fileStem.length
  · refine ⟨0, fun _ => ?_⟩
    rw [if_pos h1, itemRecord_eq, List.append_assoc, List.cons_append, take_cstr, if_pos h1]
    exact partial_ret _ _ _ _ _ (not_mem_take hstem.2 n) (by simp only [modeRank]; omega)
  · by_cases h2 : n < (itemRecord t).length
    · refine ⟨0, fun _ => ?_⟩
      rw [if_neg h1, if_pos h2, itemRecord_eq, List.append_assoc, List.cons_append, take_cstr,
        if_neg h1, List.take_append_eq_append_take,
        show n - t.fileStem.length - 1 - (itemFixed t).length = 0 by omega, List.take_zero,
        List.append_nil]
      exact entry_cut t ht x d fuel pos _ acc (by omega) (by omega)
    · obtain ⟨pos', hstep⟩ := step_entry t ht x d fuel pos
        (r.take (n - (itemRecord t).length)) acc (by omega)
      refine ⟨pos', fun _ => ?_⟩
      rw [if_neg h1, if_neg h2, ← hstep, List.take_append_eq_append_take,
        List.take_of_length_le (by omega)]

theorem file_end_cut (x d r : Bytes) (fuel pos n : Nat) (acc : List ParsedEntry)
    (hf : 3 ≤ fuel) :
    parseLoop fuel (.file x d) { rest := (0 :: r).take n, pos := pos, good := true } acc
      = if n = 0 then .ret (some acc)
        else parseLoop (fuel - 1) (.dir x)
          { rest := r.take (n - 1), pos := pos + 1, good := true } acc := by
  split_ifs with h
  · subst h
    exact partial_ret _ _ _ _ _ (by simp) (by simp only [modeRank]; omega)
  · obtain ⟨m, rfl⟩ : ∃ m, n = m + 1 := ⟨n - 1, by omega⟩
    rw [List.take_succ_cons, step_file_end _ _ _ _ _ _ (by omega)]
    simp

theorem dir_end_cut (x r : Bytes) (fuel pos n : Nat) (acc : List ParsedEntry)
    (hf : 2 ≤ fuel) :
    parseLoop fuel (.dir x) { rest := (0 :: r).take n, pos := pos, good := true } acc
      = if n = 0 then .ret (some acc)
        else parseLoop (fuel - 1) .ext
          { rest := r.take (n - 1), pos := pos + 1, good := true } acc := by
  split_ifs with h
  · subst h
    exact partial_ret _ _ _ _ _ (by simp) (by simp only [modeRank]; omega)
  · obtain ⟨m, rfl⟩ : ∃ m, n = m + 1 := ⟨n - 1, by omega⟩
    rw [List.take_succ_cons, step_dir_end _ _ _ _ _ (by omega)]
    simp

theorem ext_end_cut (r : Bytes) (fuel pos n : Nat) (acc : List ParsedEntry) (hf : 1 ≤ fuel) :
    parseLoop fuel .ext { rest := (0 :: r).take n, pos := pos, good := true } acc
      = .ret (some acc) := by
  by_cases h : n = 0
  · subst h
    exact partial_ret _ _ _ _ _ (by simp) (by simp only [modeRank]; omega)
  · obtain ⟨m, rfl⟩ : ∃ m, n = m + 1 := ⟨n - 1, by omega⟩
    rw [List.take_succ_cons, step_ext_end _ _ _ _ (by omega)]

theorem dir_cut (x s : Bytes) (hs : nameOk s) (r : Bytes) (fuel pos n : Nat)
    (acc : List ParsedEntry) (hf : 2 ≤ fuel) :
    parseLoop fuel (.dir x) { rest := (s ++ 0 :: r).take n, pos := pos, good := true } acc
      = if n ≤ s.length then .ret (some acc)
        else parseLoop (fuel - 1) (.file x s)
          { rest := r.take (n - s.length - 1), pos := pos + (s.length + 1), good := true }
          acc := by
  rw [take_cstr]
  split_ifs with h
  · exact partial_ret _ _ _ _ _ (not_mem_take hs.2 n) (by simp only [modeRank]; omega)
  · exact step_dir _ _ hs _ _ _ _ (by omega)

theorem ext_cut (s : Bytes) (hs : nameOk s) (r : Bytes) (fuel pos n : Nat)
    (acc : List ParsedEntry) (hf : 1 ≤ fuel) :
    parseLoop fuel .ext { rest := (s ++ 0 :: r).take n, pos := pos, good := true } acc
      = if n ≤ s.length then .ret (some acc)
        else parseLoop (fuel - 1) (.dir s)
          { rest := r.take (n - s.length - 1), pos := pos + (s.length + 1), good := true }
          acc := by
  rw [take_cstr]
  split_ifs with h
  · exact partial_ret _ _ _ _ _ (not_mem_take hs.2 n) (by simp only [modeRank]; omega)
  · exact step_ext _ hs _ _ _ _ (by omega)

theorem item_cut (t : TreeItem) (ht : t.WF) (x d : Bytes) (hx : x ≠ []) (hd : d ≠ [])
    (R : Bytes) (fuel pos n : Nat) (acc : List ParsedEntry) (hf : n + 3 ≤ fuel) :
    ∃ pos' fuel',
      ((itemPrefix x d t).length + (itemRecord t).length ≤ n →
        n - ((itemPrefix x d t).length + (itemRecord t).length) + 3 ≤ fuel')
      ∧ parseLoop fuel (.file x d)
          { rest := (itemPrefix x d t ++ (itemRecord t ++ R)).take n, pos := pos, good := true }
          acc
        = if n + (32 * t.meta.parts.length + 8)
              < (itemPrefix x d t).length + (itemRecord t).length then .ret (some acc)
          else if n < (itemPrefix x d t).length + (itemRecord t).length then .ret none
          else parseLoop fuel' (.file t.ext t.dir)
            { rest := R.take (n - ((itemPrefix x d t).length + (itemRecord t).length)),
              pos := pos', good := true } (acc ++ [parsedOf t]) := by
  obtain ⟨hext, hdir, hstem, -⟩ := id ht
  have hel : 0 < t.ext.length := List.length_pos.2 hext.1
  have hdl : 0 < t.dir.length := List.length_pos.2 hdir.1
  have hrl := itemRecord_length t
  by_cases h1 : t.ext = x
  · by_cases h2 : t.dir = d
    · have hp := itemPrefix_same x d t h1 h2
      rw [hp]
      simp only [List.nil_append, List.length_nil, Nat.zero_add]
      obtain ⟨pos', hstep⟩ := record_cut t ht x d R fuel pos n acc
      refine ⟨pos', fuel - 1, by omega, ?_⟩
      rw [hstep hf]
      have hpa : parsedAs x d t = parsedOf t := by rw [parsedOf, h1, h2]
      rw [hpa, h1, h2]
      split_ifs <;> first | rfl | (exfalso; omega)
    · have hp := itemPrefix_newDir x d t hd h1 h2
      rw [hp]
      simp only [List.cons_append, List.append_assoc, List.nil_append, List.length_cons,
        List.length_append, List.length_nil]
      obtain ⟨pos', hstep⟩ := record_cut t ht x t.dir R (fuel - 1 - 1)
        (pos + 1 + (t.dir.length + 1)) (n - 1 - t.dir.length - 1) acc
      refine ⟨pos', fuel - 1 - 1 - 1, by omega, ?_⟩
      rw [file_end_cut _ _ _ _ _ _ _ (by omega)]
      by_cases c0 : n = 0
      · rw [if_pos c0]
        split_ifs <;> first | rfl | (exfalso; omega)
      rw [if_neg c0, dir_cut _ _ hdir _ _ _ _ _ (by omega)]
      by_cases c1 : n - 1 ≤ t.dir.length
      · rw [if_pos c1]
        split_ifs <;> first | rfl | (exfalso; omega)
      rw [if_neg c1, hstep (by omega)]
      have hpa : parsedAs x t.dir t = parsedOf t := by rw [parsedOf, h1]
      rw [hpa, h1]
      have e : n - 1 - t.dir.length - 1 - (itemRecord t).length
          = n - (t.dir.length + 1 + 1 + (itemRecord t).length) := by omega
      rw [e]
      split_ifs <;> first | rfl | (exfalso; omega)
  · have hp := itemPrefix_newExt x d t hx hdir.1 h1
    rw [hp]
    simp only [List.cons_append, List.append_assoc, List.nil_append, List.length_cons,
      List.length_append, List.length_nil]
    obtain ⟨pos', hstep⟩ := record_cut t ht t.ext t.dir R (fuel - 1 - 1 - 1 - 1)
      (pos + 1 + 1 + (t.ext.length + 1) + (t.dir.length + 1))
      (n - 1 - 1 - t.ext.length - 1 - t.dir.length - 1) acc
    refine ⟨pos', fuel - 1 - 1 - 1 - 1 - 1, by omega, ?_⟩
    rw [file_end_cut _ _ _ _ _ _ _ (by omega)]
    by_cases c0 : n = 0
    · rw [if_pos c0]
      split_ifs <;> first | rfl | (exfalso; omega)
    rw [if_neg c0, dir_end_cut _ _ _ _ _ _ (by omega)]
    by_cases c0' : n - 1 = 0
    · rw [if_pos c0']
      split_ifs <;> first | rfl | (exfalso; omega)
    rw [if_neg c0', ext_cut _ hext _ _ _ _ _ (by omega)]
    by_cases c1 : n - 1 - 1 ≤ t.ext.length
    · rw [if_pos c1]
      split_ifs <;> first | rfl | (exfalso; omega)
    rw [if_neg c1, dir_cut _ _ hdir _ _ _ _ _ (by omega)]
    by_cases c1' : n - 1 - 1 - t.ext.length - 1 ≤ t.dir.length
    · rw [if_pos c1']
      split_ifs <;> first | rfl | (exfalso; omega)
    rw [if_neg c1', hstep (by omega)]
    have e : n - 1 - 1 - t.ext.length - 1 - t.dir.length - 1 - (itemRecord t).length
        = n - (t.ext.length + (t.dir.length + 1 + 1) + 1 + 1 + (itemRecord t).length) := by
      omega
    rw [e]
    split_ifs <;> first | rfl | (exfalso; omega)

theorem item_cut_first (t : TreeItem) (ht : t.WF)
    (R : Bytes) (fuel pos n : Nat) (hf : n + 3 ≤ fuel) :
    ∃ pos' fuel',
      ((itemPrefix [] [] t).length + (itemRecord t).length ≤ n →
        n - ((itemPrefix [] [] t).length + (itemRecord t).length) + 3 ≤ fuel')
      ∧ parseLoop fuel .ext
          { rest := (itemPrefix [] [] t ++ (itemRecord t ++ R)).take n, pos := pos,
            good := true } []
        = if n + (32 * t.meta.parts.length + 8)
              < (itemPrefix [] [] t).length + (itemRecord t).length then .ret (some [])
          else if n < (itemPrefix [] [] t).length + (itemRecord t).length then .ret none
          else parseLoop fuel' (.file t.ext t.dir)
            { rest := R.take (n - ((itemPrefix [] [] t).length + (itemRecord t).length)),
              pos := pos', good := true } [parsedOf t] := by
  obtain ⟨hext, hdir, hstem, -⟩ := id ht
  have hel : 0 < t.ext.length := List.length_pos.2 hext.1
  have hdl : 0 < t.dir.length := List.length_pos.2 hdir.1
  have hrl := itemRecord_length t
  have hp := itemPrefix_first t hext.1 hdir.1
  rw [hp]
  simp only [List.cons_append, List.append_assoc, List.nil_append, List.length_cons,
    List.length_append, List.length_nil]
  obtain ⟨pos', hstep⟩ := record_cut t ht t.ext t.dir R (fuel - 1 - 1)
    (pos + (t.ext.length + 1) + (t.dir.length + 1))
    (n - t.ext.length - 1 - t.dir.length - 1) []
  refine ⟨pos', fuel - 1 - 1 - 1, by omega, ?_⟩
  rw [ext_cut _ hext _ _ _ _ _ (by omega)]
  by_cases c1 : n ≤ t.ext.length
  · rw [if_pos c1]
    split_ifs <;> first | rfl | (exfalso; omega)
  rw [if_neg c1, dir_cut _ _ hdir _ _ _ _ _ (by omega)]
  by_cases c1' : n - t.ext.length - 1 ≤ t.dir.length
  · rw [if_pos c1']
    split_ifs <;> first | rfl | (exfalso; omega)
  rw [if_neg c1', hstep (by omega)]
  have e : n - t.ext.length - 1 - t.dir.length - 1 - (itemRecord t).length
      = n - (t.ext.length + (t.dir.length + 1 + 1) + (itemRecord t).length) := by omega
  rw [e]
  simp only [List.nil_append]
  split_ifs <;> first | rfl | (exfalso; omega)

theorem itemsLayout_nil (x d : Bytes) : itemsLayout x d [] = [] := rfl

theorem itemsLayout_cons (x d : Bytes) (a : TreeItem) (L : List TreeItem) :
    itemsLayout x d (a :: L)
      = itemPrefix x d a ++ itemRecord a ++ itemsLayout a.ext a.dir L := rfl

theorem tail_cut (x d : Bytes) (fuel pos n : Nat) (acc : List ParsedEntry) (hf : 3 ≤ fuel) :
    parseLoop fuel (.file x d) { rest := ([0, 0, 0] : Bytes).take n, pos := pos, good := true }
      acc = .ret (some acc) := by
  rw [file_end_cut _ _ _ _ _ _ _ hf]
  by_cases c0 : n = 0
  · rw [if_pos c0]
  rw [if_neg c0, dir_end_cut _ _ _ _ _ _ (by omega)]
  by_cases c1 : n - 1 = 0
  · rw [if_pos c1]
  rw [if_neg c1, ext_end_cut _ _ _ _ _ (by omega)]

theorem itemsLayout_last_length (A : List TreeItem) (t : TreeItem) :
    ∀ x d : Bytes, (itemRecord t).length ≤ (itemsLayout x d (A ++ [t])).length := by
  induction A with
  | nil =>
    intro x d
    simp only [List.nil_append, itemsLayout_cons, itemsLayout_nil, List.length_append, List.length_nil]
    omega
  | cons a A ih =>
    intro x d
    have := ih a.ext a.dir
    simp only [List.cons_append, itemsLayout_cons, itemsLayout_nil, List.length_append]
    omega

theorem items_cut_fail (A : List TreeItem) (t : TreeItem) (B : List TreeItem) (ht : t.WF) :
    ∀ (x d : Bytes) (acc : List ParsedEntry) (fuel pos n : Nat),
      (∀ a ∈ A, a.WF) → x ≠ [] → d ≠ [] → n + 3 ≤ fuel →
      (itemsLayout x d (A ++ [t])).length ≤ n + (32 * t.meta.parts.length + 8) →
      n < (itemsLayout x d (A ++ [t])).length →
      parseLoop fuel (.file x d)
          { rest := (itemsLayout x d (A ++ t :: B) ++ [0, 0, 0]).take n, pos := pos,
            good := true } acc
        = .ret none := by
  induction A with
  | nil =>
    intro x d acc fuel pos n _ hx hd hf h1 h2
    simp only [List.nil_append, itemsLayout_cons, itemsLayout_nil, List.length_append, List.length_nil,
      Nat.add_zero, List.append_assoc] at h1 h2 ⊢
    obtain ⟨pos', fuel', -, hstep⟩ := item_cut t ht x d hx hd
      (itemsLayout t.ext t.dir B ++ [0, 0, 0]) fuel pos n acc hf
    rw [hstep, if_neg (by omega), if_pos (by omega)]
  | cons a A ih =>
    intro x d acc fuel pos n hwf hx hd hf h1 h2
    have ha : a.WF := hwf a (List.mem_cons_self _ _)
    have hA : ∀ u ∈ A, u.WF := fun u hu => hwf u (List.mem_cons_of_mem _ hu)
    have hl := itemsLayout_last_length A t a.ext a.dir
    have hrl := itemRecord_length t
    simp only [List.cons_append, itemsLayout_cons, itemsLayout_nil, List.length_append, List.append_assoc]
      at h1 h2 ⊢
    obtain ⟨pos', fuel', hfuel, hstep⟩ := item_cut a ha x d hx hd
      (itemsLayout a.ext a.dir (A ++ t :: B) ++ [0, 0, 0]) fuel pos n acc hf
    rw [hstep, if_neg (by omega), if_neg (by omega)]
    exact ih a.ext a.dir _ _ _ _ hA ha.1.1 ha.2.1.1 (hfuel (by omega)) (by omega) (by omega)

theorem items_cut_some (A : List TreeItem) (t : TreeItem) (B : List TreeItem) (ht : t.WF) :
    ∀ (x d : Bytes) (acc : List ParsedEntry) (fuel pos n : Nat),
      (∀ a ∈ A, a.WF) → x ≠ [] → d ≠ [] → n + 3 ≤ fuel →
      (itemsLayout x d A).length ≤ n →
      n + (32 * t.meta.parts.length + 8) < (itemsLayout x d (A ++ [t])).length →
      parseLoop fuel (.file x d)
          { rest := (itemsLayout x d (A ++ t :: B) ++ [0, 0, 0]).take n, pos := pos,
            good := true } acc
        = .ret (some (acc ++ A.map parsedOf)) := by
  induction A with
  | nil =>
    intro x d acc fuel pos n _ hx hd hf h1 h2
    simp only [List.nil_append, itemsLayout_cons, itemsLayout_nil, List.length_append, List.length_nil,
      Nat.add_zero, List.append_assoc, List.map_nil, List.append_nil] at h1 h2 ⊢
    obtain ⟨pos', fuel', -, hstep⟩ := item_cut t ht x d hx hd
      (itemsLayout t.ext t.dir B ++ [0, 0, 0]) fuel pos n acc hf
    rw [hstep, if_pos (by omega)]
  | cons a A ih =>
    intro x d acc fuel pos n hwf hx hd hf h1 h2
    have ha : a.WF := hwf a (List.mem_cons_self _ _)
    have hA : ∀ u ∈ A, u.WF := fun u hu => hwf u (List.mem_cons_of_mem _ hu)
    simp only [List.cons_append, itemsLayout_cons, itemsLayout_nil, List.length_append, List.append_assoc]
      at h1 h2 ⊢
    obtain ⟨pos', fuel', hfuel, hstep⟩ := item_cut a ha x d hx hd
      (itemsLayout a.ext a.dir (A ++ t :: B) ++ [0, 0, 0]) fuel pos n acc hf
    rw [hstep, if_neg (by omega), if_neg (by omega),
      ih a.ext a.dir _ _ _ _ hA ha.1.1 ha.2.1.1 (hfuel (by omega)) (by omega) (by omega)]
    simp

theorem items_cut_end (A : List TreeItem) :
    ∀ (x d : Bytes) (acc : List ParsedEntry) (fuel pos n : Nat),
      (∀ a ∈ A, a.WF) → x ≠ [] → d ≠ [] → n + 3 ≤ fuel →
      (itemsLayout x d A).length ≤ n →
      parseLoop fuel (.file x d)
          { rest := (itemsLayout x d A ++ [0, 0, 0]).take n, pos := pos, good := true } acc
        = .ret (some (acc ++ A.map parsedOf)) := by
  induction A with
  | nil =>
    intro x d acc fuel pos n _ hx hd hf h1
    simp only [itemsLayout_cons, itemsLayout_nil, List.nil_append, List.map_nil, List.append_nil]
    exact tail_cut _ _ _ _ _ _ (by omega)
  | cons a A ih =>
    intro x d acc fuel pos n hwf hx hd hf h1
    have ha : a.WF := hwf a (List.mem_cons_self _ _)
    have hA : ∀ u ∈ A, u.WF := fun u hu => hwf u (List.mem_cons_of_mem _ hu)
    simp only [itemsLayout_cons, itemsLayout_nil, List.length_append, List.append_assoc] at h1 ⊢
    obtain ⟨pos', fuel', hfuel, hstep⟩ := item_cut a ha x d hx hd
      (itemsLayout a.ext a.dir A ++ [0, 0, 0]) fuel pos n acc hf
    rw [hstep, if_neg (by omega), if_neg (by omega),
      ih a.ext a.dir _ _ _ _ hA ha.1.1 ha.2.1.1 (hfuel (by omega)) (by omega)]
    simp

theorem tree_cut_fail (A : List TreeItem) (t : TreeItem) (B : List TreeItem)
    (hA : ∀ a ∈ A, a.WF) (ht : t.WF) (fuel pos n : Nat) (hf : n + 3 ≤ fuel)
    (h1 : (itemsLayout [] [] (A ++ [t])).length ≤ n + (32 * t.meta.parts.length + 8))
    (h2 : n < (itemsLayout [] [] (A ++ [t])).length) :
    parseLoop fuel .ext
        { rest := (itemsLayout [] [] (A ++ t :: B) ++ [0, 0, 0]).take n, pos := pos,
          good := true } []
      = .ret none := by
  cases A with
  | nil =>
    simp only [List.nil_append, itemsLayout_cons, itemsLayout_nil, List.length_append, List.length_nil,
      Nat.add_zero, List.append_assoc] at h1 h2 ⊢
    obtain ⟨pos', fuel', -, hstep⟩ := item_cut_first t ht
      (itemsLayout t.ext t.dir B ++ [0, 0, 0]) fuel pos n hf
    rw [hstep, if_neg (by omega), if_pos (by omega)]
  | cons a A =>
    have ha : a.WF := hA a (List.mem_cons_self _ _)
    have hA' : ∀ u ∈ A, u.WF := fun u hu => hA u (List.mem_cons_of_mem _ hu)
    have hl := itemsLayout_last_length A t a.ext a.dir
    have hrl := itemRecord_length t
    simp only [List.cons_append, itemsLayout_cons, itemsLayout_nil, List.length_append, List.append_assoc]
      at h1 h2 ⊢
    obtain ⟨pos', fuel', hfuel, hstep⟩ := item_cut_first a ha
      (itemsLayout a.ext a.dir (A ++ t :: B) ++ [0, 0, 0]) fuel pos n hf
    rw [hstep, if_neg (by omega), if_neg (by omega)]
    exact items_cut_fail A t B ht a.ext a.dir _ _ _ _ hA' ha.1.1 ha.2.1.1 (hfuel (by omega))
      (by omega) (by omega)

theorem tree_cut_some (A : List TreeItem) (t : TreeItem) (B : List TreeItem)
    (hA : ∀ a ∈ A, a.WF) (ht : t.WF) (fuel pos n : Nat) (hf : n + 3 ≤ fuel)
    (h1 : (itemsLayout [] [] A).length ≤ n)
    (h2 : n + (32 * t.meta.parts.length + 8) < (itemsLayout [] [] (A ++ [t])).length) :
    parseLoop fuel .ext
        { rest := (itemsLayout [] [] (A ++ t :: B) ++ [0, 0, 0]).take n, pos := pos,
          good := true } []
      = .ret (some (A.map parsedOf)) := by
  cases A with
  | nil =>
    simp only [List.nil_append, itemsLayout_cons, itemsLayout_nil, List.length_append, List.length_nil,
      Nat.add_zero, List.append_assoc, List.map_nil] at h1 h2 ⊢
    obtain ⟨pos', fuel', -, hstep⟩ := item_cut_first t ht
      (itemsLayout t.ext t.dir B ++ [0, 0, 0]) fuel pos n hf
    rw [hstep, if_pos (by omega)]
  | cons a A =>
    have ha : a.WF := hA a (List.mem_cons_self _ _)
    have hA' : ∀ u ∈ A, u.WF := fun u hu => hA u (List.mem_cons_of_mem _ hu)
    simp only [List.cons_append, itemsLayout_cons, itemsLayout_nil, List.length_append, List.append_assoc]
      at h1 h2 ⊢
    obtain ⟨pos', fuel', hfuel, hstep⟩ := item_cut_first a ha
      (itemsLayout a.ext a.dir (A ++ t :: B) ++ [0, 0, 0]) fuel pos n hf
    rw [hstep, if_neg (by omega), if_neg (by omega),
      items_cut_some A t B ht a.ext a.dir _ _ _ _ hA' ha.1.1 ha.2.1.1 (hfuel (by omega))
        (by omega) (by omega)]
    simp

theorem tree_cut_end (A : List TreeItem) (hA : ∀ a ∈ A, a.WF) (fuel pos n : Nat)
    (hf : n + 3 ≤ fuel) (h1 : (itemsLayout [] [] A).length ≤ n) :
    parseLoop fuel .ext
        { rest := (itemsLayout [] [] A ++ [0, 0, 0]).take n, pos := pos, good := true } []
      = .ret (some (A.map parsedOf)) := by
  cases A with
  | nil =>
    simp only [itemsLayout_cons, itemsLayout_nil, List.nil_append, List.map_nil]
    exact ext_end_cut _ _ _ _ _ (by omega)
  | cons a A =>
    have ha : a.WF := hA a (List.mem_cons_self _ _)
    have hA' : ∀ u ∈ A, u.WF := fun u hu => hA u (List.mem_cons_of_mem _ hu)
    simp only [itemsLayout_cons, itemsLayout_nil, List.length_append, List.append_assoc] at h1 ⊢
    obtain ⟨pos', fuel', hfuel, hstep⟩ := item_cut_first a ha
      (itemsLayout a.ext a.dir A ++ [0, 0, 0]) fuel pos n hf
    rw [hstep, if_neg (by omega), if_neg (by omega),
      items_cut_end A a.ext a.dir _ _ _ _ hA' ha.1.1 ha.2.1.1 (hfuel (by omega)) (by omega)]
    simp

theorem bakeDirVpk_eq (items : List TreeItem) :
    bakeDirVpk items = leBytes 4 0x55AA1234 ++ (leBytes 2 2 ++ (leBytes 2 3
      ++ (leBytes 4 ((bakeTree items).length % 2 ^ 32) ++ (leBytes 4 0 ++ bakeTree items)))) := by
  simp only [bakeDirVpk, WriteBuffer.writeU32_buf, WriteBuffer.writeU16_buf,
    RESPAWN_VPK_SIGNATURE, RESPAWN_VPK_MAJOR_VERSION, RESPAWN_VPK_MINOR_VERSION]
  simp

theorem bakeTree_length (items : List TreeItem) :
    (bakeTree items).length = (itemsLayout [] [] (sortItems items)).length + 3 := by
  rw [bakeTree, emitTreeItems_eq, List.length_append]
  rfl

theorem parseTree_of_header (data : Bytes) (r : Nat × IStream)
    (h : readAndValidateHeader { rest := data } = some r) :
    parseTree data = parseEntries r.2 := by
  unfold parseTree
  rw [h]

theorem parseTree_cut (items : List TreeItem) (n : Nat)
    (hlen : (bakeTree items).length < 2 ^ 32) :
    parseTree ((bakeDirVpk items).take (16 + n))
      = parseEntries { rest := (bakeTree items).take n, pos := 16, good := true } := by
  have h3 := bakeTree_length items
  have e : (bakeDirVpk items).take (16 + n)
      = leBytes 4 0x55AA1234 ++ (leBytes 2 2 ++ (leBytes 2 3
        ++ (leBytes 4 ((bakeTree items).length % 2 ^ 32)
        ++ (leBytes 4 0 ++ (bakeTree items).take n)))) := by
    rw [bakeDirVpk_eq]
    simp only [← List.append_assoc]
    rw [List.take_append_eq_append_take]
    simp only [List.length_append, leBytes_length]
    rw [List.take_of_length_le (by simp only [List.length_append, leBytes_length]; omega)]
    simp
  have hf := header_fields 0x55AA1234 2 3 ((bakeTree items).length % 2 ^ 32) 0
    ((bakeTree items).take n)
  rw [Nat.mod_mod, Nat.mod_eq_of_lt hlen] at hf
  have hne : (bakeTree items).length ≠ 0 := by omega
  simp [RESPAWN_VPK_SIGNATURE, RESPAWN_VPK_MAJOR_VERSION, RESPAWN_VPK_MINOR_VERSION, hne] at hf
  have hp := parseTree_of_header _ _ hf
  rw [Nat.mod_eq_of_lt hlen] at e
  rw [← e] at hp
  exact hp

theorem open_eq_none (clean : Bytes → Bytes) (data : Bytes) :
    «open» clean data = none ↔ parseTree data = none := by
  unfold «open»
  cases parseTree data <;> simp

/-- C17 (amended): take the dir archive that `bake` writes for items with non-empty NUL-free
names, no preload bytes and well-formed chunks (tree shorter than 4 GiB), cut it `n` bytes
into the tree, and split the sorted items as `A ++ B` at the cut. When the cut falls into the
fixed-width fields of the first entry `t` of `B` (its last `32 * chunks + 8` bytes: crc32,
preload_bytes, chunk records and the marker 0xFFFF, the file name and its NUL being complete),
`open` fails. When the cut falls behind the entries of `A` and ahead of those fields (in the
strings in front of `t`, in its file name or on its NUL, or, when `B` is empty, in the closing
zero bytes), `open` returns a reader, and the parser yields exactly the entries of `A`. -/
theorem open_truncated_tree (clean : Bytes → Bytes) (items A B : List TreeItem)
    (hwf : ∀ t ∈ items, t.WF) (hlen : (bakeTree items).length < 2 ^ 32)
    (hs : sortItems items = A ++ B) (n : Nat) (hn : n < (bakeTree items).length) :
    (∀ t B', B = t :: B' →
        (itemsLayout [] [] (A ++ [t])).length ≤ n + (32 * t.meta.parts.length + 8) →
        n < (itemsLayout [] [] (A ++ [t])).length →
        «open» clean ((bakeDirVpk items).take (16 + n)) = none)
    ∧ ((itemsLayout [] [] A).length ≤ n →
        (∀ t B', B = t :: B' →
          n + (32 * t.meta.parts.length + 8) < (itemsLayout [] [] (A ++ [t])).length) →
        («open» clean ((bakeDirVpk items).take (16 + n))).isSome = true
        ∧ parseTree ((bakeDirVpk items).take (16 + n)) = some (A.map parsedOf)) := by
  have hwf' : ∀ t ∈ sortItems items, t.WF := fun t ht => hwf t ((sortItems_perm items).subset ht)
  rw [hs] at hwf'
  have hA : ∀ a ∈ A, a.WF := fun a ha => hwf' a (List.mem_append_left _ ha)
  have hfuel : n + 3 ≤ ((bakeTree items).take n).length + 4 := by
    rw [List.length_take]
    omega
  have hpt := parseTree_cut items n hlen
  have htree : bakeTree items = itemsLayout [] [] (A ++ B) ++ [0, 0, 0] := by
    rw [bakeTree, emitTreeItems_eq, hs]
  constructor
  · intro t B' hB h1 h2
    subst hB
    have ht : t.WF := hwf' t (by simp)
    rw [open_eq_none, hpt, parseEntries]
    have := tree_cut_fail A t B' hA ht (((bakeTree items).take n).length + 4) 16 n hfuel h1 h2
    rw [← htree] at this
    rw [this]
  · intro h1 h2
    have key : parseTree ((bakeDirVpk items).take (16 + n)) = some (A.map parsedOf) := by
      rw [hpt, parseEntries]
      cases B with
      | nil =>
        have := tree_cut_end A hA (((bakeTree items).take n).length + 4) 16 n hfuel h1
        rw [List.append_nil] at htree
        rw [← htree] at this
        rw [this]
      | cons t B' =>
        have ht : t.WF := hwf' t (by simp)
        have := tree_cut_some A t B' hA ht (((bakeTree items).take n).length + 4) 16 n hfuel h1
          (h2 t B' rfl)
        rw [← htree] at this
        rw [this]
    refine ⟨?_, key⟩
    unfold «open»
    rw [key]
    rfl

set_option maxRecDepth 8000 in
/-- C17 (counterexample): the dir archive of the three sample items parses to its three
entries; cut to 96 bytes (the header and the 80 bytes of the first entry, a proper prefix that
ends inside the tree) it still opens, and the reader has the first entry only. -/
theorem open_truncated_partial :
    (parseTree (bakeDirVpk sampleItems)).map (List.map (fun e => e.fullPath))
      = some [[97, 46, 116, 120, 116], [98, 46, 116, 120, 116],
          [109, 47, 101, 46, 118, 109, 116]]
    ∧ 96 < (bakeDirVpk sampleItems).length
    ∧ («open» id ((bakeDirVpk sampleItems).take 96)).isSome = true
    ∧ (parseTree ((bakeDirVpk sampleItems).take 96)).map (List.map (fun e => e.fullPath))
      = some [[97, 46, 116, 120, 116]] := by
  decide

set_option maxRecDepth 8000 in
/-- C17 (witness): the sample archive cut 82 bytes into the tree, which is behind the name
`b` and its NUL and in front of the crc32 of the second entry: `open` fails. -/
theorem open_truncated_tree_witness :
    (∀ t ∈ sampleItems, t.WF) ∧ (bakeTree sampleItems).length < 2 ^ 32
    ∧ sortItems sampleItems = sampleItems.drop 2 ++ sampleItems.take 2
    ∧ 82 < (bakeTree sampleItems).length
    ∧ «open» id ((bakeDirVpk sampleItems).take (16 + 82)) = none :=
  ⟨by decide, by decide, by decide, by decide,
    (open_truncated_tree id sampleItems (sampleItems.drop 2) (sampleItems.take 2) (by decide)
      (by decide) (by decide) 82 (by decide)).1 _ _ rfl (by decide) (by decide)⟩

end RespawnVPK

/-! ## The archive index inferred from a dir archive path (`inferArchiveIndexFromDirVpkPath`) -/

theorem rfindBelow_none (s pat : Bytes) :
    ∀ k, (∀ q, q < k → (s.drop q).take pat.length ≠ pat) → rfindBelow s pat k = none := by
  intro k
  induction k with
  | zero => intro _; rfl
  | succ k ih =>
    intro h
    rw [rfindBelow, if_neg (h k (by omega))]
    exact ih (fun q hq => h q (by omega))

theorem rfindBelow_some (s pat : Bytes) (p : Nat) (hp : (s.drop p).take pat.length = pat) :
    ∀ k, p < k → (∀ q, p < q → q < k → (s.drop q).take pat.length ≠ pat) →
      rfindBelow s pat k = some p := by
  intro k
  induction k with
  | zero => intro h; omega
  | succ k ih =>
    intro hk h
    rw [rfindBelow]
    by_cases e : k = p
    · rw [e, if_pos hp]
    · rw [if_neg (h k (by omega) (by omega))]
      exact ih (by omega) (fun q h1 h2 => h q h1 (by omega))

theorem take_drop_sub (s pat : Bytes) (q : Nat) (h : (s.drop q).take pat.length = pat) :
    pat <:+: s.drop q :=
  ⟨[], (s.drop q).drop pat.length, by rw [List.nil_append]; nth_rewrite 1 [← h]; exact List.take_append_drop _ _⟩

theorem rfind_none (s pat : Bytes) (h : ¬ pat <:+: s) : rfind s pat = none := by
  unfold rfind
  split_ifs
  · rfl
  · apply rfindBelow_none
    intro q _ hq
    exact h ((take_drop_sub s pat q hq).trans (List.drop_suffix q s).isInfix)

theorem rfind_last (pre pat rest : Bytes) (hne : pat ≠ [])
    (h : ¬ pat <:+: (pat.tail ++ rest)) :
    rfind (pre ++ pat ++ rest) pat = some pre.length := by
  unfold rfind
  rw [if_neg (by simp only [List.length_append]; omega)]
  apply rfindBelow_some
  · simp
  · simp only [List.length_append]; omega
  · intro q h1 _ hq
    apply h
    have := take_drop_sub _ _ q hq
    refine this.trans ?_
    have e : (pre ++ pat ++ rest).drop q = (pat.tail ++ rest).drop (q - pre.length - 1) := by
      obtain ⟨c, t, rfl⟩ := List.exists_cons_of_ne_nil hne
      rw [List.append_assoc, List.drop_append_eq_append_drop,
        List.drop_of_length_le (by omega), List.nil_append]
      simp only [List.tail_cons, List.cons_append]
      obtain ⟨m, hm⟩ : ∃ m, q - pre.length = m + 1 := ⟨q - pre.length - 1, by omega⟩
      rw [hm, List.drop_succ_cons]
      simp
    rw [e]
    exact (List.drop_suffix _ _).isInfix

namespace respawn_vpk

/-- C21 (amended): the function looks at the last occurrence of `pak` in the lower-cased
filename only. When the filename is `pre ++ "pak" ++ rest` and `pak` does not occur again
further right, the result is the value of the first three bytes of `rest` when these are
three decimal digits, and `fallback` otherwise (also when an earlier `pak` is followed by
three digits); when the filename has no `pak` the result is `fallback`. -/
theorem inferArchiveIndexFromDirVpkPath_last (path : Bytes) (fallback : Nat) :
    (∀ pre rest : Bytes,
        toLower (pathFilename path) = pre ++ bytesOf "pak" ++ rest →
        ¬ bytesOf "pak" <:+: (bytesOf "ak" ++ rest) →
        inferArchiveIndexFromDirVpkPath path fallback
          = if 3 ≤ rest.length ∧ isDigitByte (rest.getD 0 0) ∧ isDigitByte (rest.getD 1 0)
                ∧ isDigitByte (rest.getD 2 0)
            then (rest.getD 0 0 - 48) * 100 + (rest.getD 1 0 - 48) * 10 + (rest.getD 2 0 - 48)
            else fallback)
    ∧ (¬ bytesOf "pak" <:+: toLower (pathFilename path) →
        inferArchiveIndexFromDirVpkPath path fallback = fallback) := by
  constructor
  · intro pre rest hname hlast
    have hr := rfind_last pre (bytesOf "pak") rest (by decide) hlast
    rw [← hname] at hr
    have hlen : (toLower (pathFilename path)).length = pre.length + 3 + rest.length := by
      rw [hname]
      simp only [List.length_append, show (bytesOf "pak").length = 3 from rfl]
    have g : ∀ i, (toLower (pathFilename path)).getD (pre.length + 3 + i) 0 = rest.getD i 0 := by
      intro i
      rw [hname, List.getD_append_right _ _ _ _ (by
        simp only [List.length_append, show (bytesOf "pak").length = 3 from rfl]; omega)]
      congr 1
      simp only [List.length_append, show (bytesOf "pak").length = 3 from rfl]
      omega
    have g0 := g 0
    have g1 := g 1
    have g2 := g 2
    simp only [Nat.add_zero] at g0
    simp only [inferArchiveIndexFromDirVpkPath, hr, hlen]
    rw [show pre.length + 4 = pre.length + 3 + 1 by rfl,
      show pre.length + 5 = pre.length + 3 + 2 by rfl, g0, g1, g2]
    split_ifs with c1 c2 c3 c4 c5 c6 c7
    all_goals first
      | rfl
      | (exfalso; omega)
      | (exfalso
         simp only [isDigitByte, decide_eq_true_eq, Bool.not_eq_true, decide_eq_false_iff_not]
           at *
         omega)
      | (simp only [isDigitByte, decide_eq_true_eq, Bool.not_eq_true,
           decide_eq_false_iff_not] at *
         exact Nat.mod_eq_of_lt (by omega))
  · intro h
    simp only [inferArchiveIndexFromDirVpkPath, rfind_none _ _ h]

/-- C21 (counterexample): the filename `pak012_repak_dir.vpk` contains `pak012`, and the
function returns the fallback 999, not 12: the last `pak` is followed by `_di`. -/
theorem inferArchiveIndexFromDirVpkPath_earlier_ignored :
    bytesOf "pak012" <:+: toLower (pathFilename (bytesOf "mods/pak012_repak_dir.vpk"))
    ∧ inferArchiveIndexFromDirVpkPath (bytesOf "mods/pak012_repak_dir.vpk") 999 = 999
    ∧ inferArchiveIndexFromDirVpkPath (bytesOf "mods/pak012_repak_dir.vpk") 999 ≠ 12 := by
  refine ⟨⟨[], bytesOf "_repak_dir.vpk", by decide⟩, by decide, by decide⟩

/-- C21 (witness): the locale example path, whose only `pak` is followed by `000`. -/
theorem inferArchiveIndexFromDirVpkPath_last_witness :
    toLower (pathFilename localeDirPath)
      = bytesOf "englishclient_mp_rr_box.bsp." ++ bytesOf "pak" ++ bytesOf "000_dir.vpk"
    ∧ ¬ bytesOf "pak" <:+: (bytesOf "ak" ++ bytesOf "000_dir.vpk")
    ∧ inferArchiveIndexFromDirVpkPath localeDirPath 999 = 0 :=
  ⟨by decide, by decide,
    ((inferArchiveIndexFromDirVpkPath_last localeDirPath 999).1
      (bytesOf "englishclient_mp_rr_box.bsp.") (bytesOf "000_dir.vpk") (by decide)
      (by decide)).trans (by decide)⟩

end respawn_vpk

/-! ## Default flags of the packer and the part loop with `maxPartSize = 0` -/

namespace respawn_vpk

/-- C23 (amended): for a file without a matching manifest key (and `maxPartSize >= 1`, so
that the part loop ends) `buildDirEntryFromFile` returns an entry with `preloadBytes = 0`
whose every chunk has `loadFlags` equal to `VISIBLE | CACHE` (0x101) for the extension wav,
`VISIBLE | CACHE | ACACHE_UNK0` (0x501) for acache and `VISIBLE` (0x001) for every other
extension, and `textureFlags` equal to `TEXTURE_DEFAULT` for vtf and 0 otherwise. -/
theorem buildDirEntryFromFile_default_flags (bridge : Option CompressBridge)
    (rel contents : Bytes) (options : PackOptions) (manifest : Option Manifest)
    (hkey : ∀ m, manifest = some m → m rel = none) (hm : 1 ≤ options.maxPartSize) :
    ∃ e cam, buildDirEntryFromFile bridge rel contents options manifest = some (e, cam)
      ∧ e.preloadBytes = 0
      ∧ ∀ p ∈ e.parts,
          p.loadFlags
            = (if getExtensionLower rel = bytesOf "wav" then 0x101
               else if getExtensionLower rel = bytesOf "acache" then 0x501
               else 0x001)
          ∧ p.textureFlags = (if getExtensionLower rel = bytesOf "vtf" then 1 <<< 3 else 0) := by
  obtain ⟨e, cam, he⟩ := buildDirEntryFromFile_returns bridge rel contents options manifest hm
  refine ⟨e, cam, he, ?_⟩
  have hw : bytesOf "wav" = [119, 97, 118] := by decide
  have ha : bytesOf "acache" = [97, 99, 97, 99, 104, 101] := by decide
  have ht : bytesOf "vtf" = [118, 116, 102] := by decide
  rw [hw, ha, ht]
  have key : ∀ parts, buildParts bridge options none (getExtensionLower rel)
      (if getExtensionLower rel = [119, 97, 118] then stripWavHeaderInPlace contents
        else contents)
      ((if getExtensionLower rel = [119, 97, 118] then stripWavHeaderInPlace contents
        else contents).length + 1) 0 = some parts →
      ∀ p ∈ parts,
        p.loadFlags
            = (if getExtensionLower rel = [119, 97, 118] then 0x101
               else if getExtensionLower rel = [97, 99, 97, 99, 104, 101] then 0x501
               else 0x001)
          ∧ p.textureFlags = (if getExtensionLower rel = [118, 116, 102] then 1 <<< 3 else 0) := by
    intro parts hbp p hp
    obtain ⟨off, -, rfl⟩ := buildParts_mem _ _ _ _ _ _ _ _ hbp p hp
    simp only [buildPart, LOAD_VISIBLE, LOAD_CACHE, LOAD_ACACHE_UNK0, TEXTURE_DEFAULT]
    constructor
    · split_ifs <;> rfl
    · trivial
  cases manifest with
  | none =>
    simp only [buildDirEntryFromFile, decide_eq_true_eq] at he
    split at he
    · exact absurd he (by simp)
    · rename_i parts hbp
      simp only [Option.some.injEq, Prod.mk.injEq] at he
      obtain ⟨rfl, -⟩ := he
      exact ⟨rfl, key parts hbp⟩
  | some m =>
    have hm' := hkey m rfl
    simp only [buildDirEntryFromFile, decide_eq_true_eq, hm'] at he
    split at he
    · exact absurd he (by simp)
    · rename_i parts hbp
      simp only [Option.some.injEq, Prod.mk.injEq] at he
      obtain ⟨rfl, -⟩ := he
      exact ⟨rfl, key parts hbp⟩

/-- C23 (counterexample): the one chunk of `b.txt`, which has no key in the manifest, and
the one chunk of `a.txt` packed without a manifest have `loadFlags = 0x001`, not 0x101. -/
theorem buildDirEntryFromFile_txt_flags :
    preloadManifest (bytesOf "b.txt") = none
    ∧ (buildDirEntryFromFile none (bytesOf "b.txt") [121] {} (some preloadManifest)).map
        (fun r => r.1.parts.map (fun p => (p.loadFlags, p.textureFlags)))
      = some [(0x001, 0)]
    ∧ (buildDirEntryFromFile none (bytesOf "a.txt") [120] {} none).map
        (fun r => r.1.parts.map (fun p => (p.loadFlags, p.textureFlags)))
      = some [(0x001, 0)]
    ∧ (0x001 : Nat) ≠ 0x101 := by
  decide

/-- C23 (witness): the wav file of the sample directory, packed with a manifest that has no
key for it. -/
theorem buildDirEntryFromFile_default_flags_witness :
    (∀ m, some preloadManifest = some m → m (bytesOf "s.wav") = none)
    ∧ 1 ≤ ({} : PackOptions).maxPartSize
    ∧ ∃ e cam, buildDirEntryFromFile none (bytesOf "s.wav") (s3Header ++ [1, 2]) {}
          (some preloadManifest) = some (e, cam)
      ∧ e.preloadBytes = 0
      ∧ ∀ p ∈ e.parts,
          p.loadFlags
            = (if getExtensionLower (bytesOf "s.wav") = bytesOf "wav" then 0x101
               else if getExtensionLower (bytesOf "s.wav") = bytesOf "acache" then 0x501
               else 0x001)
          ∧ p.textureFlags
            = (if getExtensionLower (bytesOf "s.wav") = bytesOf "vtf" then 1 <<< 3 else 0) :=
  ⟨fun m h => by cases h; decide, by decide,
    buildDirEntryFromFile_default_flags none (bytesOf "s.wav") (s3Header ++ [1, 2]) {}
      (some preloadManifest) (fun m h => by cases h; decide) (by decide)⟩

/-- C29: with `maxPartSize = 0` and an offset below the file size the part length is 0, the
offset does not move, and the part loop of `buildDirEntryFromFile` does not return, however
many iterations it is given. -/
theorem buildParts_maxPartSize_zero (bridge : Option CompressBridge) (options : PackOptions)
    (values : Option ManifestEntry) (extLower file : Bytes) (offset : Nat)
    (h0 : options.maxPartSize = 0) (hlt : offset < file.length) :
    offset + min options.maxPartSize (file.length - offset) = offset
    ∧ ∀ fuel, buildParts bridge options values extLower file fuel offset = none := by
  refine ⟨by rw [h0]; simp, fun fuel => ?_⟩
  induction fuel with
  | zero => rfl
  | succ fuel ih =>
    unfold buildParts
    rw [if_pos hlt]
    simp only [h0, Nat.zero_min, Nat.add_zero, ih]

/-- C29 (witness): the one-byte file `a.txt` with `maxPartSize = 0`. -/
theorem buildParts_maxPartSize_zero_witness :
    ({ maxPartSize := 0 } : PackOptions).maxPartSize = 0 ∧ 0 < ([120] : Bytes).length
    ∧ (0 + min ({ maxPartSize := 0 } : PackOptions).maxPartSize (([120] : Bytes).length - 0) = 0
      ∧ ∀ fuel, buildParts none { maxPartSize := 0 } none [116, 120, 116] [120] fuel 0 = none)
    ∧ buildDirEntryFromFile none [97, 46, 116, 120, 116] [120] { maxPartSize := 0 } none = none :=
  ⟨rfl, by decide,
    buildParts_maxPartSize_zero none { maxPartSize := 0 } none [116, 120, 116] [120] 0 rfl
      (by decide),
    by decide⟩

end respawn_vpk

/-! ## What `validateDirTreeAgainstInput` accepts -/

namespace respawn_vpk

theorem foldl_setInsert_mem (xs : List Bytes) :
    ∀ (D : List Bytes) (y : Bytes), y ∈ xs.foldl setInsert D ↔ y ∈ D ∨ y ∈ xs := by
  induction xs with
  | nil => intro D y; simp
  | cons x xs ih =>
    intro D y
    rw [List.foldl_cons, ih, setInsert_mem]
    simp only [List.mem_cons]
    tauto

theorem foldl_setInsert_nodup (xs : List Bytes) :
    ∀ D : List Bytes, D.Nodup → (xs.foldl setInsert D).Nodup := by
  induction xs with
  | nil => intro D h; exact h
  | cons x xs ih => intro D h; exact ih _ (setInsert_nodup D x h)

theorem expected_eq (entries : List DirEntry) :
    entries.foldl (fun s e => setInsert s e.path) []
      = (entries.map (fun e => e.path)).foldl setInsert [] := by
  rw [List.foldl_map]

theorem validateLoop_nodup :
    ∀ (fuel : Nat) (mode : TreeMode) (r : Bytes) (seen s : List Bytes),
      validateLoop fuel mode r seen = .ret (some s) → seen.Nodup → s.Nodup := by
  intro fuel
  induction fuel with
  | zero => intro mode r seen s h; simp [validateLoop] at h
  | succ fuel ih =>
    intro mode r seen s h hn
    cases mode with
    | ext =>
      simp only [validateLoop] at h
      split at h
      · simp at h
      · split_ifs at h
        · simp only [Loop.ret.injEq, Option.some.injEq] at h
          exact h ▸ hn
        · exact ih _ _ _ _ h hn
    | dir ext =>
      simp only [validateLoop] at h
      split at h
      · simp at h
      · split_ifs at h
        · exact ih _ _ _ _ h hn
        · simp at h
        · exact ih _ _ _ _ h hn
    | file ext dir =>
      simp only [validateLoop] at h
      split at h
      · simp at h
      · split_ifs at h
        · exact ih _ _ _ _ h hn
        · split at h
          · simp at h
          · split at h
            · simp at h
            · split at h
              · simp at h
              · split at h
                · simp at h
                · simp at h
                · exact ih _ _ _ _ h (setInsert_nodup _ _ hn)

/-- The three loops of `validateDirTreeAgainstInput` always return, and the function returns
true exactly when they leave through the `break` of the outermost loop with a set `seen` of
reconstructed paths that has the same members as the set of the input entries' paths. -/
theorem validate_iff_seen (dirTree : Bytes) (entries : List DirEntry) :
    (∃ res, validateLoop (dirTree.length + 1) .ext dirTree [] = .ret res)
    ∧ (validateDirTreeAgainstInput dirTree entries = true ↔
        ∃ seen, validateLoop (dirTree.length + 1) .ext dirTree [] = .ret (some seen)
          ∧ ∀ p, p ∈ seen ↔ ∃ e ∈ entries, e.path = p) := by
  refine ⟨validateLoop_fuel dirTree, ?_⟩
  have hexp_mem : ∀ p, p ∈ entries.foldl (fun s e => setInsert s e.path) []
      ↔ ∃ e ∈ entries, e.path = p := by
    intro p
    rw [expected_eq, foldl_setInsert_mem]
    simp
  have hexp_nd : (entries.foldl (fun s e => setInsert s e.path) []).Nodup := by
    rw [expected_eq]
    exact foldl_setInsert_nodup _ _ List.nodup_nil
  unfold validateDirTreeAgainstInput
  cases hv : validateLoop (dirTree.length + 1) .ext dirTree [] with
  | more => simp
  | ret res =>
    cases res with
    | none => simp
    | some seen =>
      have hsn : seen.Nodup := validateLoop_nodup _ _ _ _ _ hv List.nodup_nil
      simp only [ne_eq, ite_not, Loop.ret.injEq, Option.some.injEq, exists_eq_left']
      constructor
      · intro h
        split_ifs at h with hl
        · rw [List.all_eq_true] at h
          have hsub : entries.foldl (fun s e => setInsert s e.path) [] ⊆ seen := by
            intro p hp
            simpa using h p hp
          have hperm := (List.subperm_of_subset hexp_nd hsub).perm_of_length_le (le_of_eq hl)
          intro p
          rw [← hexp_mem p]
          exact (hperm.mem_iff).symm
      · intro h
        have hperm : seen.Perm (entries.foldl (fun s e => setInsert s e.path) []) := by
          rw [List.perm_ext_iff_of_nodup hsn hexp_nd]
          intro p
          rw [h p, hexp_mem p]
        rw [if_pos hperm.length_eq, List.all_eq_true]
        intro p hp
        simpa using hperm.mem_iff.2 hp

end respawn_vpk

/-! ## The sort comparators -/

theorem cons_lt_cons_iff (a b : Nat) (l l' : Bytes) :
    (a :: l) < (b :: l') ↔ a < b ∨ (a = b ∧ l < l') := by
  constructor
  · intro h
    cases h with
    | cons h => exact Or.inr ⟨rfl, h⟩
    | rel h => exact Or.inl h
  · rintro (h | ⟨rfl, h⟩)
    · exact List.Lex.rel h
    · exact List.Lex.cons h

theorem not_lt_nil (l : Bytes) : ¬ l < ([] : Bytes) := by
  intro h
  cases h

theorem cstr_lt (a : Bytes) : ∀ (a' r r' : Bytes), 0 ∉ a → 0 ∉ a' →
    ((a ++ 0 :: r) < (a' ++ 0 :: r') ↔ a < a' ∨ (a = a' ∧ r < r')) := by
  induction a with
  | nil =>
    intro a' r r' _ h'
    cases a' with
    | nil =>
      simp only [List.nil_append, cons_lt_cons_iff, lt_irrefl, true_and, false_or]
    | cons c cs =>
      have hc : 0 < c := by
        rcases Nat.eq_zero_or_pos c with h | h
        · exact absurd (by simp [h]) h'
        · exact h
      simp only [List.nil_append, List.cons_append, cons_lt_cons_iff, hc, true_or, true_iff]
      exact Or.inl List.Lex.nil
  | cons c cs ih =>
    intro a' r r' ha h'
    cases a' with
    | nil =>
      have hc : c ≠ 0 := fun h => ha (by simp [h])
      simp only [List.nil_append, List.cons_append, cons_lt_cons_iff, Nat.not_lt_zero, hc,
        false_and, or_self, false_iff, not_or, not_and]
      exact ⟨not_lt_nil _, fun h => by simp at h⟩
    | cons c' cs' =>
      have := ih cs' r r' (fun e => ha (List.mem_cons_of_mem _ e))
        (fun e => h' (List.mem_cons_of_mem _ e))
      simp only [List.cons_append, cons_lt_cons_iff, this, List.cons.injEq]
      tauto

theorem cstrOk_eq (s : Bytes) (h : cstrOk s) : s = s.dropLast ++ [0] := by
  obtain ⟨h1, -⟩ := h
  have hne : s ≠ [] := by
    intro e; rw [e] at h1; simp at h1
  have := List.dropLast_append_getLast hne
  rw [List.getLast?_eq_getLast _ hne] at h1
  simp only [Option.some.injEq] at h1
  rw [h1] at this
  exact this.symm

namespace RespawnVPK

theorem itemLess_iff (a b : TreeItem) (ha : 0 ∉ a.ext ∧ 0 ∉ a.dir ∧ 0 ∉ a.fileStem)
    (hb : 0 ∉ b.ext ∧ 0 ∉ b.dir ∧ 0 ∉ b.fileStem) :
    itemLess a b ↔ tripleLess (a.ext, a.dir, a.fileStem) (b.ext, b.dir, b.fileStem) := by
  simp only [itemLess, TreeItem.sortKey, List.append_assoc, List.singleton_append,
    List.cons_append, List.nil_append, tripleLess]
  rw [cstr_lt _ _ _ _ ha.1 hb.1, cstr_lt _ _ _ _ ha.2.1 hb.2.1, cstr_lt _ _ _ _ ha.2.2 hb.2.2]
  simp only [lt_irrefl, and_false, or_false]

end RespawnVPK

namespace respawn_vpk

theorem entryLess_iff (a b : DirEntry) (ha : a.Terminated) (hb : b.Terminated) :
    entryLess a b ↔ tripleLess a.names b.names := by
  obtain ⟨a1, a2, a3⟩ := ha
  obtain ⟨b1, b2, b3⟩ := hb
  simp only [entryLess, DirEntry.sortKey, tripleLess, DirEntry.names]
  rw [cstrOk_eq _ a1, cstrOk_eq _ a2, cstrOk_eq _ a3, cstrOk_eq _ b1, cstrOk_eq _ b2,
    cstrOk_eq _ b3]
  simp only [List.append_assoc, List.singleton_append, List.cons_append,
    List.nil_append, List.dropLast_concat]
  rw [cstr_lt _ _ _ _ a1.2 b1.2, cstr_lt _ _ _ _ a2.2 b2.2, cstr_lt _ _ _ _ a3.2 b3.2]
  simp only [lt_irrefl, and_false, or_false]

theorem entryLe_total : IsTotal DirEntry (fun a b => ¬ entryLess b a) :=
  ⟨fun a b => by
    simp only [entryLess, not_lt]
    exact le_total _ _⟩

theorem entryLe_trans : IsTrans DirEntry (fun a b => ¬ entryLess b a) :=
  ⟨fun a b c hab hbc => by
    simp only [entryLess, not_lt] at *
    exact le_trans hab hbc⟩

theorem sortEntries_perm (entries : List DirEntry) : (sortEntries entries).Perm entries :=
  List.perm_insertionSort _ _

theorem sortEntries_sorted (entries : List DirEntry) :
    (sortEntries entries).Sorted (fun a b => ¬ entryLess b a) :=
  @List.sorted_insertionSort _ _ _ entryLe_total entryLe_trans entries

end respawn_vpk

theorem mem_of_getElem_opt {α : Type} (L : List α) (n : Nat) (x : α) (h : L[n]? = some x) :
    x ∈ L := by
  obtain ⟨h', rfl⟩ := List.getElem?_eq_some_iff.1 h
  exact List.getElem_mem _

theorem pairwise_getElem_opt {α : Type} (R : α → α → Prop) (L : List α) (h : L.Pairwise R)
    (i j : Nat) (a b : α) (hij : i < j) (hi : L[i]? = some a) (hj : L[j]? = some b) : R a b := by
  rw [List.pairwise_iff_getElem] at h
  obtain ⟨hi', rfl⟩ := List.getElem?_eq_some_iff.1 hi
  obtain ⟨hj', rfl⟩ := List.getElem?_eq_some_iff.1 hj
  exact h i j hi' hj' hij

theorem tripleLess_blocks (a b c : Bytes × Bytes × Bytes) (hab : ¬ tripleLess b a)
    (hbc : ¬ tripleLess c b) (h : a.1 = c.1) :
    b.1 = a.1 ∧ (a.2.1 = c.2.1 → b.2.1 = a.2.1) := by
  simp only [tripleLess, not_or, not_and, not_lt] at hab hbc
  have e1 : b.1 = a.1 := le_antisymm (h ▸ hbc.1) hab.1
  refine ⟨e1, fun h2 => ?_⟩
  have hab2 := (hab.2 e1).1
  have hbc2 := (hbc.2 (by rw [← h, e1])).1
  exact le_antisymm (h2 ▸ hbc2) hab2

/-- C26: for entries whose name components have no NUL byte, the packer's comparator (on
`extension + directory + fileName`, each string carrying its closing NUL) and the comparator
of `bake` (on `ext\0 dir\0 fileStem\0`) order two entries exactly as the lexicographic
comparison of the triples `(ext, dir, file_stem)`; both comparators are strict weak orderings
(irreflexive, transitive, with transitive incomparability); and in the sorted list an entry
that stands between two entries of equal extension has that extension, and, when these two
also have equal directories, that directory. -/
theorem sort_comparators_lexicographic :
    (∀ a b : respawn_vpk.DirEntry, a.Terminated → b.Terminated →
        (respawn_vpk.entryLess a b ↔ tripleLess a.names b.names))
    ∧ (∀ a b : RespawnVPK.TreeItem, 0 ∉ a.ext ∧ 0 ∉ a.dir ∧ 0 ∉ a.fileStem →
        0 ∉ b.ext ∧ 0 ∉ b.dir ∧ 0 ∉ b.fileStem →
        (RespawnVPK.itemLess a b
          ↔ tripleLess (a.ext, a.dir, a.fileStem) (b.ext, b.dir, b.fileStem)))
    ∧ ((∀ a, ¬ respawn_vpk.entryLess a a)
        ∧ (∀ a b c, respawn_vpk.entryLess a b → respawn_vpk.entryLess b c →
            respawn_vpk.entryLess a c)
        ∧ (∀ a b c, ¬ respawn_vpk.entryLess a b → ¬ respawn_vpk.entryLess b a →
            ¬ respawn_vpk.entryLess b c → ¬ respawn_vpk.entryLess c b →
            ¬ respawn_vpk.entryLess a c ∧ ¬ respawn_vpk.entryLess c a))
    ∧ ((∀ a, ¬ RespawnVPK.itemLess a a)
        ∧ (∀ a b c, RespawnVPK.itemLess a b → RespawnVPK.itemLess b c →
            RespawnVPK.itemLess a c)
        ∧ (∀ a b c, ¬ RespawnVPK.itemLess a b → ¬ RespawnVPK.itemLess b a →
            ¬ RespawnVPK.itemLess b c → ¬ RespawnVPK.itemLess c b →
            ¬ RespawnVPK.itemLess a c ∧ ¬ RespawnVPK.itemLess c a))
    ∧ (∀ entries : List respawn_vpk.DirEntry, (∀ e ∈ entries, e.Terminated) →
        ∀ (i j k : Nat) (a b c : respawn_vpk.DirEntry), i < j → j < k →
          (respawn_vpk.sortEntries entries)[i]? = some a →
          (respawn_vpk.sortEntries entries)[j]? = some b →
          (respawn_vpk.sortEntries entries)[k]? = some c →
          a.extension = c.extension →
          b.extension = a.extension ∧ (a.directory = c.directory → b.directory = a.directory))
    ∧ (∀ items : List RespawnVPK.TreeItem,
        (∀ t ∈ items, 0 ∉ t.ext ∧ 0 ∉ t.dir ∧ 0 ∉ t.fileStem) →
        ∀ (i j k : Nat) (a b c : RespawnVPK.TreeItem), i < j → j < k →
          (RespawnVPK.sortItems items)[i]? = some a →
          (RespawnVPK.sortItems items)[j]? = some b →
          (RespawnVPK.sortItems items)[k]? = some c →
          a.ext = c.ext → b.ext = a.ext ∧ (a.dir = c.dir → b.dir = a.dir)) := by
  refine ⟨respawn_vpk.entryLess_iff, RespawnVPK.itemLess_iff, ⟨?_, ?_, ?_⟩, ⟨?_, ?_, ?_⟩, ?_, ?_⟩
  · intro a; exact lt_irrefl _
  · intro a b c; exact lt_trans
  · intro a b c h1 h2 h3 h4
    simp only [respawn_vpk.entryLess, not_lt] at *
    have e1 := le_antisymm h2 h1
    have e2 := le_antisymm h4 h3
    rw [e1, e2]
    exact ⟨le_refl _, le_refl _⟩
  · intro a; exact lt_irrefl _
  · intro a b c; exact lt_trans
  · intro a b c h1 h2 h3 h4
    simp only [RespawnVPK.itemLess, not_lt] at *
    have e1 := le_antisymm h2 h1
    have e2 := le_antisymm h4 h3
    rw [e1, e2]
    exact ⟨le_refl _, le_refl _⟩
  · intro entries hwf i j k a b c hij hjk hi hj hk hext
    have hs := respawn_vpk.sortEntries_sorted entries
    have hmem : ∀ (n : Nat) (x : respawn_vpk.DirEntry),
        (respawn_vpk.sortEntries entries)[n]? = some x → x.Terminated := fun n x hx =>
      hwf x ((respawn_vpk.sortEntries_perm entries).subset (mem_of_getElem_opt _ _ _ hx))
    have ha := hmem i a hi
    have hb := hmem j b hj
    have hc := hmem k c hk
    have hab := pairwise_getElem_opt _ _ hs i j a b hij hi hj
    have hbc := pairwise_getElem_opt _ _ hs j k b c hjk hj hk
    rw [respawn_vpk.entryLess_iff _ _ hb ha] at hab
    rw [respawn_vpk.entryLess_iff _ _ hc hb] at hbc
    have key := tripleLess_blocks a.names b.names c.names hab hbc
      (by simp only [respawn_vpk.DirEntry.names]; rw [hext])
    simp only [respawn_vpk.DirEntry.names] at key
    constructor
    · rw [cstrOk_eq _ hb.1, cstrOk_eq _ ha.1, key.1]
    · intro hd
      rw [cstrOk_eq _ hb.2.1, cstrOk_eq _ ha.2.1, key.2 (by rw [hd])]
  · intro items hwf i j k a b c hij hjk hi hj hk hext
    have hs := RespawnVPK.sortItems_sorted items
    have hmem : ∀ (n : Nat) (x : RespawnVPK.TreeItem),
        (RespawnVPK.sortItems items)[n]? = some x → 0 ∉ x.ext ∧ 0 ∉ x.dir ∧ 0 ∉ x.fileStem :=
      fun n x hx =>
        hwf x ((RespawnVPK.sortItems_perm items).subset (mem_of_getElem_opt _ _ _ hx))
    have ha := hmem i a hi
    have hb := hmem j b hj
    have hc := hmem k c hk
    have hab := pairwise_getElem_opt _ _ hs i j a b hij hi hj
    have hbc := pairwise_getElem_opt _ _ hs j k b c hjk hj hk
    rw [RespawnVPK.itemLess_iff _ _ hb ha] at hab
    rw [RespawnVPK.itemLess_iff _ _ hc hb] at hbc
    exact tripleLess_blocks _ _ _ hab hbc hext

/-- C26 (witness): the packer's comparator on the entries `a.txt` and `d.bin`. -/
theorem sort_comparators_lexicographic_witness :
    respawn_vpk.twoPartEntry.Terminated ∧ respawn_vpk.fiveByteEntry.Terminated
    ∧ (respawn_vpk.entryLess respawn_vpk.twoPartEntry respawn_vpk.fiveByteEntry
        ↔ tripleLess respawn_vpk.twoPartEntry.names respawn_vpk.fiveByteEntry.names)
    ∧ ¬ respawn_vpk.entryLess respawn_vpk.twoPartEntry respawn_vpk.twoPartEntry :=
  ⟨by decide, by decide,
    sort_comparators_lexicographic.1 respawn_vpk.twoPartEntry respawn_vpk.fiveByteEntry
      (by decide) (by decide),
    sort_comparators_lexicographic.2.2.1.1 respawn_vpk.twoPartEntry⟩

/-! ## The patch-archive encoding loop of `bake` -/

namespace RespawnVPK

theorem patchPartData_length (compress : Bytes → Bytes) (ext : Bytes) (v : PatchValues)
    (file : Bytes) (fileOff partLen : Nat) :
    (patchPartData compress ext v file fileOff partLen).length ≤ partLen := by
  unfold patchPartData
  simp only
  split_ifs <;> simp only [List.length_take] at * <;> omega

theorem findReusable_spec (buf : Bytes) (B : Nat) (d : Bytes) :
    ∀ (offs : List Nat) (off : Nat), (∀ o ∈ offs, o ≤ B + buf.length) →
      B + buf.length + d.length < 2 ^ 64 →
      findReusable buf B d offs = some off →
      B ≤ off ∧ (buf.drop (off - B)).take d.length = d := by
  intro offs
  induction offs with
  | nil => intro off _ _ h; simp [findReusable] at h
  | cons o rest ih =>
    intro off hb hlt h
    have ho := hb o (List.mem_cons_self _ _)
    have hrest : ∀ o' ∈ rest, o' ≤ B + buf.length := fun o' h' =>
      hb o' (List.mem_cons_of_mem _ h')
    unfold findReusable at h
    have e1 : (o - B) % 2 ^ 64 = o - B := Nat.mod_eq_of_lt (by omega)
    simp only [e1] at h
    split_ifs at h with h1 h2 h3
    · exact ih off hrest hlt h
    · exact ih off hrest hlt h
    · simp only [Option.some.injEq] at h
      subst h
      exact ⟨by omega, h3⟩
    · exact ih off hrest hlt h

theorem dedupPush_mem (m : List (Nat × List Nat)) (h off : Nat) (kv : Nat × List Nat)
    (hk : kv ∈ dedupPush m h off) (o : Nat) (ho : o ∈ kv.2) :
    o = off ∨ ∃ kv' ∈ m, o ∈ kv'.2 := by
  unfold dedupPush at hk
  split_ifs at hk
  · rw [List.mem_map] at hk
    obtain ⟨kv', hm, rfl⟩ := hk
    split_ifs at ho
    · simp only [List.mem_append, List.mem_singleton] at ho
      rcases ho with ho | ho
      · exact Or.inr ⟨kv', hm, ho⟩
      · exact Or.inl ho
    · exact Or.inr ⟨kv', hm, ho⟩
  · rw [List.mem_append, List.mem_singleton] at hk
    rcases hk with hk | rfl
    · exact Or.inr ⟨kv, hk, ho⟩
    · simp only [List.mem_singleton] at ho
      exact Or.inl ho

theorem storePart_spec (B : Nat) (dd : Bool) (st : PatchState) (d : Bytes)
    (hinv : PatchInv B st) (hlt : B + st.patchArchive.length + d.length < 2 ^ 64) :
    PatchInv B (storePart dd st d).1
    ∧ (∃ E, (storePart dd st d).1.patchArchive = st.patchArchive ++ E ∧ E.length ≤ d.length)
    ∧ B ≤ (storePart dd st d).2
    ∧ ((storePart dd st d).1.patchArchive.drop ((storePart dd st d).2 - B)).take d.length
        = d := by
  obtain ⟨hoff, htab⟩ := hinv
  have happ : ∀ tab : List (Nat × List Nat),
      (∀ kv ∈ tab, ∀ off ∈ kv.2, B ≤ off ∧ off ≤ B + (st.patchArchive ++ d).length) →
      PatchInv B { patchArchive := st.patchArchive ++ d
                   patchOffset := (st.patchOffset + d.length) % 2 ^ 64
                   patchDedup := tab }
      ∧ (∃ E, st.patchArchive ++ d = st.patchArchive ++ E ∧ E.length ≤ d.length)
      ∧ B ≤ st.patchOffset
      ∧ ((st.patchArchive ++ d).drop (st.patchOffset - B)).take d.length = d := by
    intro tab htab'
    refine ⟨⟨?_, htab'⟩, ⟨d, rfl, le_refl _⟩, by omega, ?_⟩
    · simp only [List.length_append]
      rw [Nat.mod_eq_of_lt (by omega)]
      omega
    · rw [hoff, Nat.add_sub_cancel_left, List.drop_left, List.take_length]
  have hgrow : ∀ kv ∈ st.patchDedup, ∀ off ∈ kv.2,
      B ≤ off ∧ off ≤ B + (st.patchArchive ++ d).length := by
    intro kv hk off ho
    have := htab kv hk off ho
    simp only [List.length_append]
    omega
  unfold storePart
  simp only
  split_ifs with hc
  · have hbase : (st.patchOffset + 2 ^ 64 - st.patchArchive.length % 2 ^ 64) % 2 ^ 64 = B := by
      rw [Nat.mod_eq_of_lt (show st.patchArchive.length < 2 ^ 64 by omega), hoff,
        show B + st.patchArchive.length + 2 ^ 64 - st.patchArchive.length = B + 2 ^ 64 by omega,
        Nat.add_mod_right, Nat.mod_eq_of_lt (by omega)]
    rw [hbase]
    split
    · rename_i off hfound
      split at hfound
      · rename_i kv hkv
        have hmem := List.mem_of_find?_eq_some hkv
        have := findReusable_spec st.patchArchive B d kv.2 off
          (fun o ho => (htab kv hmem o ho).2) hlt hfound
        exact ⟨⟨hoff, htab⟩, ⟨[], by simp, by simp⟩, this.1, this.2⟩
      · simp at hfound
    · apply happ
      intro kv hk off ho
      rcases dedupPush_mem _ _ _ kv hk off ho with rfl | ⟨kv', hm, ho'⟩
      · simp only [List.length_append]
        omega
      · exact hgrow kv' hm off ho'
  · exact happ _ hgrow

theorem take_drop_append_left (buf E d : Bytes) (k n : Nat) (h : (buf.drop k).take n = d)
    (hn : d.length = n) : ((buf ++ E).drop k).take n = d := by
  rcases Nat.eq_zero_or_pos n with h0 | h0
  · subst h0
    rw [List.take_zero] at h ⊢
    exact h
  · have hl : ((buf.drop k).take n).length = n := by rw [h, hn]
    simp only [List.length_take, List.length_drop] at hl
    rw [List.drop_append_of_le_length (by omega),
      List.take_append_of_le_length (by simp only [List.length_drop]; omega)]
    exact h

theorem ChunkStored.grow (B : Nat) (buf E : Bytes) (c : FilePart × Bytes)
    (h : ChunkStored B buf c) : ChunkStored B (buf ++ E) c :=
  ⟨h.1, h.2.1, take_drop_append_left buf E c.2 _ _ h.2.2 h.2.1.symm⟩

theorem encodeParts_spec (compress : Bytes → Bytes) (ext : Bytes) (v : PatchValues)
    (file : Bytes) (B : Nat) :
    ∀ (fuel : Nat) (st : PatchState) (fileOff : Nat), PatchInv B st →
      file.length - fileOff < fuel →
      B + st.patchArchive.length + (file.length - fileOff) < 2 ^ 64 →
      ∃ st' parts, encodeParts compress ext v file fuel st fileOff = some (st', parts)
        ∧ PatchInv B st'
        ∧ (∃ E, st'.patchArchive = st.patchArchive ++ E ∧ E.length ≤ file.length - fileOff)
        ∧ ∀ c ∈ parts, ChunkStored B st'.patchArchive c := by
  intro fuel
  induction fuel with
  | zero => intro st fileOff _ h; omega
  | succ fuel ih =>
    intro st fileOff hinv hf hlt
    unfold encodeParts
    by_cases hlt' : fileOff < file.length
    · rw [if_pos hlt']
      simp only
      have hpl : 1 ≤ min DEFAULT_MAX_PART_SIZE (file.length - fileOff) := by
        simp only [DEFAULT_MAX_PART_SIZE]
        omega
      have hple : min DEFAULT_MAX_PART_SIZE (file.length - fileOff) ≤ file.length - fileOff :=
        Nat.min_le_right _ _
      have hdl := patchPartData_length compress ext v file fileOff
        (min DEFAULT_MAX_PART_SIZE (file.length - fileOff))
      obtain ⟨hinv1, ⟨E1, hE1, hE1l⟩, hB1, hslice⟩ := storePart_spec B v.deDuplicate st
        (patchPartData compress ext v file fileOff
          (min DEFAULT_MAX_PART_SIZE (file.length - fileOff))) hinv (by omega)
      obtain ⟨st', rest, hrec, hinv', ⟨E2, hE2, hE2l⟩, hall⟩ := ih
        (storePart v.deDuplicate st (patchPartData compress ext v file fileOff
          (min DEFAULT_MAX_PART_SIZE (file.length - fileOff)))).1
        (fileOff + min DEFAULT_MAX_PART_SIZE (file.length - fileOff)) hinv1 (by omega)
        (by rw [hE1, List.length_append]; omega)
      rw [hrec]
      refine ⟨st', _, rfl, hinv', ⟨E1 ++ E2, ?_, ?_⟩, ?_⟩
      · rw [hE2, hE1, List.append_assoc]
      · rw [List.length_append]; omega
      · intro c hc
        rcases List.mem_cons.1 hc with rfl | hc
        · rw [hE2]
          exact ChunkStored.grow _ _ _ _ ⟨hB1, rfl, hslice⟩
        · exact hall c hc
    · rw [if_neg hlt']
      exact ⟨st, [], rfl, hinv, ⟨[], by simp, by simp⟩, by simp⟩

theorem encodeUnbaked_spec (compress : Bytes → Bytes) (B : Nat) :
    ∀ (items : List UnbakedItem) (st : PatchState), PatchInv B st →
      B + st.patchArchive.length + (items.map (fun it => it.file.length)).sum < 2 ^ 64 →
      ∃ st' parts, encodeUnbaked compress st items = some (st', parts)
        ∧ PatchInv B st'
        ∧ (∃ E, st'.patchArchive = st.patchArchive ++ E
            ∧ E.length ≤ (items.map (fun it => it.file.length)).sum)
        ∧ ∀ cs ∈ parts, ∀ c ∈ cs, ChunkStored B st'.patchArchive c := by
  intro items
  induction items with
  | nil =>
    intro st hinv _
    exact ⟨st, [], rfl, hinv, ⟨[], by simp, by simp⟩, by simp⟩
  | cons it rest ih =>
    intro st hinv hlt
    simp only [List.map_cons, List.sum_cons] at hlt ⊢
    obtain ⟨st1, parts, h1, hinv1, ⟨E1, hE1, hE1l⟩, hall1⟩ := encodeParts_spec compress it.ext
      it.values it.file B (it.file.length + 1) st 0 hinv (by omega) (by omega)
    obtain ⟨st2, more, h2, hinv2, ⟨E2, hE2, hE2l⟩, hall2⟩ := ih st1 hinv1
      (by rw [hE1, List.length_append]; omega)
    unfold encodeUnbaked
    rw [h1]
    simp only
    rw [h2]
    refine ⟨st2, _, rfl, hinv2, ⟨E1 ++ E2, ?_, ?_⟩, ?_⟩
    · rw [hE2, hE1, List.append_assoc]
    · rw [List.length_append]; omega
    · intro cs hcs c hc
      rcases List.mem_cons.1 hcs with rfl | hcs
      · rw [hE2]
        exact ChunkStored.grow _ _ _ _ (hall1 c hc)
      · exact hall2 cs hcs c hc

theorem sum_take_le (l : List Nat) (n : Nat) : (l.take n).sum ≤ l.sum := by
  induction l generalizing n with
  | nil => simp
  | cons a l ih =>
    cases n with
    | zero => simp
    | succ n =>
      simp only [List.take_succ_cons, List.sum_cons]
      have := ih n
      omega

/-- The encoding loop of `bake` from a state with `patchOffset = B` and an empty buffer, for
unbaked entries whose sizes together with `B` stay below 2^64. Every chunk step keeps
`patchOffset - patchArchive.size() = B` and gives the chunk an offset of at least `B` at
which the buffer (at `offset - B`) holds the chunk's stored bytes, whether they were appended
or found through the dedup table. The loop over the entries returns, the difference is `B`
after every entry, and at the end every chunk's recorded offset is at least `B` and addresses
its stored bytes, in the buffer and in a file made of `B` bytes followed by the buffer. -/
theorem bake_patch_offsets (compress : Bytes → Bytes) (B : Nat) (items : List UnbakedItem)
    (hB : B + (items.map (fun it => it.file.length)).sum < 2 ^ 64) :
    (∀ (deDuplicate : Bool) (st : PatchState) (partData : Bytes), PatchInv B st →
        B + st.patchArchive.length + partData.length < 2 ^ 64 →
        PatchInv B (storePart deDuplicate st partData).1
        ∧ (storePart deDuplicate st partData).1.patchOffset
            - (storePart deDuplicate st partData).1.patchArchive.length = B
        ∧ B ≤ (storePart deDuplicate st partData).2
        ∧ ((storePart deDuplicate st partData).1.patchArchive.drop
              ((storePart deDuplicate st partData).2 - B)).take partData.length = partData)
    ∧ (∀ n, ∃ st parts,
        encodeUnbaked compress { patchOffset := B } (items.take n) = some (st, parts)
        ∧ st.patchOffset - st.patchArchive.length = B)
    ∧ ∃ st parts, encodeUnbaked compress { patchOffset := B } items = some (st, parts)
        ∧ st.patchOffset - st.patchArchive.length = B
        ∧ ∀ cs ∈ parts, ∀ c ∈ cs,
            B ≤ c.1.entryOffset ∧ c.1.entryLength = c.2.length
            ∧ (st.patchArchive.drop (c.1.entryOffset - B)).take c.1.entryLength = c.2
            ∧ ∀ existing : Bytes, existing.length = B →
                ((existing ++ st.patchArchive).drop c.1.entryOffset).take c.1.entryLength
                  = c.2 := by
  have h0 : PatchInv B { patchOffset := B } := ⟨by simp, by simp⟩
  refine ⟨?_, ?_, ?_⟩
  · intro dd st d hinv hlt
    obtain ⟨h1, -, h3, h4⟩ := storePart_spec B dd st d hinv hlt
    refine ⟨h1, ?_, h3, h4⟩
    rw [h1.1]
    omega
  · intro n
    obtain ⟨st, parts, h, hinv, -, -⟩ := encodeUnbaked_spec compress B (items.take n)
      { patchOffset := B } h0 (by
        have := sum_take_le (items.map (fun it => it.file.length)) n
        rw [← List.map_take] at this
        simp only [List.length_nil, Nat.add_zero]
        omega)
    refine ⟨st, parts, h, ?_⟩
    rw [hinv.1]
    omega
  · obtain ⟨st, parts, h, hinv, -, hall⟩ := encodeUnbaked_spec compress B items
      { patchOffset := B } h0 (by simp only [List.length_nil, Nat.add_zero]; exact hB)
    refine ⟨st, parts, h, by rw [hinv.1]; omega, ?_⟩
    intro cs hcs c hc
    obtain ⟨c1, c2, c3⟩ := hall cs hcs c hc
    refine ⟨c1, c2, c3, ?_⟩
    intro existing hex
    rw [List.drop_append_eq_append_drop, List.drop_of_length_le (by omega), List.nil_append,
      hex]
    exact c3

end RespawnVPK

/-! ## The packer's output does not depend on the enumeration order -/

namespace respawn_vpk

theorem buildDirEntryFromFile_names (bridge : Option CompressBridge) (rel contents : Bytes)
    (options : PackOptions) (manifest : Option Manifest) (e : DirEntry) (cam : Option CamEntry)
    (h : buildDirEntryFromFile bridge rel contents options manifest = some (e, cam)) :
    e.path = rel ∧ (e.extension, e.directory, e.fileName) = splitPath rel
    ∧ e.sortKey = pathSortKey rel := by
  simp only [buildDirEntryFromFile] at h
  split at h
  · exact absurd h (by simp)
  · simp only [Option.some.injEq, Prod.mk.injEq] at h
    obtain ⟨rfl, -⟩ := h
    exact ⟨rfl, rfl, rfl⟩

theorem buildAll_filterMap (bridge : Option CompressBridge) (options : PackOptions)
    (manifest : Option Manifest) :
    ∀ (files : List (Bytes × Bytes)) (es : List DirEntry) (cams : List CamEntry),
      buildAll bridge options manifest files = some (es, cams) →
      es = files.filterMap
        (fun f => (buildDirEntryFromFile bridge f.1 f.2 options manifest).map Prod.fst)
      ∧ (∀ f ∈ files, (buildDirEntryFromFile bridge f.1 f.2 options manifest).isSome = true)
      ∧ es.map DirEntry.sortKey = files.map (fun f => pathSortKey f.1)
      ∧ es.map (fun e => e.path) = files.map Prod.fst := by
  intro files
  induction files with
  | nil =>
    intro es cams h
    simp only [buildAll, Option.some.injEq, Prod.mk.injEq] at h
    obtain ⟨rfl, -⟩ := h
    simp
  | cons f fs ih =>
    intro es cams h
    unfold buildAll at h
    cases h1 : buildDirEntryFromFile bridge f.1 f.2 options manifest with
    | none => simp [h1] at h
    | some r =>
      cases h2 : buildAll bridge options manifest fs with
      | none => simp [h1, h2] at h
      | some rs =>
        obtain ⟨e, cam⟩ := r
        obtain ⟨es', cams'⟩ := rs
        simp only [h1, h2, Option.some.injEq, Prod.mk.injEq] at h
        obtain ⟨rfl, -⟩ := h
        obtain ⟨i1, i2, i3, i4⟩ := ih es' cams' h2
        obtain ⟨n1, -, n3⟩ := buildDirEntryFromFile_names _ _ _ _ _ _ _ h1
        refine ⟨?_, ?_, ?_, ?_⟩
        · rw [List.filterMap_cons, h1]
          simp only [Option.map_some']
          rw [← i1]
        · intro g hg
          rcases List.mem_cons.1 hg with rfl | hg
          · rw [h1]; rfl
          · exact i2 g hg
        · simp only [List.map_cons, i3, n3]
        · simp only [List.map_cons, i4, n1]

theorem buildAll_isSome (bridge : Option CompressBridge) (options : PackOptions)
    (manifest : Option Manifest) :
    ∀ (files : List (Bytes × Bytes)),
      (∀ f ∈ files, (buildDirEntryFromFile bridge f.1 f.2 options manifest).isSome = true) →
      ∃ es cams, buildAll bridge options manifest files = some (es, cams) := by
  intro files
  induction files with
  | nil => intro _; exact ⟨[], [], rfl⟩
  | cons f fs ih =>
    intro h
    obtain ⟨es, cams, h2⟩ := ih (fun g hg => h g (List.mem_cons_of_mem _ hg))
    have h1 := h f (List.mem_cons_self _ _)
    cases hb : buildDirEntryFromFile bridge f.1 f.2 options manifest with
    | none => rw [hb] at h1; simp at h1
    | some r =>
      obtain ⟨e, cam⟩ := r
      exact ⟨e :: es, cam.toList ++ cams, by unfold buildAll; simp only [hb, h2]⟩

/-- The files `A.TXT` and `A.txt` get the same sort key (the extension is lower-cased): the
entry list in memory after the sort and the tree bytes built from it follow the enumeration
order. Both runs then stop at `validateDirTreeAgainstInput` with `return false`, so nothing
is written for either order. -/
theorem pack_order_dependent :
    caseFiles.Perm caseFiles.reverse
    ∧ (caseFiles.map Prod.fst).Nodup
    ∧ (buildAll none {} none caseFiles).map
        (fun r => (sortEntries r.1).map (fun e => (e.path, e.crc32)))
      = some [(bytesOf "A.TXT", computeCRC32 [120]), (bytesOf "A.txt", computeCRC32 [121])]
    ∧ (buildAll none {} none caseFiles.reverse).map
        (fun r => (sortEntries r.1).map (fun e => (e.path, e.crc32)))
      = some [(bytesOf "A.txt", computeCRC32 [121]), (bytesOf "A.TXT", computeCRC32 [120])]
    ∧ (buildAll none {} none caseFiles).map
        (fun r => buildDirTree (sortEntries r.1) 999)
      ≠ (buildAll none {} none caseFiles.reverse).map
        (fun r => buildDirTree (sortEntries r.1) 999)
    ∧ packDirectoryToRespawnVPK none caseFiles {} none = none
    ∧ packDirectoryToRespawnVPK none caseFiles.reverse {} none = none := by
  decide

end respawn_vpk

/-! ## Packing again with the manifest of the first pack -/

namespace respawn_vpk

theorem manifestItemOf_clearOffsets (e : DirEntry) :
    manifestItemOf (clearOffsets e) = manifestItemOf e := by
  unfold manifestItemOf clearOffsets
  cases h : e.parts with
  | nil => simp [h]
  | cons p ps => simp [h]

theorem map_manifestItemOf_of_clear (es es' : List DirEntry)
    (h : es.map clearOffsets = es'.map clearOffsets) :
    es.map manifestItemOf = es'.map manifestItemOf := by
  have e1 : es.map manifestItemOf = (es.map clearOffsets).map manifestItemOf := by
    rw [List.map_map]
    exact List.map_congr_left (fun e _ => (manifestItemOf_clearOffsets e).symm)
  have e2 : es'.map manifestItemOf = (es'.map clearOffsets).map manifestItemOf := by
    rw [List.map_map]
    exact List.map_congr_left (fun e _ => (manifestItemOf_clearOffsets e).symm)
  rw [e1, e2, h]

theorem buildAll_congr (bridge : Option CompressBridge) (options : PackOptions)
    (m1 m2 : Option Manifest) :
    ∀ files : List (Bytes × Bytes),
      (∀ f ∈ files, buildDirEntryFromFile bridge f.1 f.2 options m1
        = buildDirEntryFromFile bridge f.1 f.2 options m2) →
      buildAll bridge options m1 files = buildAll bridge options m2 files := by
  intro files
  induction files with
  | nil => intro _; rfl
  | cons f fs ih =>
    intro h
    unfold buildAll
    rw [h f (List.mem_cons_self _ _), ih (fun g hg => h g (List.mem_cons_of_mem _ hg))]

theorem writeEntryList_congr (m1 m2 : Option Manifest) :
    ∀ (es : List DirEntry) (st : ArchiveState),
      (∀ e ∈ es, allowDedupFor m1 e = allowDedupFor m2 e) →
      writeEntryList m1 st es = writeEntryList m2 st es := by
  intro es
  induction es with
  | nil => intro st _; rfl
  | cons e es ih =>
    intro st h
    simp only [writeEntryList]
    rw [h e (List.mem_cons_self _ _)]
    rw [ih _ (fun g hg => h g (List.mem_cons_of_mem _ hg))]

theorem buildAll_mem (bridge : Option CompressBridge) (options : PackOptions)
    (manifest : Option Manifest) (files : List (Bytes × Bytes)) (es : List DirEntry)
    (cams : List CamEntry) (h : buildAll bridge options manifest files = some (es, cams)) :
    (∀ f ∈ files, ∃ e cam,
        buildDirEntryFromFile bridge f.1 f.2 options manifest = some (e, cam) ∧ e ∈ es)
    ∧ (∀ e ∈ es, ∃ f ∈ files, ∃ cam,
        buildDirEntryFromFile bridge f.1 f.2 options manifest = some (e, cam)) := by
  obtain ⟨i1, i2, -, -⟩ := buildAll_filterMap bridge options manifest files es cams h
  constructor
  · intro f hf
    have := i2 f hf
    cases hb : buildDirEntryFromFile bridge f.1 f.2 options manifest with
    | none => rw [hb] at this; simp at this
    | some r =>
      obtain ⟨e, cam⟩ := r
      refine ⟨e, cam, rfl, ?_⟩
      rw [i1, List.mem_filterMap]
      exact ⟨f, hf, by rw [hb]; rfl⟩
  · intro e he
    rw [i1, List.mem_filterMap] at he
    obtain ⟨f, hf, hfe⟩ := he
    cases hb : buildDirEntryFromFile bridge f.1 f.2 options manifest with
    | none => rw [hb] at hfe; simp at hfe
    | some r =>
      obtain ⟨e', cam⟩ := r
      rw [hb] at hfe
      simp only [Option.map_some', Option.some.injEq] at hfe
      subst hfe
      exact ⟨f, hf, cam, hb⟩

end respawn_vpk

/-! ## The validator on the trees of the emitter -/

theorem split_last (c : Nat) (l : Bytes) (h : c ∈ l) :
    l = ((l.reverse.dropWhile (fun b => b != c)).drop 1).reverse
          ++ c :: (l.reverse.takeWhile (fun b => b != c)).reverse := by
  have hsplit := List.takeWhile_append_dropWhile (fun b => b != c) l.reverse
  have hne : l.reverse.dropWhile (fun b => b != c) ≠ [] := by
    intro e
    rw [List.dropWhile_eq_nil_iff] at e
    have := e c (List.mem_reverse.2 h)
    simp at this
  obtain ⟨d, ds, hd⟩ := List.exists_cons_of_ne_nil hne
  have hhead : d = c := by
    have := List.head_dropWhile_not (fun b => b != c) l.reverse hne
    simp only [hd, List.head_cons] at this
    simpa using this
  rw [hd, hhead] at hsplit
  rw [hd]
  have := congrArg List.reverse hsplit
  simp only [List.reverse_append, List.reverse_cons, List.reverse_reverse,
    List.append_assoc, List.singleton_append] at this
  simp only [List.drop_one, List.tail_cons]
  exact this.symm

theorem takeWhile_no (c : Nat) (l : Bytes) (h : c ∉ l) :
    (l.reverse.takeWhile (fun b => b != c)).reverse = l
    ∧ l.reverse.dropWhile (fun b => b != c) = [] := by
  have hall : ∀ b ∈ l.reverse, (fun b => b != c) b = true := by
    intro b hb
    have : b ≠ c := fun e => h (e ▸ List.mem_reverse.1 hb)
    simpa using this
  constructor
  · rw [List.takeWhile_eq_self_iff.2 hall, List.reverse_reverse]
  · exact List.dropWhile_eq_nil_iff.2 hall

theorem path_split (p : Bytes) (h : 47 ∈ p) : p = pathParent p ++ 47 :: pathFilename p :=
  split_last 47 p h

theorem path_noslash (p : Bytes) (h : 47 ∉ p) : pathFilename p = p ∧ pathParent p = [] := by
  obtain ⟨h1, h2⟩ := takeWhile_no 47 p h
  refine ⟨h1, ?_⟩
  unfold pathParent
  rw [h2]
  rfl

theorem pathExtension_cases (name : Bytes) :
    pathExtension name = []
    ∨ ∃ pre t, pathExtension name = 46 :: t ∧ name = pre ++ 46 :: t ∧ pre ≠ [] := by
  unfold pathExtension
  by_cases h1 : name = [46] ∨ name = [46, 46]
  · rw [if_pos h1]
    exact Or.inl rfl
  · rw [if_neg h1]
    simp only
    by_cases h2 : name.length
        ≤ (name.reverse.takeWhile (fun c => c != 46)).reverse.length + 1
    · rw [if_pos h2]
      exact Or.inl rfl
    · rw [if_neg h2]
      right
      have hmem : 46 ∈ name := by
        by_contra hc
        have := (takeWhile_no 46 name hc).1
        rw [this] at h2
        omega
      have hs := split_last 46 name hmem
      refine ⟨_, _, rfl, hs, ?_⟩
      intro e
      rw [e] at hs
      have hl := congrArg List.length hs
      simp only [List.nil_append, List.length_cons] at hl
      omega

theorem pathStem_append (name : Bytes) : pathStem name ++ pathExtension name = name := by
  unfold pathStem
  rcases pathExtension_cases name with h | ⟨pre, t, h, hn, -⟩
  · rw [h]
    simp
  · rw [h]
    have : name.take (name.length - (46 :: t).length) = pre := by
      rw [hn]
      simp
    rw [this]
    exact hn.symm

namespace respawn_vpk

theorem vreadU16_le (m : Nat) (r : Bytes) : readU16 (leBytes 2 m ++ r) = some (m % 2 ^ 16, r) := by
  simp only [leBytes, List.cons_append, List.nil_append, readU16, readU8, Option.some.injEq,
    Prod.mk.injEq, and_true]
  rw [or2 _ _ (Nat.mod_lt _ (by norm_num))]
  omega

theorem vreadU16_some (m : Nat) (r : Bytes) : ∃ v, readU16 (leBytes 2 m ++ r) = some (v, r) :=
  ⟨_, vreadU16_le m r⟩

theorem vreadU32_some (m : Nat) (r : Bytes) : ∃ v, readU32 (leBytes 4 m ++ r) = some (v, r) := by
  simp only [leBytes, List.cons_append, List.nil_append, readU32, readU8]
  exact ⟨_, rfl⟩

theorem vreadU64_some (m : Nat) (r : Bytes) : ∃ v, readU64 (leBytes 8 m ++ r) = some (v, r) := by
  simp only [leBytes, List.cons_append, List.nil_append, readU64, readU32, readU8]
  exact ⟨_, rfl⟩

theorem vreadCString_append (s : Bytes) (r : Bytes) (h : 0 ∉ s) :
    readCString (s ++ 0 :: r) = some (s, r) := by
  induction s with
  | nil => simp [readCString]
  | cons c cs ih =>
    have hc : c ≠ 0 := fun e => h (by simp [e])
    have := ih (fun e => h (List.mem_cons_of_mem _ e))
    rw [List.cons_append, readCString, if_neg hc, this]

theorem validateParts_record (p : FilePart) (m fuel : Nat) (r : Bytes) :
    validateParts (fuel + 1) (partFields p ++ leBytes 2 m ++ r)
      = if m % 2 ^ 16 = 0xFFFF then .ret (some r)
        else if m % 2 ^ 16 ≠ 0 then .ret none
        else validateParts fuel r := by
  obtain ⟨v1, h1⟩ := vreadU32_some p.loadFlags
    (leBytes 2 p.textureFlags ++ (leBytes 8 p.entryOffset ++ (leBytes 8 p.entryLength
      ++ (leBytes 8 p.entryLengthUncompressed ++ (leBytes 2 m ++ r)))))
  obtain ⟨v2, h2⟩ := vreadU16_some p.textureFlags
    (leBytes 8 p.entryOffset ++ (leBytes 8 p.entryLength
      ++ (leBytes 8 p.entryLengthUncompressed ++ (leBytes 2 m ++ r))))
  obtain ⟨v3, h3⟩ := vreadU64_some p.entryOffset
    (leBytes 8 p.entryLength ++ (leBytes 8 p.entryLengthUncompressed ++ (leBytes 2 m ++ r)))
  obtain ⟨v4, h4⟩ := vreadU64_some p.entryLength
    (leBytes 8 p.entryLengthUncompressed ++ (leBytes 2 m ++ r))
  obtain ⟨v5, h5⟩ := vreadU64_some p.entryLengthUncompressed (leBytes 2 m ++ r)
  have h6 := vreadU16_le m r
  simp only [partFields, List.append_assoc]
  rw [validateParts]
  simp only [h1, h2, h3, h4, h5, h6, RESPAWN_CHUNK_END_MARKER, RESPAWN_CHUNK_CONT_MARKER]

theorem partRecord_eq (p : FilePart) (last : Bool) :
    partRecord p last = partFields p ++ leBytes 2 (if last then 0xFFFF else 0x0000) := by
  simp only [partRecord, partFields, List.append_assoc]

theorem validateParts_records : ∀ (ps : List FilePart) (fuel : Nat) (r : Bytes), ps ≠ [] →
    ps.length ≤ fuel → validateParts fuel (partRecords ps ++ r) = .ret (some r) := by
  intro ps
  induction ps with
  | nil => intro fuel r h; exact absurd rfl h
  | cons p rest ih =>
    intro fuel r _ hf
    obtain ⟨f, rfl⟩ : ∃ f, fuel = f + 1 := ⟨fuel - 1, by simp only [List.length_cons] at hf; omega⟩
    simp only [partRecords, partRecord_eq, List.append_assoc]
    rw [← List.append_assoc (partFields p), validateParts_record]
    cases rest with
    | nil => simp [partRecords]
    | cons q qs =>
      simp only [List.isEmpty_cons, Bool.false_eq_true, if_false]
      rw [if_neg (by norm_num), if_neg (by norm_num)]
      exact ih f r (by simp) (by simp only [List.length_cons] at hf ⊢; omega)

theorem vstep_file_end (x d r : Bytes) (seen : List Bytes) (fuel : Nat) :
    validateLoop (fuel + 1) (.file x d) (0 :: r) seen = validateLoop fuel (.dir x) r seen := by
  simp [validateLoop, readCString]

theorem vstep_dir_end (x r : Bytes) (seen : List Bytes) (fuel : Nat) :
    validateLoop (fuel + 1) (.dir x) (0 :: r) seen = validateLoop fuel .ext r seen := by
  simp [validateLoop, readCString]

theorem vstep_ext_end (r : Bytes) (seen : List Bytes) (fuel : Nat) :
    validateLoop (fuel + 1) .ext (0 :: r) seen = .ret (some seen) := by
  simp [validateLoop, readCString]

theorem vstep_ext (s r : Bytes) (seen : List Bytes) (fuel : Nat) (h0 : 0 ∉ s) (hne : s ≠ []) :
    validateLoop (fuel + 1) .ext (s ++ 0 :: r) seen = validateLoop fuel (.dir s) r seen := by
  simp [validateLoop, vreadCString_append s r h0, hne]

theorem vstep_dir (x s r : Bytes) (seen : List Bytes) (fuel : Nat) (h0 : 0 ∉ s) (hne : s ≠ [])
    (hsp : ¬ (s.head? = some 32 ∧ s ≠ [32])) :
    validateLoop (fuel + 1) (.dir x) (s ++ 0 :: r) seen
      = validateLoop fuel (.file x s) r seen := by
  simp only [validateLoop, vreadCString_append s r h0, List.isEmpty_iff, hne, if_false, hsp]

theorem vstep_entry (idx : Nat) (e : DirEntry) (x d r : Bytes) (seen : List Bytes) (fuel : Nat)
    (h0 : cstrOk e.fileName) (hne : e.fileName.dropLast ≠ []) (hps : e.parts ≠ [])
    (hf : e.parts.length ≤ fuel) :
    validateLoop (fuel + 1) (.file x d) (entryRecord idx e ++ r) seen
      = validateLoop fuel (.file x d) r
          (setInsert seen (validatorFullPath x d e.fileName.dropLast)) := by
  obtain ⟨v1, h1⟩ := vreadU32_some e.crc32 (leBytes 2 e.preloadBytes
    ++ (leBytes 2 (if e.packFileIndex ≠ 0 then e.packFileIndex else idx)
      ++ (partRecords e.parts ++ r)))
  obtain ⟨v2, h2⟩ := vreadU16_some e.preloadBytes
    (leBytes 2 (if e.packFileIndex ≠ 0 then e.packFileIndex else idx)
      ++ (partRecords e.parts ++ r))
  obtain ⟨v3, h3⟩ := vreadU16_some (if e.packFileIndex ≠ 0 then e.packFileIndex else idx)
    (partRecords e.parts ++ r)
  have h4 := validateParts_records e.parts fuel r hps hf
  have hname : entryRecord idx e ++ r = e.fileName.dropLast ++ 0 :: (leBytes 4 e.crc32
      ++ (leBytes 2 e.preloadBytes
      ++ (leBytes 2 (if e.packFileIndex ≠ 0 then e.packFileIndex else idx)
      ++ (partRecords e.parts ++ r)))) := by
    simp only [entryRecord, List.append_assoc]
    nth_rewrite 1 [cstrOk_eq _ h0]
    simp
  rw [hname]
  simp only [validateLoop, vreadCString_append _ _ h0.2, List.isEmpty_iff, hne, if_false, h1,
    h2, h3, h4]

theorem cstrOk_ne_nil (s : Bytes) (h : cstrOk s) : s ≠ [] := by
  intro e
  rw [e] at h
  simp [cstrOk] at h

theorem groupPrefix_same (X D : Bytes) (e : DirEntry) (h1 : e.extension = X)
    (h2 : e.directory = D) : groupPrefix X D e = [] := by
  simp [groupPrefix, h1, h2]

theorem groupPrefix_newDir (X D : Bytes) (e : DirEntry) (hD : D ≠ []) (h1 : e.extension = X)
    (h2 : e.directory ≠ D) : groupPrefix X D e = 0 :: e.directory := by
  simp [groupPrefix, h1, h2, hD]

theorem groupPrefix_newExt (X D : Bytes) (e : DirEntry) (hX : X ≠ []) (hd : e.directory ≠ [])
    (h1 : e.extension ≠ X) : groupPrefix X D e = 0 :: 0 :: (e.extension ++ e.directory) := by
  simp [groupPrefix, h1, hX, hd]

theorem groupPrefix_first (e : DirEntry) (hx : e.extension ≠ []) (hd : e.directory ≠ []) :
    groupPrefix [] [] e = e.extension ++ e.directory := by
  simp [groupPrefix, hx, hd]

theorem partRecords_length (ps : List FilePart) : (partRecords ps).length = 32 * ps.length := by
  induction ps with
  | nil => rfl
  | cons p ps ih =>
    simp only [partRecords, partRecord, List.length_append, leBytes_length, ih,
      List.length_cons]
    omega

theorem entryRecord_length (idx : Nat) (e : DirEntry) :
    (entryRecord idx e).length = e.fileName.length + 8 + 32 * e.parts.length := by
  simp only [entryRecord, List.length_append, leBytes_length, partRecords_length]

theorem venter (idx : Nat) (e : DirEntry) (he : e.Valid) (X D : Bytes) (hX : cstrOk X)
    (hD : cstrOk D) (R : Bytes) (seen : List Bytes) (fuel : Nat)
    (hf : (groupPrefix X D e).length + (entryRecord idx e).length ≤ fuel) :
    ∃ fuel', fuel ≤ fuel' + ((groupPrefix X D e).length + (entryRecord idx e).length)
      ∧ validateLoop fuel (.file X.dropLast D.dropLast)
          (groupPrefix X D e ++ (entryRecord idx e ++ R)) seen
        = validateLoop fuel' (.file e.extension.dropLast e.directory.dropLast) R
            (setInsert seen e.reconstructed) := by
  obtain ⟨⟨hx, hd, hn⟩, hxne, hdne, hnne, hsp, hps⟩ := he
  have hrl := entryRecord_length idx e
  have hsp' : ¬ (e.directory.dropLast.head? = some 32 ∧ e.directory.dropLast ≠ [32]) := by
    intro hc
    apply hsp
    refine ⟨?_, hc.2⟩
    have := cstrOk_eq _ hd
    rw [this]
    cases hdl : e.directory.dropLast with
    | nil => exact absurd hdl hdne
    | cons c cs =>
      rw [hdl] at hc
      simpa using hc.1
  have hxe := cstrOk_eq _ hx
  have hde := cstrOk_eq _ hd
  have hnl : 1 ≤ e.fileName.length := by
    have := cstrOk_ne_nil _ hn
    exact List.length_pos.2 this
  by_cases h1 : e.extension = X
  · by_cases h2 : e.directory = D
    · rw [groupPrefix_same X D e h1 h2] at hf ⊢
      simp only [List.length_nil, Nat.zero_add, List.nil_append] at hf ⊢
      obtain ⟨f, rfl⟩ : ∃ f, fuel = f + 1 := ⟨fuel - 1, by omega⟩
      refine ⟨f, by omega, ?_⟩
      rw [vstep_entry idx e _ _ R seen f hn hnne hps (by omega), ← h1, ← h2]
      rfl
    · rw [groupPrefix_newDir X D e (cstrOk_ne_nil _ hD) h1 h2] at hf ⊢
      simp only [List.length_cons] at hf ⊢
      obtain ⟨f, rfl⟩ : ∃ f, fuel = f + 3 := ⟨fuel - 3, by omega⟩
      refine ⟨f, by omega, ?_⟩
      have hl : (0 :: e.directory) ++ (entryRecord idx e ++ R)
          = 0 :: (e.directory.dropLast ++ 0 :: (entryRecord idx e ++ R)) := by
        nth_rewrite 1 [hde]
        simp
      rw [hl, vstep_file_end, vstep_dir _ _ _ _ _ hd.2 hdne hsp',
        vstep_entry idx e _ _ R seen f hn hnne hps (by omega), ← h1]
      rfl
  · rw [groupPrefix_newExt X D e (cstrOk_ne_nil _ hX) (cstrOk_ne_nil _ hd) h1] at hf ⊢
    simp only [List.length_cons, List.length_append] at hf ⊢
    have hxl : 1 ≤ e.extension.length := List.length_pos.2 (cstrOk_ne_nil _ hx)
    have hdl : 1 ≤ e.directory.length := List.length_pos.2 (cstrOk_ne_nil _ hd)
    obtain ⟨f, rfl⟩ : ∃ f, fuel = f + 5 := ⟨fuel - 5, by omega⟩
    refine ⟨f, by omega, ?_⟩
    have hl : (0 :: 0 :: (e.extension ++ e.directory)) ++ (entryRecord idx e ++ R)
        = 0 :: 0 :: (e.extension.dropLast ++ 0 :: (e.directory.dropLast
            ++ 0 :: (entryRecord idx e ++ R))) := by
      nth_rewrite 1 [hxe]
      nth_rewrite 1 [hde]
      simp
    rw [hl, vstep_file_end, vstep_dir_end, vstep_ext _ _ _ _ hx.2 hxne,
      vstep_dir _ _ _ _ _ hd.2 hdne hsp',
      vstep_entry idx e _ _ R seen f hn hnne hps (by omega)]
    rfl

theorem vloop_entries (idx : Nat) (L : List DirEntry) :
    ∀ (X D R : Bytes) (seen : List Bytes) (fuel : Nat), (∀ e ∈ L, e.Valid) → cstrOk X →
      cstrOk D → (treeLayout idx X D L).length ≤ fuel →
      ∃ fuel', fuel ≤ fuel' + (treeLayout idx X D L).length
        ∧ cstrOk (lastStrings X D L).1 ∧ cstrOk (lastStrings X D L).2
        ∧ validateLoop fuel (.file X.dropLast D.dropLast) (treeLayout idx X D L ++ R) seen
          = validateLoop fuel' (.file (lastStrings X D L).1.dropLast
              (lastStrings X D L).2.dropLast) R
              (L.foldl (fun s e => setInsert s e.reconstructed) seen) := by
  induction L with
  | nil =>
    intro X D R seen fuel _ hX hD _
    exact ⟨fuel, by simp [treeLayout], hX, hD, rfl⟩
  | cons e es ih =>
    intro X D R seen fuel hv hX hD hf
    have he := hv e (List.mem_cons_self _ _)
    have hes : ∀ g ∈ es, g.Valid := fun g hg => hv g (List.mem_cons_of_mem _ hg)
    simp only [treeLayout, List.length_append, List.append_assoc] at hf ⊢
    obtain ⟨f1, hf1, hstep⟩ := venter idx e he X D hX hD
      (treeLayout idx e.extension e.directory es ++ R) seen fuel (by omega)
    obtain ⟨f2, hf2, hl1, hl2, hrec⟩ := ih e.extension e.directory R
      (setInsert seen e.reconstructed) f1 hes he.1.1 he.1.2.1 (by omega)
    refine ⟨f2, by omega, hl1, hl2, ?_⟩
    rw [hstep, hrec]
    rfl

theorem vloop_tail (x d : Bytes) (R : Bytes) (seen : List Bytes) (fuel : Nat) (hf : 3 ≤ fuel) :
    validateLoop fuel (.file x d) (0 :: 0 :: 0 :: R) seen = .ret (some seen) := by
  obtain ⟨f, rfl⟩ : ∃ f, fuel = f + 3 := ⟨fuel - 3, by omega⟩
  rw [vstep_file_end, vstep_dir_end, vstep_ext_end]

theorem buildDirTree_eq (entries : List DirEntry) (idx : Nat) :
    buildDirTree entries idx = treeLayout idx [] [] entries ++ [0, 0, 0] := by
  simp only [buildDirTree, WriteBuffer.writeU24_buf, buildDirTree_foldl]
  simp [leBytes]

theorem validateLoop_buildDirTree (idx : Nat) (L : List DirEntry) (hv : ∀ e ∈ L, e.Valid)
    (R : Bytes) (fuel : Nat) (hf : (treeLayout idx [] [] L).length + 3 ≤ fuel) :
    validateLoop fuel .ext (treeLayout idx [] [] L ++ 0 :: 0 :: 0 :: R) []
      = .ret (some (L.foldl (fun s e => setInsert s e.reconstructed) [])) := by
  cases L with
  | nil =>
    obtain ⟨f, rfl⟩ : ∃ f, fuel = f + 1 := ⟨fuel - 1, by omega⟩
    simp only [treeLayout, List.nil_append, List.foldl_nil]
    rw [vstep_ext_end]
  | cons e es =>
    have he := hv e (List.mem_cons_self _ _)
    have hes : ∀ g ∈ (e :: es), g.Valid := hv
    obtain ⟨⟨hx, hd, hn⟩, hxne, hdne, hnne, hsp, hps⟩ := id he
    have hsp' : ¬ (e.directory.dropLast.head? = some 32 ∧ e.directory.dropLast ≠ [32]) := by
      intro hc
      apply hsp
      refine ⟨?_, hc.2⟩
      rw [cstrOk_eq _ hd]
      cases hdl : e.directory.dropLast with
      | nil => exact absurd hdl hdne
      | cons c cs =>
        rw [hdl] at hc
        simpa using hc.1
    have hgp := groupPrefix_first e (cstrOk_ne_nil _ hx) (cstrOk_ne_nil _ hd)
    have hsame := groupPrefix_same e.extension e.directory e rfl rfl
    have hlay : treeLayout idx [] [] (e :: es)
        = e.extension ++ e.directory ++ treeLayout idx e.extension e.directory (e :: es) := by
      simp only [treeLayout, hgp, hsame, List.nil_append, List.append_assoc]
    have hxl : 1 ≤ e.extension.length := List.length_pos.2 (cstrOk_ne_nil _ hx)
    have hdl : 1 ≤ e.directory.length := List.length_pos.2 (cstrOk_ne_nil _ hd)
    rw [hlay] at hf ⊢
    simp only [List.length_append] at hf
    obtain ⟨f, rfl⟩ : ∃ f, fuel = f + 2 := ⟨fuel - 2, by omega⟩
    have hl : e.extension ++ e.directory ++ treeLayout idx e.extension e.directory (e :: es)
          ++ 0 :: 0 :: 0 :: R
        = e.extension.dropLast ++ 0 :: (e.directory.dropLast ++ 0 ::
            (treeLayout idx e.extension e.directory (e :: es) ++ 0 :: 0 :: 0 :: R)) := by
      nth_rewrite 1 [cstrOk_eq _ hx]
      nth_rewrite 1 [cstrOk_eq _ hd]
      simp
    rw [hl, vstep_ext _ _ _ _ hx.2 hxne, vstep_dir _ _ _ _ _ hd.2 hdne hsp']
    obtain ⟨f2, hf2, -, -, hrec⟩ := vloop_entries idx (e :: es) e.extension e.directory
      (0 :: 0 :: 0 :: R) [] f hes hx hd (by omega)
    rw [hrec]
    exact vloop_tail _ _ _ _ _ (by omega)

theorem getExtensionLower_cases (rel : Bytes)
    (hlow : toLower (pathExtension (pathFilename rel)) = pathExtension (pathFilename rel)) :
    (getExtensionLower rel = [] ∧ (pathExtension (pathFilename rel) = []
        ∨ pathExtension (pathFilename rel) = [46]))
    ∨ (getExtensionLower rel ≠ []
        ∧ pathExtension (pathFilename rel) = 46 :: getExtensionLower rel) := by
  unfold getExtensionLower
  rcases pathExtension_cases (pathFilename rel) with h | ⟨pre, t, h, -, -⟩
  · left
    simp [h, toLower]
  · rw [h] at hlow
    have ht : toLower t = t := by
      simp only [toLower, List.map_cons, List.cons.injEq] at hlow
      exact hlow.2
    simp only [h, List.isEmpty_cons, List.head?_cons, List.drop_one, List.tail_cons]
    simp only [Bool.false_eq_true, not_false_eq_true, and_self, if_true, ht]
    cases t with
    | nil => left; simp
    | cons c cs => right; simp

theorem splitPath_reconstruct (rel : Bytes) (h : Reconstructible rel) :
    validatorFullPath (splitPath rel).1.dropLast (splitPath rel).2.1.dropLast
      (splitPath rel).2.2.dropLast = rel := by
  obtain ⟨hhead, hlow, hesp, hstem, hpar⟩ := h
  have hfile : validatorFullPath (splitPath rel).1.dropLast [32]
      (splitPath rel).2.2.dropLast = pathFilename rel := by
    rcases getExtensionLower_cases rel hlow with ⟨h0, hE⟩ | ⟨hne, hE⟩
    · simp only [splitPath, h0, List.isEmpty_nil, if_true] at hstem ⊢
      have hF : pathFilename rel ≠ [32] := by
        intro e
        rw [e] at hstem
        exact hstem rfl
      simp [validatorFullPath, hF]
    · have hne2 : (getExtensionLower rel).isEmpty = false := by
        cases hx : getExtensionLower rel with
        | nil => exact absurd hx hne
        | cons c cs => rfl
      simp only [splitPath, hne2, Bool.false_eq_true, if_false] at hstem ⊢
      have hS : pathStem (pathFilename rel) ≠ [32] := by
        intro e
        rw [e] at hstem
        exact hstem rfl
      have hX : getExtensionLower rel ≠ [32] := by
        intro e
        rw [e] at hE
        exact hesp hE
      have := pathStem_append (pathFilename rel)
      rw [hE] at this
      simp [validatorFullPath, hS, hX, this]
  by_cases hP : pathParent rel = []
  · have hns : 47 ∉ rel := by
      intro hc
      have := path_split rel hc
      rw [hP] at this
      rw [this] at hhead
      simp at hhead
    have hF := (path_noslash rel hns).1
    have hd : (splitPath rel).2.1.dropLast = [32] := by
      simp [splitPath, hP]
    rw [hd, hfile, hF]
  · have hs : 47 ∈ rel := by
      by_contra hc
      exact hP (path_noslash rel hc).2
    have hd : (splitPath rel).2.1.dropLast = pathParent rel := by
      simp [splitPath, hP]
    have hval : ∀ x d f, d ≠ [32] → d ≠ [] →
        validatorFullPath x d f = d ++ 47 :: validatorFullPath x [32] f := by
      intro x d f h1 h2
      simp [validatorFullPath, h1, h2]
    rw [hd, hval _ _ _ hpar hP, hfile]
    exact (path_split rel hs).symm

theorem cstrOk_snoc (s : Bytes) (h : 0 ∉ s) : cstrOk (s ++ [0]) := by
  simp [cstrOk, h]

theorem path_parts_mem (rel : Bytes) (c : Nat) (h : c ∉ rel) :
    c ∉ pathParent rel ∧ c ∉ pathFilename rel := by
  by_cases hs : 47 ∈ rel
  · have := path_split rel hs
    constructor
    · intro hc
      apply h
      rw [this]
      exact List.mem_append_left _ hc
    · intro hc
      apply h
      rw [this]
      exact List.mem_append_right _ (List.mem_cons_of_mem _ hc)
  · obtain ⟨h1, h2⟩ := path_noslash rel hs
    rw [h1, h2]
    exact ⟨by simp, h⟩

theorem toLower_zero (l : Bytes) (h : 0 ∉ l) : 0 ∉ toLower l := by
  intro hc
  simp only [toLower, List.mem_map] at hc
  obtain ⟨c, hc1, hc2⟩ := hc
  have : c = 0 := by
    unfold toLowerByte at hc2
    split_ifs at hc2
    omega
  exact h (this ▸ hc1)

theorem splitPath_storable (rel : Bytes) (h : StorablePath rel) :
    cstrOk (splitPath rel).1 ∧ cstrOk (splitPath rel).2.1 ∧ cstrOk (splitPath rel).2.2
    ∧ (splitPath rel).1.dropLast ≠ [] ∧ (splitPath rel).2.1.dropLast ≠ []
    ∧ (splitPath rel).2.2.dropLast ≠ []
    ∧ ¬ ((splitPath rel).2.1.head? = some 32 ∧ (splitPath rel).2.1.dropLast ≠ [32]) := by
  obtain ⟨h0, hF, hsp⟩ := h
  obtain ⟨h0P, h0F⟩ := path_parts_mem rel 0 h0
  have hSE := pathStem_append (pathFilename rel)
  have h0S : 0 ∉ pathStem (pathFilename rel) := by
    intro hc
    apply h0F
    rw [← hSE]
    exact List.mem_append_left _ hc
  have h0E : 0 ∉ pathExtension (pathFilename rel) := by
    intro hc
    apply h0F
    rw [← hSE]
    exact List.mem_append_right _ hc
  have hdir : cstrOk (splitPath rel).2.1 ∧ (splitPath rel).2.1.dropLast ≠ []
      ∧ ¬ ((splitPath rel).2.1.head? = some 32 ∧ (splitPath rel).2.1.dropLast ≠ [32]) := by
    by_cases hP : pathParent rel = []
    · simp only [splitPath, hP, List.isEmpty_nil, if_true]
      decide
    · have hP2 : (pathParent rel).isEmpty = false := by
        cases hx : pathParent rel with
        | nil => exact absurd hx hP
        | cons c cs => rfl
      simp only [splitPath, hP2, Bool.false_eq_true, if_false]
      refine ⟨cstrOk_snoc _ h0P, by simpa using hP, ?_⟩
      intro hc
      apply hsp
      cases hx : pathParent rel with
      | nil => exact absurd hx hP
      | cons c cs =>
        rw [hx] at hc
        simpa using hc.1
  by_cases hx0 : getExtensionLower rel = []
  · simp only [splitPath, hx0, List.isEmpty_nil, if_true]
    refine ⟨by decide, hdir.1, cstrOk_snoc _ h0F, by decide, hdir.2.1, by simpa using hF,
      hdir.2.2⟩
  · have hne2 : (getExtensionLower rel).isEmpty = false := by
      cases hx : getExtensionLower rel with
      | nil => exact absurd hx hx0
      | cons c cs => rfl
    have h0X : 0 ∉ getExtensionLower rel := by
      unfold getExtensionLower
      apply toLower_zero
      split_ifs
      · intro hc
        exact h0E (List.mem_of_mem_drop hc)
      · exact h0E
    have hSne : pathStem (pathFilename rel) ≠ [] := by
      rcases pathExtension_cases (pathFilename rel) with he | ⟨pre, t, he, hn, hpre⟩
      · exfalso
        apply hx0
        simp [getExtensionLower, he, toLower]
      · intro hc
        rw [hc, he, List.nil_append] at hSE
        rw [← hSE] at hn
        have hl := congrArg List.length hn
        simp only [List.length_append, List.length_cons] at hl
        have := List.length_pos.2 hpre
        omega
    simp only [splitPath, hne2, Bool.false_eq_true, if_false]
    refine ⟨cstrOk_snoc _ h0X, hdir.1, cstrOk_snoc _ h0S, by simpa using hx0, hdir.2.1,
      by simpa using hSne, hdir.2.2⟩

theorem splitPath_valid (rel : Bytes) (h : PackablePath rel) :
    cstrOk (splitPath rel).1 ∧ cstrOk (splitPath rel).2.1 ∧ cstrOk (splitPath rel).2.2
    ∧ (splitPath rel).1.dropLast ≠ [] ∧ (splitPath rel).2.1.dropLast ≠ []
    ∧ (splitPath rel).2.2.dropLast ≠ []
    ∧ ¬ ((splitPath rel).2.1.head? = some 32 ∧ (splitPath rel).2.1.dropLast ≠ [32]) :=
  splitPath_storable rel h.2

theorem buildDirEntryFromFile_parts (bridge : Option CompressBridge) (rel contents : Bytes)
    (options : PackOptions) (manifest : Option Manifest) (e : DirEntry) (cam : Option CamEntry)
    (hc : contents ≠ [])
    (h : buildDirEntryFromFile bridge rel contents options manifest = some (e, cam)) :
    e.parts ≠ [] := by
  simp only [buildDirEntryFromFile] at h
  split at h
  · exact absurd h (by simp)
  · rename_i parts hp
    simp only [Option.some.injEq, Prod.mk.injEq] at h
    obtain ⟨rfl, -⟩ := h
    simp only
    have hlen : 0 < (if (decide (getExtensionLower rel = [119, 97, 118])) = true
        then stripWavHeaderInPlace contents else contents).length := by
      split_ifs
      · rw [stripWavHeaderInPlace_length]
        exact List.length_pos.2 hc
      · exact List.length_pos.2 hc
    unfold buildParts at hp
    rw [if_pos hlen] at hp
    simp only at hp
    split at hp
    · exact absurd hp (by simp)
    · simp only [Option.some.injEq] at hp
      rw [← hp]
      simp

theorem buildDirEntryFromFile_isSome (bridge : Option CompressBridge) (rel contents : Bytes)
    (options : PackOptions) (manifest : Option Manifest) (hm : 1 ≤ options.maxPartSize) :
    (buildDirEntryFromFile bridge rel contents options manifest).isSome = true := by
  simp only [buildDirEntryFromFile]
  rw [buildParts_eq bridge options _ _ _ hm _ _ (by omega)]
  rfl

theorem buildDirEntryFromFile_valid (bridge : Option CompressBridge) (rel contents : Bytes)
    (options : PackOptions) (manifest : Option Manifest) (e : DirEntry) (cam : Option CamEntry)
    (hp : PackablePath rel) (hc : contents ≠ [])
    (h : buildDirEntryFromFile bridge rel contents options manifest = some (e, cam)) :
    e.Valid ∧ e.reconstructed = e.path := by
  obtain ⟨hpath, hnames, -⟩ := buildDirEntryFromFile_names bridge rel contents options manifest
    e cam h
  have hparts := buildDirEntryFromFile_parts bridge rel contents options manifest e cam hc h
  have hx : e.extension = (splitPath rel).1 := congrArg Prod.fst hnames
  have hd : e.directory = (splitPath rel).2.1 := congrArg (fun t => t.2.1) hnames
  have hn : e.fileName = (splitPath rel).2.2 := congrArg (fun t => t.2.2) hnames
  obtain ⟨v1, v2, v3, v4, v5, v6, v7⟩ := splitPath_valid rel hp
  have hr := splitPath_reconstruct rel hp.1
  unfold DirEntry.Valid DirEntry.Terminated DirEntry.reconstructed
  rw [hx, hd, hn, hpath]
  exact ⟨⟨⟨v1, v2, v3⟩, v4, v5, v6, v7, hparts⟩, hr⟩

theorem validate_of_seen (dirTree : Bytes) (entries : List DirEntry) (seen : List Bytes)
    (hv : validateLoop (dirTree.length + 1) .ext dirTree [] = .ret (some seen))
    (h : ∀ p, p ∈ seen ↔ ∃ e ∈ entries, e.path = p) :
    validateDirTreeAgainstInput dirTree entries = true := by
  have hexp_mem : ∀ p, p ∈ entries.foldl (fun s e => setInsert s e.path) []
      ↔ ∃ e ∈ entries, e.path = p := by
    intro p
    rw [expected_eq, foldl_setInsert_mem]
    simp
  have hexp_nd : (entries.foldl (fun s e => setInsert s e.path) []).Nodup := by
    rw [expected_eq]
    exact foldl_setInsert_nodup _ _ List.nodup_nil
  have hsn : seen.Nodup := validateLoop_nodup _ _ _ _ _ hv List.nodup_nil
  have hperm : seen.Perm (entries.foldl (fun s e => setInsert s e.path) []) := by
    rw [List.perm_ext_iff_of_nodup hsn hexp_nd]
    intro p
    rw [h p, hexp_mem p]
  unfold validateDirTreeAgainstInput
  simp only [hv, ne_eq, ite_not]
  rw [if_pos hperm.length_eq, List.all_eq_true]
  intro p hp
  simpa using hperm.mem_iff.2 hp

theorem validate_of_none (dirTree : Bytes) (entries : List DirEntry)
    (hv : validateLoop (dirTree.length + 1) .ext dirTree [] = .ret none) :
    validateDirTreeAgainstInput dirTree entries = false := by
  unfold validateDirTreeAgainstInput
  simp only [hv]

theorem validate_buildDirTree (idx : Nat) (L : List DirEntry)
    (hv : ∀ e ∈ L, e.Valid ∧ e.reconstructed = e.path) :
    validateDirTreeAgainstInput (buildDirTree L idx) L = true := by
  have hparse := validateLoop_buildDirTree idx L (fun e he => (hv e he).1) []
    ((buildDirTree L idx).length + 1) (by rw [buildDirTree_eq]; simp)
  have htree : treeLayout idx [] [] L ++ [0, 0, 0] = buildDirTree L idx :=
    (buildDirTree_eq L idx).symm
  rw [htree] at hparse
  apply validate_of_seen _ _ _ hparse
  intro p
  rw [← List.foldl_map, foldl_setInsert_mem]
  simp only [List.not_mem_nil, false_or, List.mem_map]
  constructor
  · rintro ⟨e, he, rfl⟩
    exact ⟨e, he, ((hv e he).2).symm⟩
  · rintro ⟨e, he, rfl⟩
    exact ⟨e, he, (hv e he).2⟩

theorem pack_packable (bridge : Option CompressBridge) (files : List (Bytes × Bytes))
    (options : PackOptions) (manifest : Option Manifest) (hm : 1 ≤ options.maxPartSize)
    (hfiles : ∀ f ∈ files, PackablePath f.1 ∧ f.2 ≠ []) :
    ∃ built cams, buildAll bridge options manifest files = some (built, cams)
      ∧ validateDirTreeAgainstInput (buildDirTree (sortEntries built) options.archiveIndex)
          (sortEntries built) = true
      ∧ (packDirectoryToRespawnVPK bridge files options manifest).isSome = true := by
  obtain ⟨built, cams, hb⟩ := buildAll_isSome bridge options manifest files
    (fun f _ => buildDirEntryFromFile_isSome bridge f.1 f.2 options manifest hm)
  have hval : validateDirTreeAgainstInput
      (buildDirTree (sortEntries built) options.archiveIndex) (sortEntries built) = true := by
    apply validate_buildDirTree
    intro e he
    have he2 : e ∈ built := (sortEntries_perm built).subset he
    obtain ⟨f, hf, cam, hbe⟩ := (buildAll_mem bridge options manifest files built cams hb).2 e he2
    exact buildDirEntryFromFile_valid bridge f.1 f.2 options manifest e cam (hfiles f hf).1
      (hfiles f hf).2 hbe
  refine ⟨built, cams, hb, hval, ?_⟩
  unfold packDirectoryToRespawnVPK
  simp only [hb, hval, not_true_eq_false, if_false]
  rfl

theorem fullPathOf_eq (x d f : Bytes) : RespawnVPK.fullPathOf x d f = validatorFullPath x d f := by
  unfold RespawnVPK.fullPathOf validatorFullPath
  by_cases h1 : d = [32]
  · simp [h1]
  · by_cases h2 : d.isEmpty = true
    · simp [h1, h2]
    · simp [h1, h2]

/-- The paths that are given back: for a relative path without a leading slash whose
extension has no upper-case letter and is not a period followed by one space, and whose file stem and
directory are not the one-space string, the strings that `buildDirEntryFromFile` stores
(without their closing NUL) give back the path under the validator's and under the reader's
reconstruction. For files with such paths that have no NUL byte, a file name and a directory
that does not begin with a space, with non-empty contents and a positive `maxPartSize`, all
entries are built with the strings of `splitPath`, `validateDirTreeAgainstInput` accepts the
tree built from the sorted entries and `packDirectoryToRespawnVPK` succeeds. -/
theorem splitPath_roundtrip (rel : Bytes) (hrel : Reconstructible rel)
    (bridge : Option CompressBridge) (files : List (Bytes × Bytes)) (options : PackOptions)
    (manifest : Option Manifest) (hm : 1 ≤ options.maxPartSize)
    (hfiles : ∀ f ∈ files, PackablePath f.1 ∧ f.2 ≠ []) :
    (validatorFullPath (splitPath rel).1.dropLast (splitPath rel).2.1.dropLast
        (splitPath rel).2.2.dropLast = rel
      ∧ RespawnVPK.fullPathOf (splitPath rel).1.dropLast (splitPath rel).2.1.dropLast
        (splitPath rel).2.2.dropLast = rel)
    ∧ ∃ built cams, buildAll bridge options manifest files = some (built, cams)
        ∧ (∀ e ∈ built, ∃ f ∈ files, e.path = f.1
            ∧ (e.extension, e.directory, e.fileName) = splitPath f.1)
        ∧ validateDirTreeAgainstInput
            (buildDirTree (sortEntries built) options.archiveIndex) (sortEntries built) = true
        ∧ (packDirectoryToRespawnVPK bridge files options manifest).isSome = true := by
  refine ⟨⟨splitPath_reconstruct rel hrel, ?_⟩, ?_⟩
  · rw [fullPathOf_eq]
    exact splitPath_reconstruct rel hrel
  · obtain ⟨built, cams, hb, hval, hpack⟩ := pack_packable bridge files options manifest hm hfiles
    refine ⟨built, cams, hb, ?_, hval, hpack⟩
    intro e he
    obtain ⟨f, hf, cam, hbe⟩ := (buildAll_mem bridge options manifest files built cams hb).2 e he
    obtain ⟨h1, h2, -⟩ := buildDirEntryFromFile_names bridge f.1 f.2 options manifest e cam hbe
    exact ⟨f, hf, h1, h2⟩

/-- C22: for the path `A.TXT` the stored strings are `txt`, one space and `A`: the extension
is stored lower-cased while `out.path` keeps its case. The validator and the reader
reconstruct `A.txt`, which is not the path, and the pack of a directory that holds this one
file fails at the validation. -/
theorem splitPath_upper_case_extension :
    splitPath (bytesOf "A.TXT") = (bytesOf "txt" ++ [0], [32, 0], bytesOf "A" ++ [0])
    ∧ validatorFullPath (splitPath (bytesOf "A.TXT")).1.dropLast
        (splitPath (bytesOf "A.TXT")).2.1.dropLast (splitPath (bytesOf "A.TXT")).2.2.dropLast
        = bytesOf "A.txt"
    ∧ RespawnVPK.fullPathOf (splitPath (bytesOf "A.TXT")).1.dropLast
        (splitPath (bytesOf "A.TXT")).2.1.dropLast (splitPath (bytesOf "A.TXT")).2.2.dropLast
        = bytesOf "A.txt"
    ∧ bytesOf "A.txt" ≠ bytesOf "A.TXT"
    ∧ packDirectoryToRespawnVPK none [(bytesOf "A.TXT", [120])] smallOptions none = none := by
  decide

/-- An instance: the path `maps/Sky_01.vtf` is given back by both reconstructions, and the
pack of the two files `a.txt` and `b.txt` passes the validation. -/
theorem splitPath_roundtrip_witness :
    validatorFullPath (splitPath (bytesOf "maps/Sky_01.vtf")).1.dropLast
        (splitPath (bytesOf "maps/Sky_01.vtf")).2.1.dropLast
        (splitPath (bytesOf "maps/Sky_01.vtf")).2.2.dropLast = bytesOf "maps/Sky_01.vtf"
    ∧ (packDirectoryToRespawnVPK none twoFiles smallOptions none).isSome = true :=
  match splitPath_roundtrip (bytesOf "maps/Sky_01.vtf") (by decide) none twoFiles smallOptions
      none (by decide) (by decide) with
  | ⟨h1, _, _, _, _, _, h2⟩ => ⟨h1.1, h2⟩

/-- C28 (counterexample): the tree of the two-chunk entry `a.txt` carries the marker 0x0000
behind the first chunk record, and the validator accepts it; it is the tree that
`buildDirTree` returns for this entry, and the pack of a six-byte file with a part size of
four bytes writes a 0x0000 marker and succeeds. -/
theorem validateDirTreeAgainstInput_accepts_continuation :
    buildDirTree [twoPartEntry] 999
      = bytesOf "txt" ++ [0] ++ [32, 0] ++ bytesOf "a" ++ [0]
        ++ leBytes 4 1438416925 ++ leBytes 2 0 ++ leBytes 2 999
        ++ (leBytes 4 1 ++ leBytes 2 0 ++ leBytes 8 0 ++ leBytes 8 2 ++ leBytes 8 2
            ++ [0x00, 0x00])
        ++ (leBytes 4 1 ++ leBytes 2 0 ++ leBytes 8 2 ++ leBytes 8 1 ++ leBytes 8 1
            ++ [0xFF, 0xFF])
        ++ [0, 0, 0]
    ∧ validateDirTreeAgainstInput (buildDirTree [twoPartEntry] 999) [twoPartEntry] = true
    ∧ (packDirectoryToRespawnVPK none sixByteDir tinyOptions none).map
        (fun o => ((o.dirVpk.drop 16).drop 46).take 2) = some [0, 0] := by
  decide

end respawn_vpk

/-! ## Equal sort keys make the validation fail -/

namespace respawn_vpk

end respawn_vpk

/-! ## The validator's grammar -/

namespace respawn_vpk

theorem readU8_drop (r : Bytes) :
    readU8 r = if r.length < 1 then none else some (r.getD 0 0, r.drop 1) := by
  cases r with
  | nil => rfl
  | cons b rest => simp [readU8]

theorem readU16_drop (r : Bytes) :
    readU16 r = if r.length < 2 then none
      else some ((r.getD 0 0 ||| (r.getD 1 0 <<< 8)) % 2 ^ 16, r.drop 2) := by
  match r with
  | [] => rfl
  | [_] => rfl
  | b0 :: b1 :: rest => simp [readU16, readU8]

theorem readU32_some_drop (r : Bytes) (h : 4 ≤ r.length) :
    ∃ v, readU32 r = some (v, r.drop 4) := by
  match r, h with
  | b0 :: b1 :: b2 :: b3 :: rest, _ =>
    exact ⟨(b0 ||| (b1 <<< 8) ||| (b2 <<< 16) ||| (b3 <<< 24)) % 2 ^ 32, by
      simp [readU32, readU8]⟩

theorem readU32_none_short (r : Bytes) (h : r.length < 4) : readU32 r = none := by
  match r, h with
  | [], _ => rfl
  | [_], _ => rfl
  | [_, _], _ => rfl
  | [_, _, _], _ => rfl

theorem readU64_some_drop (r : Bytes) (h : 8 ≤ r.length) :
    ∃ v, readU64 r = some (v, r.drop 8) := by
  obtain ⟨v1, h1⟩ := readU32_some_drop r (by omega)
  obtain ⟨v2, h2⟩ := readU32_some_drop (r.drop 4) (by simp; omega)
  refine ⟨(v1 ||| (v2 <<< 32)) % 2 ^ 64, ?_⟩
  simp only [readU64, h1, h2, List.drop_drop]

theorem readU64_none_short (r : Bytes) (h : r.length < 8) : readU64 r = none := by
  by_cases h4 : r.length < 4
  · simp only [readU64, readU32_none_short r h4]
  · obtain ⟨v1, h1⟩ := readU32_some_drop r (by omega)
    simp only [readU64, h1, readU32_none_short (r.drop 4) (by simp; omega)]

/-- The 16-bit value the validator reads from two bytes. -/
theorem marker_value (a b : Nat) (ha : a < 256) (hb : b < 256) :
    (a ||| (b <<< 8)) % 2 ^ 16 = a + 256 * b := by
  rw [or_shl a b 8 (by simpa using ha)]
  omega

theorem validateParts_step (fuel : Nat) (r : Bytes) :
    validateParts (fuel + 1) r
      = if r.length < 32 then .ret none
        else if (r.getD 30 0 ||| (r.getD 31 0 <<< 8)) % 2 ^ 16 = 0xFFFF then
          .ret (some (r.drop 32))
        else if (r.getD 30 0 ||| (r.getD 31 0 <<< 8)) % 2 ^ 16 ≠ 0 then .ret none
        else validateParts fuel (r.drop 32) := by
  rw [validateParts]
  by_cases h4 : r.length < 4
  · rw [readU32_none_short r h4, if_pos (by omega)]
  obtain ⟨v1, e1⟩ := readU32_some_drop r (by omega)
  rw [e1]
  simp only [readU16_drop, List.length_drop]
  by_cases h6 : r.length - 4 < 2
  · rw [if_pos h6, if_pos (by omega)]
  rw [if_neg h6]
  simp only [List.drop_drop]
  by_cases h14 : r.length < 14
  · rw [readU64_none_short _ (by simp; omega), if_pos (by omega)]
  obtain ⟨v3, e3⟩ := readU64_some_drop (r.drop 6) (by simp; omega)
  simp only [show 2 + 4 = 6 from rfl, e3, List.drop_drop]
  by_cases h22 : r.length < 22
  · rw [readU64_none_short _ (by simp; omega), if_pos (by omega)]
  obtain ⟨v4, e4⟩ := readU64_some_drop (r.drop 14) (by simp; omega)
  simp only [show 8 + 6 = 14 from rfl, e4, List.drop_drop]
  by_cases h30 : r.length < 30
  · rw [readU64_none_short _ (by simp; omega), if_pos (by omega)]
  obtain ⟨v5, e5⟩ := readU64_some_drop (r.drop 22) (by simp; omega)
  simp only [show 8 + 14 = 22 from rfl, e5, List.drop_drop, List.length_drop]
  by_cases h32 : r.length < 32
  · rw [if_pos (by omega), if_pos h32]
  rw [if_neg (by omega), if_neg h32]
  simp only [show 8 + 22 = 30 from rfl, show 2 + 30 = 32 from rfl,
    RESPAWN_CHUNK_END_MARKER, RESPAWN_CHUNK_CONT_MARKER]
  have g0 : (r.drop 30).getD 0 0 = r.getD 30 0 := by
    simp [List.getD_eq_getElem?_getD]
  have g1 : (r.drop 30).getD 1 0 = r.getD 31 0 := by
    simp [List.getD_eq_getElem?_getD]
  rw [g0, g1]

theorem record_step (fuel : Nat) (r : Bytes) (m0 m1 : Nat) (X : Bytes) (hr : r.length = 30) :
    validateParts (fuel + 1) (r ++ m0 :: m1 :: X)
      = if (m0 ||| (m1 <<< 8)) % 2 ^ 16 = 0xFFFF then .ret (some X)
        else if (m0 ||| (m1 <<< 8)) % 2 ^ 16 ≠ 0 then .ret none
        else validateParts fuel X := by
  rw [validateParts_step, if_neg (by simp only [List.length_append, List.length_cons, hr]; omega)]
  have g0 : (r ++ m0 :: m1 :: X).getD 30 0 = m0 := by
    rw [List.getD_append_right _ _ _ _ (by omega), hr]
    rfl
  have g1 : (r ++ m0 :: m1 :: X).getD 31 0 = m1 := by
    rw [List.getD_append_right _ _ _ _ (by omega), hr]
    rfl
  have gd : (r ++ m0 :: m1 :: X).drop 32 = X := by
    rw [List.drop_append_eq_append_drop, List.drop_of_length_le (by omega), hr]
    rfl
  rw [g0, g1, gd]

theorem records_accepted : ∀ (recs : List Bytes) (fuel : Nat) (R : Bytes), recs ≠ [] →
    (∀ r ∈ recs, r.length = 30) → recs.length ≤ fuel →
    validateParts fuel (encodeRecords recs ++ R) = .ret (some R) := by
  intro recs
  induction recs with
  | nil => intro fuel R h; exact absurd rfl h
  | cons r rs ih =>
    intro fuel R _ hlen hf
    obtain ⟨f, rfl⟩ : ∃ f, fuel = f + 1 :=
      ⟨fuel - 1, by simp only [List.length_cons] at hf; omega⟩
    have hr := hlen r (List.mem_cons_self _ _)
    cases rs with
    | nil =>
      simp only [encodeRecords, List.isEmpty_nil, if_true, List.append_nil, List.append_assoc,
        List.cons_append, List.nil_append]
      rw [record_step f r _ _ R hr, if_pos (by decide)]
    | cons q qs =>
      simp only [encodeRecords, List.isEmpty_cons, Bool.false_eq_true, if_false,
        List.append_assoc, List.cons_append, List.nil_append] at ih ⊢
      rw [record_step f r _ _ _ hr, if_neg (by decide), if_neg (by decide)]
      exact ih f R (by simp) (fun x hx => hlen x (List.mem_cons_of_mem _ hx))
        (by simp only [List.length_cons] at hf ⊢; omega)

theorem split_record (r : Bytes) (h : 32 ≤ r.length) :
    r = r.take 30 ++ r.getD 30 0 :: r.getD 31 0 :: r.drop 32 := by
  have e1 : r = r.take 30 ++ r.drop 30 := (List.take_append_drop 30 r).symm
  have e2 : r.drop 30 = r.getD 30 0 :: r.getD 31 0 :: r.drop 32 := by
    have h30 : 30 < r.length := by omega
    have h31 : 31 < r.length := by omega
    rw [List.drop_eq_getElem_cons h30, List.drop_eq_getElem_cons h31]
    simp [List.getD_eq_getElem?_getD, List.getElem?_eq_getElem h30,
      List.getElem?_eq_getElem h31]
  rw [← e2]
  exact e1

theorem marker_end (a b : Nat) (ha : a < 256) (hb : b < 256)
    (h : (a ||| (b <<< 8)) % 2 ^ 16 = 0xFFFF) : a = 255 ∧ b = 255 := by
  rw [marker_value a b ha hb] at h
  omega

theorem marker_cont (a b : Nat) (ha : a < 256) (hb : b < 256)
    (h : (a ||| (b <<< 8)) % 2 ^ 16 = 0) : a = 0 ∧ b = 0 := by
  rw [marker_value a b ha hb] at h
  omega

theorem records_parsed : ∀ (fuel : Nat) (r r' : Bytes), (∀ b ∈ r, b < 256) →
    validateParts fuel r = .ret (some r') →
    ∃ recs : List Bytes, recs ≠ [] ∧ (∀ x ∈ recs, x.length = 30)
      ∧ r = encodeRecords recs ++ r' := by
  intro fuel
  induction fuel with
  | zero => intro r r' _ h; simp [validateParts] at h
  | succ fuel ih =>
    intro r r' hb h
    rw [validateParts_step] at h
    by_cases h32 : r.length < 32
    · rw [if_pos h32] at h
      simp at h
    rw [if_neg h32] at h
    have hsplit := split_record r (by omega)
    have hm0 : r.getD 30 0 < 256 := by
      apply hb
      rw [List.getD_eq_getElem _ _ (by omega)]
      exact List.getElem_mem _
    have hm1 : r.getD 31 0 < 256 := by
      apply hb
      rw [List.getD_eq_getElem _ _ (by omega)]
      exact List.getElem_mem _
    have htake : (r.take 30).length = 30 := by
      rw [List.length_take]
      omega
    by_cases hend : (r.getD 30 0 ||| (r.getD 31 0 <<< 8)) % 2 ^ 16 = 0xFFFF
    · rw [if_pos hend] at h
      simp only [Loop.ret.injEq, Option.some.injEq] at h
      obtain ⟨e0, e1⟩ := marker_end _ _ hm0 hm1 hend
      refine ⟨[r.take 30], by simp, ?_, ?_⟩
      · intro x hx
        rw [List.mem_singleton.1 hx]
        exact htake
      · rw [e0, e1, h] at hsplit
        simpa [encodeRecords] using hsplit
    · rw [if_neg hend] at h
      by_cases hc : (r.getD 30 0 ||| (r.getD 31 0 <<< 8)) % 2 ^ 16 ≠ 0
      · rw [if_pos hc] at h
        simp at h
      rw [if_neg hc] at h
      obtain ⟨e0, e1⟩ := marker_cont _ _ hm0 hm1 (not_not.1 hc)
      obtain ⟨recs, hne, hlen, hr⟩ := ih (r.drop 32) r'
        (fun b hbm => hb b (List.mem_of_mem_drop hbm)) h
      refine ⟨r.take 30 :: recs, by simp, ?_, ?_⟩
      · intro x hx
        rcases List.mem_cons.1 hx with hx | hx
        · rw [hx]; exact htake
        · exact hlen x hx
      · have hne2 : recs.isEmpty = false := by
          cases recs with
          | nil => exact absurd rfl hne
          | cons _ _ => rfl
        rw [e0, e1, hr] at hsplit
        simp only [encodeRecords, hne2, Bool.false_eq_true, if_false, List.append_assoc,
          List.cons_append, List.nil_append]
        exact hsplit

theorem readCString_inv : ∀ (r s r1 : Bytes), readCString r = some (s, r1) →
    r = s ++ 0 :: r1 ∧ 0 ∉ s := by
  intro r
  induction r with
  | nil => intro s r1 h; simp [readCString] at h
  | cons c cs ih =>
    intro s r1 h
    rw [readCString] at h
    by_cases hc : c = 0
    · rw [if_pos hc] at h
      simp only [Option.some.injEq, Prod.mk.injEq] at h
      obtain ⟨rfl, rfl⟩ := h
      exact ⟨by simp [hc], by simp⟩
    · rw [if_neg hc] at h
      cases hrec : readCString cs with
      | none => rw [hrec] at h; simp at h
      | some p =>
        obtain ⟨s', r'⟩ := p
        rw [hrec] at h
        simp only [Option.some.injEq, Prod.mk.injEq] at h
        obtain ⟨rfl, rfl⟩ := h
        obtain ⟨e, h0⟩ := ih s' r' hrec
        refine ⟨by rw [e]; rfl, ?_⟩
        intro hm
        rcases List.mem_cons.1 hm with hm | hm
        · exact hc hm.symm
        · exact h0 hm

theorem vfile_step (fuel : Nat) (x d name R : Bytes) (seen : List Bytes) (h0 : 0 ∉ name)
    (hne : name ≠ []) :
    validateLoop (fuel + 1) (.file x d) (name ++ 0 :: R) seen
      = if R.length < 8 then .ret none
        else
          match validateParts fuel (R.drop 8) with
          | .more => .more
          | .ret none => .ret none
          | .ret (some r5) =>
            validateLoop fuel (.file x d) r5 (setInsert seen (validatorFullPath x d name)) := by
  simp only [validateLoop, vreadCString_append name R h0, List.isEmpty_iff, hne, if_false]
  by_cases h4 : R.length < 4
  · rw [readU32_none_short R h4, if_pos (by omega)]
  obtain ⟨v1, e1⟩ := readU32_some_drop R (by omega)
  simp only [e1, readU16_drop, List.length_drop, List.drop_drop]
  by_cases h6 : R.length - 4 < 2
  · rw [if_pos h6, if_pos (by omega)]
  rw [if_neg h6]
  simp only
  have hlen : (List.drop (4 + 2) R).length = R.length - 6 := by simp
  by_cases h8 : R.length < 8
  · rw [if_pos (by rw [hlen]; omega), if_pos h8]
  rw [if_neg (by rw [hlen]; omega), if_neg h8]
  simp only [List.drop_drop]

theorem encodeRecords_length (recs : List Bytes) (h : ∀ r ∈ recs, r.length = 30) :
    (encodeRecords recs).length = 32 * recs.length := by
  induction recs with
  | nil => rfl
  | cons r rs ih =>
    have hr := h r (List.mem_cons_self _ _)
    have := ih (fun x hx => h x (List.mem_cons_of_mem _ hx))
    simp only [encodeRecords, List.length_append, List.length_cons, hr, this]
    split_ifs <;> simp <;> omega

theorem file_entry_step (fuel : Nat) (x d R : Bytes) (seen : List Bytes) (f : TreeFile)
    (hf : f.WF) (hfuel : f.records.length ≤ fuel) :
    validateLoop (fuel + 1) (.file x d) (f.encode ++ R) seen
      = validateLoop fuel (.file x d) R (setInsert seen (validatorFullPath x d f.name)) := by
  obtain ⟨hne, h0, hh, hrne, hrl⟩ := hf
  have e : f.encode ++ R = f.name ++ 0 :: (f.header ++ (encodeRecords f.records ++ R)) := by
    simp only [TreeFile.encode, List.append_assoc, List.cons_append]
  rw [e, vfile_step fuel x d f.name _ seen h0 hne,
    if_neg (by simp only [List.length_append, hh]; omega)]
  have hd : (f.header ++ (encodeRecords f.records ++ R)).drop 8
      = encodeRecords f.records ++ R := by
    rw [List.drop_append_eq_append_drop, List.drop_of_length_le (by omega), hh]
    rfl
  rw [hd, records_accepted f.records fuel R hrne hrl hfuel]

theorem TreeFile.encode_length (f : TreeFile) (hf : f.WF) :
    f.encode.length = f.name.length + 9 + 32 * f.records.length := by
  obtain ⟨hne, h0, hh, hrne, hrl⟩ := hf
  simp only [TreeFile.encode, List.length_append, List.length_cons, hh,
    encodeRecords_length _ hrl]
  omega

theorem foldl_setInsert_append (a b : List Bytes) (seen : List Bytes) :
    (a ++ b).foldl setInsert seen = b.foldl setInsert (a.foldl setInsert seen) :=
  List.foldl_append _ _ _ _

theorem files_run (x d : Bytes) : ∀ (fs : List TreeFile) (R : Bytes) (seen : List Bytes)
    (fuel : Nat), (∀ f ∈ fs, f.WF) → (encodeFiles fs).length ≤ fuel →
    ∃ fuel', fuel ≤ fuel' + (encodeFiles fs).length
      ∧ validateLoop fuel (.file x d) (encodeFiles fs ++ R) seen
        = validateLoop fuel' (.file x d) R ((filePaths x d fs).foldl setInsert seen) := by
  intro fs
  induction fs with
  | nil => intro R seen fuel _ _; exact ⟨fuel, by simp [encodeFiles], rfl⟩
  | cons f fs ih =>
    intro R seen fuel hwf hfuel
    have hf := hwf f (List.mem_cons_self _ _)
    have hl := TreeFile.encode_length f hf
    simp only [encodeFiles, List.length_append] at hfuel ⊢
    obtain ⟨g, rfl⟩ : ∃ g, fuel = g + 1 := ⟨fuel - 1, by omega⟩
    obtain ⟨g', hg', hrec⟩ := ih R (setInsert seen (validatorFullPath x d f.name)) g
      (fun y hy => hwf y (List.mem_cons_of_mem _ hy)) (by omega)
    refine ⟨g', by omega, ?_⟩
    rw [List.append_assoc, file_entry_step g x d _ seen f hf (by omega), hrec]
    rfl

theorem dirs_run (x : Bytes) : ∀ (ds : List TreeDir) (R : Bytes) (seen : List Bytes)
    (fuel : Nat), (∀ d ∈ ds, d.WF) → (encodeDirs ds).length ≤ fuel →
    ∃ fuel', fuel ≤ fuel' + (encodeDirs ds).length
      ∧ validateLoop fuel (.dir x) (encodeDirs ds ++ R) seen
        = validateLoop fuel' (.dir x) R ((dirPaths x ds).foldl setInsert seen) := by
  intro ds
  induction ds with
  | nil => intro R seen fuel _ _; exact ⟨fuel, by simp [encodeDirs], rfl⟩
  | cons d ds ih =>
    intro R seen fuel hwf hfuel
    obtain ⟨hne, h0, hsp, hfs⟩ := hwf d (List.mem_cons_self _ _)
    simp only [encodeDirs, TreeDir.encode, List.length_append, List.length_cons,
      List.length_nil] at hfuel ⊢
    obtain ⟨g, rfl⟩ : ∃ g, fuel = g + 1 := ⟨fuel - 1, by omega⟩
    obtain ⟨g1, hg1, hrun⟩ := files_run x d.dir d.files (0 :: (encodeDirs ds ++ R)) seen g hfs
      (by omega)
    obtain ⟨g2, rfl⟩ : ∃ g2, g1 = g2 + 1 := ⟨g1 - 1, by omega⟩
    obtain ⟨g3, hg3, hrec⟩ := ih R ((filePaths x d.dir d.files).foldl setInsert seen) g2
      (fun y hy => hwf y (List.mem_cons_of_mem _ hy)) (by omega)
    refine ⟨g3, by omega, ?_⟩
    have e : d.dir ++ 0 :: (encodeFiles d.files ++ [0]) ++ encodeDirs ds ++ R
        = d.dir ++ 0 :: (encodeFiles d.files ++ 0 :: (encodeDirs ds ++ R)) := by
      simp only [List.append_assoc, List.cons_append, List.nil_append]
    rw [e, vstep_dir x d.dir _ seen g h0 hne hsp, hrun, vstep_file_end, hrec]
    simp only [dirPaths, foldl_setInsert_append]

theorem exts_run : ∀ (es : List TreeExt) (R : Bytes) (seen : List Bytes)
    (fuel : Nat), (∀ x ∈ es, x.WF) → (encodeExts es).length ≤ fuel →
    ∃ fuel', fuel ≤ fuel' + (encodeExts es).length
      ∧ validateLoop fuel .ext (encodeExts es ++ R) seen
        = validateLoop fuel' .ext R ((treePaths es).foldl setInsert seen) := by
  intro es
  induction es with
  | nil => intro R seen fuel _ _; exact ⟨fuel, by simp [encodeExts], rfl⟩
  | cons x es ih =>
    intro R seen fuel hwf hfuel
    obtain ⟨hne, h0, hds⟩ := hwf x (List.mem_cons_self _ _)
    simp only [encodeExts, TreeExt.encode, List.length_append, List.length_cons,
      List.length_nil] at hfuel ⊢
    obtain ⟨g, rfl⟩ : ∃ g, fuel = g + 1 := ⟨fuel - 1, by omega⟩
    obtain ⟨g1, hg1, hrun⟩ := dirs_run x.ext x.dirs (0 :: (encodeExts es ++ R)) seen g hds
      (by omega)
    obtain ⟨g2, rfl⟩ : ∃ g2, g1 = g2 + 1 := ⟨g1 - 1, by omega⟩
    obtain ⟨g3, hg3, hrec⟩ := ih R ((dirPaths x.ext x.dirs).foldl setInsert seen) g2
      (fun y hy => hwf y (List.mem_cons_of_mem _ hy)) (by omega)
    refine ⟨g3, by omega, ?_⟩
    have e : x.ext ++ 0 :: (encodeDirs x.dirs ++ [0]) ++ encodeExts es ++ R
        = x.ext ++ 0 :: (encodeDirs x.dirs ++ 0 :: (encodeExts es ++ R)) := by
      simp only [List.append_assoc, List.cons_append, List.nil_append]
    rw [e, vstep_ext x.ext _ seen g h0 hne, hrun, vstep_dir_end, hrec]
    simp only [treePaths, foldl_setInsert_append]

theorem tree_accepted (es : List TreeExt) (rest : Bytes) (fuel : Nat)
    (hwf : ∀ x ∈ es, x.WF) (hfuel : (encodeTree es).length ≤ fuel) :
    validateLoop fuel .ext (encodeTree es ++ rest) []
      = .ret (some ((treePaths es).foldl setInsert [])) := by
  simp only [encodeTree, List.length_append, List.length_cons, List.length_nil] at hfuel
  obtain ⟨g, hg, hrun⟩ := exts_run es (0 :: rest) [] fuel hwf (by omega)
  obtain ⟨g2, rfl⟩ : ∃ g2, g = g2 + 1 := ⟨g - 1, by omega⟩
  have e : encodeTree es ++ rest = encodeExts es ++ 0 :: rest := by
    simp only [encodeTree, List.append_assoc, List.cons_append, List.nil_append]
  rw [e, hrun, vstep_ext_end]

theorem tree_parsed : ∀ fuel : Nat,
    (∀ (r : Bytes) (seen s : List Bytes), (∀ b ∈ r, b < 256) →
      validateLoop fuel .ext r seen = .ret (some s) →
      ∃ (es : List TreeExt) (rest : Bytes), (∀ x ∈ es, x.WF)
        ∧ r = encodeExts es ++ 0 :: rest
        ∧ s = (treePaths es).foldl setInsert seen)
    ∧ (∀ (x r : Bytes) (seen s : List Bytes), (∀ b ∈ r, b < 256) →
      validateLoop fuel (.dir x) r seen = .ret (some s) →
      ∃ (ds : List TreeDir) (es : List TreeExt) (rest : Bytes),
        (∀ d ∈ ds, d.WF) ∧ (∀ y ∈ es, y.WF)
        ∧ r = encodeDirs ds ++ 0 :: (encodeExts es ++ 0 :: rest)
        ∧ s = (treePaths es).foldl setInsert ((dirPaths x ds).foldl setInsert seen))
    ∧ (∀ (x d r : Bytes) (seen s : List Bytes), (∀ b ∈ r, b < 256) →
      validateLoop fuel (.file x d) r seen = .ret (some s) →
      ∃ (fs : List TreeFile) (ds : List TreeDir) (es : List TreeExt) (rest : Bytes),
        (∀ f ∈ fs, f.WF) ∧ (∀ e ∈ ds, e.WF) ∧ (∀ y ∈ es, y.WF)
        ∧ r = encodeFiles fs ++ 0 :: (encodeDirs ds ++ 0 :: (encodeExts es ++ 0 :: rest))
        ∧ s = (treePaths es).foldl setInsert ((dirPaths x ds).foldl setInsert
            ((filePaths x d fs).foldl setInsert seen))) := by
  intro fuel
  induction fuel with
  | zero =>
    refine ⟨?_, ?_, ?_⟩
    · intro r seen s _ h; simp [validateLoop] at h
    · intro x r seen s _ h; simp [validateLoop] at h
    · intro x d r seen s _ h; simp [validateLoop] at h
  | succ fuel ih =>
    obtain ⟨ihe, ihd, ihf⟩ := ih
    refine ⟨?_, ?_, ?_⟩
    · intro r seen s hb h
      simp only [validateLoop] at h
      cases hc : readCString r with
      | none => rw [hc] at h; simp at h
      | some p =>
        obtain ⟨x, r1⟩ := p
        rw [hc] at h
        simp only at h
        obtain ⟨er, h0⟩ := readCString_inv r x r1 hc
        have hb1 : ∀ b ∈ r1, b < 256 := fun b hm =>
          hb b (by rw [er]; exact List.mem_append_right _ (List.mem_cons_of_mem _ hm))
        by_cases hx : x = []
        · rw [hx] at h er
          simp only [List.isEmpty_nil, if_true, Loop.ret.injEq, Option.some.injEq] at h
          exact ⟨[], r1, by simp, by simpa [encodeExts] using er, by rw [← h]; rfl⟩
        · have hx2 : x.isEmpty = false := by
            cases x with
            | nil => exact absurd rfl hx
            | cons _ _ => rfl
          rw [hx2] at h
          simp only [Bool.false_eq_true, if_false] at h
          obtain ⟨ds, es, rest, hds, hes, e1, e2⟩ := ihd x r1 seen s hb1 h
          refine ⟨⟨x, ds⟩ :: es, rest, ?_, ?_, ?_⟩
          · intro y hy
            rcases List.mem_cons.1 hy with hy | hy
            · rw [hy]; exact ⟨hx, h0, hds⟩
            · exact hes y hy
          · rw [er, e1]
            simp only [encodeExts, TreeExt.encode, List.append_assoc, List.cons_append,
              List.nil_append]
          · rw [e2]
            simp only [treePaths, foldl_setInsert_append]
    · intro x r seen s hb h
      simp only [validateLoop] at h
      cases hc : readCString r with
      | none => rw [hc] at h; simp at h
      | some p =>
        obtain ⟨d, r1⟩ := p
        rw [hc] at h
        simp only at h
        obtain ⟨er, h0⟩ := readCString_inv r d r1 hc
        have hb1 : ∀ b ∈ r1, b < 256 := fun b hm =>
          hb b (by rw [er]; exact List.mem_append_right _ (List.mem_cons_of_mem _ hm))
        by_cases hd : d = []
        · rw [hd] at h er
          simp only [List.isEmpty_nil, if_true] at h
          obtain ⟨es, rest, hes, e1, e2⟩ := ihe r1 seen s hb1 h
          refine ⟨[], es, rest, by simp, hes, ?_, ?_⟩
          · rw [er, e1]
            simp [encodeDirs]
          · rw [e2]
            rfl
        · have hd2 : d.isEmpty = false := by
            cases d with
            | nil => exact absurd rfl hd
            | cons _ _ => rfl
          rw [hd2] at h
          simp only [Bool.false_eq_true, if_false] at h
          by_cases hsp : d.head? = some 32 ∧ d ≠ [32]
          · rw [if_pos hsp] at h
            simp at h
          rw [if_neg hsp] at h
          obtain ⟨fs, ds, es, rest, hfs, hds, hes, e1, e2⟩ := ihf x d r1 seen s hb1 h
          refine ⟨⟨d, fs⟩ :: ds, es, rest, ?_, hes, ?_, ?_⟩
          · intro y hy
            rcases List.mem_cons.1 hy with hy | hy
            · rw [hy]; exact ⟨hd, h0, hsp, hfs⟩
            · exact hds y hy
          · rw [er, e1]
            simp only [encodeDirs, TreeDir.encode, List.append_assoc, List.cons_append,
              List.nil_append]
          · rw [e2]
            simp only [dirPaths, foldl_setInsert_append]
    · intro x d r seen s hb h
      cases hc : readCString r with
      | none => simp only [validateLoop, hc] at h; simp at h
      | some p =>
        obtain ⟨name, r1⟩ := p
        obtain ⟨er, h0⟩ := readCString_inv r name r1 hc
        have hb1 : ∀ b ∈ r1, b < 256 := fun b hm =>
          hb b (by rw [er]; exact List.mem_append_right _ (List.mem_cons_of_mem _ hm))
        by_cases hn : name = []
        · rw [hn] at er
          rw [er] at h
          simp only [List.nil_append] at h
          rw [vstep_file_end] at h
          obtain ⟨ds, es, rest, hds, hes, e1, e2⟩ := ihd x r1 seen s hb1 h
          refine ⟨[], ds, es, rest, by simp, hds, hes, ?_, ?_⟩
          · rw [er, e1]
            simp [encodeFiles]
          · rw [e2]
            rfl
        · rw [er, vfile_step fuel x d name r1 seen h0 hn] at h
          by_cases h8 : r1.length < 8
          · rw [if_pos h8] at h
            simp at h
          rw [if_neg h8] at h
          cases hp : validateParts fuel (r1.drop 8) with
          | more => rw [hp] at h; simp at h
          | ret res =>
            cases res with
            | none => rw [hp] at h; simp at h
            | some r5 =>
              rw [hp] at h
              simp only at h
              obtain ⟨recs, hrne, hrl, erec⟩ := records_parsed fuel (r1.drop 8) r5
                (fun b hm => hb1 b (List.mem_of_mem_drop hm)) hp
              have hb5 : ∀ b ∈ r5, b < 256 := fun b hm =>
                hb1 b (List.mem_of_mem_drop (by
                  rw [erec]; exact List.mem_append_right _ hm))
              obtain ⟨fs, ds, es, rest, hfs, hds, hes, e1, e2⟩ := ihf x d r5 _ s hb5 h
              refine ⟨⟨name, r1.take 8, recs⟩ :: fs, ds, es, rest, ?_, hds, hes, ?_, ?_⟩
              · intro y hy
                rcases List.mem_cons.1 hy with hy | hy
                · rw [hy]
                  exact ⟨hn, h0, by rw [List.length_take]; omega, hrne, hrl⟩
                · exact hfs y hy
              · have e3 : r1 = r1.take 8 ++ r1.drop 8 := (List.take_append_drop 8 r1).symm
                rw [er]
                nth_rewrite 1 [e3]
                rw [erec, e1]
                simp only [encodeFiles, TreeFile.encode, List.append_assoc, List.cons_append,
                  List.nil_append]
              · rw [e2]
                simp only [filePaths, List.map_cons, List.foldl_cons]

theorem record_rule (fuel : Nat) (r : Bytes) (m0 m1 : Nat) (X : Bytes) (hr : r.length = 30)
    (h0 : m0 < 256) (h1 : m1 < 256) :
    validateParts (fuel + 1) (r ++ m0 :: m1 :: X)
      = if m0 = 255 ∧ m1 = 255 then .ret (some X)
        else if ¬ (m0 = 0 ∧ m1 = 0) then .ret none
        else validateParts fuel X := by
  rw [record_step fuel r m0 m1 X hr, marker_value m0 m1 h0 h1]
  by_cases he : m0 = 255 ∧ m1 = 255
  · rw [if_pos he, if_pos (by omega)]
  · rw [if_neg he, if_neg (by omega)]
    by_cases hc : m0 = 0 ∧ m1 = 0
    · rw [if_neg (by omega), if_neg (not_not.2 hc)]
    · rw [if_pos (by omega), if_pos hc]

theorem continuedRecords_length (recs : List Bytes) (h : ∀ r ∈ recs, r.length = 30) :
    (continuedRecords recs).length = 32 * recs.length := by
  induction recs with
  | nil => rfl
  | cons r rs ih =>
    have hr := h r (List.mem_cons_self _ _)
    have := ih (fun x hx => h x (List.mem_cons_of_mem _ hx))
    simp only [continuedRecords, List.length_append, List.length_cons, hr, this]
    omega

theorem records_rejected : ∀ (recs : List Bytes) (fields : Bytes) (m0 m1 : Nat) (rest : Bytes)
    (fuel : Nat), (∀ r ∈ recs, r.length = 30) → fields.length = 30 → m0 < 256 → m1 < 256 →
    ¬ (m0 = 255 ∧ m1 = 255) → ¬ (m0 = 0 ∧ m1 = 0) → recs.length < fuel →
    validateParts fuel (continuedRecords recs ++ (fields ++ m0 :: m1 :: rest)) = .ret none := by
  intro recs
  induction recs with
  | nil =>
    intro fields m0 m1 rest fuel _ hf h0 h1 he hc hfuel
    obtain ⟨g, rfl⟩ : ∃ g, fuel = g + 1 := ⟨fuel - 1, by simp at hfuel; omega⟩
    simp only [continuedRecords, List.nil_append]
    rw [record_rule g fields m0 m1 rest hf h0 h1, if_neg he, if_pos hc]
  | cons r rs ih =>
    intro fields m0 m1 rest fuel hl hf h0 h1 he hc hfuel
    obtain ⟨g, rfl⟩ : ∃ g, fuel = g + 1 :=
      ⟨fuel - 1, by simp only [List.length_cons] at hfuel; omega⟩
    simp only [continuedRecords, List.append_assoc, List.cons_append]
    rw [record_rule g r 0 0 _ (hl r (List.mem_cons_self _ _)) (by omega) (by omega),
      if_neg (by omega), if_neg (by simp)]
    exact ih fields m0 m1 rest g (fun x hx => hl x (List.mem_cons_of_mem _ hx)) hf h0 h1 he hc
      (by simp only [List.length_cons] at hfuel; omega)

theorem tree_rejected (es : List TreeExt) (x : Bytes) (ds : List TreeDir) (d : Bytes)
    (fs : List TreeFile) (name header : Bytes) (recs : List Bytes) (fields : Bytes)
    (m0 m1 : Nat) (rest : Bytes) (fuel : Nat)
    (hes : ∀ y ∈ es, y.WF) (hx : (⟨x, ds⟩ : TreeExt).WF) (hd : (⟨d, fs⟩ : TreeDir).WF)
    (hf : (⟨name, header, fields :: recs⟩ : TreeFile).WF)
    (h0 : m0 < 256) (h1 : m1 < 256) (he : ¬ (m0 = 255 ∧ m1 = 255)) (hc : ¬ (m0 = 0 ∧ m1 = 0))
    (hfuel : (encodeExts es ++ (x ++ 0 :: (encodeDirs ds ++ (d ++ 0 :: (encodeFiles fs
      ++ (name ++ 0 :: (header ++ (continuedRecords recs
        ++ (fields ++ m0 :: m1 :: rest))))))))).length < fuel) :
    validateLoop fuel .ext
      (encodeExts es ++ (x ++ 0 :: (encodeDirs ds ++ (d ++ 0 :: (encodeFiles fs
        ++ (name ++ 0 :: (header ++ (continuedRecords recs
          ++ (fields ++ m0 :: m1 :: rest))))))))) [] = .ret none := by
  obtain ⟨hxne, hx0, hds⟩ := hx
  obtain ⟨hdne, hd0, hsp, hfs⟩ := hd
  obtain ⟨hnne, hn0, hh, -, hrl⟩ := hf
  have hh : header.length = 8 := hh
  have hnne : name ≠ [] := hnne
  have hn0 : 0 ∉ name := hn0
  have hxne : x ≠ [] := hxne
  have hx0 : 0 ∉ x := hx0
  have hdne : d ≠ [] := hdne
  have hd0 : 0 ∉ d := hd0
  have hsp : ¬ (d.head? = some 32 ∧ d ≠ [32]) := hsp
  have hrecs : ∀ r ∈ recs, r.length = 30 := fun r hr => hrl r (List.mem_cons_of_mem _ hr)
  have hfl : fields.length = 30 := hrl fields (List.mem_cons_self _ _)
  have hcl := continuedRecords_length recs hrecs
  simp only [List.length_append, List.length_cons, hh, hcl, hfl] at hfuel
  obtain ⟨g1, hg1, r1⟩ := exts_run es (x ++ 0 :: (encodeDirs ds ++ (d ++ 0 :: (encodeFiles fs
    ++ (name ++ 0 :: (header ++ (continuedRecords recs
      ++ (fields ++ m0 :: m1 :: rest)))))))) [] fuel hes (by omega)
  obtain ⟨g2, rfl⟩ : ∃ g2, g1 = g2 + 1 := ⟨g1 - 1, by omega⟩
  rw [r1, vstep_ext x _ _ g2 hx0 hxne]
  obtain ⟨g3, hg3, r3⟩ := dirs_run x ds (d ++ 0 :: (encodeFiles fs
    ++ (name ++ 0 :: (header ++ (continuedRecords recs
      ++ (fields ++ m0 :: m1 :: rest)))))) ((treePaths es).foldl setInsert []) g2 hds
    (by omega)
  obtain ⟨g4, rfl⟩ : ∃ g4, g3 = g4 + 1 := ⟨g3 - 1, by omega⟩
  rw [r3, vstep_dir x d _ _ g4 hd0 hdne hsp]
  obtain ⟨g5, hg5, r5⟩ := files_run x d fs (name ++ 0 :: (header ++ (continuedRecords recs
      ++ (fields ++ m0 :: m1 :: rest)))) _ g4 hfs (by omega)
  obtain ⟨g6, rfl⟩ : ∃ g6, g5 = g6 + 1 := ⟨g5 - 1, by omega⟩
  rw [r5, vfile_step g6 x d name _ _ hn0 hnne,
    if_neg (by simp only [List.length_append, hh]; omega)]
  have hdrop : (header ++ (continuedRecords recs ++ (fields ++ m0 :: m1 :: rest))).drop 8
      = continuedRecords recs ++ (fields ++ m0 :: m1 :: rest) := by
    rw [List.drop_append_eq_append_drop, List.drop_of_length_le (by omega), hh]
    rfl
  rw [hdrop, records_rejected recs fields m0 m1 rest g6 hrecs hfl h0 h1 he hc (by omega)]

/-- C27: the loops of `validateDirTreeAgainstInput` always return, and on a buffer of bytes
the function returns true exactly when the buffer starts with a well-formed tree of its
grammar (extension blocks of directory blocks of entries, every string closed by its NUL
inside the buffer, every entry with its 8 header bytes and at least one 32-byte chunk
record, no directory string that begins with a space other than the one-space string, the
marker 0xFFFF behind the last record of an entry and 0x0000 behind the others, the closing
zero bytes) and the paths reconstructed from that tree have the same members as the paths of
the input entries. -/
theorem validateDirTreeAgainstInput_grammar (dirTree : Bytes) (entries : List DirEntry)
    (hbytes : ∀ b ∈ dirTree, b < 256) :
    (∃ res, validateLoop (dirTree.length + 1) .ext dirTree [] = .ret res)
    ∧ (validateDirTreeAgainstInput dirTree entries = true ↔
        ∃ (exts : List TreeExt) (rest : Bytes), (∀ x ∈ exts, x.WF)
          ∧ dirTree = encodeTree exts ++ rest
          ∧ ∀ p, p ∈ treePaths exts ↔ ∃ e ∈ entries, e.path = p) := by
  refine ⟨validateLoop_fuel dirTree, ?_⟩
  rw [(validate_iff_seen dirTree entries).2]
  constructor
  · rintro ⟨seen, hv, hp⟩
    obtain ⟨es, rest, hwf, er, es2⟩ := (tree_parsed (dirTree.length + 1)).1 dirTree [] seen
      hbytes hv
    refine ⟨es, rest, hwf, ?_, ?_⟩
    · rw [er]
      simp only [encodeTree, List.append_assoc, List.cons_append, List.nil_append]
    · intro p
      rw [← hp p, es2, foldl_setInsert_mem]
      simp
  · rintro ⟨es, rest, hwf, er, hp⟩
    have hacc := tree_accepted es rest (dirTree.length + 1) hwf (by
      rw [er]
      simp only [List.length_append]
      omega)
    rw [← er] at hacc
    refine ⟨_, hacc, ?_⟩
    intro p
    rw [← hp p, foldl_setInsert_mem]
    simp

/-- C27 (witness): the tree written for the two-chunk entry `a.txt` is accepted for this
entry, and it is a well-formed tree of the grammar whose paths are the entry's path. -/
theorem validateDirTreeAgainstInput_grammar_witness :
    (∀ b ∈ buildDirTree [twoPartEntry] 999, b < 256)
    ∧ validateDirTreeAgainstInput (buildDirTree [twoPartEntry] 999) [twoPartEntry] = true
    ∧ ∃ (exts : List TreeExt) (rest : Bytes), (∀ x ∈ exts, x.WF)
        ∧ buildDirTree [twoPartEntry] 999 = encodeTree exts ++ rest
        ∧ ∀ p, p ∈ treePaths exts ↔ ∃ e ∈ [twoPartEntry], e.path = p :=
  ⟨by decide, by decide,
    (validateDirTreeAgainstInput_grammar (buildDirTree [twoPartEntry] 999) [twoPartEntry]
      (by decide)).2.1 (by decide)⟩

/-- C28 (amended): when the validator reads the marker of a chunk record (two bytes `m0`,
`m1`) it ends the entry at 0xFFFF, reads the next record at 0x0000 and returns false at any
other value. So every tree that is well formed up to a chunk record and has a marker other
than 0xFFFF and 0x0000 behind it is rejected, whatever follows and whatever the input entries
are; and the records of an entry that are separated by 0x0000 and closed by 0xFFFF are read
to the end. -/
theorem validateDirTreeAgainstInput_marker_rule (es : List TreeExt) (x : Bytes)
    (ds : List TreeDir) (d : Bytes) (fs : List TreeFile) (name header : Bytes)
    (recs : List Bytes) (fields : Bytes) (m0 m1 : Nat) (rest : Bytes)
    (entries : List DirEntry)
    (hes : ∀ y ∈ es, y.WF) (hx : (⟨x, ds⟩ : TreeExt).WF) (hd : (⟨d, fs⟩ : TreeDir).WF)
    (hf : (⟨name, header, fields :: recs⟩ : TreeFile).WF)
    (h0 : m0 < 256) (h1 : m1 < 256) (he : ¬ (m0 = 255 ∧ m1 = 255)) (hc : ¬ (m0 = 0 ∧ m1 = 0)) :
    validateDirTreeAgainstInput
        (treeUpToMarker es x ds d fs name header recs fields ++ m0 :: m1 :: rest) entries
      = false
    ∧ (∀ (fuel : Nat) (r : Bytes) (a b : Nat) (X : Bytes), r.length = 30 → a < 256 →
        b < 256 →
        validateParts (fuel + 1) (r ++ a :: b :: X)
          = if a = 255 ∧ b = 255 then .ret (some X)
            else if ¬ (a = 0 ∧ b = 0) then .ret none
            else validateParts fuel X)
    ∧ (∀ (rs : List Bytes) (fuel : Nat) (R : Bytes), rs ≠ [] → (∀ r ∈ rs, r.length = 30) →
        rs.length ≤ fuel → validateParts fuel (encodeRecords rs ++ R) = .ret (some R)) := by
  refine ⟨?_, fun fuel r a b X hr ha hb => record_rule fuel r a b X hr ha hb,
    fun rs fuel R h1 h2 h3 => records_accepted rs fuel R h1 h2 h3⟩
  apply validate_of_none
  have e : treeUpToMarker es x ds d fs name header recs fields ++ m0 :: m1 :: rest
      = encodeExts es ++ (x ++ 0 :: (encodeDirs ds ++ (d ++ 0 :: (encodeFiles fs
        ++ (name ++ 0 :: (header ++ (continuedRecords recs
          ++ (fields ++ m0 :: m1 :: rest)))))))) := by
    simp only [treeUpToMarker, List.append_assoc, List.cons_append]
  rw [e]
  exact tree_rejected es x ds d fs name header recs fields m0 m1 rest _ hes hx hd hf h0 h1 he hc
    (by omega)

/-- C28 (witness): the tree of the entry `a.txt` whose second chunk record is followed by
the marker 0x0001 is rejected. -/
theorem validateDirTreeAgainstInput_marker_rule_witness :
    validateDirTreeAgainstInput
        (treeUpToMarker [] (bytesOf "txt") [] [32] [] (bytesOf "a") (leBytes 8 0)
            [leBytes 30 1] (leBytes 30 1) ++ 1 :: 0 :: [0, 0, 0]) [twoPartEntry]
      = false :=
  (validateDirTreeAgainstInput_marker_rule [] (bytesOf "txt") [] [32] [] (bytesOf "a")
    (leBytes 8 0) [leBytes 30 1] (leBytes 30 1) 1 0 [0, 0, 0] [twoPartEntry]
    (by decide) (by decide) (by decide) (by decide) (by decide) (by decide) (by decide)
    (by decide)).1

end respawn_vpk

/-! ## The manifest round trip for files of several chunks -/

namespace respawn_vpk

theorem buildPart_of_choice (bridge : Option CompressBridge) (options : PackOptions)
    (ext file : Bytes) (offset partLen : Nat) (v : ManifestEntry)
    (hl : v.loadFlags = (buildPart bridge options none ext file offset partLen).loadFlags)
    (ht : v.textureFlags = (buildPart bridge options none ext file offset partLen).textureFlags)
    (hc : (v.useCompression = true ∧ ¬ compressionExcluded ext = true)
          ∧ (lzhamCompress bridge ((file.drop offset).take partLen)).length
            < ((file.drop offset).take partLen).length
        ↔ (options.compressionThreshold ≤ partLen ∧ ¬ compressionExcluded ext = true)
          ∧ (lzhamCompress bridge ((file.drop offset).take partLen)).length
            < ((file.drop offset).take partLen).length) :
    buildPart bridge options (some v) ext file offset partLen
      = buildPart bridge options none ext file offset partLen := by
  simp only [buildPart] at hl ht ⊢
  rw [← hl, ← ht]
  by_cases h1 : (options.compressionThreshold ≤ partLen ∧ ¬ compressionExcluded ext = true)
      ∧ (lzhamCompress bridge (List.take partLen (List.drop offset file))).length
        < (List.take partLen (List.drop offset file)).length
  · have h2 := hc.2 h1
    have h1' : decide (options.compressionThreshold ≤ partLen
        ∧ ¬ compressionExcluded ext = true) = true
        ∧ (lzhamCompress bridge (List.take partLen (List.drop offset file))).length
          < (List.take partLen (List.drop offset file)).length :=
      ⟨by rw [decide_eq_true_eq]; exact h1.1, h1.2⟩
    have h2' : decide (v.useCompression = true ∧ ¬ compressionExcluded ext = true) = true
        ∧ (lzhamCompress bridge (List.take partLen (List.drop offset file))).length
          < (List.take partLen (List.drop offset file)).length :=
      ⟨by rw [decide_eq_true_eq]; exact h2.1, h2.2⟩
    simp only [if_pos h1', if_pos h2']
  · have h2 : ¬ ((v.useCompression = true ∧ ¬ compressionExcluded ext = true)
        ∧ (lzhamCompress bridge (List.take partLen (List.drop offset file))).length
          < (List.take partLen (List.drop offset file)).length) := fun h => h1 (hc.1 h)
    have h1' : ¬ (decide (options.compressionThreshold ≤ partLen
        ∧ ¬ compressionExcluded ext = true) = true
        ∧ (lzhamCompress bridge (List.take partLen (List.drop offset file))).length
          < (List.take partLen (List.drop offset file)).length) := by
      rw [decide_eq_true_eq]; exact h1
    have h2' : ¬ (decide (v.useCompression = true ∧ ¬ compressionExcluded ext = true) = true
        ∧ (lzhamCompress bridge (List.take partLen (List.drop offset file))).length
          < (List.take partLen (List.drop offset file)).length) := by
      rw [decide_eq_true_eq]; exact h2
    simp only [if_neg h1', if_neg h2']

theorem buildPart_stored_iff (bridge : Option CompressBridge) (options : PackOptions)
    (ext file : Bytes) (offset partLen : Nat)
    (hlen : ((file.drop offset).take partLen).length = partLen) :
    (buildPart bridge options none ext file offset partLen).entryLength
        ≠ (buildPart bridge options none ext file offset partLen).entryLengthUncompressed
      ↔ (options.compressionThreshold ≤ partLen ∧ ¬ compressionExcluded ext = true)
        ∧ (lzhamCompress bridge ((file.drop offset).take partLen)).length
          < ((file.drop offset).take partLen).length := by
  simp only [buildPart]
  by_cases h1 : decide (options.compressionThreshold ≤ partLen
        ∧ ¬ compressionExcluded ext = true) = true
        ∧ (lzhamCompress bridge (List.take partLen (List.drop offset file))).length
          < (List.take partLen (List.drop offset file)).length
  · simp only [if_pos h1]
    have := h1.1
    rw [decide_eq_true_eq] at this
    constructor
    · intro _; exact ⟨this, h1.2⟩
    · intro _; omega
  · simp only [if_neg h1]
    constructor
    · intro h; exact absurd hlen h
    · intro h
      exact absurd ⟨by rw [decide_eq_true_eq]; exact h.1, h.2⟩ h1

theorem buildParts_done (bridge : Option CompressBridge) (options : PackOptions)
    (v1 v2 : Option ManifestEntry) (ext file : Bytes) (fuel offset : Nat)
    (h : ¬ offset < file.length) :
    buildParts bridge options v1 ext file fuel offset
      = buildParts bridge options v2 ext file fuel offset := by
  cases fuel with
  | zero => rfl
  | succ fuel =>
    unfold buildParts
    rw [if_neg h, if_neg h]

theorem buildParts_of_parts (bridge : Option CompressBridge) (options : PackOptions)
    (v : ManifestEntry) (ext file : Bytes)
    (H : ∀ j, j * options.maxPartSize < file.length →
      buildPart bridge options (some v) ext file (j * options.maxPartSize)
          (min options.maxPartSize (file.length - j * options.maxPartSize))
        = buildPart bridge options none ext file (j * options.maxPartSize)
          (min options.maxPartSize (file.length - j * options.maxPartSize))) :
    ∀ fuel i, buildParts bridge options (some v) ext file fuel (i * options.maxPartSize)
      = buildParts bridge options none ext file fuel (i * options.maxPartSize) := by
  intro fuel
  induction fuel with
  | zero => intro i; rfl
  | succ fuel ih =>
    intro i
    by_cases hlt : i * options.maxPartSize < file.length
    · unfold buildParts
      rw [if_pos hlt, if_pos hlt]
      simp only
      rw [H i hlt]
      by_cases hfull : options.maxPartSize ≤ file.length - i * options.maxPartSize
      · have e : i * options.maxPartSize
            + min options.maxPartSize (file.length - i * options.maxPartSize)
            = (i + 1) * options.maxPartSize := by
          rw [Nat.min_eq_left hfull, Nat.succ_mul]
        rw [e, ih (i + 1)]
      · have e : i * options.maxPartSize
            + min options.maxPartSize (file.length - i * options.maxPartSize)
            = file.length := by
          rw [Nat.min_eq_right (by omega)]
          omega
        rw [e, buildParts_done bridge options (some v) none ext file fuel file.length
          (by omega)]
    · exact buildParts_done _ _ _ _ _ _ _ _ hlt

theorem buildPart_flags (bridge : Option CompressBridge) (options : PackOptions)
    (ext file : Bytes) (o l o2 l2 : Nat) :
    (buildPart bridge options none ext file o l).loadFlags
        = (buildPart bridge options none ext file o2 l2).loadFlags
    ∧ (buildPart bridge options none ext file o l).textureFlags
        = (buildPart bridge options none ext file o2 l2).textureFlags := by
  simp only [buildPart, and_self]

theorem excluded_of_wav (ext : Bytes) (h : ext = [119, 97, 118]) :
    compressionExcluded ext = true := by
  rw [h]
  decide

theorem buildDirEntryFromFile_same_choice (bridge : Option CompressBridge)
    (rel contents : Bytes) (options : PackOptions) (m : Manifest) (e : DirEntry)
    (cam : Option CamEntry) (hsame : SameCompressionChoice bridge options rel contents)
    (h : buildDirEntryFromFile bridge rel contents options none = some (e, cam))
    (hm : m rel = some (manifestItemOf e).values) :
    buildDirEntryFromFile bridge rel contents options (some m) = some (e, cam) := by
  simp only [buildDirEntryFromFile, decide_eq_true_eq] at h
  cases hbp : buildParts bridge options none (getExtensionLower rel)
      (if getExtensionLower rel = [119, 97, 118] then stripWavHeaderInPlace contents
        else contents)
      ((if getExtensionLower rel = [119, 97, 118] then stripWavHeaderInPlace contents
        else contents).length + 1) 0 with
  | none => rw [hbp] at h; simp at h
  | some parts =>
    rw [hbp] at h
    simp only [Option.some.injEq, Prod.mk.injEq] at h
    obtain ⟨he, hcam⟩ := h
    have hparts : e.parts = parts := by rw [← he]
    have hpre : e.preloadBytes = 0 := by rw [← he]
    have hvpre : (manifestItemOf e).values.preloadSize = 0 := by
      simp only [manifestItemOf, hpre]
      cases e.parts.head? <;> rfl
    have H : ∀ j, j * options.maxPartSize
          < (if getExtensionLower rel = [119, 97, 118] then stripWavHeaderInPlace contents
              else contents).length →
        buildPart bridge options (some (manifestItemOf e).values) (getExtensionLower rel)
            (if getExtensionLower rel = [119, 97, 118] then stripWavHeaderInPlace contents
              else contents) (j * options.maxPartSize)
            (min options.maxPartSize
              ((if getExtensionLower rel = [119, 97, 118] then stripWavHeaderInPlace contents
                else contents).length - j * options.maxPartSize))
          = buildPart bridge options none (getExtensionLower rel)
            (if getExtensionLower rel = [119, 97, 118] then stripWavHeaderInPlace contents
              else contents) (j * options.maxPartSize)
            (min options.maxPartSize
              ((if getExtensionLower rel = [119, 97, 118] then stripWavHeaderInPlace contents
                else contents).length - j * options.maxPartSize)) := by
      intro j hj
      have hpos : 0 < (if getExtensionLower rel = [119, 97, 118]
          then stripWavHeaderInPlace contents else contents).length := by omega
      have hhead : parts.head? = some (buildPart bridge options none (getExtensionLower rel)
          (if getExtensionLower rel = [119, 97, 118] then stripWavHeaderInPlace contents
            else contents) 0
          (min options.maxPartSize
            ((if getExtensionLower rel = [119, 97, 118] then stripWavHeaderInPlace contents
              else contents).length - 0))) := by
        unfold buildParts at hbp
        rw [if_pos hpos] at hbp
        simp only at hbp
        split at hbp
        · simp at hbp
        · simp only [Option.some.injEq] at hbp
          rw [← hbp]
          rfl
      have hv : (manifestItemOf e).values
          = { preloadSize := 0
              loadFlags := (buildPart bridge options none (getExtensionLower rel)
                (if getExtensionLower rel = [119, 97, 118] then stripWavHeaderInPlace contents
                  else contents) 0
                (min options.maxPartSize
                  ((if getExtensionLower rel = [119, 97, 118]
                    then stripWavHeaderInPlace contents else contents).length - 0))).loadFlags
              textureFlags := (buildPart bridge options none (getExtensionLower rel)
                (if getExtensionLower rel = [119, 97, 118] then stripWavHeaderInPlace contents
                  else contents) 0
                (min options.maxPartSize
                  ((if getExtensionLower rel = [119, 97, 118]
                    then stripWavHeaderInPlace contents
                    else contents).length - 0))).textureFlags
              useCompression := decide ((buildPart bridge options none (getExtensionLower rel)
                (if getExtensionLower rel = [119, 97, 118] then stripWavHeaderInPlace contents
                  else contents) 0
                (min options.maxPartSize
                  ((if getExtensionLower rel = [119, 97, 118]
                    then stripWavHeaderInPlace contents
                    else contents).length - 0))).entryLength
                ≠ (buildPart bridge options none (getExtensionLower rel)
                (if getExtensionLower rel = [119, 97, 118] then stripWavHeaderInPlace contents
                  else contents) 0
                (min options.maxPartSize
                  ((if getExtensionLower rel = [119, 97, 118]
                    then stripWavHeaderInPlace contents
                    else contents).length - 0))).entryLengthUncompressed)
              deDuplicate := true } := by
        simp only [manifestItemOf, hparts, hpre, hhead]
      apply buildPart_of_choice
      · rw [hv]
        simp only [buildPart]
      · rw [hv]
        simp only [buildPart]
      · by_cases hx : compressionExcluded (getExtensionLower rel) = true
        · constructor
          · intro hh; exact absurd hx hh.1.2
          · intro hh; exact absurd hx hh.1.2
        · have hnw : ¬ getExtensionLower rel = [119, 97, 118] :=
            fun hw => hx (excluded_of_wav _ hw)
          simp only [if_neg hnw] at hj hpos hv ⊢
          have hu : (manifestItemOf e).values.useCompression = true
              ↔ (options.compressionThreshold ≤ (chunkSpan options contents 0).length
                ∧ chunkShrinks bridge options contents 0) := by
            rw [hv]
            simp only [decide_eq_true_eq]
            rw [buildPart_stored_iff _ _ _ _ _ _ (by
              rw [List.length_take, List.length_drop]; omega)]
            simp only [chunkSpan, chunkShrinks, Nat.zero_mul, List.length_take,
              List.length_drop, Nat.sub_zero, Nat.min_self, hx, not_false_eq_true, and_true,
              Nat.min_assoc]
            simp
          obtain ⟨j', hj', hjlt⟩ : ∃ j', j' * options.maxPartSize = j * options.maxPartSize
              ∧ j' < contents.length := by
            by_cases hm0 : options.maxPartSize = 0
            · exact ⟨0, by rw [hm0]; simp, hpos⟩
            · refine ⟨j, rfl, ?_⟩
              have : j ≤ j * options.maxPartSize :=
                Nat.le_mul_of_pos_right j (Nat.pos_of_ne_zero hm0)
              omega
          rw [← hj'] at hj ⊢
          have hcs := hsame (by simpa using hx) j' hjlt hj
          have hlen : (chunkSpan options contents j').length
              = min options.maxPartSize (contents.length - j' * options.maxPartSize) := by
            simp only [chunkSpan, List.length_take, List.length_drop, Nat.min_assoc,
              Nat.min_self]
          constructor
          · rintro ⟨⟨hu1, -⟩, hs⟩
            refine ⟨⟨?_, hx⟩, hs⟩
            rw [← hlen]
            exact (hcs hs).2 (hu.1 hu1)
          · rintro ⟨⟨ht1, -⟩, hs⟩
            refine ⟨⟨?_, hx⟩, hs⟩
            rw [← hlen] at ht1
            exact hu.2 ((hcs hs).1 ht1)
    have hbp2 := buildParts_of_parts bridge options (manifestItemOf e).values
      (getExtensionLower rel)
      (if getExtensionLower rel = [119, 97, 118] then stripWavHeaderInPlace contents
        else contents) H
      ((if getExtensionLower rel = [119, 97, 118] then stripWavHeaderInPlace contents
        else contents).length + 1) 0
    rw [Nat.zero_mul] at hbp2
    simp only [buildDirEntryFromFile, decide_eq_true_eq, hm, hbp2, hbp, Option.some.injEq,
      Prod.mk.injEq]
    refine ⟨?_, hcam⟩
    rw [hvpre]
    exact he

theorem manifestOfItems_lookup_values (norm : Bytes → Bytes) (items : List ManifestWriteItem)
    (it : ManifestWriteItem) (hmem : it ∈ items) (hne : norm it.path ≠ [])
    (hval : ∀ it' ∈ items, norm it'.path = norm it.path → it'.values = it.values) :
    manifestOfItems norm items it.path = some it.values := by
  unfold manifestOfItems
  simp only
  have hk : it ∈ (items.insertionSort (fun a b => ¬ b.path < a.path)).filter
      (fun it => ¬ (norm it.path).isEmpty) := by
    rw [List.mem_filter]
    refine ⟨(List.perm_insertionSort _ _).symm.subset hmem, ?_⟩
    simpa [List.isEmpty_iff] using hne
  cases hf : ((items.insertionSort (fun a b => ¬ b.path < a.path)).filter
      (fun it => ¬ (norm it.path).isEmpty)).find? (fun it' => norm it'.path = norm it.path) with
  | none =>
    rw [List.find?_eq_none] at hf
    exact absurd (by simp) (hf it hk)
  | some x =>
    have hx := List.find?_some hf
    have hxm := List.mem_of_find?_eq_some hf
    rw [List.mem_filter] at hxm
    have := hval x ((List.perm_insertionSort _ _).subset hxm.1) (by simpa using hx)
    rw [← this]
    rfl

theorem manifestOfItems_empty_key (norm : Bytes → Bytes) (items : List ManifestWriteItem)
    (p : Bytes) (h : norm p = []) : manifestOfItems norm items p = none := by
  unfold manifestOfItems
  simp only
  rw [Option.map_eq_none', List.find?_eq_none]
  intro x hx
  rw [List.mem_filter] at hx
  have h2 := hx.2
  simp only [List.isEmpty_iff, decide_not, Bool.not_eq_eq_eq_not, Bool.not_true,
    decide_eq_false_iff_not] at h2
  rw [h]
  simpa using h2

theorem buildDirEntryFromFile_no_values (bridge : Option CompressBridge)
    (rel contents : Bytes) (options : PackOptions) (m : Manifest) (h : m rel = none) :
    buildDirEntryFromFile bridge rel contents options (some m)
      = buildDirEntryFromFile bridge rel contents options none := by
  simp only [buildDirEntryFromFile, h]

/-- C25 (amended): take an input directory in which, for every file, the threshold test of
the part loop and the `useCompression` flag written to the manifest decide alike for every
chunk (`SameCompressionChoice`), and in which the manifest items of the first pack that share
a non-empty manifest key carry equal values (`norm` is `normalizeManifestPath`). If the pack
without a manifest succeeds, then the pack of the same input with the manifest made of the
items it wrote succeeds with the same output: dir archive, side archive, CAM file, manifest
items and entries. -/
theorem manifest_repack_roundtrip (bridge : Option CompressBridge)
    (files : List (Bytes × Bytes)) (options : PackOptions) (norm : Bytes → Bytes)
    (out1 : PackOutput)
    (hsame : ∀ f ∈ files, SameCompressionChoice bridge options f.1 f.2)
    (hkeys : ∀ a ∈ out1.manifestItems, ∀ b ∈ out1.manifestItems,
      norm a.path = norm b.path → norm a.path ≠ [] → a.values = b.values)
    (h1 : packDirectoryToRespawnVPK bridge files options none = some out1) :
    packDirectoryToRespawnVPK bridge files options
        (some (manifestOfItems norm out1.manifestItems)) = some out1 := by
  unfold packDirectoryToRespawnVPK at h1
  cases hb : buildAll bridge options none files with
  | none => rw [hb] at h1; simp at h1
  | some r =>
    obtain ⟨built, cams⟩ := r
    rw [hb] at h1
    simp only at h1
    by_cases hval : validateDirTreeAgainstInput
        (buildDirTree (sortEntries built) options.archiveIndex) (sortEntries built) = true
    swap
    · rw [if_pos hval] at h1
      simp at h1
    rw [if_neg (not_not.2 hval)] at h1
    simp only [Option.some.injEq] at h1
    obtain ⟨hfile, hentry⟩ := buildAll_mem bridge options none files built cams hb
    have hitems : out1.manifestItems = (sortEntries built).map manifestItemOf := by
      rw [← h1]
      simp only
      apply map_manifestItemOf_of_clear
      exact writeEntryList_fields none _ _
    have hsorted : ∀ e, e ∈ sortEntries built ↔ e ∈ built := fun e =>
      (sortEntries_perm built).mem_iff
    have hlook : ∀ f ∈ files, ∀ e cam,
        buildDirEntryFromFile bridge f.1 f.2 options none = some (e, cam) →
        norm f.1 ≠ [] →
        manifestOfItems norm out1.manifestItems f.1 = some (manifestItemOf e).values := by
      intro f hf e cam hbe hnf
      obtain ⟨e0, cam0, hbe0, hmem0⟩ := hfile f hf
      rw [hbe] at hbe0
      simp only [Option.some.injEq, Prod.mk.injEq] at hbe0
      obtain ⟨rfl, rfl⟩ := hbe0
      have hpath : e.path = f.1 := (buildDirEntryFromFile_names _ _ _ _ _ _ _ hbe).1
      have hip : (manifestItemOf e).path = f.1 := by
        rw [← hpath]; rfl
      have := manifestOfItems_lookup_values norm out1.manifestItems (manifestItemOf e)
        (by rw [hitems]; exact List.mem_map_of_mem _ ((hsorted e).2 hmem0))
        (by rw [hip]; exact hnf)
        (by
          intro it' hit' hn'
          exact hkeys it' hit' (manifestItemOf e)
            (by rw [hitems]; exact List.mem_map_of_mem _ ((hsorted e).2 hmem0)) hn'
            (by rw [hn', hip]; exact hnf))
      rw [hip] at this
      exact this
    have hbuild : buildAll bridge options (some (manifestOfItems norm out1.manifestItems)) files
        = some (built, cams) := by
      rw [← hb]
      apply buildAll_congr
      intro f hf
      obtain ⟨e, cam, hbe, -⟩ := hfile f hf
      by_cases hnf : norm f.1 = []
      · exact buildDirEntryFromFile_no_values bridge f.1 f.2 options _
          (manifestOfItems_empty_key norm _ f.1 hnf)
      · rw [hbe]
        exact buildDirEntryFromFile_same_choice bridge f.1 f.2 options _ e cam (hsame f hf) hbe
          (hlook f hf e cam hbe hnf)
    have hwrite : writeArchiveFile (sortEntries built)
          (some (manifestOfItems norm out1.manifestItems))
        = writeArchiveFile (sortEntries built) none := by
      unfold writeArchiveFile
      rw [writeEntryList_congr (some (manifestOfItems norm out1.manifestItems)) none]
      intro e he
      obtain ⟨f, hf, cam, hbe⟩ := hentry e ((hsorted e).1 he)
      have hpath : e.path = f.1 := (buildDirEntryFromFile_names _ _ _ _ _ _ _ hbe).1
      by_cases hnf : norm f.1 = []
      · simp only [allowDedupFor, hpath, manifestOfItems_empty_key norm _ f.1 hnf]
      · simp only [allowDedupFor, hpath, hlook f hf e cam hbe hnf]
        rfl
    unfold packDirectoryToRespawnVPK
    rw [hbuild]
    simp only
    rw [if_neg (not_not.2 hval), hwrite]
    rw [← h1]

set_option maxRecDepth 20000 in
/-- C25 (counterexample): `a.txt` of six bytes with `maxPartSize = 4` and
`compressionThreshold = 3`: the first pack compresses the first chunk and stores the second,
of two bytes, as it is; the second pack takes `useCompression = true` from the manifest for
both chunks, so the side archive and the dir archive differ. This file does not satisfy
`SameCompressionChoice`. In the directory with `B.bin` and `b.bin` every file satisfies it,
but the two paths share the manifest key `b.bin` with different values of `useCompression`,
and the second pack compresses `b.bin`. -/
theorem manifest_repack_differs :
    (packDirectoryToRespawnVPK (some toyBridge) sixByteDir tinyOptions none).map
        (fun o => (o.archive, o.manifestItems.map (fun it => it.values.useCompression)))
      = some ([4, 5, 6], [true])
    ∧ ((packDirectoryToRespawnVPK (some toyBridge) sixByteDir tinyOptions none).bind
        (fun out1 => packDirectoryToRespawnVPK (some toyBridge) sixByteDir tinyOptions
          (some (manifestOfItems toLower out1.manifestItems)))).map
        (fun o => o.archive)
      = some [4, 2]
    ∧ (packDirectoryToRespawnVPK (some toyBridge) sixByteDir tinyOptions none).map
        (fun o => o.dirVpk)
      ≠ ((packDirectoryToRespawnVPK (some toyBridge) sixByteDir tinyOptions none).bind
        (fun out1 => packDirectoryToRespawnVPK (some toyBridge) sixByteDir tinyOptions
          (some (manifestOfItems toLower out1.manifestItems)))).map
        (fun o => o.dirVpk)
    ∧ ¬ SameCompressionChoice (some toyBridge) tinyOptions (bytesOf "a.txt") [1, 2, 3, 4, 5, 6]
    ∧ (∀ f ∈ caseKeyDir, SameCompressionChoice (some toyBridge) tinyOptions f.1 f.2)
    ∧ (packDirectoryToRespawnVPK (some toyBridge) caseKeyDir tinyOptions none).map
        (fun o => o.manifestItems.map (fun it => toLower it.path))
      = some [bytesOf "b.bin", bytesOf "b.bin"]
    ∧ (packDirectoryToRespawnVPK (some toyBridge) caseKeyDir tinyOptions none).map
        (fun o => (o.archive, o.manifestItems.map (fun it => it.values.useCompression)))
      = some ([3, 5, 6], [true, false])
    ∧ ((packDirectoryToRespawnVPK (some toyBridge) caseKeyDir tinyOptions none).bind
        (fun out1 => packDirectoryToRespawnVPK (some toyBridge) caseKeyDir tinyOptions
          (some (manifestOfItems toLower out1.manifestItems)))).map
        (fun o => o.archive)
      = some [3, 2] := by
  decide

set_option maxRecDepth 20000 in
/-- C25 (witness): the directory with `A.txt` of seven bytes (two chunks, both compressed)
and `b.bin` of two bytes (stored as it is); the manifest key of these paths is the
lower-cased path. -/
theorem manifest_repack_roundtrip_witness :
    (∀ f ∈ caseDir, SameCompressionChoice (some toyBridge) tinyOptions f.1 f.2)
    ∧ ∃ out1, packDirectoryToRespawnVPK (some toyBridge) caseDir tinyOptions none
          = some out1
        ∧ out1.archive = [5, 6, 4, 3]
        ∧ out1.manifestItems.map (fun it => (toLower it.path, it.values.useCompression))
            = [(bytesOf "b.bin", false), (bytesOf "a.txt", true)]
        ∧ packDirectoryToRespawnVPK (some toyBridge) caseDir tinyOptions
            (some (manifestOfItems toLower out1.manifestItems)) = some out1 :=
  ⟨by decide,
    match h : packDirectoryToRespawnVPK (some toyBridge) caseDir tinyOptions none with
    | some out1 =>
      have h2 : (packDirectoryToRespawnVPK (some toyBridge) caseDir tinyOptions
          none).map (fun o => o.archive) = some [5, 6, 4, 3] := by decide
      have h3 : (packDirectoryToRespawnVPK (some toyBridge) caseDir tinyOptions
          none).map (fun o => o.manifestItems)
          = some [{ path := bytesOf "b.bin",
                    values := { loadFlags := 1, textureFlags := 0,
                                useCompression := false } },
                  { path := bytesOf "A.txt",
                    values := { loadFlags := 1, textureFlags := 0 } }] := by decide
      have h4 : out1.manifestItems
          = [{ path := bytesOf "b.bin",
               values := { loadFlags := 1, textureFlags := 0, useCompression := false } },
             { path := bytesOf "A.txt", values := { loadFlags := 1, textureFlags := 0 } }] := by
        rw [h] at h3
        simpa using h3
      ⟨out1, rfl, by rw [h] at h2; simpa using h2, by rw [h4]; decide,
        manifest_repack_roundtrip (some toyBridge) caseDir tinyOptions toLower out1
          (by decide) (by rw [h4]; decide) h⟩
    | none => absurd h (by decide)⟩

end respawn_vpk

/-! ## What `bake` does to an existing patch archive -/

namespace RespawnVPK

theorem parseLoop_archiveIndex :
    ∀ (fuel : Nat) (mode : TreeMode) (f : IStream) (acc l : List ParsedEntry),
      (∀ e ∈ acc, e.meta.archiveIndex = 0) →
      parseLoop fuel mode f acc = .ret (some l) →
      ∀ e ∈ l, e.meta.archiveIndex = 0 := by
  intro fuel
  induction fuel with
  | zero => intro mode f acc l _ h; cases mode <;> simp [parseLoop] at h
  | succ fuel ih =>
    intro mode f acc l hacc h
    cases mode with
    | ext =>
      simp only [parseLoop] at h
      split_ifs at h
      · simp only [Loop.ret.injEq, Option.some.injEq] at h
        subst h; exact hacc
      · exact ih _ _ _ _ hacc h
    | dir x =>
      simp only [parseLoop] at h
      split_ifs at h
      · exact ih _ _ _ _ hacc h
      · exact ih _ _ _ _ hacc h
    | file x d =>
      simp only [parseLoop] at h
      have step : ∀ (f' : IStream) (ent : ParsedEntry),
          ent.meta.archiveIndex = 0 →
          parseLoop fuel (.file x d) f' (acc ++ [ent]) = .ret (some l) →
          ∀ e ∈ l, e.meta.archiveIndex = 0 := by
        intro f' ent hent h'
        refine ih _ _ _ _ ?_ h'
        intro e he
        rcases List.mem_append.1 he with he | he
        · exact hacc e he
        · simp only [List.mem_singleton] at he
          subst he
          exact hent
      split_ifs at h
      all_goals first | exact ih _ _ _ _ hacc h | (simp at h; done) | skip
      all_goals (split at h)
      all_goals first | (simp at h; done) | skip
      all_goals (split_ifs at h)
      all_goals first | exact step _ _ rfl h | simp at h

theorem open_archiveIndex (clean : Bytes → Bytes) (data : Bytes) (vpk : Archive)
    (h : «open» clean data = some vpk) (key : Bytes) (m : MetaEntry)
    (hm : lookup vpk.metaEntries key = some m) : m.archiveIndex = 0 := by
  unfold «open» at h
  cases hp : parseTree data with
  | none => simp [hp] at h
  | some l =>
    simp only [hp, Option.some.injEq] at h
    subst h
    simp only at hm
    have e1 := lookup_foldl_emplace (fun e : ParsedEntry => clean e.fullPath)
      (fun e => e.meta) key l []
    simp only [lookup, List.find?_nil, Option.map_none'] at e1
    simp only [lookup] at hm
    rw [e1] at hm
    cases hf : l.find? (fun e => decide (clean e.fullPath = key)) with
    | none => simp [hf] at hm
    | some e =>
      simp only [hf, Option.map_some', Option.some.injEq] at hm
      subst hm
      have hmem : e ∈ l := List.mem_of_find?_eq_some hf
      unfold parseTree at hp
      cases hh : readAndValidateHeader { rest := data } with
      | none => simp [hh] at hp
      | some r =>
        simp only [hh] at hp
        unfold parseEntries at hp
        split at hp
        · simp at hp
        · rename_i r' hr
          subst hp
          exact parseLoop_archiveIndex _ _ _ _ _ (by simp) hr e hmem

/-- For every reader state that `open` returns and every set of unbaked entries,
`preserveExistingPatchArchive` is false: `open` never assigns `MetaEntry::archiveIndex`. -/
theorem open_preserve_false (clean : Bytes → Bytes) (data : Bytes) (vpk : Archive)
    (h : «open» clean data = some vpk) (unbakedKeys : List Bytes) :
    preserveExistingPatchArchive (bakeItems vpk unbakedKeys) = false := by
  unfold preserveExistingPatchArchive
  rw [List.any_eq_false]
  intro it hit
  obtain ⟨b, om⟩ := it
  cases b with
  | true => simp
  | false =>
    cases om with
    | none => simp
    | some m =>
      have hm : m.archiveIndex = 0 := by
        unfold bakeItems at hit
        rcases List.mem_append.1 hit with hit | hit
        · rw [List.mem_map] at hit
          obtain ⟨kv, -, hkv⟩ := hit
          simp only [Prod.mk.injEq, true_and] at hkv
          exact open_archiveIndex clean data vpk h kv.1 m hkv
        · rw [List.mem_map] at hit
          obtain ⟨k, -, hk⟩ := hit
          simp at hk
      simp [hm, PATCH_ARCHIVE_INDEX]

/-- C30: a dir archive lists `a.txt` with its chunk in the patch archive (index 999, offset
0, 3 bytes), and the patch archive holds the 3 bytes `1 2 3`. After `open`, the file `b.bin`
with the one byte 9 is added and `bake` runs: `preserveExistingPatchArchive` is false, so
`patchOffset` starts at 0 and not at the length 3 of the existing patch archive, the chunk of
`b.bin` is recorded at offset 0, and the patch archive is replaced by the buffer `9`. The
chunk of `a.txt` at offset 0 with 3 bytes can no longer be read. -/
theorem bake_discards_patch_archive :
    («open» id (bakeDirVpk [patchedItem])).map
        (fun vpk => (lookup vpk.metaEntries (bytesOf "a.txt")).map
          (fun m => (m.archiveIndex, m.parts.map
            (fun p => (p.archiveIndex, p.entryOffset, p.entryLength)))))
      = some (some (0, [(999, 0, 3)]))
    ∧ («open» id (bakeDirVpk [patchedItem])).map
        (fun vpk => preserveExistingPatchArchive (bakeItems vpk [bytesOf "b.bin"]))
      = some false
    ∧ initialPatchOffset false (some 3) = 0
    ∧ («open» id (bakeDirVpk [patchedItem])).bind
        (fun vpk => (bakePatch id vpk
            [(bytesOf "b.bin", { ext := bytesOf "bin", file := [9] })] (some [1, 2, 3])).map
          (fun r => r.2.1.map (fun cs => cs.map
            (fun c => (c.1.archiveIndex, c.1.entryOffset, c.1.entryLength)))))
      = some [[(999, 0, 1)]]
    ∧ («open» id (bakeDirVpk [patchedItem])).bind
        (fun vpk => (bakePatch id vpk
            [(bytesOf "b.bin", { ext := bytesOf "bin", file := [9] })] (some [1, 2, 3])).map
          (fun r => r.2.2))
      = some (some [9])
    ∧ readFileRange (some [1, 2, 3]) 0 3 = some [1, 2, 3]
    ∧ readFileRange (some [9]) 0 3 = none := by
  decide

end RespawnVPK
